import Mathlib

/-! # B-Tree engine and structural validator

Shallow embedding of `src/B-Treess + Unit Test/Implementation.{h,cpp}` and
`Validator.cpp`.

* A `std::vector` is a `List`; a child pointer is an `Option BTreeNode`
  (`none` is `nullptr`).
* `int` quantities (`t`, sizes after the `(int)` cast) are `Int`; the products
  `2 * t` and `2 * t - 1` are `int` expressions and are reduced modulo `2^32`
  into the range of `int` (`wrapInt`, `maxKeys`).
* `new BTreeNode(t, leaf)` is `newBTreeNode`: the constructor reserves room for
  `2 * t - 1` keys and `2 * t` children, and `reserve` throws when the `int`
  argument is negative. A request within `max_size()` is taken to succeed
  (memory is not modelled).
* A method that mutates `*this` returns the new node.  A result `none` of an
  engine function stands for a call that does not return a value: a run that
  the source does not define (a vector read outside its bounds, a null child
  dereferenced), a call left by the exception of `reserve`, or, for the
  recursive functions, exhausted recursion fuel; the tree-level entry points
  supply fuel equal to the depth of the tree.
-/

namespace BTreeModel

/-- `struct BTreeNode` of `Implementation.h`. -/
structure BTreeNode where
  leaf : Bool
  t : Int
  keys : List Int
  children : List (Option BTreeNode)

/-- `struct BTree` of `Implementation.h`. -/
structure BTree where
  root : Option BTreeNode
  t : Int

mutual
/-- Number of nodes on the longest downward path from a node. -/
def BTreeNode.depth : BTreeNode → Nat
  | ⟨_, _, _, cs⟩ => depthList cs + 1
/-- Depth below a (possibly null) child pointer. -/
def depthOpt : Option BTreeNode → Nat
  | none => 0
  | some n => n.depth
/-- Largest depth among a vector of child pointers. -/
def depthList : List (Option BTreeNode) → Nat
  | [] => 0
  | c :: cs => max (depthOpt c) (depthList cs)
end

/-- Index reached by `i = 0; while (i < size && p(keys[i])) i++`. -/
def countWhile (p : Int → Bool) : List Int → Nat
  | [] => 0
  | x :: xs => if p x then countWhile p xs + 1 else 0

/-- `std::vector::resize(n)`: truncate, or pad with value-initialised elements. -/
def resize {α : Type} (l : List α) (n : Nat) (pad : α) : List α :=
  l.take n ++ List.replicate (n - l.length) pad

/-- Value of an `int` expression whose mathematical value is `x`: the
representative of `x` modulo `2^32` in the range of `int`. -/
def wrapInt (x : Int) : Int := (x + 2147483648) % 4294967296 - 2147483648

/-- The `int` expression `2 * t - 1`. -/
def maxKeys (t : Int) : Int := wrapInt (wrapInt (2 * t) - 1)

/-- `new BTreeNode(t, leaf)`. The constructor runs `keys.reserve(2 * t - 1)` and
`children.reserve(2 * t)`; the `int` argument is converted to `size_t`, a negative
one becomes a size above `max_size()`, and `reserve` then throws
`std::length_error`, which no caller catches (`none`). -/
def newBTreeNode (t : Int) (leaf : Bool) : Option BTreeNode :=
  if maxKeys t < 0 then none
  else if wrapInt (2 * t) < 0 then none
  else some { leaf := leaf, t := t, keys := [], children := [] }

/-- `BTreeNode::search`. The result `some none` is the `nullptr` of the source. -/
def BTreeNode.search : Nat → BTreeNode → Int → Option (Option BTreeNode)
  | 0, _, _ => none
  | fuel + 1, n, k =>
    let i := countWhile (fun x => decide (k > x)) n.keys
    if n.keys[i]? = some k then some (some n)
    else if n.leaf then some none
    else
      match n.children[i]? with
      | some (some c) => BTreeNode.search fuel c k
      | _ => none

/-- Loop of `BTreeNode::traverse`: starting at index `i`, for each remaining key
visit `children[i]` (when internal) and then emit `keys[i]`. `rec` is the
traversal of a child. -/
def traverseLoop (rec : BTreeNode → Option (List Int)) (leaf : Bool)
    (children : List (Option BTreeNode)) : List Int → Nat → Option (List Int)
  | [], i =>
    if leaf then some []
    else
      match children[i]? with
      | some (some c) => rec c
      | _ => none
  | key :: rest, i =>
    if leaf then (traverseLoop rec leaf children rest (i + 1)).map (fun out => key :: out)
    else
      match children[i]? with
      | some (some c) =>
        match rec c, traverseLoop rec leaf children rest (i + 1) with
        | some a, some b => some (a ++ key :: b)
        | _, _ => none
      | _ => none

/-- `BTreeNode::traverse`; the value is the sequence of keys written to the output. -/
def BTreeNode.traverse : Nat → BTreeNode → Option (List Int)
  | 0, _ => none
  | fuel + 1, n => traverseLoop (BTreeNode.traverse fuel) n.leaf n.children n.keys 0

/-- `BTreeNode::splitChild(i, y)` with `y = children[i]`, which is how both call
sites invoke it. -/
def BTreeNode.splitChild (p : BTreeNode) (i : Nat) : Option BTreeNode :=
  match p.children[i]? with
  | some (some y) =>
    match newBTreeNode y.t y.leaf with
    | none => none
    | some z0 =>
      if p.t < 1 then none
      else
        let T := p.t.toNat
        match y.keys[T - 1]? with
        | none => none
        | some midKey =>
          if 1 < T ∧ y.keys.length < 2 * T - 1 then none
          else if y.leaf = false ∧ y.children.length < 2 * T then none
          else
            let z : BTreeNode :=
              { z0 with
                keys := z0.keys ++ (y.keys.drop T).take (T - 1),
                children := z0.children ++ (if y.leaf then [] else (y.children.drop T).take T) }
            let y1 : BTreeNode :=
              { y with
                keys := resize y.keys (T - 1) 0,
                children := if y.leaf then y.children else resize y.children T none }
            if p.children.length < i + 1 ∨ p.keys.length < i then none
            else
              some { p with
                children := (p.children.set i (some y1)).insertIdx (i + 1) (some z),
                keys := p.keys.insertIdx i midKey }
  | _ => none

/-- `BTreeNode::insertNonFull`. -/
def BTreeNode.insertNonFull : Nat → BTreeNode → Int → Option BTreeNode
  | 0, _, _ => none
  | fuel + 1, n, k =>
    -- value of `i + 1` after `i = size - 1; while (i >= 0 && keys[i] > k) i--`
    let i := n.keys.length - countWhile (fun x => decide (x > k)) n.keys.reverse
    if n.leaf then
      some { n with keys := n.keys.take i ++ k :: n.keys.drop i }
    else
      match n.children[i]? with
      | some (some c) =>
        if (c.keys.length : Int) = maxKeys n.t then
          match n.splitChild i with
          | none => none
          | some n1 =>
            match n1.keys[i]? with
            | none => none
            | some ki =>
              let j := if ki < k then i + 1 else i
              match n1.children[j]? with
              | some (some c1) =>
                (BTreeNode.insertNonFull fuel c1 k).map
                  (fun c2 => { n1 with children := n1.children.set j (some c2) })
              | _ => none
        else
          (BTreeNode.insertNonFull fuel c k).map
            (fun c2 => { n with children := n.children.set i (some c2) })
      | _ => none

/-- `BTree::search`. -/
def BTree.search (tr : BTree) (k : Int) : Option (Option BTreeNode) :=
  match tr.root with
  | none => some none
  | some r => r.search r.depth k

/-- `BTree::traverse`. -/
def BTree.traverse (tr : BTree) : Option (List Int) :=
  match tr.root with
  | none => some []
  | some r => r.traverse r.depth

/-- `BTree::insert`. -/
def BTree.insert (tr : BTree) (k : Int) : Option BTree :=
  match tr.root with
  | none =>
    match newBTreeNode tr.t true with
    | none => none
    | some r0 => some { tr with root := some { r0 with keys := r0.keys ++ [k] } }
  | some r =>
    if (r.keys.length : Int) = maxKeys tr.t then
      match newBTreeNode tr.t false with
      | none => none
      | some nr0 =>
        let newRoot : BTreeNode := { nr0 with children := nr0.children ++ [some r] }
        match newRoot.splitChild 0 with
        | none => none
        | some nr =>
          match nr.keys[0]? with
          | none => none
          | some k0 =>
            let i := if k0 < k then 1 else 0
            match nr.children[i]? with
            | some (some c) =>
              (c.insertNonFull r.depth k).map
                (fun c2 =>
                  { tr with root := some { nr with children := nr.children.set i (some c2) } })
            | _ => none
    else
      (r.insertNonFull r.depth k).map (fun r2 => { tr with root := some r2 })

/-- `BTreeNode::findKey`. -/
def BTreeNode.findKey (n : BTreeNode) (k : Int) : Nat :=
  countWhile (fun x => decide (x < k)) n.keys

/-- `BTreeNode::removeFromLeaf`. -/
def BTreeNode.removeFromLeaf (n : BTreeNode) (idx : Nat) : Option BTreeNode :=
  if idx < n.keys.length then some { n with keys := n.keys.eraseIdx idx } else none

/-- Descent loop of `BTreeNode::getPred`: follow the last child down to a leaf
and return its last key. -/
def lastKey : Nat → BTreeNode → Option Int
  | 0, _ => none
  | fuel + 1, cur =>
    if cur.leaf then cur.keys.getLast?
    else
      match cur.children[cur.keys.length]? with
      | some (some c) => lastKey fuel c
      | _ => none

/-- Descent loop of `BTreeNode::getSucc`: follow the first child down to a leaf
and return its first key. -/
def firstKey : Nat → BTreeNode → Option Int
  | 0, _ => none
  | fuel + 1, cur =>
    if cur.leaf then cur.keys[0]?
    else
      match cur.children[0]? with
      | some (some c) => firstKey fuel c
      | _ => none

/-- `BTreeNode::getPred`. -/
def BTreeNode.getPred (fuel : Nat) (n : BTreeNode) (idx : Nat) : Option Int :=
  match n.children[idx]? with
  | some (some c) => lastKey fuel c
  | _ => none

/-- `BTreeNode::getSucc`. -/
def BTreeNode.getSucc (fuel : Nat) (n : BTreeNode) (idx : Nat) : Option Int :=
  match n.children[idx + 1]? with
  | some (some c) => firstKey fuel c
  | _ => none

/-- `BTreeNode::borrowFromPrev`. -/
def BTreeNode.borrowFromPrev (n : BTreeNode) (idx : Nat) : Option BTreeNode :=
  if idx = 0 then none
  else
    match n.children[idx]?, n.children[idx - 1]?, n.keys[idx - 1]? with
    | some (some child), some (some sibling), some sep =>
      match sibling.keys.getLast? with
      | none => none
      | some up =>
        if child.leaf then
          some { n with
            keys := n.keys.set (idx - 1) up,
            children :=
              (n.children.set idx (some { child with keys := sep :: child.keys })).set (idx - 1)
                (some { sibling with keys := sibling.keys.dropLast }) }
        else
          match sibling.children.getLast? with
          | none => none
          | some moved =>
            some { n with
              keys := n.keys.set (idx - 1) up,
              children :=
                (n.children.set idx
                    (some { child with keys := sep :: child.keys,
                                       children := moved :: child.children })).set (idx - 1)
                  (some { sibling with keys := sibling.keys.dropLast,
                                       children := sibling.children.dropLast }) }
    | _, _, _ => none

/-- `BTreeNode::borrowFromNext`. -/
def BTreeNode.borrowFromNext (n : BTreeNode) (idx : Nat) : Option BTreeNode :=
  match n.children[idx]?, n.children[idx + 1]?, n.keys[idx]? with
  | some (some child), some (some sibling), some sep =>
    match sibling.keys with
    | [] => none
    | up :: restKeys =>
      if child.leaf then
        some { n with
          keys := n.keys.set idx up,
          children :=
            (n.children.set idx (some { child with keys := child.keys ++ [sep] })).set (idx + 1)
              (some { sibling with keys := restKeys }) }
      else
        match sibling.children with
        | [] => none
        | moved :: restChildren =>
          some { n with
            keys := n.keys.set idx up,
            children :=
              (n.children.set idx
                  (some { child with keys := child.keys ++ [sep],
                                     children := child.children ++ [moved] })).set (idx + 1)
                (some { sibling with keys := restKeys, children := restChildren }) }
  | _, _, _ => none

/-- `BTreeNode::merge`. -/
def BTreeNode.merge (n : BTreeNode) (idx : Nat) : Option BTreeNode :=
  match n.children[idx]?, n.children[idx + 1]?, n.keys[idx]? with
  | some (some child), some (some sibling), some sep =>
    let merged : BTreeNode :=
      { child with
        keys := child.keys ++ sep :: sibling.keys,
        children := if child.leaf then child.children else child.children ++ sibling.children }
    some { n with
      keys := n.keys.eraseIdx idx,
      children := (n.children.set idx (some merged)).eraseIdx (idx + 1) }
  | _, _, _ => none

/-- `BTreeNode::fill`. -/
def BTreeNode.fill (n : BTreeNode) (idx : Nat) : Option BTreeNode :=
  let prevHas : Option Bool :=
    if idx ≠ 0 then
      match n.children[idx - 1]? with
      | some (some s) => some (decide ((s.keys.length : Int) ≥ n.t))
      | _ => none
    else some false
  match prevHas with
  | none => none
  | some true => n.borrowFromPrev idx
  | some false =>
    let nextHas : Option Bool :=
      if idx ≠ n.keys.length then
        match n.children[idx + 1]? with
        | some (some s) => some (decide ((s.keys.length : Int) ≥ n.t))
        | _ => none
      else some false
    match nextHas with
    | none => none
    | some true => n.borrowFromNext idx
    | some false =>
      if idx ≠ n.keys.length then n.merge idx
      else if idx = 0 then none
      else n.merge (idx - 1)

/-- `BTreeNode::removeFromNonLeaf`; `rec` is `BTreeNode::remove` on a child and
`fuel` bounds the descent of `getPred` / `getSucc`. -/
def BTreeNode.removeFromNonLeaf (rec : BTreeNode → Int → Option BTreeNode) (fuel : Nat)
    (n : BTreeNode) (idx : Nat) : Option BTreeNode :=
  match n.keys[idx]?, n.children[idx]? with
  | some k, some (some c) =>
    if (c.keys.length : Int) ≥ n.t then
      match n.getPred fuel idx with
      | none => none
      | some pred =>
        (rec c pred).map (fun c2 =>
          { n with keys := n.keys.set idx pred, children := n.children.set idx (some c2) })
    else
      match n.children[idx + 1]? with
      | some (some c1) =>
        if (c1.keys.length : Int) ≥ n.t then
          match n.getSucc fuel idx with
          | none => none
          | some succ =>
            (rec c1 succ).map (fun c2 =>
              { n with keys := n.keys.set idx succ,
                       children := n.children.set (idx + 1) (some c2) })
        else
          match n.merge idx with
          | none => none
          | some n1 =>
            match n1.children[idx]? with
            | some (some m) =>
              (rec m k).map (fun c2 => { n1 with children := n1.children.set idx (some c2) })
            | _ => none
      | _ => none
  | _, _ => none

/-- `BTreeNode::remove`. -/
def BTreeNode.remove : Nat → BTreeNode → Int → Option BTreeNode
  | 0, _, _ => none
  | fuel + 1, n, k =>
    let idx := n.findKey k
    if n.keys[idx]? = some k then
      if n.leaf then n.removeFromLeaf idx
      else n.removeFromNonLeaf (BTreeNode.remove fuel) fuel idx
    else if n.leaf then some n
    else
      let flag := decide (idx = n.keys.length)
      match n.children[idx]? with
      | some (some c) =>
        let filled : Option BTreeNode :=
          if (c.keys.length : Int) < n.t then n.fill idx else some n
        match filled with
        | none => none
        | some n1 =>
          let j := if flag = true ∧ idx > n1.keys.length then idx - 1 else idx
          match n1.children[j]? with
          | some (some c1) =>
            (BTreeNode.remove fuel c1 k).map
              (fun c2 => { n1 with children := n1.children.set j (some c2) })
          | _ => none
      | _ => none

/-- `BTree::remove`. -/
def BTree.remove (tr : BTree) (k : Int) : Option BTree :=
  match tr.root with
  | none => some tr
  | some r =>
    match r.remove r.depth k with
    | none => none
    | some r1 =>
      if r1.keys.length = 0 then
        if r1.leaf then some { tr with root := none }
        else
          match r1.children[0]? with
          | some c => some { tr with root := c }
          | none => none
      else some { tr with root := some r1 }

/-! ## Validator (`Validator.cpp`) -/

/-- `std::numeric_limits<long long>::min()`. -/
def LLONG_MIN : Int := -9223372036854775808

/-- `std::numeric_limits<long long>::max()`. -/
def LLONG_MAX : Int := 9223372036854775807

/-- Step 4 of `validateNode`: the loop over the keys. `prev` is `keys[i - 1]` when
`i > 0`. The value is the diagnostic returned from inside the loop, if any. -/
def keysLoop (minExclusive maxExclusive : Int) : Option Int → List Int → Option String
  | _, [] => none
  | prev, key :: rest =>
    if (match prev with
        | some p => decide (p ≥ key)
        | none => false) = true then
      some "INVALID: keys not strictly increasing"
    else if ¬ (key > minExclusive ∧ key < maxExclusive) then
      some "INVALID: key violates parent interval constraint"
    else keysLoop minExclusive maxExclusive (some key) rest

/-- The `middle children` loop of `validateNode`, `cnt` iterations starting at
index `i`; `rec child lo hi leafDepth` is the recursive call. -/
def middleLoop (rec : Option BTreeNode → Int → Int → Int → Option (String × Int))
    (keys : List Int) (children : List (Option BTreeNode)) :
    Nat → Nat → Int → Option (String × Int)
  | 0, _, leafDepth => some ("VALID", leafDepth)
  | cnt + 1, i, leafDepth =>
    match children[i]?, keys[i - 1]?, keys[i]? with
    | some c, some lo, some hi =>
      match rec c lo hi leafDepth with
      | none => none
      | some (r, ld) =>
        if r ≠ "VALID" then some (r, ld)
        else middleLoop rec keys children cnt (i + 1) ld
    | _, _, _ => none

/-- Steps 1 to 3 of `validateNode`: the first failing check, or the value of
`leafDepth` after step 3. -/
def shapeChecks (node : BTreeNode) (isRoot : Bool) (t depth leafDepth : Int) :
    String ⊕ Int :=
  let numKeys : Int := node.keys.length
  let numChildren : Int := node.children.length
  if node.t ≠ t then .inl "INVALID: node->t differs from tree->t"
  else if numKeys > maxKeys t then .inl "INVALID: node has more than 2t-1 keys"
  else if isRoot = false ∧ numKeys < t - 1 then
    .inl "INVALID: non-root node has fewer than t-1 keys"
  else if isRoot = true ∧ node.leaf = false ∧ numKeys = 0 then
    .inl "INVALID: root internal node has 0 keys"
  else if node.leaf then
    if numChildren ≠ 0 then .inl "INVALID: leaf node has children"
    else if leafDepth = -1 then .inr depth
    else if leafDepth ≠ depth then .inl "INVALID: leaves are not all at same depth"
    else .inr leafDepth
  else
    if numChildren ≠ numKeys + 1 then .inl "INVALID: internal node children != keys + 1"
    else if node.children.any Option.isNone then .inl "INVALID: internal node has null child"
    else .inr leafDepth

/-- `validateNode`; the second component of the value is `leafDepth` (passed by
reference in the source) on return. -/
def validateNode : Nat → Option BTreeNode → Bool → Int → Int → Int → Int → Int →
    Option (String × Int)
  | _, none, _, _, _, _, _, leafDepth => some ("INVALID: null node pointer", leafDepth)
  | 0, some _, _, _, _, _, _, _ => none
  | fuel + 1, some node, isRoot, t, minExclusive, maxExclusive, depth, leafDepth =>
    match shapeChecks node isRoot t depth leafDepth with
    | .inl err => some (err, leafDepth)
    | .inr ld =>
      match keysLoop minExclusive maxExclusive none node.keys with
      | some err => some (err, ld)
      | none =>
        if node.leaf then some ("VALID", ld)
        else
          let numKeys := node.keys.length
          match node.children[0]?, node.keys[0]? with
          | some c0, some k0 =>
            match validateNode fuel c0 false t minExclusive k0 (depth + 1) ld with
            | none => none
            | some (r, ld1) =>
              if r ≠ "VALID" then some (r, ld1)
              else
                match middleLoop
                    (fun c lo hi l => validateNode fuel c false t lo hi (depth + 1) l)
                    node.keys node.children (numKeys - 1) 1 ld1 with
                | none => none
                | some (r, ld2) =>
                  if r ≠ "VALID" then some (r, ld2)
                  else
                    match node.children[numKeys]?, node.keys[numKeys - 1]? with
                    | some cl, some kl =>
                      match validateNode fuel cl false t kl maxExclusive (depth + 1) ld2 with
                      | none => none
                      | some (r, ld3) =>
                        if r ≠ "VALID" then some (r, ld3) else some ("VALID", ld3)
                    | _, _ => none
          | _, _ => none

/-- `validateBTree`. -/
def validateBTree (tree : BTree) : Option String :=
  if tree.t < 2 then some "INVALID: t must be >= 2"
  else
    match tree.root with
    | none => some "VALID"
    | some r =>
      (validateNode r.depth (some r) true tree.t LLONG_MIN LLONG_MAX 0 (-1)).map Prod.fst

/-! ## Abstract view used by the proofs -/

/-- Keys of a leaf: strictly increasing and strictly inside `(lo, hi)`. -/
def SortedIn (lo hi : Int) (ks : List Int) : Prop :=
  ks.Pairwise (fun x y => x < y) ∧ ∀ x ∈ ks, lo < x ∧ x < hi

/-- Left context of a child: children and keys alternate as `c k c k ... c k`,
the last key being `a` (or `a = lo` when the context is empty); `l` is the
in-order key sequence. -/
def Seg (P : Int → Int → BTreeNode → List Int → Prop) :
    Int → Int → List Int → List (Option BTreeNode) → List Int → Prop
  | lo, a, [], [], l => a = lo ∧ l = []
  | lo, a, k :: ks, some c :: cs, l =>
    ∃ l1 l2, l = l1 ++ k :: l2 ∧ lo < k ∧ P lo k c l1 ∧ Seg P k a ks cs l2
  | _, _, _, _, _ => False

/-- Keys and children of an internal node alternate as `c k c k ... k c`; each
child satisfies `P` between its neighbouring keys; `l` is the in-order key
sequence. -/
def Alt (P : Int → Int → BTreeNode → List Int → Prop) :
    Int → Int → List Int → List (Option BTreeNode) → List Int → Prop
  | _, _, _, [], _ => False
  | _, _, _, none :: _, _ => False
  | lo, hi, [], some c :: cs, l => cs = [] ∧ P lo hi c l
  | lo, hi, k :: ks, some c :: cs, l =>
    ∃ l1 l2, l = l1 ++ k :: l2 ∧ lo < k ∧ P lo k c l1 ∧ Alt P k hi ks cs l2

/-- Right context of a child: either empty (`b = hi`) or the key `b` followed
by an alternation. -/
def AltR (P : Int → Int → BTreeNode → List Int → Prop) (b hi : Int)
    (ks : List Int) (cs : List (Option BTreeNode)) (l : List Int) : Prop :=
  (ks = [] ∧ cs = [] ∧ b = hi ∧ l = []) ∨
  (∃ ks1 l1, ks = b :: ks1 ∧ l = b :: l1 ∧ Alt P b hi ks1 cs l1)

/-- `Rep t h m lo hi n l`: `n` is the root of a subtree of height `h` whose nodes
all carry degree `t`, `n` holds between `m` and `2t-1` keys and every node below
it between `t-1` and `2t-1`, all keys lie strictly inside `(lo, hi)`, and `l` is
the in-order sequence of its keys. -/
def Rep (t : Int) : Nat → Int → Int → Int → BTreeNode → List Int → Prop
  | 0, m, lo, hi, n, l =>
    n.leaf = true ∧ n.t = t ∧ m ≤ (n.keys.length : Int) ∧ (n.keys.length : Int) ≤ 2 * t - 1 ∧
      n.children = [] ∧ SortedIn lo hi n.keys ∧ l = n.keys
  | h + 1, m, lo, hi, n, l =>
    n.leaf = false ∧ n.t = t ∧ m ≤ (n.keys.length : Int) ∧ (n.keys.length : Int) ≤ 2 * t - 1 ∧
      Alt (Rep t h (t - 1)) lo hi n.keys n.children l

/-! ## Tree-level vocabulary of the claims -/

mutual
/-- All keys stored in the nodes of a subtree. -/
def BTreeNode.allKeys : BTreeNode → List Int
  | ⟨_, _, ks, cs⟩ => ks ++ allKeysList cs
/-- Keys stored below a (possibly null) child pointer. -/
def allKeysOpt : Option BTreeNode → List Int
  | none => []
  | some n => n.allKeys
/-- Keys stored below a vector of child pointers. -/
def allKeysList : List (Option BTreeNode) → List Int
  | [] => []
  | c :: cs => allKeysOpt c ++ allKeysList cs
end

/-- The keys stored in a tree. -/
def BTree.allKeys (tr : BTree) : List Int := allKeysOpt tr.root

/-- Height of a tree: the depth of its root, `0` for the empty tree. -/
def BTree.height (tr : BTree) : Nat := depthOpt tr.root

/-- A value of the C++ type `int` (32 bits). -/
def IsInt (k : Int) : Prop := -2147483648 ≤ k ∧ k ≤ 2147483647

instance (k : Int) : Decidable (IsInt k) := by
  unfold IsInt
  infer_instance

/-- `BTree tree(t)`: the freshly constructed tree. -/
def BTree.fresh (t : Int) : BTree := { root := none, t := t }

/-- The loop `for (k : ks) tree.insert(k)`. -/
def BTree.insertAll (tr : BTree) : List Int → Option BTree
  | [] => some tr
  | k :: ks => (tr.insert k).bind (fun tr1 => BTree.insertAll tr1 ks)

/-- The loop `for (k : ks) tree.remove(k)`. -/
def BTree.removeAll (tr : BTree) : List Int → Option BTree
  | [] => some tr
  | k :: ks => (tr.remove k).bind (fun tr1 => BTree.removeAll tr1 ks)

/-- The root `r` represents a valid tree of height `h` with in-order keys `l`:
the root may hold fewer than `t-1` keys, but an internal root holds at least one. -/
def RootRep (t : Int) (h : Nat) (r : BTreeNode) (l : List Int) : Prop :=
  Rep t h 0 LLONG_MIN LLONG_MAX r l ∧ (h ≠ 0 → r.keys.length ≠ 0)

/-- The tree is valid and `l` is the in-order sequence of its keys. -/
def TreeRep (tr : BTree) (l : List Int) : Prop :=
  2 ≤ tr.t ∧
    match tr.root with
    | none => l = []
    | some r => ∃ h, RootRep tr.t h r l

/-! ## The invariants as the specification words them -/

/-- Lower end of the interval inherited by child `i` of a node with interval
`(lo, hi)`: the key to the left of the child, or `lo` for the first child. -/
def childLo (lo : Int) (keys : List Int) (i : Nat) : Int :=
  if i = 0 then lo else keys.getD (i - 1) lo

/-- Upper end of the interval inherited by child `i`: the key to the right of the
child, or `hi` for the last child. -/
def childHi (hi : Int) (keys : List Int) (i : Nat) : Int :=
  keys.getD i hi

/-- Whether `BTreeNode::remove(k)`, started at `n` for a key that is not stored,
finds every child it descends into holding at least `t` keys, so that it never
calls `fill`. -/
def BTreeNode.pathRich : Nat → BTreeNode → Int → Bool
  | 0, _, _ => false
  | fuel + 1, n, k =>
    if n.leaf then true
    else
      match n.children[n.findKey k]? with
      | some (some c) => decide ((c.keys.length : Int) ≥ n.t) && c.pathRich fuel k
      | _ => false

/-- Whether `BTree::remove(k)` for a key that is not stored meets no minimal node
below the root and no empty root. -/
def BTree.pathRich (tr : BTree) (k : Int) : Bool :=
  match tr.root with
  | none => true
  | some r => decide (r.keys.length ≠ 0) && r.pathRich r.depth k

/-! ## Concrete trees used as examples -/

/-- The keys inserted by the demo `main`, in its order. -/
def demoKeys : List Int := [10, 20, 5, 6, 12, 30, 7, 17]

/-- The tree the demo `main` holds after its inserts (`t = 3`). -/
def demoTree : BTree :=
  ⟨some ⟨false, 3, [10],
    [some ⟨true, 3, [5, 6, 7], []⟩, some ⟨true, 3, [12, 17, 20, 30], []⟩]⟩, 3⟩

/-- The full leaf root the demo holds after its first five inserts. -/
def fullLeafTree : BTree := ⟨some ⟨true, 3, [5, 6, 10, 12, 20], []⟩, 3⟩

/-- A two-level tree with `t = 2` whose leaves are minimal; it is the state after
inserting `1, 2, 3, 4` and removing `4`. -/
def minimalTree : BTree :=
  ⟨some ⟨false, 2, [2], [some ⟨true, 2, [1], []⟩, some ⟨true, 2, [3], []⟩]⟩, 2⟩

/-- The single leaf holding `1, 2, 3` (`t = 2`). -/
def mergedTree : BTree := ⟨some ⟨true, 2, [1, 2, 3], []⟩, 2⟩

/-- Property of a child predicate: the keys it lists lie strictly inside the
bounds, and the bounds are non-degenerate. -/
def Bounded (P : Int → Int → BTreeNode → List Int → Prop) : Prop :=
  ∀ lo hi c l, P lo hi c l → lo < hi ∧ ∀ x ∈ l, lo < x ∧ x < hi

/-- The node left in place of a full child `y` by `splitChild`. -/
def splitLeft (T : Nat) (y : BTreeNode) : BTreeNode :=
  { y with
    keys := resize y.keys (T - 1) 0,
    children := if y.leaf then y.children else resize y.children T none }

/-- The new sibling `z` created by `splitChild`. -/
def splitRight (T : Nat) (y : BTreeNode) : BTreeNode :=
  { leaf := y.leaf, t := y.t,
    keys := (y.keys.drop T).take (T - 1),
    children := if y.leaf then [] else (y.children.drop T).take T }

/-- The node produced by `merge` from a child, the separating key and the right sibling. -/
def mergeNode (child : BTreeNode) (sep : Int) (sibling : BTreeNode) : BTreeNode :=
  { child with
    keys := child.keys ++ sep :: sibling.keys,
    children := if child.leaf then child.children else child.children ++ sibling.children }

/-- What `remove` needs to know about the node left by `fill` before descending. -/
def FillPost (T : Nat) (h : Nat) (lo hi : Int) (n : BTreeNode) (l : List Int) (k : Int)
    (n1 : BTreeNode) : Prop :=
  Rep (T : Int) (h + 1) ((n.keys.length : Int) - 1) lo hi n1 l ∧
  n1.keys[n1.findKey k]? ≠ some k ∧
  (if decide (n.findKey k = n.keys.length) = true ∧ n.findKey k > n1.keys.length
    then n.findKey k - 1 else n.findKey k) = n1.findKey k ∧
  ∃ c1, n1.children[n1.findKey k]? = some (some c1) ∧ T ≤ c1.keys.length

/-- The statement proved about `remove` on subtrees of height `h`. -/
def RemoveOK (T : Nat) (h fuel : Nat) : Prop :=
  ∀ (k m lo hi : Int) (n : BTreeNode) (l : List Int),
    Rep (T : Int) h m lo hi n l → (h = 0 ∨ 1 ≤ n.keys.length) →
    ∃ n1 l1, n.remove fuel k = some n1 ∧
      Rep (T : Int) h ((n.keys.length : Int) - 1) lo hi n1 l1 ∧ ∀ x, x ∈ l1 ↔ x ∈ l ∧ x ≠ k

/-- The conditions checked by steps 1 to 3 of `validateNode`. -/
def ShapeOK (node : BTreeNode) (isRoot : Bool) (t depth leafDepth ld1 : Int) : Prop :=
  node.t = t ∧ (node.keys.length : Int) ≤ maxKeys t ∧
  (isRoot = false → t - 1 ≤ (node.keys.length : Int)) ∧
  (isRoot = true → node.leaf = false → node.keys.length ≠ 0) ∧
  (node.leaf = true → node.children = [] ∧
    ((leafDepth = -1 ∧ ld1 = depth) ∨ (leafDepth = depth ∧ ld1 = depth))) ∧
  (node.leaf = false → node.children.length = node.keys.length + 1 ∧
    (∀ c ∈ node.children, c ≠ none) ∧ ld1 = leafDepth)

/-- The key counts of a valid tree stay within the `int` value of `2 * t - 1` that
the validator compares them with: either that value is the true `2t - 1`, or the
root is a leaf holding no more keys than it. -/
def TreeFits (tr : BTree) : Prop :=
  maxKeys tr.t = 2 * tr.t - 1 ∨
    ∀ r, tr.root = some r → r.leaf = true ∧ (r.keys.length : Int) ≤ maxKeys tr.t

/-! ## Trees at the edge of the range of `int` -/

/-- The least degree `t` for which the `int` product `2 * t` is past `INT_MAX`:
`2^30`. -/
def bigDegree : Int := 1073741824

/-- The keys `0, 1, ..., 2^31 - 2`: as many keys as a full node of degree `2^30`
holds (`2 * 2^30 - 1`). -/
@[irreducible]
def giantKeys : List Int := (List.range 2147483647).map (fun (i : Nat) => (i : Int))

/-- A full leaf of degree `2^30`. -/
def giantLeaf : BTreeNode := ⟨true, 1073741824, giantKeys, []⟩

/-- The tree of degree `2^30` whose root is the full leaf `giantLeaf`. -/
def giantTree : BTree := ⟨some giantLeaf, 1073741824⟩

/-- One visit of the pre-order descent: a node together with whether it is the
root, the interval it inherits and its depth. -/
structure Visit where
  node : BTreeNode
  isRoot : Bool
  lo : Int
  hi : Int
  depth : Int

mutual
/-- Pre-order list of the visits of the subtree rooted at a node: the node first,
then its children from left to right. -/
def visits : BTreeNode → Bool → Int → Int → Int → List Visit
  | ⟨leaf, t, keys, children⟩, isRoot, lo, hi, depth =>
    ⟨⟨leaf, t, keys, children⟩, isRoot, lo, hi, depth⟩ ::
      visitsList children keys lo hi (depth + 1) 0
/-- Pre-order visits of the children of a node with keys `keys` and interval
`(lo, hi)`, from child number `i` on. -/
def visitsList : List (Option BTreeNode) → List Int → Int → Int → Int → Nat → List Visit
  | [], _, _, _, _, _ => []
  | none :: cs, keys, lo, hi, depth, i => visitsList cs keys lo hi depth (i + 1)
  | some c :: cs, keys, lo, hi, depth, i =>
    visits c false (childLo lo keys i) (childHi hi keys i) depth ++
      visitsList cs keys lo hi depth (i + 1)
end

/-- The two checks on key number `i`, for every `i` in turn: strictly above the
key before it, then inside the inherited interval. -/
def keyChecks (lo hi : Int) (keys : List Int) : List (Bool × String) :=
  (List.range keys.length).flatMap (fun i =>
    [(decide (0 < i ∧ keys.getD (i - 1) 0 ≥ keys.getD i 0),
        "INVALID: keys not strictly increasing"),
     (decide (¬ (lo < keys.getD i 0 ∧ keys.getD i 0 < hi)),
        "INVALID: key violates parent interval constraint")])

/-- The checks made at one visit before its keys are looked at, in the order of
the specification; each check is the condition under which it fails, with its
diagnostic. `D` is the depth the leaves are compared with. -/
def frontChecks (t D : Int) (v : Visit) : List (Bool × String) :=
  [(decide (v.node.t ≠ t), "INVALID: node->t differs from tree->t"),
   (decide ((v.node.keys.length : Int) > 2 * t - 1), "INVALID: node has more than 2t-1 keys"),
   (!v.isRoot && decide ((v.node.keys.length : Int) < t - 1),
      "INVALID: non-root node has fewer than t-1 keys"),
   (v.isRoot && !v.node.leaf && decide (v.node.keys.length = 0),
      "INVALID: root internal node has 0 keys"),
   (v.node.leaf && decide (v.node.children.length ≠ 0), "INVALID: leaf node has children"),
   (v.node.leaf && decide (v.depth ≠ D), "INVALID: leaves are not all at same depth"),
   (!v.node.leaf && decide (v.node.children.length ≠ v.node.keys.length + 1),
      "INVALID: internal node children != keys + 1"),
   (!v.node.leaf && v.node.children.any Option.isNone,
      "INVALID: internal node has null child")]

/-- All the checks made at one visit, in order. -/
def nodeChecks (t D : Int) (v : Visit) : List (Bool × String) :=
  frontChecks t D v ++ keyChecks v.lo v.hi v.node.keys

/-- Diagnostic of the first failing check of a list of checks, if any fails. -/
def firstFailure (cs : List (Bool × String)) : Option String :=
  (cs.find? (fun c => c.1)).map (fun c => c.2)

/-- Depth of the first leaf of a list of visits (`-1` when it has no leaf). -/
def firstLeafDepth (vs : List Visit) : Int :=
  match vs.find? (fun v => v.node.leaf) with
  | some v => v.depth
  | none => -1

/-- Diagnostic of the first failing check met along a list of visits. -/
def descentFailure (t D : Int) (vs : List Visit) : Option String :=
  firstFailure (vs.flatMap (nodeChecks t D))

/-- The result the specification prescribes for `validateBTree`: the diagnostic
of the first failing check met in the pre-order descent, "VALID" when no check
fails. -/
def specValidate (tr : BTree) : String :=
  if tr.t < 2 then "INVALID: t must be >= 2"
  else
    match tr.root with
    | none => "VALID"
    | some r =>
      let vs := visits r true LLONG_MIN LLONG_MAX 0
      (descentFailure tr.t (firstLeafDepth vs) vs).getD "VALID"

/-- The ten diagnostics of the validator's taxonomy, in the order of the
specification. -/
def taxonomy : List String :=
  ["INVALID: node->t differs from tree->t",
   "INVALID: node has more than 2t-1 keys",
   "INVALID: non-root node has fewer than t-1 keys",
   "INVALID: root internal node has 0 keys",
   "INVALID: leaf node has children",
   "INVALID: leaves are not all at same depth",
   "INVALID: internal node children != keys + 1",
   "INVALID: internal node has null child",
   "INVALID: keys not strictly increasing",
   "INVALID: key violates parent interval constraint"]

/-- Whether a list of visits contains a leaf. -/
def hasLeaf (vs : List Visit) : Bool := vs.any (fun v => v.node.leaf)

/-- What the value `ld` of `leafDepth` has to satisfy before the visits `vs` are
made, for the leaves to be compared with `D`: it is unset and the first leaf met
lies at depth `D`, or it is `D`. -/
def DepthPre (D ld : Int) (vs : List Visit) : Prop :=
  (ld = -1 → ∀ v, vs.find? (fun v => v.node.leaf) = some v → v.depth = D) ∧ (ld ≠ -1 → ld = D)

/-- The value `ld1` of `leafDepth` after the visits `vs` all passed. -/
def DepthPost (D ld : Int) (vs : List Visit) (ld1 : Int) : Prop :=
  (hasLeaf vs = true → ld1 = D ∧ ld1 ≠ -1) ∧ (hasLeaf vs = false → ld1 = ld)

/-- The run of `validateNode` on `n` returns the first failure of the descent
below `n`, and on success leaves `leafDepth` as the descent prescribes. -/
def DescentSpec (t D : Int) (fuel : Nat) (n : BTreeNode) (isRoot : Bool)
    (lo hi depth : Int) : Prop :=
  ∀ ld, DepthPre D ld (visits n isRoot lo hi depth) →
    ∃ ld1, validateNode fuel (some n) isRoot t lo hi depth ld =
        some ((descentFailure t D (visits n isRoot lo hi depth)).getD "VALID", ld1) ∧
      (descentFailure t D (visits n isRoot lo hi depth) = none →
        DepthPost D ld (visits n isRoot lo hi depth) ld1)

/-! ## The generated test (`runBTreeGeneratedTest`)

`std::mt19937` and `std::shuffle` are library code: the generator state is a type
`G`, `mkRng seed` is the generator seeded with `seed`, and `shuffle l g` is the
shuffled vector together with the generator afterwards. What the test writes to
`std::cout` is left out. -/

/-- The double-quote character. -/
def quote : String := String.singleton (Char.ofNat 34)

/-- Tail shared by the failure messages: ` | t=.. | n=.. | seed=.. | validator=".."`. -/
def failTail (t n : Int) (seed : Nat) (v : String) : String :=
  " | t=" ++ toString t ++ " | n=" ++ toString n ++ " | seed=" ++ toString seed ++
    " | validator=" ++ quote ++ v ++ quote

/-- The INSERT phase: `cnt` iterations from index `i`. The value is the failure
message, or the tree and the vector `inserted` after the phase. -/
def insertPhase (t n : Int) (seed : Nat) (pool : List Int) :
    Nat → Nat → BTree → List Int → Option (String ⊕ (BTree × List Int))
  | 0, _, tree, inserted => some (.inr (tree, inserted))
  | cnt + 1, i, tree, inserted =>
    match pool[i]? with
    | none => none
    | some key =>
      match tree.insert key with
      | none => none
      | some tree1 =>
        match validateBTree tree1 with
        | none => none
        | some v =>
          if v ≠ "VALID" then
            some (.inl ("FAIL: validator failed after INSERT" ++ " | i=" ++ toString i ++
              " | key=" ++ toString key ++ failTail t n seed v))
          else insertPhase t n seed pool cnt (i + 1) tree1 (inserted ++ [key])

/-- The DELETE_HALF phase: `cnt` iterations from index `i`. -/
def deleteHalfPhase (t n : Int) (seed : Nat) (inserted : List Int) (delCount : Nat) :
    Nat → Nat → BTree → Option (String ⊕ BTree)
  | 0, _, tree => some (.inr tree)
  | cnt + 1, i, tree =>
    match inserted[i]? with
    | none => none
    | some key =>
      match tree.remove key with
      | none => none
      | some tree1 =>
        match validateBTree tree1 with
        | none => none
        | some v =>
          if v ≠ "VALID" then
            some (.inl ("FAIL: validator failed after DELETE (half phase)" ++ " | i=" ++
              toString i ++ " | key=" ++ toString key ++ " | deleted=" ++ toString (i + 1) ++
              "/" ++ toString delCount ++ failTail t n seed v))
          else deleteHalfPhase t n seed inserted delCount cnt (i + 1) tree1

/-- The CLEAR phase: `cnt` iterations from index `i`. -/
def clearPhase (t n : Int) (seed : Nat) (inserted : List Int) (delCount : Nat) :
    Nat → Nat → BTree → Option (String ⊕ BTree)
  | 0, _, tree => some (.inr tree)
  | cnt + 1, i, tree =>
    let clearIndex := i - delCount
    if i ≥ inserted.length then
      some (.inl ("FAIL: inserted index out of bounds" ++ " | i=" ++ toString i ++
        " | insertedSize=" ++ toString inserted.length ++ " | t=" ++ toString t ++
        " | n=" ++ toString n ++ " | seed=" ++ toString seed))
    else
      match inserted[i]? with
      | none => none
      | some key =>
        match tree.remove key with
        | none => none
        | some tree1 =>
          match validateBTree tree1 with
          | none => none
          | some v =>
            if v ≠ "VALID" then
              some (.inl ("FAIL: validator failed during CLEAR phase" ++ " | i=" ++
                toString clearIndex ++ " | key=" ++ toString key ++ " | cleared=" ++
                toString (clearIndex + 1) ++ "/" ++ toString (n.toNat - delCount) ++
                failTail t n seed v))
            else clearPhase t n seed inserted delCount cnt (i + 1) tree1

/-- The vector `pool` after `for (i ...) pool[i] = i + 1`. -/
def initialPool (poolSize : Nat) : List Int :=
  (List.range poolSize).map (fun (i : Nat) => (i : Int) + 1)

/-- `runBTreeGeneratedTest(t, n, seed)`. -/
def runBTreeGeneratedTest {G : Type} (mkRng : Nat → G) (shuffle : List Int → G → List Int × G)
    (t n : Int) (seed : Nat) : Option String :=
  if t < 2 then some "FAIL: t must be >= 2"
  else if n < 0 then some "FAIL: n must be >= 0"
  -- `4 * n` is computed in `int`: past `INT_MAX` the run is not defined
  else if 4 * n > 2147483647 then none
  else
    let tree := BTree.fresh t
    let rng := mkRng seed
    let poolSize := (max 1 (4 * n)).toNat
    let pool0 := initialPool poolSize
    let (pool, rng1) := shuffle pool0 rng
    match insertPhase t n seed pool n.toNat 0 tree [] with
    | none => none
    | some (.inl msg) => some msg
    | some (.inr (tree1, inserted0)) =>
      let (inserted, _) := shuffle inserted0 rng1
      let delCount := n.toNat / 2
      match deleteHalfPhase t n seed inserted delCount delCount 0 tree1 with
      | none => none
      | some (.inl msg) => some msg
      | some (.inr tree2) =>
        match clearPhase t n seed inserted delCount (n.toNat - delCount) delCount tree2 with
        | none => none
        | some (.inl msg) => some msg
        | some (.inr _) => some "PASS"

/-- The structure of a valid subtree of height `h + 1` without any condition on
the order of its keys: degree, key counts (at least `m` in the top node), child
counts, no null child, and all leaves at one depth. -/
def Str (t : Int) : Nat → Int → BTreeNode → Prop
  | 0, m, n =>
    n.leaf = true ∧ n.t = t ∧ m ≤ (n.keys.length : Int) ∧ (n.keys.length : Int) ≤ 2 * t - 1 ∧
      n.children = []
  | h + 1, m, n =>
    n.leaf = false ∧ n.t = t ∧ m ≤ (n.keys.length : Int) ∧ (n.keys.length : Int) ≤ 2 * t - 1 ∧
      n.children.length = n.keys.length + 1 ∧
      ∀ c ∈ n.children, ∃ c1, c = some c1 ∧ Str t h (t - 1) c1

/-- A tree with a root whose structure is that of a valid tree of height `h + 1`. -/
def StrTree (tr : BTree) (h : Nat) : Prop :=
  2 ≤ tr.t ∧ ∃ r, tr.root = some r ∧ Str tr.t h 0 r ∧ (h ≠ 0 → r.keys.length ≠ 0)

/-! ## `BTreeNode::remove` with a check at every call on a child -/

/-- `BTreeNode::remove` as in `BTreeNode.remove`, with one addition: whenever
`remove` is invoked on a child, the run is abandoned (`none`) if that node holds
fewer than `t` keys at the moment of the call. -/
def BTreeNode.removeChecked (t : Int) : Nat → BTreeNode → Int → Option BTreeNode
  | 0, _, _ => none
  | fuel + 1, n, k =>
    let onChild : BTreeNode → Int → Option BTreeNode := fun c k1 =>
      if (c.keys.length : Int) < t then none else BTreeNode.removeChecked t fuel c k1
    let idx := n.findKey k
    if n.keys[idx]? = some k then
      if n.leaf then n.removeFromLeaf idx
      else n.removeFromNonLeaf onChild fuel idx
    else if n.leaf then some n
    else
      let flag := decide (idx = n.keys.length)
      match n.children[idx]? with
      | some (some c) =>
        let filled : Option BTreeNode :=
          if (c.keys.length : Int) < n.t then n.fill idx else some n
        match filled with
        | none => none
        | some n1 =>
          let j := if flag = true ∧ idx > n1.keys.length then idx - 1 else idx
          match n1.children[j]? with
          | some (some c1) =>
            (onChild c1 k).map (fun c2 => { n1 with children := n1.children.set j (some c2) })
          | _ => none
      | _ => none

/-- `BTree::remove` with the check of `BTreeNode.removeChecked` at every call of
`BTreeNode::remove` on a node other than the root. -/
def BTree.removeChecked (tr : BTree) (k : Int) : Option BTree :=
  match tr.root with
  | none => some tr
  | some r =>
    match r.removeChecked tr.t r.depth k with
    | none => none
    | some r1 =>
      if r1.keys.length = 0 then
        if r1.leaf then some { tr with root := none }
        else
          match r1.children[0]? with
          | some c => some { tr with root := c }
          | none => none
      else some { tr with root := some r1 }

/-! ## Sequences of operations -/

/-- A call of `BTree::insert` or of `BTree::remove`. -/
inductive TreeOp where
  | insert (k : Int) : TreeOp
  | remove (k : Int) : TreeOp

/-- A sequence of calls on a tree. -/
def BTree.run : BTree → List TreeOp → Option BTree
  | tr, [] => some tr
  | tr, .insert k :: ops => (tr.insert k).bind (fun tr1 => BTree.run tr1 ops)
  | tr, .remove k :: ops => (tr.remove k).bind (fun tr1 => BTree.run tr1 ops)

/-- The keys that a sequence of calls inserts, in its order. -/
def insertKeys : List TreeOp → List Int
  | [] => []
  | .insert k :: ops => k :: insertKeys ops
  | .remove _ :: ops => insertKeys ops

/-- No call of `insert` in the sequence is given a key that the tree stores at
the moment of the call, `stored` being the keys stored before the sequence. -/
def noDuplicateInsert : List Int → List TreeOp → Bool
  | _, [] => true
  | stored, .insert k :: ops => !stored.contains k && noDuplicateInsert (k :: stored) ops
  | stored, .remove k :: ops => noDuplicateInsert (stored.filter (fun x => x != k)) ops

/-- A sequence of calls that empties the tree and then inserts again; the key `2`
is inserted a second time after its removal. -/
def exampleOps : List TreeOp :=
  [.insert 1, .insert 2, .insert 3, .insert 4, .remove 2, .insert 5, .remove 1, .remove 3,
    .remove 4, .remove 5, .insert 2]

/-- A parent with one key over two leaves, the first of them full (`t = 2`). -/
def splitParent : BTreeNode :=
  ⟨false, 2, [40], [some ⟨true, 2, [10, 20, 30], []⟩, some ⟨true, 2, [50], []⟩]⟩

/-- The check made by `removeChecked` before a call on the child `c`. -/
def onChild (t : Int) (fuel : Nat) (c : BTreeNode) (k1 : Int) : Option BTreeNode :=
  if (c.keys.length : Int) < t then none else BTreeNode.removeChecked t fuel c k1

/-- The statement proved about `removeChecked` on subtrees of height `h`. -/
def CheckedOK (T : Nat) (h fuel : Nat) : Prop :=
  ∀ (k m lo hi : Int) (n : BTreeNode) (l : List Int),
    Rep (T : Int) h m lo hi n l → (h = 0 ∨ 1 ≤ n.keys.length) →
    n.removeChecked (T : Int) fuel k = n.remove fuel k

/-! ## `splitChild` of the demo (`src/B-Trees/Implementation.cpp`) -/

/-- `BTreeNode::splitChild(i, y)` of the demo implementation, with `y = children[i]`.
The statements are those of the unit-tested copy, except that the median key is
not saved before the moves: it is read as `y->keys[t - 1]` in the last statement,
after `y->keys.resize(t - 1)`. A read at an index that is not below the size of
the vector at that moment is not defined (`none`). -/
def BTreeNode.splitChildDemo (p : BTreeNode) (i : Nat) : Option BTreeNode :=
  match p.children[i]? with
  | some (some y) =>
    match newBTreeNode y.t y.leaf with
    | none => none
    | some z0 =>
      if p.t < 1 then none
      else
        let T := p.t.toNat
        if 1 < T ∧ y.keys.length < 2 * T - 1 then none
        else if y.leaf = false ∧ y.children.length < 2 * T then none
        else
          let z : BTreeNode :=
            { z0 with
              keys := z0.keys ++ (y.keys.drop T).take (T - 1),
              children := z0.children ++ (if y.leaf then [] else (y.children.drop T).take T) }
          let y1 : BTreeNode :=
            { y with
              keys := resize y.keys (T - 1) 0,
              children := if y.leaf then y.children else resize y.children T none }
          if p.children.length < i + 1 then none
          else
            match y1.keys[T - 1]? with
            | none => none
            | some midKey =>
              if p.keys.length < i then none
              else
                some { p with
                  children := (p.children.set i (some y1)).insertIdx (i + 1) (some z),
                  keys := p.keys.insertIdx i midKey }
  | _ => none

/-- `BTree::insert` of the demo implementation up to the split of a full root:
the new root after `newRoot->splitChild(0, root)`. -/
def BTree.splitRootDemo (tr : BTree) : Option BTreeNode :=
  match tr.root with
  | none => none
  | some r =>
    match newBTreeNode tr.t false with
    | none => none
    | some nr0 =>
      let newRoot : BTreeNode := { nr0 with children := nr0.children ++ [some r] }
      newRoot.splitChildDemo 0

end BTreeModel

/-! # Red-black tree

Shallow embedding of `src/BST && Heap/Doctor Kattis/C_Implementation/rbtree.{h,cpp}`.

* A `Patient*` is a number that identifies the payload; `tree->compare` is a
  function `cmp` from two payloads to an `Int`.
* An `RBNode*` is an `Option Nat`: `none` is `NULL`, `some a` is the address `a`.
* The memory that holds the nodes and the field `tree->root` form the state
  `RBState`. `malloc` returns the address `next`, which is then incremented, and
  `free` removes the node from the memory.
* A result `none` stands for a run that the source does not define (a null or
  freed pointer dereferenced) or, for the loops, for exhausted fuel; the entry
  points supply as fuel the number of addresses handed out so far, plus one.
-/

namespace RBTreeModel

/-- `#define RED 1`. -/
def RED : Int := 1

/-- `#define BLACK 0`. -/
def BLACK : Int := 0

/-- `struct RBNode`. -/
structure RBNode where
  data : Nat
  parent : Option Nat
  left : Option Nat
  right : Option Nat
  color : Int

/-- The memory holding the nodes, the allocation counter and `tree->root`. -/
structure RBState where
  nodes : Nat → Option RBNode
  next : Nat
  root : Option Nat

/-- The memory `m` with the node at address `a` replaced by `v`. -/
def upd (m : Nat → Option RBNode) (a : Nat) (v : RBNode) : Nat → Option RBNode :=
  fun b => if b = a then some v else m b

/-- A store through a non-null pointer: `a->field = ...`, with `f` the update of
the node. -/
def RBState.write (s : RBState) (a : Nat) (f : RBNode → RBNode) : Option RBState :=
  match s.nodes a with
  | none => none
  | some n => some { s with nodes := upd s.nodes a (f n) }

/-- `a->color = c`. -/
def RBState.setColor (s : RBState) (a : Nat) (c : Int) : Option RBState :=
  s.write a (fun n => { n with color := c })

/-- `a->parent = p`. -/
def RBState.setParent (s : RBState) (a : Nat) (p : Option Nat) : Option RBState :=
  s.write a (fun n => { n with parent := p })

/-- `a->left = p`. -/
def RBState.setLeft (s : RBState) (a : Nat) (p : Option Nat) : Option RBState :=
  s.write a (fun n => { n with left := p })

/-- `a->right = p`. -/
def RBState.setRight (s : RBState) (a : Nat) (p : Option Nat) : Option RBState :=
  s.write a (fun n => { n with right := p })

/-- `new_node`: the state after the allocation and the address of the node. -/
def new_node (s : RBState) (data : Nat) (color : Int) (parent : Option Nat) : RBState × Nat :=
  ({ s with nodes := upd s.nodes s.next ⟨data, parent, none, none, color⟩, next := s.next + 1 },
    s.next)

/-- `rotate_left`. -/
def rotate_left (s : RBState) (x : Nat) : Option RBState := do
  let nx ← s.nodes x
  let y ← nx.right
  let ny ← s.nodes y
  -- x->right = y->left;
  let s ← s.setRight x ny.left
  -- if (y->left) y->left->parent = x;
  let ny ← s.nodes y
  let s ← match ny.left with
    | none => some s
    | some yl => s.setParent yl (some x)
  -- y->parent = x->parent;
  let nx ← s.nodes x
  let s ← s.setParent y nx.parent
  -- if (!x->parent) tree->root = y; else if (x == x->parent->left) ... else ...
  let nx ← s.nodes x
  let s ← match nx.parent with
    | none => some { s with root := some y }
    | some p => do
      let np ← s.nodes p
      if np.left = some x then s.setLeft p (some y) else s.setRight p (some y)
  -- y->left = x; x->parent = y;
  let s ← s.setLeft y (some x)
  s.setParent x (some y)

/-- `rotate_right`. -/
def rotate_right (s : RBState) (x : Nat) : Option RBState := do
  let nx ← s.nodes x
  let y ← nx.left
  let ny ← s.nodes y
  -- x->left = y->right;
  let s ← s.setLeft x ny.right
  -- if (y->right) y->right->parent = x;
  let ny ← s.nodes y
  let s ← match ny.right with
    | none => some s
    | some yr => s.setParent yr (some x)
  -- y->parent = x->parent;
  let nx ← s.nodes x
  let s ← s.setParent y nx.parent
  -- if (!x->parent) tree->root = y; else if (x == x->parent->right) ... else ...
  let nx ← s.nodes x
  let s ← match nx.parent with
    | none => some { s with root := some y }
    | some p => do
      let np ← s.nodes p
      if np.right = some x then s.setRight p (some y) else s.setLeft p (some y)
  -- y->right = x; x->parent = y;
  let s ← s.setRight y (some x)
  s.setParent x (some y)

/-- The test `y && y->color == RED` on a pointer `y`. -/
def isRed (s : RBState) (y : Option Nat) : Option Bool :=
  match y with
  | none => some false
  | some a => (s.nodes a).map (fun n => decide (n.color = RED))

/-- The test `!y || y->color == BLACK` on a pointer `y`. -/
def isBlackOrNull (s : RBState) (y : Option Nat) : Option Bool :=
  match y with
  | none => some true
  | some a => (s.nodes a).map (fun n => decide (n.color = BLACK))

/-- Body of the loop of `fix_insert` when `z->parent == g->left`, with `p` the
parent of `z` and `g` its grandparent; the value is the state and the new `z`. -/
def fix_insert_left (s : RBState) (z p g : Nat) : Option (RBState × Nat) := do
  let ng ← s.nodes g
  let y := ng.right
  if (← isRed s y) = true then
    -- z->parent->color = BLACK; y->color = BLACK; g->color = RED; z = g;
    let s ← s.setColor p BLACK
    let ya ← y
    let s ← s.setColor ya BLACK
    let s ← s.setColor g RED
    some (s, g)
  else
    -- if (z == z->parent->right) { z = z->parent; rotate_left(tree, z); }
    let np ← s.nodes p
    let (s, z) ← if np.right = some z then (rotate_left s p).map (fun s1 => (s1, p))
      else some (s, z)
    -- z->parent->color = BLACK; g->color = RED; rotate_right(tree, g);
    let nz ← s.nodes z
    let zp ← nz.parent
    let s ← s.setColor zp BLACK
    let s ← s.setColor g RED
    let s ← rotate_right s g
    some (s, z)

/-- Body of the loop of `fix_insert` when `z->parent` is the right child of `g`. -/
def fix_insert_right (s : RBState) (z p g : Nat) : Option (RBState × Nat) := do
  let ng ← s.nodes g
  let y := ng.left
  if (← isRed s y) = true then
    let s ← s.setColor p BLACK
    let ya ← y
    let s ← s.setColor ya BLACK
    let s ← s.setColor g RED
    some (s, g)
  else
    -- if (z == z->parent->left) { z = z->parent; rotate_right(tree, z); }
    let np ← s.nodes p
    let (s, z) ← if np.left = some z then (rotate_right s p).map (fun s1 => (s1, p))
      else some (s, z)
    -- z->parent->color = BLACK; g->color = RED; rotate_left(tree, g);
    let nz ← s.nodes z
    let zp ← nz.parent
    let s ← s.setColor zp BLACK
    let s ← s.setColor g RED
    let s ← rotate_left s g
    some (s, z)

/-- The `while` loop of `fix_insert`, started at `z`; the value is the state when
the loop is left. -/
def fix_insert_loop : Nat → RBState → Nat → Option RBState
  | 0, _, _ => none
  | fuel + 1, s, z => do
    -- while (z->parent && z->parent->color == RED)
    let nz ← s.nodes z
    match nz.parent with
    | none => some s
    | some p =>
      let np ← s.nodes p
      if np.color ≠ RED then some s
      else
        -- RBNode* g = z->parent->parent; if (!g) break;
        match np.parent with
        | none => some s
        | some g =>
          let ng ← s.nodes g
          let (s, z) ← if ng.left = some p then fix_insert_left s z p g
            else fix_insert_right s z p g
          fix_insert_loop fuel s z

/-- `fix_insert`. -/
def fix_insert (fuel : Nat) (s : RBState) (z : Nat) : Option RBState := do
  let s ← fix_insert_loop fuel s z
  -- tree->root->color = BLACK;
  let r ← s.root
  s.setColor r BLACK

/-- `rbtree_create`: the empty tree in an empty memory. -/
def rbtree_create : RBState := { nodes := fun _ => none, next := 0, root := none }

/-- The descent loop of `rbtree_insert`; the value is `y`, the parent of the new
node. -/
def insert_descend (cmp : Nat → Nat → Int) (data : Nat) :
    Nat → RBState → Option Nat → Option Nat → Option (Option Nat)
  | 0, _, _, _ => none
  | _ + 1, _, y, none => some y
  | fuel + 1, s, _, some x => do
    let nx ← s.nodes x
    if cmp data nx.data < 0 then insert_descend cmp data fuel s (some x) nx.left
    else insert_descend cmp data fuel s (some x) nx.right

/-- `rbtree_insert`. -/
def rbtree_insert (cmp : Nat → Nat → Int) (s : RBState) (data : Nat) : Option RBState := do
  let y ← insert_descend cmp data (s.next + 1) s none s.root
  let (s, z) := new_node s data RED y
  let s ← match y with
    | none => some { s with root := some z }
    | some ya => do
      let ny ← s.nodes ya
      if cmp data ny.data < 0 then s.setLeft ya (some z) else s.setRight ya (some z)
  fix_insert (s.next + 1) s z

/-- `tree_min` on a pointer. -/
def tree_min : Nat → RBState → Option Nat → Option (Option Nat)
  | 0, _, _ => none
  | _ + 1, _, none => some none
  | fuel + 1, s, some a => do
    let n ← s.nodes a
    match n.left with
    | none => some (some a)
    | some l => tree_min fuel s (some l)

/-- `rbtree_min`: the payload of the leftmost node, `none` for `NULL`. -/
def rbtree_min (s : RBState) : Option (Option Nat) := do
  let m ← tree_min (s.next + 1) s s.root
  match m with
  | none => some none
  | some a => (s.nodes a).map (fun n => some n.data)

/-- `rbtree_empty`. -/
def rbtree_empty (s : RBState) : Bool := s.root.isNone

/-- `transplant`. -/
def transplant (s : RBState) (u : Nat) (v : Option Nat) : Option RBState := do
  let nu ← s.nodes u
  let s ← match nu.parent with
    | none => some { s with root := v }
    | some p => do
      let np ← s.nodes p
      if np.left = some u then s.setLeft p v else s.setRight p v
  -- if (v) v->parent = u->parent;
  match v with
  | none => some s
  | some va => do
    let nu ← s.nodes u
    s.setParent va nu.parent

/-- Body of the loop of `fix_delete` when `x == p->left`; the value is the state
and the new `x`. -/
def fix_delete_left (s : RBState) (p : Nat) : Option (RBState × Option Nat) := do
  let np ← s.nodes p
  let w := np.right
  -- CASE 1: if (w && w->color == RED) { ...; w = p->right; }
  let (s, w) ← if (← isRed s w) = true then do
      let wa ← w
      let s ← s.setColor wa BLACK
      let s ← s.setColor p RED
      let s ← rotate_left s p
      let np ← s.nodes p
      some (s, np.right)
    else some (s, w)
  -- CASE 2: the test reads `w->left` and `w->right`
  let wa ← w
  let nw ← s.nodes wa
  if ((← isBlackOrNull s nw.left) && (← isBlackOrNull s nw.right)) = true then
    -- if (w) w->color = RED; x = p;
    let s ← s.setColor wa RED
    some (s, some p)
  else
    -- CASE 3a: if (!w->right || w->right->color == BLACK) { ...; w = p->right; }
    let (s, w) ← if (← isBlackOrNull s nw.right) = true then do
        let s ← match nw.left with
          | none => some s
          | some wl => s.setColor wl BLACK
        let s ← s.setColor wa RED
        let s ← rotate_right s wa
        let np ← s.nodes p
        some (s, np.right)
      else some (s, w)
    -- CASE 3b
    let np ← s.nodes p
    let s ← match w with
      | none => some s
      | some wb => s.setColor wb np.color
    let s ← s.setColor p BLACK
    let s ← match w with
      | none => some s
      | some wb => do
        let nw ← s.nodes wb
        match nw.right with
        | none => some s
        | some wr => s.setColor wr BLACK
    let s ← rotate_left s p
    -- x = tree->root;
    some (s, s.root)

/-- Body of the loop of `fix_delete` when `x` is not `p->left`. -/
def fix_delete_right (s : RBState) (p : Nat) : Option (RBState × Option Nat) := do
  let np ← s.nodes p
  let w := np.left
  -- CASE 1: if (w && w->color == RED) { ...; w = p->left; }
  let (s, w) ← if (← isRed s w) = true then do
      let wa ← w
      let s ← s.setColor wa BLACK
      let s ← s.setColor p RED
      let s ← rotate_right s p
      let np ← s.nodes p
      some (s, np.left)
    else some (s, w)
  -- CASE 2: the test reads `w->right` and `w->left`
  let wa ← w
  let nw ← s.nodes wa
  if ((← isBlackOrNull s nw.right) && (← isBlackOrNull s nw.left)) = true then
    let s ← s.setColor wa RED
    some (s, some p)
  else
    -- CASE 3a: if (!w->left || w->left->color == BLACK) { ...; w = p->left; }
    let (s, w) ← if (← isBlackOrNull s nw.left) = true then do
        let s ← match nw.right with
          | none => some s
          | some wr => s.setColor wr BLACK
        let s ← s.setColor wa RED
        let s ← rotate_left s wa
        let np ← s.nodes p
        some (s, np.left)
      else some (s, w)
    -- CASE 3b
    let np ← s.nodes p
    let s ← match w with
      | none => some s
      | some wb => s.setColor wb np.color
    let s ← s.setColor p BLACK
    let s ← match w with
      | none => some s
      | some wb => do
        let nw ← s.nodes wb
        match nw.left with
        | none => some s
        | some wl => s.setColor wl BLACK
    let s ← rotate_right s p
    some (s, s.root)

/-- The `while` loop of `fix_delete`, started at `x`; the value is the state and
the pointer `x` when the loop is left. -/
def fix_delete_loop : Nat → RBState → Option Nat → Option (RBState × Option Nat)
  | 0, _, _ => none
  | fuel + 1, s, x => do
    -- while (x != tree->root && (!x || x->color == BLACK))
    if x = s.root then some (s, x)
    else if (← isBlackOrNull s x) = false then some (s, x)
    else
      -- RBNode* p = x ? x->parent : NULL; if (!p) break;
      let p ← match x with
        | none => some none
        | some xa => (s.nodes xa).map (fun n => n.parent)
      match p with
      | none => some (s, x)
      | some p =>
        let np ← s.nodes p
        let (s, x) ← if x = np.left then fix_delete_left s p else fix_delete_right s p
        fix_delete_loop fuel s x

/-- `fix_delete`. -/
def fix_delete (fuel : Nat) (s : RBState) (x : Option Nat) : Option RBState := do
  let (s, x) ← fix_delete_loop fuel s x
  -- if (x) x->color = BLACK;
  match x with
  | none => some s
  | some xa => s.setColor xa BLACK

/-- The lookup loop of `rbtree_delete`; the value is `z`. -/
def delete_find (cmp : Nat → Nat → Int) (data : Nat) :
    Nat → RBState → Option Nat → Option (Option Nat)
  | 0, _, _ => none
  | _ + 1, _, none => some none
  | fuel + 1, s, some z => do
    let nz ← s.nodes z
    if nz.data = data then some (some z)
    else if cmp data nz.data < 0 then delete_find cmp data fuel s nz.left
    else delete_find cmp data fuel s nz.right

/-- `free(z)`. -/
def RBState.free (s : RBState) (z : Nat) : RBState :=
  { s with nodes := fun b => if b = z then none else s.nodes b }

/-- `rbtree_delete`. -/
def rbtree_delete (cmp : Nat → Nat → Int) (s : RBState) (data : Nat) : Option RBState := do
  let zo ← delete_find cmp data (s.next + 1) s s.root
  match zo with
  | none => some s
  | some z =>
    let nz ← s.nodes z
    let fuel := s.next + 1
    -- the three cases leave the state, `y_original_color` and `x`
    let (s, yColor, x) ← match nz.left, nz.right with
      | none, _ => do
        let s ← transplant s z nz.right
        some (s, nz.color, nz.right)
      | some zl, none => do
        let s ← transplant s z (some zl)
        some (s, nz.color, some zl)
      | some _, some zr => do
        let y ← (← tree_min fuel s (some zr))
        let ny ← s.nodes y
        let yColor := ny.color
        let x := ny.right
        let s ← if ny.parent = some z then
            match x with
            | none => some s
            | some xa => s.setParent xa (some y)
          else do
            let s ← transplant s y ny.right
            -- y->right = z->right; if (y->right) y->right->parent = y;
            let nz ← s.nodes z
            let s ← s.setRight y nz.right
            let ny ← s.nodes y
            match ny.right with
            | none => some s
            | some yr => s.setParent yr (some y)
        let s ← transplant s z (some y)
        -- y->left = z->left; if (y->left) y->left->parent = y; y->color = z->color;
        let nz ← s.nodes z
        let s ← s.setLeft y nz.left
        let ny ← s.nodes y
        let s ← match ny.left with
          | none => some s
          | some yl => s.setParent yl (some y)
        let nz ← s.nodes z
        let s ← s.setColor y nz.color
        some (s, yColor, x)
    let s ← if yColor = BLACK then fix_delete fuel s x else some s
    some (s.free z)

/-! ## What a state holds -/

/-- A binary tree of nodes: address, colour and payload of each node. -/
inductive RBT where
  | nil : RBT
  | node (a : Nat) (c : Int) (d : Nat) (l r : RBT) : RBT
  deriving DecidableEq, Repr

/-- The tree reached from a pointer by following `left` and `right`. -/
def readTree (nodes : Nat → Option RBNode) : Nat → Option Nat → Option RBT
  | 0, _ => none
  | _ + 1, none => some .nil
  | fuel + 1, some a => do
    let n ← nodes a
    let l ← readTree nodes fuel n.left
    let r ← readTree nodes fuel n.right
    some (.node a n.color n.data l r)

/-- The tree below `tree->root`. -/
def RBState.tree (s : RBState) : Option RBT := readTree s.nodes (s.next + 1) s.root

/-- An operation of the interface. -/
inductive Op where
  | insert (data : Nat) : Op
  | delete (data : Nat) : Op

/-- A sequence of calls on a state. -/
def runOps (cmp : Nat → Nat → Int) : RBState → List Op → Option RBState
  | s, [] => some s
  | s, .insert d :: ops => (rbtree_insert cmp s d).bind (fun s1 => runOps cmp s1 ops)
  | s, .delete d :: ops => (rbtree_delete cmp s d).bind (fun s1 => runOps cmp s1 ops)

/-- In-order walk (left, node, right): the payloads. -/
def RBT.inorder : RBT → List Nat
  | .nil => []
  | .node _ _ d l r => l.inorder ++ d :: r.inorder

/-- Number of nodes. -/
def RBT.size : RBT → Nat
  | .nil => 0
  | .node _ _ _ l r => l.size + 1 + r.size

/-- Colour of the root of a tree, `NULL` counting as BLACK. -/
def RBT.color : RBT → Int
  | .nil => BLACK
  | .node _ c _ _ _ => c

/-- The root is BLACK. -/
def RBT.rootBlack (t : RBT) : Prop := t.color = BLACK

/-- No RED node has a RED child. -/
def RBT.noRedRed : RBT → Prop
  | .nil => True
  | .node _ c _ l r =>
    (c = RED → l.color ≠ RED ∧ r.color ≠ RED) ∧ l.noRedRed ∧ r.noRedRed

/-- The numbers of BLACK nodes on the paths from the root to the null pointers. -/
def RBT.blackCounts : RBT → List Nat
  | .nil => [0]
  | .node _ c _ l r =>
    (l.blackCounts ++ r.blackCounts).map (fun k => if c = BLACK then k + 1 else k)

/-- Every path from the root to a null pointer holds the same number of BLACK
nodes. -/
def RBT.balanced (t : RBT) : Prop := ∀ k ∈ t.blackCounts, ∀ j ∈ t.blackCounts, k = j

/-- Every node is RED or BLACK. -/
def RBT.coloured : RBT → Prop
  | .nil => True
  | .node _ c _ l r => (c = RED ∨ c = BLACK) ∧ l.coloured ∧ r.coloured

instance (t : RBT) : Decidable t.rootBlack := by
  unfold RBT.rootBlack
  infer_instance

/-- Decision procedure for `noRedRed`. -/
def RBT.decNoRedRed : (t : RBT) → Decidable t.noRedRed
  | .nil => isTrue trivial
  | .node _ c _ l r =>
    have := RBT.decNoRedRed l
    have := RBT.decNoRedRed r
    inferInstanceAs (Decidable ((c = RED → l.color ≠ RED ∧ r.color ≠ RED) ∧
      l.noRedRed ∧ r.noRedRed))

instance (t : RBT) : Decidable t.noRedRed := RBT.decNoRedRed t

instance (t : RBT) : Decidable t.balanced := by
  unfold RBT.balanced
  infer_instance

/-- Decision procedure for `coloured`. -/
def RBT.decColoured : (t : RBT) → Decidable t.coloured
  | .nil => isTrue trivial
  | .node _ c _ l r =>
    have := RBT.decColoured l
    have := RBT.decColoured r
    inferInstanceAs (Decidable ((c = RED ∨ c = BLACK) ∧ l.coloured ∧ r.coloured))

instance (t : RBT) : Decidable t.coloured := RBT.decColoured t

/-- The comparator of integers, on payloads that are their own keys. -/
def intCmp (a b : Nat) : Int := (a : Int) - (b : Int)

/-- The comparator under which all payloads compare equal. -/
def tieCmp (_ _ : Nat) : Int := 0

/-! ## Vocabulary of the proofs -/

/-- The pointer to the root node of a tree. -/
def RBT.ptr : RBT → Option Nat
  | .nil => none
  | .node a _ _ _ _ => some a

/-- The addresses of the nodes of a tree. -/
def RBT.addrs : RBT → List Nat
  | .nil => []
  | .node a _ _ l r => a :: (l.addrs ++ r.addrs)

/-- One step of a path from a node down to a subtree: the node (address, colour,
payload), the side on which the path continues, and the subtree on the other side. -/
structure Frame where
  isLeft : Bool
  a : Nat
  c : Int
  d : Nat
  sib : RBT

/-- The node of a frame around the subtree `t`. -/
def Frame.fill (f : Frame) (t : RBT) : RBT :=
  if f.isLeft then .node f.a f.c f.d t f.sib else .node f.a f.c f.d f.sib t

/-- The tree around a subtree `t` reached by the path `ctx` (nearest node first). -/
def plug : List Frame → RBT → RBT
  | [], t => t
  | f :: fs, t => plug fs (f.fill t)

/-- The parent pointer of the subtree at the end of a path. -/
def ctxPar : List Frame → Option Nat
  | [] => none
  | f :: _ => some f.a

/-- The root pointer of a tree given by a path and the pointer to the subtree. -/
def rootPtr : List Frame → Option Nat → Option Nat
  | [], q => q
  | f :: fs, _ => rootPtr fs (some f.a)

/-- The addresses of the nodes of a path and of the subtrees beside it. -/
def ctxAddrs : List Frame → List Nat
  | [] => []
  | f :: fs => f.a :: (f.sib.addrs ++ ctxAddrs fs)

/-- The memory cell of the node of a frame, with parent `par` and `q` the pointer
to the subtree on the path. -/
def Frame.cell (f : Frame) (par q : Option Nat) : RBNode :=
  ⟨f.d, par, if f.isLeft then q else f.sib.ptr, if f.isLeft then f.sib.ptr else q, f.c⟩

/-- The memory holds the tree `t` below a node whose parent pointer is `par`. -/
def Shape (nodes : Nat → Option RBNode) : Option Nat → RBT → Prop
  | _, .nil => True
  | par, .node a c d l r =>
    nodes a = some ⟨d, par, l.ptr, r.ptr, c⟩ ∧ Shape nodes (some a) l ∧ Shape nodes (some a) r

/-- The memory holds the nodes of the path `ctx` and the subtrees beside it, `q`
being the pointer to the subtree at the end of the path. -/
def ShapeCtx (nodes : Nat → Option RBNode) : List Frame → Option Nat → Prop
  | [], _ => True
  | f :: fs, q =>
    nodes f.a = some (f.cell (ctxPar fs) q) ∧ Shape nodes (some f.a) f.sib ∧
      ShapeCtx nodes fs (some f.a)

/-- The state holds the tree `T`: the cells of its nodes, with the parent
pointers, at distinct allocated addresses. -/
structure WF (s : RBState) (T : RBT) : Prop where
  root : s.root = T.ptr
  shape : Shape s.nodes none T
  nodup : T.addrs.Nodup
  bound : ∀ a ∈ T.addrs, a < s.next

/-- The state holds the tree `plug ctx t`, seen from the subtree `t`. -/
structure Foc (s : RBState) (ctx : List Frame) (t : RBT) : Prop where
  root : s.root = rootPtr ctx t.ptr
  shape : Shape s.nodes (ctxPar ctx) t
  shapeCtx : ShapeCtx s.nodes ctx t.ptr
  nodup : (t.addrs ++ ctxAddrs ctx).Nodup
  bound : ∀ a ∈ t.addrs ++ ctxAddrs ctx, a < s.next

/-- The frame seen from the other side: the path continues into the former
sibling and `t` is the subtree beside it. -/
def Frame.flip (f : Frame) (t : RBT) : Frame :=
  { f with isLeft := !f.isLeft, sib := t }

/-- The tree is a red-black subtree with `n` BLACK nodes on every path to a null
pointer: colours are RED or BLACK and a RED node has no RED child. -/
def IsRB : RBT → Nat → Prop
  | .nil, n => n = 0
  | .node _ c _ l r, n =>
    (c = RED ∧ l.color = BLACK ∧ r.color = BLACK ∧ IsRB l n ∧ IsRB r n) ∨
      (c = BLACK ∧ ∃ m, n = m + 1 ∧ IsRB l m ∧ IsRB r m)

/-- The nearest node of the path is BLACK. -/
def topBlack : List Frame → Prop
  | [] => False
  | g :: _ => g.c = BLACK

/-- The path and the subtrees beside it are those of a red-black tree with a
BLACK root, the subtree at the end of the path having `n` BLACK nodes on every
path. -/
def CtxV : List Frame → Nat → Prop
  | [], _ => True
  | f :: fs, n =>
    IsRB f.sib n ∧ ((f.c = BLACK ∧ CtxV fs (n + 1)) ∨
      (f.c = RED ∧ f.sib.color = BLACK ∧ topBlack fs ∧ CtxV fs n))

/-- A red-black tree: BLACK root and red-black subtree. -/
def Valid (T : RBT) : Prop := T.color = BLACK ∧ ∃ m, IsRB T m

/-- A tree that is red-black once its root is coloured BLACK. -/
def NearRB : RBT → Prop
  | .nil => False
  | .node a _ d l r => ∃ m, IsRB (.node a BLACK d l r) m

/-- What the loop of `fix_insert` achieves from the state `s` at the node `z`:
it ends in a state `s1` that holds a tree `T`, red-black up to the colour of its
root, with the in-order payloads `w`. -/
def LoopEnds (fuel : Nat) (s : RBState) (z : Nat) (w : List Nat) : Prop :=
  ∃ s1 T, fix_insert_loop fuel s z = some s1 ∧ s1.next = s.next ∧ WF s1 T ∧ NearRB T ∧
    T.inorder = w

/-- The state after `rbtree_insert` has allocated the new node below the end of
the path `ctx` and linked it to its parent. -/
def linked (s : RBState) (data : Nat) : List Frame → RBState
  | [] =>
    { nodes := upd s.nodes s.next ⟨data, none, none, none, RED⟩, next := s.next + 1,
      root := some s.next }
  | f :: fs =>
    { nodes := upd (upd s.nodes s.next ⟨data, some f.a, none, none, RED⟩) f.a
        (f.cell (ctxPar fs) (some s.next)),
      next := s.next + 1, root := s.root }

/-! ## Example trees and call sequences -/

/-- The calls that insert 10, 20, 30, 40, 50 in this order. -/
def fiveInserts : List Op := [.insert 10, .insert 20, .insert 30, .insert 40, .insert 50]

/-- The tree built by `fiveInserts`. -/
def fiveTree : RBT :=
  .node 1 BLACK 20 (.node 0 BLACK 10 .nil .nil)
    (.node 3 BLACK 40 (.node 2 RED 30 .nil .nil) (.node 4 RED 50 .nil .nil))

/-- A state that holds `fiveTree`. -/
def fiveState : RBState :=
  { nodes := upd (upd (upd (upd (upd (fun _ => none)
      0 ⟨10, some 1, none, none, BLACK⟩)
      1 ⟨20, none, some 0, some 3, BLACK⟩)
      2 ⟨30, some 3, none, none, RED⟩)
      3 ⟨40, some 1, some 2, some 4, BLACK⟩)
      4 ⟨50, some 3, none, none, RED⟩,
    next := 5,
    root := some 1 }

/-- The tree after 25 is inserted into `fiveTree`. -/
def sixTree : RBT :=
  .node 1 BLACK 20 (.node 0 BLACK 10 .nil .nil)
    (.node 3 RED 40 (.node 2 BLACK 30 (.node 5 RED 25 .nil .nil) .nil)
      (.node 4 BLACK 50 .nil .nil))

/-- The calls that insert 1, 2, 3, 4 in this order. -/
def fourInserts : List Op := [.insert 1, .insert 2, .insert 3, .insert 4]

/-- The tree built by `fourInserts`. -/
def fourTree : RBT :=
  .node 1 BLACK 2 (.node 0 BLACK 1 .nil .nil)
    (.node 2 BLACK 3 .nil (.node 3 RED 4 .nil .nil))

/-- The tree that `rbtree_delete` of 1 leaves from `fourTree`. -/
def fourTreeDeleted : RBT :=
  .node 1 BLACK 2 .nil (.node 2 BLACK 3 .nil (.node 3 RED 4 .nil .nil))

/-- Ten calls on a fresh tree that leave a chain of BLACK nodes. -/
def chainOps : List Op :=
  [.insert 4, .insert 5, .insert 6, .insert 7, .delete 4, .insert 3, .insert 2, .insert 4,
    .delete 3, .delete 2]

/-- The tree built by `chainOps`. -/
def chainTree : RBT :=
  .node 6 BLACK 4 .nil
    (.node 1 BLACK 5 .nil (.node 2 BLACK 6 .nil (.node 3 RED 7 .nil .nil)))

/-- Ten calls on a fresh tree after which `rbtree_delete` of 5 is not defined. -/
def crashPrefix : List Op :=
  [.insert 1, .insert 3, .insert 4, .insert 2, .delete 3, .insert 5, .insert 6, .insert 7,
    .delete 4, .delete 6]

/-- The tree built by `crashPrefix`. -/
def crashTree : RBT :=
  .node 6 BLACK 7
    (.node 4 BLACK 5 (.node 0 BLACK 1 .nil (.node 3 RED 2 .nil .nil)) .nil) .nil

/-- Eleven calls on a fresh tree that leave three BLACK nodes in a chain. -/
def sortedOps : List Op :=
  [.insert 6, .insert 2, .insert 7, .insert 10, .delete 2, .insert 4, .delete 6, .insert 3,
    .insert 1, .delete 7, .delete 1]

/-- The tree built by `sortedOps`. -/
def sortedTree : RBT :=
  .node 5 BLACK 3 .nil (.node 4 BLACK 4 .nil (.node 3 BLACK 10 .nil .nil))

/-- The calls that insert the payloads 1, 2, 3. -/
def tieInserts : List Op := [.insert 1, .insert 2, .insert 3]

/-- The tree built by `tieInserts` under `tieCmp`. -/
def tieTree : RBT :=
  .node 1 BLACK 2 (.node 0 RED 1 .nil .nil) (.node 2 RED 3 .nil .nil)

/-! ## Order of the payloads -/

/-- The payload of the leftmost node of a tree, `none` for the empty tree. -/
def RBT.leftmost : RBT → Option Nat
  | .nil => none
  | .node _ _ d .nil _ => some d
  | .node _ _ _ l _ => l.leftmost

/-- At every node the payloads of the left subtree compare strictly less than the
payload of the node and those of the right subtree greater than or equal to it. -/
def RBT.strictOrder (cmp : Nat → Nat → Int) : RBT → Prop
  | .nil => True
  | .node _ _ d l r =>
    (∀ x ∈ l.inorder, cmp x d < 0) ∧ (∀ x ∈ r.inorder, 0 ≤ cmp x d) ∧
      l.strictOrder cmp ∧ r.strictOrder cmp

/-- At every node the payloads of the left subtree compare less than or equal to
the payload of the node and those of the right subtree greater than or equal to
it. -/
def RBT.ordered (cmp : Nat → Nat → Int) : RBT → Prop
  | .nil => True
  | .node _ _ d l r =>
    (∀ x ∈ l.inorder, cmp x d ≤ 0) ∧ (∀ x ∈ r.inorder, 0 ≤ cmp x d) ∧
      l.ordered cmp ∧ r.ordered cmp

/-- The comparator is a total preorder: swapping the arguments swaps the sign,
and "less than or equal" is transitive. Ties between distinct payloads are
allowed. -/
def IsPreorder (cmp : Nat → Nat → Int) : Prop :=
  (∀ a b, cmp a b < 0 ↔ 0 < cmp b a) ∧ (∀ a b c, cmp a b ≤ 0 → cmp b c ≤ 0 → cmp a c ≤ 0)

/-- The in-order walk is non-decreasing under the comparator. -/
def RBT.sorted (cmp : Nat → Nat → Int) (t : RBT) : Prop :=
  t.inorder.Pairwise (fun a b => cmp a b ≤ 0)

/-- The payloads that the in-order walk lists before the subtree at the end of
a path. -/
def ctxLeft : List Frame → List Nat
  | [] => []
  | f :: fs => if f.isLeft then ctxLeft fs else ctxLeft fs ++ (f.sib.inorder ++ [f.d])

/-- The payloads that the in-order walk lists after the subtree at the end of a
path. -/
def ctxRight : List Frame → List Nat
  | [] => []
  | f :: fs => if f.isLeft then (f.d :: f.sib.inorder) ++ ctxRight fs else ctxRight fs

/-- The calls `rbtree_insert` of the payloads of a list, in its order. -/
def inserts (ds : List Nat) : List Op := ds.map Op.insert

/-! ## The position of an inserted payload -/

/-- The walk with `p` placed immediately after the last payload `q` of the walk
for which `cmp p q >= 0`, and at the front when there is no such payload. -/
def placeAfterLast (cmp : Nat → Nat → Int) (p : Nat) : List Nat → List Nat
  | [] => [p]
  | q :: qs =>
    if (q :: qs).any (fun x => decide (0 ≤ cmp p x)) then q :: placeAfterLast cmp p qs
    else p :: q :: qs

/-- A state that holds `fourTreeDeleted`, the tree that `rbtree_delete` of 1 leaves
from the tree built by inserting 1, 2, 3, 4: the cell of the deleted node is
free, and the paths of the tree do not hold the same number of BLACK nodes. -/
def fourDeletedState : RBState :=
  { nodes := upd (upd (upd (fun _ => none)
      1 ⟨2, none, none, some 2, BLACK⟩)
      2 ⟨3, some 1, none, some 3, BLACK⟩)
      3 ⟨4, some 2, none, none, RED⟩,
    next := 4,
    root := some 1 }

/-- What the loop of `fix_insert` achieves from the state `s` at the node `z`,
whatever the colours in the tree: it ends in a state `s1` that holds a tree `T`
that is not empty, with the in-order payloads `w`. -/
def LoopEndsAny (fuel : Nat) (s : RBState) (z : Nat) (w : List Nat) : Prop :=
  ∃ s1 T, fix_insert_loop fuel s z = some s1 ∧ s1.next = s.next ∧ WF s1 T ∧ T.ptr ≠ none ∧
    T.inorder = w

end RBTreeModel

/-! # String map and patient dispatcher

Shallow embedding of `src/BST && Heap/Doctor Kattis/C_Implementation/hash_set.{h,cpp}`
and of `main.cpp` of the same directory.

* A C string is the list of its bytes, without the terminating NUL.
* A `void*` is an `Option Nat`, `none` being `NULL`.
* The table of the map is a function from the index to the slot; a slot whose `key`
  is null is `none`. The indices the source computes are below `capacity`, which
  never is 0 in a map the interface builds; on a map of capacity 0 the operations
  are not defined.
* `unsigned` arithmetic is taken modulo `2^32`.
* A result `none` stands for a run that the source does not define or that does
  not end (a probe loop on a table without a free slot).
-/

namespace HashMapModel

/-- A C string: its bytes, without the terminating NUL. -/
abbrev CStr := List Nat

/-- The bytes of a string of ASCII characters. -/
def cstr (s : String) : CStr := s.toList.map Char.toNat

/-- `hash_entry_t` of a slot whose `key` is not null. -/
structure hash_entry_t where
  key : CStr
  value : Option Nat

/-- `hash_map_t`. -/
structure hash_map_t where
  capacity : Nat
  length : Nat
  table : Nat → Option hash_entry_t

/-- `#define DEFAULT_HASH_SET_CAPACITY (1 << 10)`. -/
def DEFAULT_HASH_SET_CAPACITY : Nat := 1 <<< 10

/-- The loop of `hash_str`, from the values `a` and `b`. -/
def hash_loop : CStr → Nat → Nat → Nat × Nat
  | [], a, b => (a, b)
  | c :: cs, a, b =>
    let a1 := (a + c) % 65521
    hash_loop cs a1 ((b + a1) % 65521)

/-- `hash_str`. -/
def hash_str (str : CStr) : Nat :=
  let ab := hash_loop str 1 0
  (ab.2 <<< 16) ||| ab.1

/-- `index_from_hash`. -/
def index_from_hash (h cap : Nat) : Nat :=
  ((cap + 4294967295) % 4294967296) &&& (h ^^^ (h >>> 12))

/-- The table `tab` with the slot `idx` set to `e`. -/
def setSlot (tab : Nat → Option hash_entry_t) (idx : Nat) (e : Option hash_entry_t) :
    Nat → Option hash_entry_t :=
  fun i => if i = idx then e else tab i

/-- `init_hash_map`. -/
def init_hash_map : hash_map_t :=
  { capacity := DEFAULT_HASH_SET_CAPACITY, length := 0, table := fun _ => none }

/-- The loop `while (map->table[idx].key) idx = (idx + 1) % map->capacity` of
`resize`; the value is the index of the free slot. -/
def probe_free (capacity : Nat) (tab : Nat → Option hash_entry_t) : Nat → Nat → Option Nat
  | 0, _ => none
  | fuel + 1, idx =>
    match tab idx with
    | none => some idx
    | some _ => probe_free capacity tab fuel ((idx + 1) % capacity)

/-- The loop `for (i = 0; i < oldcap; ++i)` of `resize`, with `cnt` iterations
left. -/
def resize_loop (oldtab : Nat → Option hash_entry_t) :
    Nat → Nat → hash_map_t → Option hash_map_t
  | 0, _, map => some map
  | cnt + 1, i, map =>
    match oldtab i with
    | none => resize_loop oldtab cnt (i + 1) map
    | some e =>
      let h := hash_str e.key
      let idx := index_from_hash h map.capacity
      match probe_free map.capacity map.table map.capacity idx with
      | none => none
      | some j =>
        resize_loop oldtab cnt (i + 1)
          { map with table := setSlot map.table j (some e),
                     length := (map.length + 1) % 4294967296 }

/-- `resize`. -/
def resize (map : hash_map_t) : Option hash_map_t :=
  let oldcap := map.capacity
  let oldtab := map.table
  let cap := (map.capacity * 2) % 4294967296
  if cap = 0 then none
  else resize_loop oldtab oldcap 0 { capacity := cap, length := 0, table := fun _ => none }

/-- The probe loop of `hash_map_put`. -/
def put_loop (key : CStr) (value : Option Nat) (map : hash_map_t) :
    Nat → Nat → Option hash_map_t
  | 0, _ => none
  | fuel + 1, idx =>
    match map.table idx with
    | some e =>
      if e.key = key then some { map with table := setSlot map.table idx (some ⟨e.key, value⟩) }
      else put_loop key value map fuel ((idx + 1) % map.capacity)
    | none =>
      some { map with table := setSlot map.table idx (some ⟨key, value⟩),
                      length := (map.length + 1) % 4294967296 }

/-- `hash_map_put`. -/
def hash_map_put (map : hash_map_t) (key : CStr) (value : Option Nat) : Option hash_map_t :=
  let resized : Option hash_map_t :=
    if (map.length * 2) % 4294967296 ≥ map.capacity then resize map else some map
  match resized with
  | none => none
  | some map1 =>
    if map1.capacity = 0 then none
    else
      let h := hash_str key
      let idx := index_from_hash h map1.capacity
      put_loop key value map1 map1.capacity idx

/-- The loop of `hash_map_get`; the value is the pointer returned. -/
def get_loop (key : CStr) (map : hash_map_t) : Nat → Nat → Option (Option Nat)
  | 0, _ => none
  | fuel + 1, idx =>
    match map.table idx with
    | none => some none
    | some e =>
      if e.key = key then some e.value
      else get_loop key map fuel ((idx + 1) % map.capacity)

/-- `hash_map_get`. -/
def hash_map_get (map : hash_map_t) (key : CStr) : Option (Option Nat) :=
  if map.capacity = 0 then none
  else
    let h := hash_str key
    let idx := index_from_hash h map.capacity
    get_loop key map map.capacity idx

/-- The loop of `hash_map_delete`. -/
def delete_loop (key : CStr) (map : hash_map_t) : Nat → Nat → Option hash_map_t
  | 0, _ => none
  | fuel + 1, idx =>
    match map.table idx with
    | none => some map
    | some e =>
      if e.key = key then
        some { map with table := setSlot map.table idx none,
                        length := (map.length + 4294967295) % 4294967296 }
      else delete_loop key map fuel ((idx + 1) % map.capacity)

/-- `hash_map_delete`. -/
def hash_map_delete (map : hash_map_t) (key : CStr) : Option hash_map_t :=
  if map.capacity = 0 then none
  else
    let h := hash_str key
    let idx := index_from_hash h map.capacity
    delete_loop key map map.capacity idx

/-! ## Sequences of calls on a map, and the finite map they describe -/

/-- A call of `hash_map_put` or of `hash_map_delete`. -/
inductive MapOp where
  | put (key : CStr) (value : Option Nat) : MapOp
  | delete (key : CStr) : MapOp

/-- A sequence of calls on a map. -/
def runMap : hash_map_t → List MapOp → Option hash_map_t
  | map, [] => some map
  | map, .put key value :: ops => (hash_map_put map key value).bind (fun m => runMap m ops)
  | map, .delete key :: ops => (hash_map_delete map key).bind (fun m => runMap m ops)

/-- The finite map that a sequence of calls describes, as the specification words
it: the value of the most recent `put` of the key that no `delete` of the key has
followed, and null otherwise. The sequence is given latest call first. -/
def specGetRev (key : CStr) : List MapOp → Option Nat
  | [] => none
  | .put k v :: earlier => if k = key then v else specGetRev key earlier
  | .delete k :: earlier => if k = key then none else specGetRev key earlier

/-- The value that `get` of the key returns after the sequence of calls, as the
specification words it. -/
def specGet (ops : List MapOp) (key : CStr) : Option Nat := specGetRev key ops.reverse

/-- Two keys that start their probes at the same slot are put, and the first is
deleted. -/
def collisionOps : List MapOp :=
  [.put (cstr "D") (some 1), .put (cstr "CA") (some 2), .delete (cstr "D")]

/-! ## Occupied slots and long sequences of calls -/

end HashMapModel

namespace PatientModel

open RBTreeModel HashMapModel

/-! ## The patient dispatcher (`main.cpp`)

* A `Patient*` is the address of the object, a number; the objects that are alive
  are held by `World.heap`. `new` returns the address `nextAddr`, which is then
  incremented.
* `int` arithmetic that leaves the range of `int` is taken modulo `2^32`.
* The standard input is a C string together with the `failbit` of `cin`
  (`Cin`). A read `cin >> x` of an `int` that finds no digit stores 0 and one that
  finds a number outside the range of `int` stores `INT_MAX` or `INT_MIN`; both
  set `failbit`. A read on a stream whose `failbit` is set, or at the end of the
  input, stores nothing: an `int` read so has no value, and a run that uses it
  is not defined (`none`), as is one whose first number is negative (the loop
  `while (t--)` then outlasts the input).
* The calls `rbtree_free` and `free_hash_map` that end `main` write nothing and are
  left out.
-/

/-- `class Patient`. -/
structure Patient where
  severity : Int
  arrival : Int
  name : CStr

/-- The value of type `int` congruent to `x` modulo `2^32`. -/
def wrapInt (x : Int) : Int := (x + 2147483648) % 4294967296 - 2147483648

/-- `compare_patients`. -/
def compare_patients (a b : Patient) : Int :=
  if a.severity ≠ b.severity then wrapInt (b.severity - a.severity)
  else wrapInt (a.arrival - b.arrival)

/-- The variables of `main` and the objects it has allocated; `out` is what has
been written to `cout`. -/
structure World where
  patients : RBState
  dict : hash_map_t
  heap : Nat → Option Patient
  nextAddr : Nat
  arrival : Int
  out : CStr

/-- `compare_patients` on two addresses of objects that are alive. -/
def World.cmp (heap : Nat → Option Patient) (a b : Nat) : Int :=
  match heap a, heap b with
  | some pa, some pb => compare_patients pa pb
  | _, _ => 0

/-- White space as skipped by `cin >>`. -/
def isSpace (c : Nat) : Bool := c = 32 || (9 ≤ c && c ≤ 13)

/-- The input after leading white space. -/
def skipSpace : CStr → CStr
  | [] => []
  | c :: cs => if isSpace c then skipSpace cs else c :: cs

/-- The digits at the head of the input, read as a decimal number onto `acc`,
their count, and the rest of the input. -/
def readDigits : CStr → Nat → Nat → Nat × Nat × CStr
  | [], acc, cnt => (acc, cnt, [])
  | c :: cs, acc, cnt =>
    if 48 ≤ c ∧ c ≤ 57 then readDigits cs (acc * 10 + (c - 48)) (cnt + 1)
    else (acc, cnt, c :: cs)

/-- The state of `cin`: the input that is not yet consumed, and `failbit`. -/
structure Cin where
  input : CStr
  fail : Bool

/-- `cin >> x` for an `int x`: the value stored in `x`, if one is stored, and
the stream afterwards. Nothing is stored when `failbit` is set before the read or
when only white space is left; 0 is stored when no digit is found, and `INT_MIN`
or `INT_MAX` when the number is outside the range of `int`; `failbit` is set in
these cases. -/
def readInt (c : Cin) : Option Int × Cin :=
  if c.fail then (none, c)
  else
    match skipSpace c.input with
    | [] => (none, { input := [], fail := true })
    | first :: more =>
      let signed : Bool × CStr :=
        if first = 45 then (true, more)
        else if first = 43 then (false, more)
        else (false, first :: more)
      let r := readDigits signed.2 0 0
      let v : Int := if signed.1 then -(r.1 : Int) else (r.1 : Int)
      if r.2.1 = 0 then (some 0, { input := r.2.2, fail := true })
      else if v < -2147483648 then (some (-2147483648), { input := r.2.2, fail := true })
      else if 2147483647 < v then (some 2147483647, { input := r.2.2, fail := true })
      else (some v, { input := r.2.2, fail := false })

/-- The characters at the head of the input up to the next white space, and the
rest of the input. -/
def readChars : CStr → CStr × CStr
  | [] => ([], [])
  | c :: cs =>
    if isSpace c then ([], c :: cs)
    else
      let r := readChars cs
      (c :: r.1, r.2)

/-- `cin >> name` for a `string name` that is empty before the read: the string
afterwards and the stream afterwards. The string stays empty when `failbit` is set
before the read or when only white space is left, and `failbit` is then set. -/
def readWord (c : Cin) : CStr × Cin :=
  if c.fail then ([], c)
  else
    let r := readChars (skipSpace c.input)
    if r.1 = [] then ([], { input := r.2, fail := true })
    else (r.1, { input := r.2, fail := false })

/-- The branch `cmd == 0`: a patient arrives. -/
def cmdArrive (w : World) (name : CStr) (sev : Int) : Option World := do
  -- Patient* p = new Patient(name, sev, arrival++);
  let p := w.nextAddr
  let heap := fun a => if a = p then some ⟨sev, w.arrival, name⟩ else w.heap a
  -- rbtree_insert(patients, p); hash_map_put(dict, name.c_str(), p);
  let tree ← rbtree_insert (World.cmp heap) w.patients p
  let dict ← hash_map_put w.dict name (some p)
  some { w with patients := tree, dict := dict, heap := heap, nextAddr := p + 1,
                arrival := wrapInt (w.arrival + 1) }

/-- The branch `cmd == 1`: the severity of a patient changes. `inc` is the value
that `cin >> inc` has stored, if any; it is read only when the patient is found. -/
def cmdUpdate (w : World) (name : CStr) (inc : Option Int) : Option World := do
  match ← hash_map_get w.dict name with
  | none => some w
  | some p =>
    let inc ← inc
    let pat ← w.heap p
    -- rbtree_delete(patients, p); p->severity += inc; rbtree_insert(patients, p);
    let tree ← rbtree_delete (World.cmp w.heap) w.patients p
    let heap := fun a => if a = p then some { pat with severity := wrapInt (pat.severity + inc) }
      else w.heap a
    let tree ← rbtree_insert (World.cmp heap) tree p
    some { w with patients := tree, heap := heap }

/-- The branch `cmd == 2`: a patient leaves. After `delete p` the tree must not
hold `p` any more, or later comparisons would read an object that is not alive. -/
def cmdLeave (w : World) (name : CStr) : Option World := do
  match ← hash_map_get w.dict name with
  | none => some w
  | some p =>
    let _ ← w.heap p
    -- rbtree_delete(patients, p); hash_map_delete(dict, name.c_str()); delete p;
    let tree ← rbtree_delete (World.cmp w.heap) w.patients p
    let dict ← hash_map_delete w.dict name
    let T ← tree.tree
    if p ∈ T.inorder then none
    else some { w with patients := tree, dict := dict,
                       heap := fun a => if a = p then none else w.heap a }

/-- The branch `cmd == 3`: the name of the first patient is written. -/
def cmdQuery (w : World) : Option World := do
  if rbtree_empty w.patients then
    some { w with out := w.out ++ cstr "The clinic is empty" ++ [10] }
  else
    -- Patient* p = rbtree_min(patients); cout << p->name << "\n";
    let p ← (← rbtree_min w.patients)
    let pat ← w.heap p
    some { w with out := w.out ++ pat.name ++ [10] }

/-- The loop `while (t--)` of `main`, with `cnt` iterations left. The variables
`cmd`, `sev` and `inc` are declared without a value in every iteration. -/
def mainLoop : Nat → World → Cin → Option World
  | 0, w, _ => some w
  | cnt + 1, w, c => do
    let (cmdRead, c) := readInt c
    let cmd ← cmdRead
    if cmd = 0 then
      let (name, c) := readWord c
      let (sevRead, c) := readInt c
      let sev ← sevRead
      mainLoop cnt (← cmdArrive w name sev) c
    else if cmd = 1 then
      let (name, c) := readWord c
      let (incRead, c) := readInt c
      mainLoop cnt (← cmdUpdate w name incRead) c
    else if cmd = 2 then
      let (name, c) := readWord c
      mainLoop cnt (← cmdLeave w name) c
    else if cmd = 3 then
      mainLoop cnt (← cmdQuery w) c
    else mainLoop cnt w c

/-- `main` on the standard input `input`; the value is what it writes to `cout`. -/
def main (input : CStr) : Option CStr := do
  let w : World :=
    { patients := rbtree_create, dict := init_hash_map, heap := fun _ => none, nextAddr := 0,
      arrival := 0, out := [] }
  let (tRead, c) := readInt { input := input, fail := false }
  let t ← tRead
  if t < 0 then none
  else (← mainLoop t.toNat w c).out

/-- The lines of a text, each followed by a newline. -/
def unlines : List String → CStr
  | [] => []
  | l :: ls => cstr l ++ 10 :: unlines ls

/-- The script of the dispatcher example. -/
def exampleScript : CStr :=
  unlines ["7", "0 A 5", "0 B 5", "0 C 9", "3", "1 A 10", "3", "2 C", "3"]

/-- The script of the dispatcher example with the count of its eight commands. -/
def exampleScript8 : CStr :=
  unlines ["8", "0 A 5", "0 B 5", "0 C 9", "3", "1 A 10", "3", "2 C", "3"]

/-! ## The order of the `std::set` version (`src/BST/Doctor Kattis/main.cpp`) -/

/-- `Patient::operator<` of the `std::set` version: higher severity first, then
earlier arrival. -/
def Patient.lt (p other : Patient) : Bool :=
  if p.severity ≠ other.severity then decide (p.severity > other.severity)
  else decide (p.arrival < other.arrival)

/-- A patient of the lowest severity an `int` holds, arrived first. -/
def lowPatient : Patient := ⟨-2147483648, 0, cstr "A"⟩

/-- A patient of severity 1, arrived second. -/
def highPatient : Patient := ⟨1, 1, cstr "B"⟩

/-- A script in which `lowPatient` and `highPatient` arrive and the first patient
is queried. -/
def overflowScript : CStr := unlines ["3", "0 A -2147483648", "0 B 1", "3"]

end PatientModel

/-! # Fixed-capacity max-heap and the powers-of-two programs

Shallow embedding of `src/Heaps/Powers-Of-Two-C-implementation/heap.{h,cpp}` and
`main.cpp`, and of `src/Heaps/Powers of two .cpp`.

* `Heap.data` is an array of 200001 cells: a read or a write at an index that is
  not below 200001 is not defined (`none`). The cells are a function from the
  index; `size` and the indices are natural numbers (they never are negative in
  the source, and stay far below the range of `int`).
* Loops and the recursion of `heapify` take fuel, which the callers supply from
  `size`; a result `none` stands for a run that the source does not define.
* The values stored are of type `int`; the programs store powers of two up to
  `2^30` and their halves, so no arithmetic on them leaves the range of `int`.
-/

namespace HeapModel

/-- Number of cells of `Heap::data`. -/
def HEAP_CAPACITY : Nat := 200001

/-- `struct Heap`. -/
structure Heap where
  data : Nat → Int
  size : Nat

/-- The value of `h->data[i]`. -/
def Heap.read (h : Heap) (i : Nat) : Option Int :=
  if i < HEAP_CAPACITY then some (h.data i) else none

/-- The assignment `h->data[i] = v`. -/
def Heap.write (h : Heap) (i : Nat) (v : Int) : Option Heap :=
  if i < HEAP_CAPACITY then some { h with data := fun j => if j = i then v else h.data j }
  else none

/-- `heapify`. -/
def heapify : Nat → Heap → Nat → Option Heap
  | 0, _, _ => none
  | fuel + 1, h, i => do
    let left := 2 * i + 1
    let right := 2 * i + 2
    let largest1 ←
      if left < h.size then do
        let a ← h.read left
        let b ← h.read i
        pure (if a > b then left else i)
      else pure i
    let largest ←
      if right < h.size then do
        let a ← h.read right
        let b ← h.read largest1
        pure (if a > b then right else largest1)
      else pure largest1
    if largest ≠ i then do
      let temp ← h.read i
      let v ← h.read largest
      let h1 ← h.write i v
      let h2 ← h1.write largest temp
      heapify fuel h2 largest
    else pure h

/-- `heap_init`. -/
def heap_init (h : Heap) : Heap := { h with size := 0 }

/-- The loop `while (i > 0)` of `heap_push`. -/
def push_loop : Nat → Heap → Nat → Option Heap
  | 0, _, _ => none
  | fuel + 1, h, i =>
    if i > 0 then do
      let parent := (i - 1) / 2
      let p ← h.read parent
      let c ← h.read i
      if p ≥ c then pure h
      else do
        let temp ← h.read parent
        let h1 ← h.write parent c
        let h2 ← h1.write i temp
        push_loop fuel h2 parent
    else pure h

/-- `heap_push`. -/
def heap_push (h : Heap) (value : Int) : Option Heap := do
  let i := h.size
  let h1 ← ({ h with size := h.size + 1 } : Heap).write i value
  push_loop (i + 1) h1 i

/-- `heap_top`. -/
def heap_top (h : Heap) : Option Int :=
  if h.size > 0 then h.read 0 else some (-1)

/-- `heap_pop`. -/
def heap_pop (h : Heap) : Option Heap :=
  if h.size = 0 then some h
  else do
    let v ← h.read (h.size - 1)
    let h1 ← ({ h with size := h.size - 1 } : Heap).write 0 v
    heapify (h1.size + 1) h1 0

/-- `heap_size`. -/
def heap_size (h : Heap) : Nat := h.size

/-- The loop `for (i = 0; i < n; i++) h->data[i] = arr[i]` of `build_heap`, from the
index `i`, `arr` being the values not yet copied. -/
def copy_loop : List Int → Nat → Heap → Option Heap
  | [], _, h => some h
  | a :: arr, i, h => (h.write i a).bind (copy_loop arr (i + 1))

/-- The loop `for (i = n / 2 - 1; i >= 0; i--) heapify(h, i)` of `build_heap`, with
`cnt = i + 1` iterations left. -/
def build_loop : Nat → Heap → Option Heap
  | 0, h => some h
  | i + 1, h => (heapify (h.size + 1) h i).bind (build_loop i)

/-- `build_heap`, for an array `arr` of `n = arr.length` values. -/
def build_heap (h : Heap) (arr : List Int) : Option Heap :=
  (copy_loop arr 0 h).bind (fun h1 => build_loop (arr.length / 2) { h1 with size := arr.length })

/-! ## The programs -/

/-- What a program writes to `cout`: `no` stands for the line `NO`, `yes parts` for
the line `YES` followed by the line of the numbers `parts`, each followed by a
space. -/
inductive Output where
  | no : Output
  | yes (parts : List Int) : Output
  deriving DecidableEq

/-- The value of the `int` expression `1 << i`; it is not defined for `i >= 31`. -/
def shiftOne (i : Nat) : Option Int := if i < 31 then some (2 ^ i) else none

/-- The `long long` value `n` as a number below `2^64` (two's complement). -/
def bitsOf (n : Int) : Nat := (n % 18446744073709551616).toNat

/-- The loop `for (i = 0; i < 63; ++i) if (n & (1LL << i)) heap_push(&pq, 1 << i)`,
with `cnt` iterations left. -/
def bits_loop (n : Nat) : Nat → Nat → Heap → Option Heap
  | 0, _, h => some h
  | cnt + 1, i, h =>
    if n.testBit i then do
      let v ← shiftOne i
      let h1 ← heap_push h v
      bits_loop n cnt (i + 1) h1
    else bits_loop n cnt (i + 1) h

/-- The loop `while (heap_size(&pq) < k)` of the heap program; the value `none`
inside stands for the exit that prints `NO`. -/
def split_loop (k : Int) : Nat → Heap → Option (Option Heap)
  | 0, _ => none
  | fuel + 1, h =>
    if (heap_size h : Int) < k then do
      let largest ← heap_top h
      let h1 ← heap_pop h
      if largest = 1 then pure none
      else do
        let h2 ← heap_push h1 (largest.tdiv 2)
        let h3 ← heap_push h2 (largest.tdiv 2)
        split_loop k fuel h3
    else pure (some h)

/-- The loop `while (heap_size(&pq) > 0)` of the heap program: the numbers
printed. -/
def drain : Nat → Heap → Option (List Int)
  | 0, _ => none
  | fuel + 1, h =>
    if heap_size h > 0 then do
      let t ← heap_top h
      let h1 ← heap_pop h
      let rest ← drain fuel h1
      pure (t :: rest)
    else pure []

/-- `main` of `Powers-Of-Two-C-implementation/main.cpp` on the input `n k`; `pq` is
the heap the program declares, whose cells hold any values. -/
def mainHeap (pq : Heap) (n k : Int) : Option Output := do
  let h0 := heap_init pq
  let h1 ← bits_loop (bitsOf n) 63 0 h0
  if (heap_size h1 : Int) > k then pure Output.no
  else
    match ← split_loop k (k.toNat + 1) h1 with
    | none => pure Output.no
    | some h2 => do
      let parts ← drain (heap_size h2 + 1) h2
      pure (Output.yes parts)

/-! ## The program over `std::priority_queue` -/

/-- Modelled from the C++ standard: a `std::priority_queue<int>` is the list of its
elements in non-increasing order; `push` inserts an element. -/
def pqPush (q : List Int) (v : Int) : List Int := q.orderedInsert (fun a b => a ≥ b) v

/-- Modelled from the C++ standard: `top()`, not defined on an empty queue. -/
def pqTop (q : List Int) : Option Int := q.head?

/-- Modelled from the C++ standard: `pop()`, not defined on an empty queue. -/
def pqPop : List Int → Option (List Int)
  | [] => none
  | _ :: q => some q

/-- The loop `for (i = 0; i < 63; ++i) if (n & (1LL << i)) pq.push(1 << i)`. -/
def pq_bits_loop (n : Nat) : Nat → Nat → List Int → Option (List Int)
  | 0, _, q => some q
  | cnt + 1, i, q =>
    if n.testBit i then do
      let v ← shiftOne i
      pq_bits_loop n cnt (i + 1) (pqPush q v)
    else pq_bits_loop n cnt (i + 1) q

/-- The loop `while ((int)pq.size() < k)` of the `std::priority_queue` program. -/
def pq_split_loop (k : Int) : Nat → List Int → Option (Option (List Int))
  | 0, _ => none
  | fuel + 1, q =>
    if (q.length : Int) < k then do
      let largest ← pqTop q
      let q1 ← pqPop q
      if largest = 1 then pure none
      else pq_split_loop k fuel (pqPush (pqPush q1 (largest.tdiv 2)) (largest.tdiv 2))
    else pure (some q)

/-- The loop `while (!pq.empty())` of the `std::priority_queue` program: the
numbers printed. -/
def pq_drain : List Int → List Int
  | [] => []
  | t :: q => t :: pq_drain q

/-- `main` of `Powers of two .cpp` on the input `n k`. -/
def mainPQ (n k : Int) : Option Output := do
  let q1 ← pq_bits_loop (bitsOf n) 63 0 []
  if (q1.length : Int) > k then pure Output.no
  else
    match ← pq_split_loop k (k.toNat + 1) q1 with
    | none => pure Output.no
    | some q2 => pure (Output.yes (pq_drain q2))

/-! ## Vocabulary of the claims -/

/-- The max-heap property: `data[(i - 1) / 2] >= data[i]` for every `0 < i < size`. -/
def Heap.maxHeap (h : Heap) : Prop :=
  ∀ i, 0 < i → i < h.size → h.data ((i - 1) / 2) ≥ h.data i

/-- The values stored: `data[0]`, ..., `data[size - 1]`. -/
def Heap.values (h : Heap) : List Int := (List.range h.size).map h.data

/-- Number of one bits among the 64 bits of a `long long` value. -/
def popcount (n : Int) : Nat := ((List.range 64).filter (fun i => (bitsOf n).testBit i)).length

/-- The heap with the cells `data[0..]` holding the values of the list, and 0
elsewhere. -/
def Heap.ofList (l : List Int) : Heap := { data := fun i => l.getD i 0, size := l.length }

/-- A heap in which all 200001 cells are in use. -/
def fullHeap : Heap := { data := fun _ => 0, size := 200001 }

/-! ## Vocabulary of the proofs -/

/-- The cells `d` with the cell `i` set to `v`. -/
def setCell (d : Nat → Int) (i : Nat) (v : Int) : Nat → Int := fun j => if j = i then v else d j

/-- The cells `d` with the cells `i` and `j` exchanged. -/
def swapCells (d : Nat → Int) (i j : Nat) : Nat → Int := setCell (setCell d i (d j)) j (d i)

/-- The multiset of the first `n` cells. -/
def vals (d : Nat → Int) (n : Nat) : Multiset Int := Multiset.map d (Multiset.range n)

/-- The max-heap property on `n` cells but for the edge above `i`; the cells below
`i` are bounded by the cell above `i`. -/
def UpInv (d : Nat → Int) (n i : Nat) : Prop :=
  (∀ j, 0 < j → j < n → j ≠ i → d ((j - 1) / 2) ≥ d j) ∧
    (∀ j, 0 < j → j < n → (j - 1) / 2 = i → 0 < i → d ((i - 1) / 2) ≥ d j)

/-- The max-heap property on the edges whose upper end is at least `lo`. -/
def HeapFrom (d : Nat → Int) (n lo : Nat) : Prop :=
  ∀ j, 0 < j → j < n → lo ≤ (j - 1) / 2 → d ((j - 1) / 2) ≥ d j

/-- The property `HeapFrom` but for the edges below `i`; the cells below `i` are
bounded by the cell above `i`. -/
def DownInv (d : Nat → Int) (n lo i : Nat) : Prop :=
  (∀ j, 0 < j → j < n → lo ≤ (j - 1) / 2 → (j - 1) / 2 ≠ i → d ((j - 1) / 2) ≥ d j) ∧
    (∀ j, 0 < j → j < n → (j - 1) / 2 = i → 0 < i → lo ≤ (i - 1) / 2 → d ((i - 1) / 2) ≥ d j)

/-- The index `largest` that `heapify` computes at `i`. -/
def largestOf (d : Nat → Int) (n i : Nat) : Nat :=
  let largest1 := if 2 * i + 1 < n ∧ d (2 * i + 1) > d i then 2 * i + 1 else i
  if 2 * i + 2 < n ∧ d (2 * i + 2) > d largest1 then 2 * i + 2 else largest1

/-! ## Vocabulary of the proofs on the programs -/

/-- Sum of the powers `2^j` of the one bits of `n` at the positions `i`, ...,
`i + cnt - 1`. -/
def bitSum (n : Nat) : Nat → Nat → Nat
  | 0, _ => 0
  | cnt + 1, i => (if n.testBit i then 2 ^ i else 0) + bitSum n cnt (i + 1)

/-- Number of one bits of `n` at the positions `i`, ..., `i + cnt - 1`. -/
def bitCount (n : Nat) : Nat → Nat → Nat
  | 0, _ => 0
  | cnt + 1, i => (if n.testBit i then 1 else 0) + bitCount n cnt (i + 1)

/-- A queue of the programs: in non-increasing order, holding powers of two. -/
def Parts (q : List Int) : Prop :=
  q.Sorted (fun a b => a ≥ b) ∧ ∀ x ∈ q, ∃ e : Nat, x = 2 ^ e

/-- The heap `h` holds the values of the queue `q`. -/
def Sim (h : Heap) (q : List Int) : Prop :=
  h.maxHeap ∧ h.size ≤ HEAP_CAPACITY ∧ h.values.Perm q ∧ q.Sorted (fun a b => a ≥ b)

end HeapModel

/-! # Theorems: B-Tree -/

namespace BTreeModel

/-! ## The `int` products and the node constructor -/

theorem wrapInt_id {x : Int} (h1 : -2147483648 ≤ x) (h2 : x ≤ 2147483647) : wrapInt x = x := by
  unfold wrapInt
  omega

theorem maxKeys_eq {t : Int} (h1 : 1 ≤ t) (h2 : t ≤ 1073741824) : maxKeys t = 2 * t - 1 := by
  unfold maxKeys wrapInt
  omega

theorem maxKeys_le {t : Int} (ht : 2 ≤ t) : maxKeys t ≤ 2 * t - 1 := by
  unfold maxKeys wrapInt
  omega

theorem maxKeys_cases {t : Int} (ht : 2 ≤ t) : maxKeys t = 2 * t - 1 ∨ maxKeys t < t - 1 := by
  unfold maxKeys wrapInt
  omega

theorem newBTreeNode_eq {t : Int} (h1 : 1 ≤ t) (h2 : t < 1073741824) (leaf : Bool) :
    newBTreeNode t leaf = some ⟨leaf, t, [], []⟩ := by
  have e1 : ¬ maxKeys t < 0 := by
    rw [maxKeys_eq h1 (by omega)]
    omega
  have e2 : ¬ wrapInt (2 * t) < 0 := by
    rw [wrapInt_id (by omega) (by omega)]
    omega
  simp only [newBTreeNode, e1, e2, if_false]

theorem newBTreeNode_none {t : Int} (h1 : 1073741824 ≤ t) (h2 : t ≤ 2147483647) (leaf : Bool) :
    newBTreeNode t leaf = none := by
  have e : maxKeys t < 0 ∨ wrapInt (2 * t) < 0 := by
    unfold maxKeys wrapInt
    omega
  unfold newBTreeNode
  rcases e with e | e
  · rw [if_pos e]
  · split_ifs <;> rfl

theorem newBTreeNode_some {t : Int} {leaf : Bool} {z : BTreeNode}
    (h : newBTreeNode t leaf = some z) : z = ⟨leaf, t, [], []⟩ := by
  unfold newBTreeNode at h
  split_ifs at h
  exact (Option.some.inj h).symm

/-! ## Splitting and rebuilding an alternation at a child -/

theorem Alt_split {P : Int → Int → BTreeNode → List Int → Prop} :
    ∀ (i : Nat) (lo hi : Int) (ks : List Int) (cs : List (Option BTreeNode)) (l : List Int),
      Alt P lo hi ks cs l → i ≤ ks.length →
      ∃ ks1 ks2 cs1 c cs2 L lc R a b,
        ks = ks1 ++ ks2 ∧ cs = cs1 ++ some c :: cs2 ∧ ks1.length = i ∧ cs1.length = i ∧
        l = L ++ lc ++ R ∧ Seg P lo a ks1 cs1 L ∧ P a b c lc ∧ AltR P b hi ks2 cs2 R ∧
        (ks2 ≠ [] → a < b)
  | 0, lo, hi, ks, cs, l, hA, _ => by
    match cs, ks, hA with
    | [], _, hA => simp [Alt] at hA
    | none :: _, _, hA => simp [Alt] at hA
    | some c :: cs1, [], hA =>
      obtain ⟨rfl, hP⟩ := hA
      exact ⟨[], [], [], c, [], [], l, [], lo, hi, rfl, rfl, rfl, rfl, by simp, ⟨rfl, rfl⟩, hP,
        Or.inl ⟨rfl, rfl, rfl, rfl⟩, by simp⟩
    | some c :: cs1, k :: ks1, hA =>
      obtain ⟨l1, l2, rfl, hlt, hP, hrest⟩ := hA
      exact ⟨[], k :: ks1, [], c, cs1, [], l1, k :: l2, lo, k, rfl, rfl, rfl, rfl, by simp,
        ⟨rfl, rfl⟩, hP, Or.inr ⟨ks1, l2, rfl, rfl, hrest⟩, fun _ => hlt⟩
  | i + 1, lo, hi, ks, cs, l, hA, hi' => by
    match cs, ks, hA with
    | [], _, hA => simp [Alt] at hA
    | none :: _, _, hA => simp [Alt] at hA
    | some c :: cs1, [], hA => simp at hi'
    | some c0 :: cs0, k :: ks0, hA =>
      obtain ⟨l1, l2, rfl, hlt, hP, hrest⟩ := hA
      have hle : i ≤ ks0.length := by simpa using hi'
      obtain ⟨ks1, ks2, cs1, c, cs2, L, lc, R, a, b, rfl, rfl, h1, h2, rfl, hS, hPc, hR, hab⟩ :=
        Alt_split i k hi ks0 cs0 l2 hrest hle
      refine ⟨k :: ks1, ks2, some c0 :: cs1, c, cs2, l1 ++ k :: L, lc, R, a, b, rfl, rfl,
        by simp [h1], by simp [h2], by simp, ⟨l1, L, rfl, hlt, hP, hS⟩, hPc, hR, hab⟩

theorem Alt_join {P : Int → Int → BTreeNode → List Int → Prop} :
    ∀ (ks1 : List Int) (cs1 : List (Option BTreeNode)) (lo a b hi : Int) (L lc R : List Int)
      (ks2 : List Int) (c : BTreeNode) (cs2 : List (Option BTreeNode)),
      Seg P lo a ks1 cs1 L → P a b c lc → AltR P b hi ks2 cs2 R → (ks2 ≠ [] → a < b) →
      Alt P lo hi (ks1 ++ ks2) (cs1 ++ some c :: cs2) (L ++ lc ++ R)
  | [], [], lo, a, b, hi, L, lc, R, ks2, c, cs2, hS, hP, hR, hab => by
    obtain ⟨rfl, rfl⟩ := hS
    rcases hR with ⟨rfl, rfl, rfl, rfl⟩ | ⟨ks3, l1, rfl, rfl, hA⟩
    · simpa [Alt] using hP
    · exact ⟨lc, l1, by simp, hab (by simp), hP, hA⟩
  | [], _ :: _, _, _, _, _, _, _, _, _, _, _, hS, _, _, _ => by simp [Seg] at hS
  | _ :: _, [], _, _, _, _, _, _, _, _, _, _, hS, _, _, _ => by simp [Seg] at hS
  | _ :: _, none :: _, _, _, _, _, _, _, _, _, _, _, hS, _, _, _ => by simp [Seg] at hS
  | k :: ks1, some c0 :: cs1, lo, a, b, hi, L, lc, R, ks2, c, cs2, hS, hP, hR, hab => by
    obtain ⟨l1, l2, rfl, hlt, hP0, hS1⟩ := hS
    have := Alt_join ks1 cs1 k a b hi l2 lc R ks2 c cs2 hS1 hP hR hab
    exact ⟨l1, l2 ++ lc ++ R, by simp, hlt, hP0, this⟩

theorem Rep_zero {t : Int} {m lo hi : Int} {n : BTreeNode} {l : List Int} :
    Rep t 0 m lo hi n l ↔
      (n.leaf = true ∧ n.t = t ∧ m ≤ (n.keys.length : Int) ∧ (n.keys.length : Int) ≤ 2 * t - 1 ∧
        n.children = [] ∧ SortedIn lo hi n.keys ∧ l = n.keys) := Iff.rfl

theorem Rep_succ {t : Int} {h : Nat} {m lo hi : Int} {n : BTreeNode} {l : List Int} :
    Rep t (h + 1) m lo hi n l ↔
      (n.leaf = false ∧ n.t = t ∧ m ≤ (n.keys.length : Int) ∧ (n.keys.length : Int) ≤ 2 * t - 1 ∧
        Alt (Rep t h (t - 1)) lo hi n.keys n.children l) := Iff.rfl

theorem Alt_bounds {P : Int → Int → BTreeNode → List Int → Prop} (hP : Bounded P) :
    ∀ (ks : List Int) (cs : List (Option BTreeNode)) (lo hi : Int) (l : List Int),
      Alt P lo hi ks cs l → lo < hi ∧ ∀ x ∈ l, lo < x ∧ x < hi
  | _, [], _, _, _, hA => by simp [Alt] at hA
  | _, none :: _, _, _, _, hA => by simp [Alt] at hA
  | [], some c :: cs, lo, hi, l, hA => hP lo hi c l hA.2
  | k :: ks, some c :: cs, lo, hi, l, hA => by
    obtain ⟨l1, l2, rfl, hlt, hPc, hrest⟩ := hA
    have h1 := hP lo k c l1 hPc
    have h2 := Alt_bounds hP ks cs k hi l2 hrest
    refine ⟨by omega, ?_⟩
    intro x hx
    simp only [List.mem_append, List.mem_cons] at hx
    rcases hx with hx | rfl | hx
    · have := h1.2 x hx; omega
    · omega
    · have := h2.2 x hx; omega

theorem Seg_bounds {P : Int → Int → BTreeNode → List Int → Prop} (hP : Bounded P) :
    ∀ (ks : List Int) (cs : List (Option BTreeNode)) (lo a : Int) (l : List Int),
      Seg P lo a ks cs l → lo ≤ a ∧ ∀ x ∈ l, lo < x ∧ x ≤ a
  | [], [], lo, a, l, hS => by
    obtain ⟨rfl, rfl⟩ := hS
    simp
  | [], _ :: _, _, _, _, hS => by simp [Seg] at hS
  | _ :: _, [], _, _, _, hS => by simp [Seg] at hS
  | _ :: _, none :: _, _, _, _, hS => by simp [Seg] at hS
  | k :: ks, some c :: cs, lo, a, l, hS => by
    obtain ⟨l1, l2, rfl, hlt, hPc, hrest⟩ := hS
    have h1 := hP lo k c l1 hPc
    have h2 := Seg_bounds hP ks cs k a l2 hrest
    refine ⟨by omega, ?_⟩
    intro x hx
    simp only [List.mem_append, List.mem_cons] at hx
    rcases hx with hx | rfl | hx
    · have := h1.2 x hx; omega
    · omega
    · have := h2.2 x hx; omega

theorem AltR_bounds {P : Int → Int → BTreeNode → List Int → Prop} (hP : Bounded P)
    {b hi : Int} {ks : List Int} {cs : List (Option BTreeNode)} {l : List Int}
    (hR : AltR P b hi ks cs l) : b ≤ hi ∧ ∀ x ∈ l, b ≤ x ∧ x < hi := by
  rcases hR with ⟨rfl, rfl, rfl, rfl⟩ | ⟨ks1, l1, rfl, rfl, hA⟩
  · simp
  · have h := Alt_bounds hP ks1 cs b hi l1 hA
    refine ⟨by omega, ?_⟩
    intro x hx
    simp only [List.mem_cons] at hx
    rcases hx with rfl | hx
    · omega
    · have := h.2 x hx; omega

/-- The keys listed by `Seg` are the last key `a` or nothing. -/
theorem Seg_last {P : Int → Int → BTreeNode → List Int → Prop} :
    ∀ (ks : List Int) (cs : List (Option BTreeNode)) (lo a : Int) (l : List Int),
      Seg P lo a ks cs l → a = ks.getLast?.getD lo ∧ (ks ≠ [] → a ∈ l)
  | [], [], lo, a, l, hS => by
    obtain ⟨rfl, rfl⟩ := hS
    simp
  | [], _ :: _, _, _, _, hS => by simp [Seg] at hS
  | _ :: _, [], _, _, _, hS => by simp [Seg] at hS
  | _ :: _, none :: _, _, _, _, hS => by simp [Seg] at hS
  | k :: ks, some c :: cs, lo, a, l, hS => by
    obtain ⟨l1, l2, rfl, hlt, hPc, hrest⟩ := hS
    have h2 := Seg_last ks cs k a l2 hrest
    cases ks with
    | nil =>
      match cs, hrest with
      | [], hrest =>
        obtain ⟨rfl, rfl⟩ := hrest
        simp
      | _ :: _, hrest => simp [Seg] at hrest
    | cons k1 ks1 =>
      refine ⟨?_, fun _ => ?_⟩
      · rw [h2.1, List.getLast?_cons_cons]
        cases hl : (k1 :: ks1).getLast? with
        | none => simp at hl
        | some y => simp
      · have := h2.2 (by simp)
        simp [this]

theorem Rep_bounds {t : Int} (ht : 2 ≤ t) :
    ∀ (h : Nat) (m lo hi : Int) (n : BTreeNode) (l : List Int),
      Rep t h m lo hi n l → (1 ≤ m → lo < hi) ∧ ∀ x ∈ l, lo < x ∧ x < hi
  | 0, m, lo, hi, n, l, hR => by
    obtain ⟨_, _, hm, _, _, hS, rfl⟩ := hR
    refine ⟨fun h1 => ?_, hS.2⟩
    cases hk : n.keys with
    | nil => simp [hk] at hm; omega
    | cons k ks =>
      have := hS.2 k (by simp [hk])
      omega
  | h + 1, m, lo, hi, n, l, hR => by
    obtain ⟨_, _, hm, _, hA⟩ := hR
    have hB : Bounded (Rep t h (t - 1)) := fun lo hi c l hc =>
      ⟨(Rep_bounds ht h (t - 1) lo hi c l hc).1 (by omega),
       (Rep_bounds ht h (t - 1) lo hi c l hc).2⟩
    have := Alt_bounds hB _ _ _ _ _ hA
    exact ⟨fun _ => this.1, this.2⟩

theorem Rep_child_bounded {t : Int} (ht : 2 ≤ t) (h : Nat) : Bounded (Rep t h (t - 1)) :=
  fun lo hi c l hc =>
    ⟨(Rep_bounds ht h (t - 1) lo hi c l hc).1 (by omega),
     (Rep_bounds ht h (t - 1) lo hi c l hc).2⟩

theorem Alt_sorted {P : Int → Int → BTreeNode → List Int → Prop} (hP : Bounded P)
    (hs : ∀ lo hi c l, P lo hi c l → l.Pairwise (fun x y => x < y)) :
    ∀ (ks : List Int) (cs : List (Option BTreeNode)) (lo hi : Int) (l : List Int),
      Alt P lo hi ks cs l → l.Pairwise (fun x y => x < y)
  | _, [], _, _, _, hA => by simp [Alt] at hA
  | _, none :: _, _, _, _, hA => by simp [Alt] at hA
  | [], some c :: cs, lo, hi, l, hA => hs lo hi c l hA.2
  | k :: ks, some c :: cs, lo, hi, l, hA => by
    obtain ⟨l1, l2, rfl, hlt, hPc, hrest⟩ := hA
    have h1 := hP lo k c l1 hPc
    have h2 := Alt_bounds hP ks cs k hi l2 hrest
    have s1 := hs lo k c l1 hPc
    have s2 := Alt_sorted hP hs ks cs k hi l2 hrest
    rw [List.pairwise_append]
    refine ⟨s1, ?_, ?_⟩
    · rw [List.pairwise_cons]
      exact ⟨fun y hy => (h2.2 y hy).1, s2⟩
    · intro x hx y hy
      simp only [List.mem_cons] at hy
      have := h1.2 x hx
      rcases hy with rfl | hy
      · omega
      · have := h2.2 y hy; omega

theorem Rep_sorted {t : Int} (ht : 2 ≤ t) :
    ∀ (h : Nat) (m lo hi : Int) (n : BTreeNode) (l : List Int),
      Rep t h m lo hi n l → l.Pairwise (fun x y => x < y)
  | 0, m, lo, hi, n, l, hR => by
    obtain ⟨_, _, _, _, _, hS, rfl⟩ := hR
    exact hS.1
  | h + 1, m, lo, hi, n, l, hR => by
    obtain ⟨_, _, _, _, hA⟩ := hR
    exact Alt_sorted (Rep_child_bounded ht h) (fun lo hi c l hc => Rep_sorted ht h _ lo hi c l hc)
      _ _ _ _ _ hA

/-- Changing the bounds of an alternation, when every listed key fits. -/
theorem Alt_rebound {P : Int → Int → BTreeNode → List Int → Prop} (hP : Bounded P)
    (hr : ∀ lo hi lo1 hi1 c l, P lo hi c l → lo1 < hi1 → (∀ x ∈ l, lo1 < x ∧ x < hi1) →
      P lo1 hi1 c l) :
    ∀ (ks : List Int) (cs : List (Option BTreeNode)) (lo hi lo1 hi1 : Int) (l : List Int),
      Alt P lo hi ks cs l → lo1 < hi1 → (∀ x ∈ l, lo1 < x ∧ x < hi1) → Alt P lo1 hi1 ks cs l
  | _, [], _, _, _, _, _, hA, _, _ => by simp [Alt] at hA
  | _, none :: _, _, _, _, _, _, hA, _, _ => by simp [Alt] at hA
  | [], some c :: cs, lo, hi, lo1, hi1, l, hA, hlt, hx => ⟨hA.1, hr _ _ _ _ _ _ hA.2 hlt hx⟩
  | k :: ks, some c :: cs, lo, hi, lo1, hi1, l, hA, hlt, hx => by
    obtain ⟨l1, l2, rfl, hlk, hPc, hrest⟩ := hA
    have h1 := hP lo k c l1 hPc
    have h2 := Alt_bounds hP ks cs k hi l2 hrest
    have hk := hx k (by simp)
    refine ⟨l1, l2, rfl, hk.1, ?_, ?_⟩
    · refine hr _ _ _ _ _ _ hPc hk.1 (fun x hx1 => ⟨(hx x (by simp [hx1])).1, (h1.2 x hx1).2⟩)
    · refine Alt_rebound hP hr ks cs k hi k hi1 l2 hrest hk.2
        (fun x hx2 => ⟨(h2.2 x hx2).1, (hx x (by simp [hx2])).2⟩)

theorem Rep_rebound {t : Int} (ht : 2 ≤ t) :
    ∀ (h : Nat) (m lo hi lo1 hi1 : Int) (n : BTreeNode) (l : List Int),
      Rep t h m lo hi n l → lo1 < hi1 → (∀ x ∈ l, lo1 < x ∧ x < hi1) → Rep t h m lo1 hi1 n l
  | 0, m, lo, hi, lo1, hi1, n, l, hR, _, hx => by
    obtain ⟨h1, h2, h3, h4, h5, hS, rfl⟩ := hR
    exact ⟨h1, h2, h3, h4, h5, ⟨hS.1, hx⟩, rfl⟩
  | h + 1, m, lo, hi, lo1, hi1, n, l, hR, hlt, hx => by
    obtain ⟨h1, h2, h3, h4, hA⟩ := hR
    exact ⟨h1, h2, h3, h4, Alt_rebound (Rep_child_bounded ht h)
      (fun lo hi lo1 hi1 c l hc hlt hx => Rep_rebound ht h _ lo hi lo1 hi1 c l hc hlt hx)
      _ _ _ _ _ _ _ hA hlt hx⟩

theorem Rep_mono {t : Int} {h : Nat} {m m1 lo hi : Int} {n : BTreeNode} {l : List Int}
    (hR : Rep t h m lo hi n l) (hm : m1 ≤ m) : Rep t h m1 lo hi n l := by
  cases h with
  | zero =>
    obtain ⟨h1, h2, h3, h4, h5, hS, rfl⟩ := hR
    exact ⟨h1, h2, by omega, h4, h5, hS, rfl⟩
  | succ h =>
    obtain ⟨h1, h2, h3, h4, hA⟩ := hR
    exact ⟨h1, h2, by omega, h4, hA⟩

/-! ## List helpers -/

theorem getElem?_mid {α : Type} (pre : List α) (x : α) (post : List α) :
    (pre ++ x :: post)[pre.length]? = some x := by
  rw [List.getElem?_append_right (le_refl _)]
  simp

theorem getElem?_mid_of_length {α : Type} {pre : List α} {x : α} {post : List α} {i : Nat}
    (h : pre.length = i) : (pre ++ x :: post)[i]? = some x := by
  subst h
  exact getElem?_mid pre x post

theorem set_mid {α : Type} {pre : List α} {x : α} {post : List α} {i : Nat} (y : α)
    (h : pre.length = i) : (pre ++ x :: post).set i y = pre ++ y :: post := by
  subst h
  simp

/-! ## The scanning loops -/

theorem countWhile_le (p : Int → Bool) : ∀ ks : List Int, countWhile p ks ≤ ks.length
  | [] => by simp [countWhile]
  | x :: xs => by
    have := countWhile_le p xs
    simp only [countWhile]
    split
    · simp; omega
    · simp

theorem countWhile_take (p : Int → Bool) :
    ∀ ks : List Int, ∀ x ∈ ks.take (countWhile p ks), p x = true
  | [], x, hx => by simp [countWhile] at hx
  | y :: ys, x, hx => by
    simp only [countWhile] at hx
    split at hx
    · rename_i hy
      simp only [List.take_succ_cons, List.mem_cons] at hx
      rcases hx with rfl | hx
      · exact hy
      · exact countWhile_take p ys x hx
    · simp at hx

theorem countWhile_stop (p : Int → Bool) :
    ∀ (ks : List Int) (y : Int), ks[countWhile p ks]? = some y → p y = false
  | [], y, h => by simp [countWhile] at h
  | x :: xs, y, h => by
    simp only [countWhile] at h
    split at h
    · simp only [List.getElem?_cons_succ] at h
      exact countWhile_stop p xs y h
    · rename_i hx
      simp only [List.getElem?_cons_zero, Option.some.injEq] at h
      subst h
      simpa using hx

theorem countWhile_append (p : Int → Bool) :
    ∀ (ks1 ks2 : List Int), (∀ x ∈ ks1, p x = true) → (∀ y, ks2.head? = some y → p y = false) →
      countWhile p (ks1 ++ ks2) = ks1.length
  | [], ks2, _, h2 => by
    cases ks2 with
    | nil => simp [countWhile]
    | cons y ys =>
      have := h2 y rfl
      simp [countWhile, this]
  | x :: xs, ks2, h1, h2 => by
    have hx := h1 x (by simp)
    have := countWhile_append p xs ks2 (fun y hy => h1 y (by simp [hy])) h2
    simp [countWhile, hx, this]

/-! ## Facts about the keys of an alternation -/

theorem Alt_length {P : Int → Int → BTreeNode → List Int → Prop} :
    ∀ (ks : List Int) (cs : List (Option BTreeNode)) (lo hi : Int) (l : List Int),
      Alt P lo hi ks cs l → cs.length = ks.length + 1
  | _, [], _, _, _, hA => by simp [Alt] at hA
  | _, none :: _, _, _, _, hA => by simp [Alt] at hA
  | [], some c :: cs, lo, hi, l, hA => by simp [hA.1]
  | k :: ks, some c :: cs, lo, hi, l, hA => by
    obtain ⟨l1, l2, rfl, hlt, hPc, hrest⟩ := hA
    simp [Alt_length ks cs k hi l2 hrest]

theorem Alt_keys_mem {P : Int → Int → BTreeNode → List Int → Prop} :
    ∀ (ks : List Int) (cs : List (Option BTreeNode)) (lo hi : Int) (l : List Int),
      Alt P lo hi ks cs l → ∀ k ∈ ks, k ∈ l
  | _, [], _, _, _, hA => by simp [Alt] at hA
  | _, none :: _, _, _, _, hA => by simp [Alt] at hA
  | [], some c :: cs, lo, hi, l, hA => by simp
  | k :: ks, some c :: cs, lo, hi, l, hA => by
    obtain ⟨l1, l2, rfl, hlt, hPc, hrest⟩ := hA
    intro x hx
    simp only [List.mem_cons] at hx
    rcases hx with rfl | hx
    · simp
    · have := Alt_keys_mem ks cs k hi l2 hrest x hx
      simp [this]

theorem Alt_keys_sorted {P : Int → Int → BTreeNode → List Int → Prop} (hP : Bounded P) :
    ∀ (ks : List Int) (cs : List (Option BTreeNode)) (lo hi : Int) (l : List Int),
      Alt P lo hi ks cs l → SortedIn lo hi ks
  | _, [], _, _, _, hA => by simp [Alt] at hA
  | _, none :: _, _, _, _, hA => by simp [Alt] at hA
  | [], some c :: cs, lo, hi, l, hA => by simp [SortedIn]
  | k :: ks, some c :: cs, lo, hi, l, hA => by
    have hb := Alt_bounds hP _ _ _ _ _ hA
    have hm := Alt_keys_mem _ _ _ _ _ hA
    obtain ⟨l1, l2, rfl, hlt, hPc, hrest⟩ := hA
    have ih := Alt_keys_sorted hP ks cs k hi l2 hrest
    refine ⟨?_, fun x hx => hb.2 x (hm x hx)⟩
    rw [List.pairwise_cons]
    exact ⟨fun y hy => (ih.2 y hy).1, ih.1⟩

theorem Alt_depth {P : Int → Int → BTreeNode → List Int → Prop} {d : Nat}
    (hP : ∀ lo hi c l, P lo hi c l → c.depth = d) :
    ∀ (ks : List Int) (cs : List (Option BTreeNode)) (lo hi : Int) (l : List Int),
      Alt P lo hi ks cs l → depthList cs = d
  | _, [], _, _, _, hA => by simp [Alt] at hA
  | _, none :: _, _, _, _, hA => by simp [Alt] at hA
  | [], some c :: cs, lo, hi, l, hA => by
    obtain ⟨rfl, hc⟩ := hA
    simp [depthList, depthOpt, hP _ _ _ _ hc]
  | k :: ks, some c :: cs, lo, hi, l, hA => by
    obtain ⟨l1, l2, rfl, hlt, hPc, hrest⟩ := hA
    simp [depthList, depthOpt, hP _ _ _ _ hPc, Alt_depth hP ks cs k hi l2 hrest]

theorem Rep_depth {t : Int} :
    ∀ (h : Nat) (m lo hi : Int) (n : BTreeNode) (l : List Int),
      Rep t h m lo hi n l → n.depth = h + 1
  | 0, m, lo, hi, n, l, hR => by
    obtain ⟨_, _, _, _, hc, _, _⟩ := hR
    cases n
    simp only at hc
    simp [BTreeNode.depth, hc, depthList]
  | h + 1, m, lo, hi, n, l, hR => by
    obtain ⟨_, _, _, _, hA⟩ := hR
    have := Alt_depth (fun lo hi c l hc => Rep_depth h _ lo hi c l hc) _ _ _ _ _ hA
    cases n
    simp only at this
    simp [BTreeNode.depth, this]

/-! ## Traversal -/

theorem traverseLoop_leaf (rec : BTreeNode → Option (List Int)) (cs : List (Option BTreeNode)) :
    ∀ (ks : List Int) (i : Nat), traverseLoop rec true cs ks i = some ks
  | [], i => by simp [traverseLoop]
  | k :: ks, i => by simp [traverseLoop, traverseLoop_leaf rec cs ks (i + 1)]

theorem traverseLoop_alt {P : Int → Int → BTreeNode → List Int → Prop}
    (rec : BTreeNode → Option (List Int)) (hrec : ∀ lo hi c l, P lo hi c l → rec c = some l) :
    ∀ (ks : List Int) (cs pre : List (Option BTreeNode)) (lo hi : Int) (l : List Int),
      Alt P lo hi ks cs l → traverseLoop rec false (pre ++ cs) ks pre.length = some l
  | _, [], _, _, _, _, hA => by simp [Alt] at hA
  | _, none :: _, _, _, _, _, hA => by simp [Alt] at hA
  | [], some c :: cs, pre, lo, hi, l, hA => by
    obtain ⟨rfl, hc⟩ := hA
    simp only [traverseLoop, getElem?_mid, hrec _ _ _ _ hc]
    simp
  | k :: ks, some c :: cs, pre, lo, hi, l, hA => by
    obtain ⟨l1, l2, rfl, hlt, hPc, hrest⟩ := hA
    have ih := traverseLoop_alt rec hrec ks cs (pre ++ [some c]) k hi l2 hrest
    simp only [List.append_assoc, List.singleton_append, List.length_append, List.length_singleton]
      at ih
    simp only [traverseLoop, getElem?_mid, hrec _ _ _ _ hPc, ih]
    simp

theorem Rep_traverse {t : Int} :
    ∀ (h : Nat) (fuel : Nat) (m lo hi : Int) (n : BTreeNode) (l : List Int),
      Rep t h m lo hi n l → h < fuel → n.traverse fuel = some l
  | _, 0, _, _, _, _, _, _, hf => by omega
  | 0, fuel + 1, m, lo, hi, n, l, hR, _ => by
    obtain ⟨hl, _, _, _, _, _, rfl⟩ := hR
    simp [BTreeNode.traverse, hl, traverseLoop_leaf]
  | h + 1, fuel + 1, m, lo, hi, n, l, hR, hf => by
    obtain ⟨hl, _, _, _, hA⟩ := hR
    have := traverseLoop_alt (BTreeNode.traverse fuel)
      (fun lo hi c l hc => Rep_traverse h fuel _ lo hi c l hc (by omega)) _ _ [] _ _ _ hA
    simpa [BTreeNode.traverse, hl] using this

/-! ## Locating the child to descend into -/

theorem Seg_nil_left {P : Int → Int → BTreeNode → List Int → Prop} {lo a : Int}
    {cs : List (Option BTreeNode)} {l : List Int} (hS : Seg P lo a [] cs l) :
    cs = [] ∧ a = lo ∧ l = [] := by
  cases cs with
  | nil => exact ⟨rfl, hS.1, hS.2⟩
  | cons c cs => simp [Seg] at hS

theorem sorted_find {ks : List Int} (hs : ks.Pairwise (fun x y => x < y)) (k : Int) :
    ks[countWhile (fun x => decide (x < k)) ks]? = some k ↔ k ∈ ks := by
  constructor
  · intro h
    exact List.getElem?_mem h
  · intro hk
    have hsplit := List.take_append_drop (countWhile (fun x => decide (x < k)) ks) ks
    have htake := countWhile_take (fun x => decide (x < k)) ks
    have hstop := countWhile_stop (fun x => decide (x < k)) ks
    rw [← hsplit] at hk
    rcases List.mem_append.1 hk with hk | hk
    · have := htake k hk
      simp at this
    · cases hd : ks.drop (countWhile (fun x => decide (x < k)) ks) with
      | nil => simp [hd] at hk
      | cons y rest =>
        have hy : ks[countWhile (fun x => decide (x < k)) ks]? = some y := by
          have := congrArg List.head? hd
          simpa [List.head?_drop] using this
        have hny := hstop y hy
        simp only [decide_eq_false_iff_not, not_lt] at hny
        rw [hd] at hk
        rcases List.mem_cons.1 hk with rfl | hk
        · exact hy
        · have hsub : (y :: rest).Pairwise (fun x y => x < y) := by
            rw [← hd]
            exact hs.sublist (List.drop_sublist _ _)
          have := (List.pairwise_cons.1 hsub).1 k hk
          omega

theorem Alt_locate {P : Int → Int → BTreeNode → List Int → Prop} (hP : Bounded P)
    {lo hi : Int} {ks : List Int} {cs : List (Option BTreeNode)} {l : List Int}
    (hA : Alt P lo hi ks cs l) (k : Int)
    (hne : ks[countWhile (fun x => decide (x < k)) ks]? ≠ some k) :
    ∃ ks1 ks2 cs1 c cs2 L lc R a b,
      ks = ks1 ++ ks2 ∧ cs = cs1 ++ some c :: cs2 ∧
      ks1.length = countWhile (fun x => decide (x < k)) ks ∧
      cs1.length = countWhile (fun x => decide (x < k)) ks ∧
      l = L ++ lc ++ R ∧ Seg P lo a ks1 cs1 L ∧ P a b c lc ∧ AltR P b hi ks2 cs2 R ∧
      (ks2 ≠ [] → a < b) ∧ k ∉ L ∧ k ∉ R ∧ (lo < k → a < k) ∧ (k < hi → k < b) := by
  obtain ⟨ks1, ks2, cs1, c, cs2, L, lc, R, a, b, hks, hcs, h1, h2, hl, hS, hPc, hR, hab⟩ :=
    Alt_split (countWhile (fun x => decide (x < k)) ks) lo hi ks cs l hA (countWhile_le _ _)
  have htake : ∀ x ∈ ks1, x < k := by
    intro x hx
    have e : ks.take ks1.length = ks1 := by rw [hks]; simp
    have := countWhile_take (fun x => decide (x < k)) ks x
    rw [← h1, e] at this
    simpa using this hx
  have hL : k ∉ L ∧ (lo < k → a < k) := by
    cases hk1 : ks1 with
    | nil =>
      rw [hk1] at hS
      obtain ⟨_, rfl, rfl⟩ := Seg_nil_left hS
      simp
    | cons y ys =>
      have hlast := Seg_last _ _ _ _ _ hS
      have hbd := Seg_bounds hP _ _ _ _ _ hS
      have hmem : a ∈ ks1 := by
        rw [hlast.1, hk1]
        have := List.getLast?_eq_getLast (y :: ys) (by simp)
        rw [this]
        exact List.getLast_mem _
      have hak := htake a hmem
      refine ⟨fun hkL => ?_, fun _ => hak⟩
      have := (hbd.2 k hkL).2
      omega
  have hRr : k ∉ R ∧ (k < hi → k < b) := by
    rcases hR with ⟨rfl, rfl, rfl, rfl⟩ | ⟨ks3, l1, rfl, rfl, hA1⟩
    · simp
    · have hget : ks[countWhile (fun x => decide (x < k)) ks]? = some b := by
        have e : (ks1 ++ b :: ks3)[ks1.length]? = some b := getElem?_mid _ _ _
        rw [← hks, h1] at e
        exact e
      have hstop := countWhile_stop _ _ _ hget
      simp only [decide_eq_false_iff_not, not_lt] at hstop
      have hbk : b ≠ k := by
        intro hbk
        rw [hbk] at hget
        exact hne hget
      have hkb : k < b := by omega
      have hbd := AltR_bounds hP (Or.inr ⟨ks3, l1, rfl, rfl, hA1⟩ : AltR P b hi (b :: ks3) cs2 (b :: l1))
      refine ⟨fun hkR => ?_, fun _ => hkb⟩
      have := (hbd.2 k hkR).1
      omega
  exact ⟨ks1, ks2, cs1, c, cs2, L, lc, R, a, b, hks, hcs, h1, h2, hl, hS, hPc, hR, hab,
    hL.1, hRr.1, hL.2, hRr.2⟩

/-! ## Search -/

theorem Rep_search {t : Int} (ht : 2 ≤ t) (k : Int) :
    ∀ (h : Nat) (fuel : Nat) (m lo hi : Int) (n : BTreeNode) (l : List Int),
      Rep t h m lo hi n l → h < fuel →
      ∃ r, n.search fuel k = some r ∧ (r = none ↔ k ∉ l) ∧ ∀ n1, r = some n1 → k ∈ n1.keys
  | _, 0, _, _, _, _, _, _, hf => by omega
  | 0, fuel + 1, m, lo, hi, n, l, hR, _ => by
    obtain ⟨hl, _, _, _, _, hS, rfl⟩ := hR
    have hfind := sorted_find hS.1 k
    by_cases hk : k ∈ n.keys
    · refine ⟨some n, ?_, by simp [hk], ?_⟩
      · simp only [BTreeNode.search, gt_iff_lt, hfind.2 hk, if_true]
      · intro n1 h1
        cases h1
        exact hk
    · refine ⟨none, ?_, by simp [hk], by simp⟩
      have : ¬ (n.keys[countWhile (fun x => decide (x < k)) n.keys]? = some k) :=
        fun h => hk (hfind.1 h)
      simp only [BTreeNode.search, gt_iff_lt, this, if_false, hl, if_true]
  | h + 1, fuel + 1, m, lo, hi, n, l, hR, hf => by
    obtain ⟨hl, _, _, _, hA⟩ := hR
    have hB := Rep_child_bounded ht h
    by_cases hk : n.keys[countWhile (fun x => decide (x < k)) n.keys]? = some k
    · have hmem : k ∈ n.keys := List.getElem?_mem hk
      refine ⟨some n, ?_, ?_, ?_⟩
      · simp only [BTreeNode.search, gt_iff_lt, hk, if_true]
      · simp [Alt_keys_mem _ _ _ _ _ hA k hmem]
      · intro n1 h1
        cases h1
        exact hmem
    · obtain ⟨ks1, ks2, cs1, c, cs2, L, lc, R, a, b, hks, hcs, h1, h2, rfl, hS, hPc, hR, hab,
        hkL, hkR, _, _⟩ := Alt_locate hB hA k hk
      obtain ⟨r, hr, hnone, hsome⟩ := Rep_search ht k h fuel _ a b c lc hPc (by omega)
      refine ⟨r, ?_, ?_, hsome⟩
      · have hc : n.children[countWhile (fun x => decide (x < k)) n.keys]? = some (some c) := by
          rw [hcs]
          exact getElem?_mid_of_length h2
        simp only [BTreeNode.search, gt_iff_lt, hk, if_false, hl, hc]
        simpa using hr
      · rw [hnone]
        simp [hkL, hkR]

/-! ## More list helpers -/

theorem insertIdx_mid {α : Type} : ∀ (pre post : List α) (x : α),
    (pre ++ post).insertIdx pre.length x = pre ++ x :: post
  | [], post, x => by simp [List.insertIdx_zero]
  | a :: pre, post, x => by
    simp [List.insertIdx_succ_cons, insertIdx_mid pre post x]

theorem insertIdx_mid_of_length {α : Type} {pre post : List α} {i : Nat} (x : α)
    (h : pre.length = i) : (pre ++ post).insertIdx i x = pre ++ x :: post := by
  subst h
  exact insertIdx_mid pre post x

theorem eraseIdx_mid_of_length {α : Type} {pre post : List α} {i : Nat} (x : α)
    (h : pre.length = i) : (pre ++ x :: post).eraseIdx i = pre ++ post := by
  subst h
  rw [List.eraseIdx_append_of_length_le (le_refl _)]
  simp

theorem resize_of_le {α : Type} (l : List α) (n : Nat) (pad : α) (h : n ≤ l.length) :
    resize l n pad = l.take n := by
  simp [resize, Nat.sub_eq_zero_of_le h]

theorem sorted_split {ks : List Int} (hs : ks.Pairwise (fun x y => x < y)) {k : Int}
    (hk : k ∉ ks) :
    (∀ x ∈ ks.take (countWhile (fun x => decide (x < k)) ks), x < k) ∧
    (∀ y ∈ ks.drop (countWhile (fun x => decide (x < k)) ks), k < y) := by
  refine ⟨fun x hx => by simpa using countWhile_take _ ks x hx, ?_⟩
  intro y hy
  have hyk : y ≠ k := fun e => hk (e ▸ List.mem_of_mem_drop hy)
  cases hd : ks.drop (countWhile (fun x => decide (x < k)) ks) with
  | nil => simp [hd] at hy
  | cons y0 rest =>
    have hy0 : ks[countWhile (fun x => decide (x < k)) ks]? = some y0 := by
      have := congrArg List.head? hd
      simpa [List.head?_drop] using this
    have hny := countWhile_stop _ ks y0 hy0
    simp only [decide_eq_false_iff_not, not_lt] at hny
    have hy0k : y0 ≠ k := fun e => hk (e ▸ List.getElem?_mem hy0)
    rw [hd] at hy
    rcases List.mem_cons.1 hy with rfl | hy
    · omega
    · have hsub : (y0 :: rest).Pairwise (fun x y => x < y) := by
        rw [← hd]
        exact hs.sublist (List.drop_sublist _ _)
      have := (List.pairwise_cons.1 hsub).1 y hy
      omega

theorem insert_idx_eq {ks : List Int} (hs : ks.Pairwise (fun x y => x < y)) {k : Int}
    (hk : k ∉ ks) :
    ks.length - countWhile (fun x => decide (x > k)) ks.reverse =
      countWhile (fun x => decide (x < k)) ks := by
  obtain ⟨h1, h2⟩ := sorted_split hs hk
  have hle := countWhile_le (fun x => decide (x < k)) ks
  generalize countWhile (fun x => decide (x < k)) ks = idx at h1 h2 hle
  have e : ks.reverse = (ks.drop idx).reverse ++ (ks.take idx).reverse := by
    rw [← List.reverse_append, List.take_append_drop]
  have := countWhile_append (fun x => decide (x > k)) (ks.drop idx).reverse (ks.take idx).reverse
    (fun x hx => by simpa using h2 x (List.mem_reverse.1 hx))
    (fun y hy => by
      have hm : y ∈ (ks.take idx).reverse := List.mem_of_mem_head? hy
      have := h1 y (List.mem_reverse.1 hm)
      simp only [gt_iff_lt, decide_eq_false_iff_not, not_lt]
      omega)
  rw [e, this]
  simp
  omega

theorem sorted_insert {ks : List Int} (hs : ks.Pairwise (fun x y => x < y)) {k : Int}
    (hk : k ∉ ks) :
    (ks.take (countWhile (fun x => decide (x < k)) ks) ++
      k :: ks.drop (countWhile (fun x => decide (x < k)) ks)).Pairwise (fun x y => x < y) := by
  obtain ⟨h1, h2⟩ := sorted_split hs hk
  rw [List.pairwise_append]
  refine ⟨hs.sublist (List.take_sublist _ _), ?_, ?_⟩
  · rw [List.pairwise_cons]
    exact ⟨h2, hs.sublist (List.drop_sublist _ _)⟩
  · intro x hx y hy
    have := h1 x hx
    rcases List.mem_cons.1 hy with rfl | hy
    · exact this
    · have := h2 y hy
      omega

theorem mem_take_drop_insert {ks : List Int} (i : Nat) (k x : Int) :
    x ∈ ks.take i ++ k :: ks.drop i ↔ x = k ∨ x ∈ ks := by
  conv => rhs; rw [← List.take_append_drop i ks]
  simp only [List.mem_append, List.mem_cons]
  tauto

/-! ## Splitting a full node -/

theorem Rep_split {T : Nat} (hT : 2 ≤ T) :
    ∀ (h : Nat) (a b : Int) (y : BTreeNode) (ly : List Int),
      Rep (T : Int) h ((T : Int) - 1) a b y ly → y.keys.length = 2 * T - 1 →
      ∃ mid l1 l2, y.keys[T - 1]? = some mid ∧ ly = l1 ++ mid :: l2 ∧ a < mid ∧ mid < b ∧
        Rep (T : Int) h ((T : Int) - 1) a mid (splitLeft T y) l1 ∧
        Rep (T : Int) h ((T : Int) - 1) mid b (splitRight T y) l2 ∧
        (y.leaf = false → y.children.length = 2 * T)
  | 0, a, b, y, ly, hR, hlen => by
    obtain ⟨hl, ht, _, _, hc, hS, rfl⟩ := hR
    have hlt : T - 1 < y.keys.length := by omega
    have hsplit : y.keys = y.keys.take (T - 1) ++ y.keys[T - 1] :: y.keys.drop T := by
      have h1 := List.take_append_drop (T - 1) y.keys
      have h2 := List.drop_eq_getElem_cons hlt
      rw [h2] at h1
      have e : T - 1 + 1 = T := by omega
      rw [e] at h1
      exact h1.symm
    have hpw := hS.1
    rw [hsplit, List.pairwise_append] at hpw
    obtain ⟨p1, p2, p3⟩ := hpw
    rw [List.pairwise_cons] at p2
    have hmid := hS.2 (y.keys[T - 1]) (List.getElem_mem _)
    refine ⟨y.keys[T - 1], y.keys.take (T - 1), y.keys.drop T, ?_, hsplit, hmid.1, hmid.2, ?_, ?_,
      by simp [hl]⟩
    · exact List.getElem?_eq_getElem hlt
    · refine ⟨hl, ht, ?_, ?_, by simp [splitLeft, hl, hc], ⟨?_, ?_⟩, ?_⟩
      · simp [splitLeft, resize_of_le _ _ _ (le_of_lt hlt)]; omega
      · simp [splitLeft, resize_of_le _ _ _ (le_of_lt hlt)]; omega
      · simpa [splitLeft, resize_of_le _ _ _ (le_of_lt hlt)] using p1
      · intro x hx
        simp only [splitLeft, resize_of_le _ _ _ (le_of_lt hlt)] at hx
        exact ⟨(hS.2 x (List.mem_of_mem_take hx)).1, p3 x hx _ (by simp)⟩
      · simp [splitLeft, resize_of_le _ _ _ (le_of_lt hlt)]
    · have hdl : (y.keys.drop T).take (T - 1) = y.keys.drop T :=
        List.take_of_length_le (by simp; omega)
      refine ⟨hl, ht, ?_, ?_, by simp [splitRight, hl], ⟨?_, ?_⟩, ?_⟩
      · simp [splitRight, hdl]; omega
      · simp [splitRight, hdl]; omega
      · simpa [splitRight, hdl] using p2.2
      · intro x hx
        simp only [splitRight, hdl] at hx
        exact ⟨p2.1 x hx, (hS.2 x (List.mem_of_mem_drop hx)).2⟩
      · simp [splitRight, hdl]
  | h + 1, a, b, y, ly, hR, hlen => by
    obtain ⟨hl, ht, _, _, hA⟩ := hR
    have hcl := Alt_length _ _ _ _ _ hA
    have hB := Rep_child_bounded (t := (T : Int)) (by omega) h
    obtain ⟨ks1, ks2, cs1, c, cs2, L, lc, R, a1, b1, hks, hcs, h1, h2, rfl, hS, hPc, hRr, hab⟩ :=
      Alt_split (T - 1) a b y.keys y.children ly hA (by omega)
    have hk2 : ks2.length = T := by
      have := congrArg List.length hks
      simp at this; omega
    rcases hRr with ⟨rfl, _, _, _⟩ | ⟨ks3, l3, rfl, rfl, hA3⟩
    · simp at hk2; omega
    · have hk3 : ks3.length = T - 1 := by simp at hk2; omega
      have hc2 : cs2.length = T := by
        have := Alt_length _ _ _ _ _ hA3
        omega
      have hbd := Alt_bounds hB _ _ _ _ _ hA
      have hmid := hbd.2 b1 (by simp)
      have hkeysL : resize y.keys (T - 1) 0 = ks1 := by
        rw [resize_of_le _ _ _ (by omega), hks]
        exact List.take_left' h1
      have hkeysR : (y.keys.drop T).take (T - 1) = ks3 := by
        have e : y.keys = (ks1 ++ [b1]) ++ ks3 := by simp [hks]
        rw [e, List.drop_left' (by simp; omega)]
        exact List.take_of_length_le (by omega)
      have hchL : resize y.children T none = cs1 ++ [some c] := by
        rw [resize_of_le _ _ _ (by omega)]
        have e : y.children = (cs1 ++ [some c]) ++ cs2 := by simp [hcs]
        rw [e]
        exact List.take_left' (by simp; omega)
      have hchR : (y.children.drop T).take T = cs2 := by
        have e : y.children = (cs1 ++ [some c]) ++ cs2 := by simp [hcs]
        rw [e, List.drop_left' (by simp; omega)]
        exact List.take_of_length_le (by omega)
      refine ⟨b1, L ++ lc, l3, ?_, by simp, hmid.1, hmid.2, ?_, ?_, fun _ => by omega⟩
      · rw [hks]
        exact getElem?_mid_of_length h1
      · refine ⟨hl, ht, ?_, ?_, ?_⟩
        · simp [splitLeft, hkeysL]; omega
        · simp [splitLeft, hkeysL]; omega
        · have := Alt_join ks1 cs1 a a1 b1 b1 L lc [] [] c [] hS hPc
            (Or.inl ⟨rfl, rfl, rfl, rfl⟩) (by simp)
          simpa [splitLeft, hl, hkeysL, hchL] using this
      · refine ⟨hl, ht, ?_, ?_, ?_⟩
        · simp [splitRight, hkeysR]; omega
        · simp [splitRight, hkeysR]; omega
        · simpa [splitRight, hl, hkeysR, hchR] using hA3

/-! ## Insertion -/

theorem Alt_join3 {P : Int → Int → BTreeNode → List Int → Prop}
    {ks1 ks2 : List Int} {cs1 cs2 : List (Option BTreeNode)} {lo a mid b hi : Int}
    {L l1 l2 R : List Int} {y z : BTreeNode}
    (hS : Seg P lo a ks1 cs1 L) (hy : P a mid y l1) (hz : P mid b z l2)
    (h1 : a < mid) (h2 : mid < b) (hR : AltR P b hi ks2 cs2 R) :
    Alt P lo hi (ks1 ++ mid :: ks2) (cs1 ++ some y :: some z :: cs2)
      (L ++ l1 ++ mid :: (l2 ++ R)) := by
  have inner : Alt P mid hi ks2 (some z :: cs2) (l2 ++ R) := by
    have := Alt_join [] [] mid mid b hi [] l2 R ks2 z cs2 ⟨rfl, rfl⟩ hz hR (fun _ => h2)
    simpa using this
  exact Alt_join ks1 cs1 lo a mid hi L l1 (mid :: (l2 ++ R)) (mid :: ks2) y (some z :: cs2) hS hy
    (Or.inr ⟨ks2, l2 ++ R, rfl, rfl, inner⟩) (fun _ => h1)

theorem splitChild_eq {p y : BTreeNode} {i T : Nat} {mid : Int} (hp : p.t = (T : Int))
    (hT : 2 ≤ T) (hT30 : T < 1073741824) (hy : y.t = (T : Int))
    (hc : p.children[i]? = some (some y)) (hk : y.keys[T - 1]? = some mid)
    (hlen : y.keys.length = 2 * T - 1) (hch : y.leaf = false → y.children.length = 2 * T)
    (hi : i ≤ p.keys.length) :
    p.splitChild i = some
      { p with
        children := (p.children.set i (some (splitLeft T y))).insertIdx (i + 1)
          (some (splitRight T y)),
        keys := p.keys.insertIdx i mid } := by
  have hcl : i < p.children.length := by
    rcases Nat.lt_or_ge i p.children.length with h | h
    · exact h
    · rw [List.getElem?_eq_none h] at hc
      cases hc
  have h1 : ¬ ((T : Int) < 1) := by omega
  have h2 : ¬ (1 < T ∧ y.keys.length < 2 * T - 1) := by omega
  have h3 : ¬ (y.leaf = false ∧ y.children.length < 2 * T) := by
    rintro ⟨hf, hlt⟩
    have := hch hf
    omega
  have h4 : ¬ (p.children.length < i + 1 ∨ p.keys.length < i) := by omega
  have hnew : newBTreeNode y.t y.leaf = some ⟨y.leaf, y.t, [], []⟩ :=
    newBTreeNode_eq (by omega) (by omega) y.leaf
  simp only [BTreeNode.splitChild, hc, hnew, hp, h1, if_false, Int.toNat_ofNat, hk, h2, h3, h4]
  rfl

theorem mem_ins_ctx {A lc lc1 B : List Int} {k : Int} (h : ∀ x, x ∈ lc1 ↔ x = k ∨ x ∈ lc)
    (x : Int) : x ∈ A ++ lc1 ++ B ↔ x = k ∨ x ∈ A ++ lc ++ B := by
  simp only [List.mem_append, h]
  constructor
  · rintro ((h1 | h1 | h1) | h1)
    · exact Or.inr (Or.inl (Or.inl h1))
    · exact Or.inl h1
    · exact Or.inr (Or.inl (Or.inr h1))
    · exact Or.inr (Or.inr h1)
  · rintro (h1 | (h1 | h1) | h1)
    · exact Or.inl (Or.inr (Or.inl h1))
    · exact Or.inl (Or.inl h1)
    · exact Or.inl (Or.inr (Or.inr h1))
    · exact Or.inr h1

set_option maxHeartbeats 1000000 in
theorem Rep_insertNonFull {T : Nat} (hT : 2 ≤ T) (hT30 : T < 1073741824) (k : Int) :
    ∀ (h fuel : Nat) (m lo hi : Int) (n : BTreeNode) (l : List Int),
      Rep (T : Int) h m lo hi n l → n.keys.length < 2 * T - 1 → lo < k → k < hi → k ∉ l →
      h < fuel →
      ∃ n1 l1, n.insertNonFull fuel k = some n1 ∧ Rep (T : Int) h m lo hi n1 l1 ∧
        n.keys.length ≤ n1.keys.length ∧ ∀ x, x ∈ l1 ↔ x = k ∨ x ∈ l
  | _, 0, _, _, _, _, _, _, _, _, _, _, hf => by omega
  | 0, fuel + 1, m, lo, hi, n, l, hR, hlen, hlo, hhi, hk, _ => by
    obtain ⟨hl, ht, hm, _, hc, hS, rfl⟩ := hR
    have hidx := insert_idx_eq hS.1 hk
    have hres : n.insertNonFull (fuel + 1) k = some
        { leaf := n.leaf, t := n.t,
          keys := n.keys.take (countWhile (fun x => decide (x < k)) n.keys) ++
            k :: n.keys.drop (countWhile (fun x => decide (x < k)) n.keys),
          children := n.children } := by
      simp only [BTreeNode.insertNonFull, hl, if_true, hidx]
    refine ⟨_, _, hres, ⟨hl, ht, ?_, ?_, hc, ⟨?_, ?_⟩, rfl⟩, ?_, ?_⟩
    · simp; omega
    · simp; omega
    · exact sorted_insert hS.1 hk
    · intro x hx
      rcases (mem_take_drop_insert _ k x).1 hx with rfl | hx
      · exact ⟨hlo, hhi⟩
      · exact hS.2 x hx
    · simp; omega
    · intro x
      exact mem_take_drop_insert _ k x
  | h + 1, fuel + 1, m, lo, hi, n, l, hR, hlen, hlo, hhi, hk, hf => by
    obtain ⟨hl, ht, hm, hmax, hA⟩ := hR
    have hW : maxKeys (T : Int) = 2 * (T : Int) - 1 := maxKeys_eq (by omega) (by omega)
    have hB := Rep_child_bounded (t := (T : Int)) (by omega) h
    have hKS := Alt_keys_sorted hB _ _ _ _ _ hA
    have hkk : k ∉ n.keys := fun hmem => hk (Alt_keys_mem _ _ _ _ _ hA k hmem)
    have hidx := insert_idx_eq hKS.1 hkk
    have hne : n.keys[countWhile (fun x => decide (x < k)) n.keys]? ≠ some k :=
      fun e => hkk (List.getElem?_mem e)
    obtain ⟨ks1, ks2, cs1, c, cs2, L, lc, R, a, b, hks, hcs, h1, h2, rfl, hS, hPc, hRr, hab,
      hkL, hkR, hak, hkb⟩ := Alt_locate hB hA k hne
    have hak := hak hlo
    have hkb := hkb hhi
    have hkc : k ∉ lc := fun hmem => hk (by simp [hmem])
    generalize countWhile (fun x => decide (x < k)) n.keys = idx at hidx h1 h2
    have hchild : n.children[idx]? = some (some c) := by
      rw [hcs]
      exact getElem?_mid_of_length h2
    have hcR := hPc
    by_cases hfull : (c.keys.length : Int) = 2 * (T : Int) - 1
    · -- the child is full: split it first
      have hfull1 : c.keys.length = 2 * T - 1 := by omega
      obtain ⟨mid, l1, l2, hmid, rfl, hamid, hmidb, hy1, hz, hch⟩ :=
        Rep_split hT h a b c lc hPc hfull1
      have hsp := splitChild_eq ht hT hT30
        (by
          cases h with
          | zero => exact hPc.2.1
          | succ h => exact hPc.2.1)
        hchild hmid hfull1 hch
        (by rw [hks]; simp; omega)
      have hkeys1 : n.keys.insertIdx idx mid = ks1 ++ mid :: ks2 := by
        rw [hks]
        exact insertIdx_mid_of_length mid h1
      have hch1 : (n.children.set idx (some (splitLeft T c))).insertIdx (idx + 1)
          (some (splitRight T c)) = cs1 ++ some (splitLeft T c) :: some (splitRight T c) :: cs2 := by
        rw [hcs, set_mid _ h2]
        have e : cs1 ++ some (splitLeft T c) :: cs2 = (cs1 ++ [some (splitLeft T c)]) ++ cs2 := by
          simp
        rw [e, insertIdx_mid_of_length _ (by simp [h2])]
        simp
      have hkmid : k ≠ mid := fun e => hkc (by simp [e])
      have hget : (ks1 ++ mid :: ks2)[idx]? = some mid := getElem?_mid_of_length h1
      by_cases hlt : mid < k
      · -- descend into the new right sibling
        have hzlen : (splitRight T c).keys.length < 2 * T - 1 := by
          obtain ⟨_, _, _, hz4, _⟩ : True ∧ True ∧ True ∧
              ((splitRight T c).keys.length : Int) ≤ (T : Int) - 1 ∧ True := by
            refine ⟨trivial, trivial, trivial, ?_, trivial⟩
            simp [splitRight]
            omega
          omega
        obtain ⟨z1, lz, hins, hRz, _, hmemz⟩ :=
          Rep_insertNonFull hT hT30 k h fuel _ mid b (splitRight T c) l2 hz hzlen hlt hkb
            (fun hmem => hkc (by simp [hmem])) (by omega)
        have hgetc : (cs1 ++ some (splitLeft T c) :: some (splitRight T c) :: cs2)[idx + 1]? =
            some (some (splitRight T c)) := by
          have e : cs1 ++ some (splitLeft T c) :: some (splitRight T c) :: cs2 =
              (cs1 ++ [some (splitLeft T c)]) ++ some (splitRight T c) :: cs2 := by simp
          rw [e]
          exact getElem?_mid_of_length (by simp [h2])
        have hset : (cs1 ++ some (splitLeft T c) :: some (splitRight T c) :: cs2).set (idx + 1)
            (some z1) = cs1 ++ some (splitLeft T c) :: some z1 :: cs2 := by
          have e : cs1 ++ some (splitLeft T c) :: some (splitRight T c) :: cs2 =
              (cs1 ++ [some (splitLeft T c)]) ++ some (splitRight T c) :: cs2 := by simp
          rw [e, set_mid _ (by simp [h2])]
          simp
        have hres : n.insertNonFull (fuel + 1) k = some
            { leaf := n.leaf, t := n.t, keys := ks1 ++ mid :: ks2,
              children := cs1 ++ some (splitLeft T c) :: some z1 :: cs2 } := by
          simp only [BTreeNode.insertNonFull, hl, hidx, hchild, hW, hfull, ht, if_true, hsp, hkeys1,
            hch1, hget, hlt, if_false]
          simp only [hgetc, hins, Option.map_some', hset]
          simp
        refine ⟨_, L ++ l1 ++ mid :: (lz ++ R), hres, ⟨hl, ht, ?_, ?_, ?_⟩, ?_, ?_⟩
        · simp; rw [hks] at hm; simp at hm; omega
        · simp; rw [hks] at hlen; simp at hlen; omega
        · exact Alt_join3 hS hy1 hRz hamid (by omega) hRr
        · rw [hks]; simp
        · intro x
          have e1 : L ++ l1 ++ mid :: (lz ++ R) = (L ++ l1 ++ [mid]) ++ lz ++ R := by simp
          have e2 : L ++ (l1 ++ mid :: l2) ++ R = (L ++ l1 ++ [mid]) ++ l2 ++ R := by simp
          rw [e1, e2]
          exact mem_ins_ctx hmemz x
      · -- descend into the truncated child
        have hkm : k < mid := by omega
        have hylen : (splitLeft T c).keys.length < 2 * T - 1 := by
          have : (splitLeft T c).keys.length ≤ T - 1 := by
            simp [splitLeft, resize]
            omega
          omega
        obtain ⟨y2, ly2, hins, hRy, _, hmemy⟩ :=
          Rep_insertNonFull hT hT30 k h fuel _ a mid (splitLeft T c) l1 hy1 hylen hak hkm
            (fun hmem => hkc (by simp [hmem])) (by omega)
        have hgetc : (cs1 ++ some (splitLeft T c) :: some (splitRight T c) :: cs2)[idx]? =
            some (some (splitLeft T c)) := getElem?_mid_of_length h2
        have hset : (cs1 ++ some (splitLeft T c) :: some (splitRight T c) :: cs2).set idx
            (some y2) = cs1 ++ some y2 :: some (splitRight T c) :: cs2 := set_mid _ h2
        have hres : n.insertNonFull (fuel + 1) k = some
            { leaf := n.leaf, t := n.t, keys := ks1 ++ mid :: ks2,
              children := cs1 ++ some y2 :: some (splitRight T c) :: cs2 } := by
          simp only [BTreeNode.insertNonFull, hl, hidx, hchild, hW, hfull, ht, if_true, hsp, hkeys1,
            hch1, hget, hlt, if_false]
          simp only [hgetc, hins, Option.map_some', hset]
          simp
        refine ⟨_, L ++ ly2 ++ mid :: (l2 ++ R), hres, ⟨hl, ht, ?_, ?_, ?_⟩, ?_, ?_⟩
        · simp; rw [hks] at hm; simp at hm; omega
        · simp; rw [hks] at hlen; simp at hlen; omega
        · exact Alt_join3 hS hRy hz (by omega) hmidb hRr
        · rw [hks]; simp
        · intro x
          have e1 : L ++ ly2 ++ mid :: (l2 ++ R) = L ++ ly2 ++ (mid :: (l2 ++ R)) := by simp
          have e2 : L ++ (l1 ++ mid :: l2) ++ R = L ++ l1 ++ (mid :: (l2 ++ R)) := by simp
          rw [e1, e2]
          exact mem_ins_ctx hmemy x
    · -- the child has room
      have hclen : c.keys.length < 2 * T - 1 := by
        have hc4 : (c.keys.length : Int) ≤ 2 * (T : Int) - 1 := by
          cases h with
          | zero => exact hPc.2.2.2.1
          | succ h => exact hPc.2.2.2.1
        omega
      obtain ⟨c1, lc1, hins, hRc, _, hmemc⟩ :=
        Rep_insertNonFull hT hT30 k h fuel _ a b c lc hPc hclen hak hkb hkc (by omega)
      have hres : n.insertNonFull (fuel + 1) k = some
          { leaf := n.leaf, t := n.t, keys := ks1 ++ ks2,
            children := cs1 ++ some c1 :: cs2 } := by
        simp only [BTreeNode.insertNonFull, hl, hidx, hchild, hW, hfull, ht, if_false, hins,
          Option.map_some']
        simp [hcs, set_mid _ h2, ← hks]
      refine ⟨_, L ++ lc1 ++ R, hres, ⟨hl, ht, by rw [← hks]; exact hm,
        by rw [← hks]; exact hmax, ?_⟩, by rw [← hks], ?_⟩
      · exact Alt_join ks1 cs1 lo a b hi L lc1 R ks2 c1 cs2 hS hRc hRr hab
      · intro x
        exact mem_ins_ctx hmemc x

/-! ## Helpers for deletion -/

theorem Rep_setmin {t : Int} {h : Nat} {m m1 lo hi : Int} {n : BTreeNode} {l : List Int}
    (hR : Rep t h m lo hi n l) (hm : m1 ≤ (n.keys.length : Int)) : Rep t h m1 lo hi n l := by
  cases h with
  | zero =>
    obtain ⟨h1, h2, h3, h4, h5, hS, rfl⟩ := hR
    exact ⟨h1, h2, hm, h4, h5, hS, rfl⟩
  | succ h =>
    obtain ⟨h1, h2, h3, h4, hA⟩ := hR
    exact ⟨h1, h2, hm, h4, hA⟩

theorem Rep_len {t : Int} {h : Nat} {m lo hi : Int} {n : BTreeNode} {l : List Int}
    (hR : Rep t h m lo hi n l) :
    n.t = t ∧ m ≤ (n.keys.length : Int) ∧ (n.keys.length : Int) ≤ 2 * t - 1 := by
  cases h with
  | zero => exact ⟨hR.2.1, hR.2.2.1, hR.2.2.2.1⟩
  | succ h => exact ⟨hR.2.1, hR.2.2.1, hR.2.2.2.1⟩

theorem Rep_leaf {t : Int} {h : Nat} {m lo hi : Int} {n : BTreeNode} {l : List Int}
    (hR : Rep t h m lo hi n l) : n.leaf = decide (h = 0) := by
  cases h with
  | zero => simpa using hR.1
  | succ h => simpa using hR.1

theorem sorted_last_max {l : List Int} (hs : l.Pairwise (fun x y => x < y)) {p : Int}
    (hp : l.getLast? = some p) : p ∈ l ∧ ∀ x ∈ l, x ≠ p → x < p := by
  obtain ⟨ys, rfl⟩ := List.getLast?_eq_some_iff.1 hp
  rw [List.pairwise_append] at hs
  refine ⟨by simp, fun x hx hne => ?_⟩
  simp only [List.mem_append, List.mem_singleton] at hx
  rcases hx with hx | hx
  · exact hs.2.2 x hx p (by simp)
  · exact absurd hx hne

theorem sorted_head_min {l : List Int} (hs : l.Pairwise (fun x y => x < y)) {p : Int}
    (hp : l.head? = some p) : p ∈ l ∧ ∀ x ∈ l, x ≠ p → p < x := by
  cases l with
  | nil => simp at hp
  | cons y ys =>
    simp only [List.head?_cons, Option.some.injEq] at hp
    subst hp
    rw [List.pairwise_cons] at hs
    refine ⟨by simp, fun x hx hne => ?_⟩
    simp only [List.mem_cons] at hx
    rcases hx with hx | hx
    · exact absurd hx hne
    · exact hs.1 x hx

theorem Rep_nonempty {t : Int} {h : Nat} {m lo hi : Int} {n : BTreeNode} {l : List Int}
    (hR : Rep t h m lo hi n l) (hk : 1 ≤ n.keys.length) : l ≠ [] := by
  cases hks : n.keys with
  | nil => simp [hks] at hk
  | cons k ks =>
    cases h with
    | zero =>
      obtain ⟨_, _, _, _, _, _, rfl⟩ := hR
      simp [hks]
    | succ h =>
      have := Alt_keys_mem _ _ _ _ _ hR.2.2.2.2 k (by simp [hks])
      exact List.ne_nil_of_mem this

theorem Rep_lastKey {T : Nat} (hT : 2 ≤ T) :
    ∀ (h fuel : Nat) (m lo hi : Int) (n : BTreeNode) (l : List Int),
      Rep (T : Int) h m lo hi n l → 1 ≤ n.keys.length → h < fuel →
      ∃ p, lastKey fuel n = some p ∧ l.getLast? = some p
  | _, 0, _, _, _, _, _, _, _, hf => by omega
  | 0, fuel + 1, m, lo, hi, n, l, hR, hk, _ => by
    obtain ⟨hl, _, _, _, _, _, rfl⟩ := hR
    have hne : n.keys ≠ [] := by
      intro e
      simp [e] at hk
    refine ⟨n.keys.getLast hne, ?_, List.getLast?_eq_getLast _ hne⟩
    simp only [lastKey, hl, if_true]
    exact List.getLast?_eq_getLast _ hne
  | h + 1, fuel + 1, m, lo, hi, n, l, hR, hk, hf => by
    obtain ⟨hl, _, _, _, hA⟩ := hR
    obtain ⟨ks1, ks2, cs1, c, cs2, L, lc, R, a, b, hks, hcs, h1, h2, rfl, hS, hPc, hRr, _⟩ :=
      Alt_split n.keys.length lo hi n.keys n.children l hA (le_refl _)
    have hk2 : ks2 = [] := by
      have := congrArg List.length hks
      simp at this
      exact List.length_eq_zero.1 (by omega)
    subst hk2
    rcases hRr with ⟨_, rfl, rfl, rfl⟩ | ⟨ks3, l3, hcontra, _, _⟩
    · have hclen := (Rep_len hPc).2.1
      obtain ⟨p, hp, hlast⟩ := Rep_lastKey hT h fuel _ a b c lc hPc (by omega) (by omega)
      refine ⟨p, ?_, ?_⟩
      · have hc : n.children[n.keys.length]? = some (some c) := by
          rw [hcs]
          exact getElem?_mid_of_length h2
        simp only [lastKey, hl, hc]
        simpa using hp
      · simp [hlast]
    · simp at hcontra

theorem Rep_firstKey {T : Nat} (hT : 2 ≤ T) :
    ∀ (h fuel : Nat) (m lo hi : Int) (n : BTreeNode) (l : List Int),
      Rep (T : Int) h m lo hi n l → 1 ≤ n.keys.length → h < fuel →
      ∃ p, firstKey fuel n = some p ∧ l.head? = some p
  | _, 0, _, _, _, _, _, _, _, hf => by omega
  | 0, fuel + 1, m, lo, hi, n, l, hR, hk, _ => by
    obtain ⟨hl, _, _, _, _, _, rfl⟩ := hR
    cases hks : n.keys with
    | nil => simp [hks] at hk
    | cons k ks =>
      refine ⟨k, ?_, by simp⟩
      simp [firstKey, hl, hks]
  | h + 1, fuel + 1, m, lo, hi, n, l, hR, hk, hf => by
    obtain ⟨hl, _, _, _, hA⟩ := hR
    obtain ⟨ks1, ks2, cs1, c, cs2, L, lc, R, a, b, hks, hcs, h1, h2, rfl, hS, hPc, hRr, _⟩ :=
      Alt_split 0 lo hi n.keys n.children l hA (by omega)
    have hk1 : ks1 = [] := List.length_eq_zero.1 h1
    subst hk1
    obtain ⟨rfl, rfl, rfl⟩ := Seg_nil_left hS
    have hclen := (Rep_len hPc).2.1
    obtain ⟨p, hp, hfirst⟩ := Rep_firstKey hT h fuel _ a b c lc hPc (by omega) (by omega)
    have hne := Rep_nonempty hPc (by omega)
    refine ⟨p, ?_, ?_⟩
    · have hc : n.children[0]? = some (some c) := by
        rw [hcs]
        simp
      simp only [firstKey, hl, hc]
      simpa using hp
    · cases lc with
      | nil => exact absurd rfl hne
      | cons y ys => simpa using hfirst

/-- Concatenating two alternations around a separating key. -/
theorem Alt_concat {P : Int → Int → BTreeNode → List Int → Prop}
    {lo sep hi : Int} {ks1 ks2 : List Int} {cs1 cs2 : List (Option BTreeNode)}
    {l1 l2 : List Int} (h1 : Alt P lo sep ks1 cs1 l1) (h2 : Alt P sep hi ks2 cs2 l2)
    (hlt : ∀ a b c l, P a b c l → a < b) :
    Alt P lo hi (ks1 ++ sep :: ks2) (cs1 ++ cs2) (l1 ++ sep :: l2) := by
  obtain ⟨ka, kb, ca, c, cb, L, lc, R, a, b, hks, hcs, e1, e2, rfl, hS, hPc, hRr, _⟩ :=
    Alt_split ks1.length lo sep ks1 cs1 l1 h1 (le_refl _)
  have hkb : kb = [] := by
    have := congrArg List.length hks
    simp at this
    exact List.length_eq_zero.1 (by omega)
  subst hkb
  rcases hRr with ⟨_, rfl, hb, rfl⟩ | ⟨ks3, l3, hcontra, _, _⟩
  · rw [hb] at hPc
    have := Alt_join ka ca lo a sep hi L lc (sep :: l2) (sep :: ks2) c cs2 hS hPc
      (Or.inr ⟨ks2, l2, rfl, rfl, h2⟩) (fun _ => hlt _ _ _ _ hPc)
    simp only [List.append_nil] at hks
    subst hks
    subst hcs
    simpa using this
  · simp at hcontra

theorem Rep_merge {T : Nat} (hT : 2 ≤ T) {h : Nat} {a sep b : Int} {c d : BTreeNode}
    {lc ld : List Int} (hc : Rep (T : Int) h ((T : Int) - 1) a sep c lc)
    (hd : Rep (T : Int) h ((T : Int) - 1) sep b d ld)
    (hcl : c.keys.length = T - 1) (hdl : d.keys.length = T - 1) :
    Rep (T : Int) h (T : Int) a b (mergeNode c sep d) (lc ++ sep :: ld) := by
  have hbc := Rep_bounds (t := (T : Int)) (by omega) _ _ _ _ _ _ hc
  have hbd := Rep_bounds (t := (T : Int)) (by omega) _ _ _ _ _ _ hd
  have hab1 := hbc.1 (by omega)
  have hab2 := hbd.1 (by omega)
  cases h with
  | zero =>
    obtain ⟨hl, ht, _, _, hch, hS, rfl⟩ := hc
    obtain ⟨hl2, ht2, _, _, hch2, hS2, rfl⟩ := hd
    refine ⟨hl, ht, ?_, ?_, by simp [mergeNode, hl, hch], ⟨?_, ?_⟩, rfl⟩
    · simp [mergeNode]; omega
    · simp [mergeNode]; omega
    · show (c.keys ++ sep :: d.keys).Pairwise (fun x y => x < y)
      rw [List.pairwise_append]
      refine ⟨hS.1, ?_, ?_⟩
      · rw [List.pairwise_cons]
        exact ⟨fun y hy => (hS2.2 y hy).1, hS2.1⟩
      · intro x hx y hy
        have := hS.2 x hx
        rcases List.mem_cons.1 hy with rfl | hy
        · omega
        · have := hS2.2 y hy; omega
    · intro x hx
      have hx1 : x ∈ c.keys ++ sep :: d.keys := hx
      simp only [List.mem_append, List.mem_cons] at hx1
      rcases hx1 with hx1 | rfl | hx1
      · have := hS.2 x hx1; omega
      · omega
      · have := hS2.2 x hx1; omega
  | succ h =>
    obtain ⟨hl, ht, _, _, hA⟩ := hc
    obtain ⟨hl2, ht2, _, _, hA2⟩ := hd
    have hB := Rep_child_bounded (t := (T : Int)) (by omega) h
    refine ⟨hl, ht, ?_, ?_, ?_⟩
    · simp [mergeNode]; omega
    · simp [mergeNode]; omega
    · have := Alt_concat hA hA2 (fun a b c l hP => (hB a b c l hP).1)
      simpa [mergeNode, hl] using this

/-! ## Two neighbouring children -/

theorem getElem?_mid1 {α : Type} {pre : List α} {x y : α} {post : List α} {i : Nat}
    (h : pre.length = i) : (pre ++ x :: y :: post)[i + 1]? = some y := by
  have e : pre ++ x :: y :: post = (pre ++ [x]) ++ y :: post := by simp
  rw [e]
  exact getElem?_mid_of_length (by simp [h])

theorem set_mid1 {α : Type} {pre : List α} {x y : α} {post : List α} {i : Nat} (z : α)
    (h : pre.length = i) : (pre ++ x :: y :: post).set (i + 1) z = pre ++ x :: z :: post := by
  have e : pre ++ x :: y :: post = (pre ++ [x]) ++ y :: post := by simp
  rw [e, set_mid z (by simp [h])]
  simp

theorem eraseIdx_mid1 {α : Type} {pre : List α} {x y : α} {post : List α} {i : Nat}
    (h : pre.length = i) : (pre ++ x :: y :: post).eraseIdx (i + 1) = pre ++ x :: post := by
  have e : pre ++ x :: y :: post = (pre ++ [x]) ++ y :: post := by simp
  rw [e, eraseIdx_mid_of_length y (by simp [h])]
  simp

theorem Alt_split2 {P : Int → Int → BTreeNode → List Int → Prop}
    {lo hi : Int} {ks : List Int} {cs : List (Option BTreeNode)} {l : List Int}
    (hA : Alt P lo hi ks cs l) {i : Nat} (hi1 : i < ks.length) :
    ∃ ks1 ks2 cs1 c d cs2 L lc ld R a sep b,
      ks = ks1 ++ sep :: ks2 ∧ cs = cs1 ++ some c :: some d :: cs2 ∧ ks1.length = i ∧
      cs1.length = i ∧ l = L ++ lc ++ sep :: (ld ++ R) ∧ Seg P lo a ks1 cs1 L ∧ P a sep c lc ∧
      P sep b d ld ∧ AltR P b hi ks2 cs2 R ∧ a < sep ∧ (ks2 ≠ [] → sep < b) := by
  obtain ⟨ks1, ks2, cs1, c, cs2, L, lc, R, a, b, hks, hcs, h1, h2, rfl, hS, hPc, hRr, hab⟩ :=
    Alt_split i lo hi ks cs l hA (le_of_lt hi1)
  rcases hRr with ⟨rfl, _, _, _⟩ | ⟨ks3, l3, rfl, rfl, hA3⟩
  · have := congrArg List.length hks
    simp at this
    omega
  · obtain ⟨ka, kb, ca, d, cb, L1, ld, R1, a1, b1, hks3, hcs3, e1, e2, rfl, hS1, hPd, hR1, hab1⟩ :=
      Alt_split 0 b hi ks3 cs2 l3 hA3 (by omega)
    have hka : ka = [] := List.length_eq_zero.1 e1
    subst hka
    obtain ⟨rfl, rfl, rfl⟩ := Seg_nil_left hS1
    simp only [List.nil_append] at hks3 hcs3
    subst hks3
    subst hcs3
    exact ⟨ks1, ks3, cs1, c, d, cb, L, lc, ld, R1, a, a1, b1, hks, hcs, h1, h2, by simp, hS, hPc,
      hPd, hR1, hab (by simp), hab1⟩

/-! ## Moving a key between siblings -/

theorem Rep_popLast_leaf {T : Nat} (hT : 2 ≤ T) {m a sep : Int} {s : BTreeNode} {ls : List Int}
    (hs : Rep (T : Int) 0 m a sep s ls) (hlen : T ≤ s.keys.length) :
    ∃ up ls1, s.keys.getLast? = some up ∧ ls = ls1 ++ [up] ∧ a < up ∧ up < sep ∧
      Rep (T : Int) 0 ((T : Int) - 1) a up { s with keys := s.keys.dropLast } ls1 := by
  obtain ⟨hl, ht, _, hmax, hch, hS, rfl⟩ := hs
  have hne : s.keys ≠ [] := by
    intro e
    simp [e] at hlen
    omega
  have hsplit := List.dropLast_append_getLast hne
  have hup := hS.2 (s.keys.getLast hne) (List.getLast_mem hne)
  have hpw := hS.1
  rw [← hsplit, List.pairwise_append] at hpw
  refine ⟨s.keys.getLast hne, s.keys.dropLast, List.getLast?_eq_getLast _ hne, hsplit.symm,
    hup.1, hup.2, hl, ht, ?_, ?_, hch, ⟨hpw.1, ?_⟩, rfl⟩
  · simp; omega
  · simp; omega
  · intro x hx
    exact ⟨(hS.2 x (List.mem_of_mem_dropLast hx)).1, hpw.2.2 x hx _ (by simp)⟩

theorem Rep_popLast_node {T : Nat} (hT : 2 ≤ T) {h : Nat} {m a sep : Int} {s : BTreeNode}
    {ls : List Int} (hs : Rep (T : Int) (h + 1) m a sep s ls) (hlen : T ≤ s.keys.length) :
    ∃ up mv ls1 lmv, s.keys.getLast? = some up ∧ s.children.getLast? = some (some mv) ∧
      ls = ls1 ++ up :: lmv ∧ a < up ∧ up < sep ∧
      Rep (T : Int) (h + 1) ((T : Int) - 1) a up
        { s with keys := s.keys.dropLast, children := s.children.dropLast } ls1 ∧
      Rep (T : Int) h ((T : Int) - 1) up sep mv lmv := by
  obtain ⟨hl, ht, _, hmax, hA⟩ := hs
  have hB := Rep_child_bounded (t := (T : Int)) (by omega) h
  obtain ⟨ks1, ks2, cs1, c, cs2, L, lc, R, a1, b1, hks, hcs, h1, h2, rfl, hS, hPc, hRr, hab⟩ :=
    Alt_split (s.keys.length - 1) a sep s.keys s.children ls hA (by omega)
  have hk2 : ks2.length = 1 := by
    have := congrArg List.length hks
    simp at this
    omega
  rcases hRr with ⟨rfl, _, _, _⟩ | ⟨ks3, l3, rfl, rfl, hA3⟩
  · simp at hk2
  · have hk3 : ks3 = [] := List.length_eq_zero.1 (by simpa using hk2)
    subst hk3
    match cs2, hA3 with
    | [], hA3 => simp [Alt] at hA3
    | none :: _, hA3 => simp [Alt] at hA3
    | some mv :: rest, hA3 =>
      obtain ⟨rfl, hmv⟩ := hA3
      have hbd := Alt_bounds hB _ _ _ _ _ hA
      have hup := hbd.2 b1 (by simp)
      have hkd : s.keys.dropLast = ks1 := by
        rw [hks]
        simp [List.dropLast_concat]
      have hcd : s.children.dropLast = cs1 ++ [some c] := by
        rw [hcs]
        have e : cs1 ++ [some c, some mv] = (cs1 ++ [some c]) ++ [some mv] := by simp
        rw [e, List.dropLast_concat]
      refine ⟨b1, mv, L ++ lc, l3, ?_, ?_, by simp, hup.1, hup.2, ⟨hl, ht, ?_, ?_, ?_⟩, hmv⟩
      · rw [hks]; simp
      · rw [hcs]; simp
      · simp [hkd]; omega
      · simp [hkd]; rw [hks] at hmax; simp at hmax; omega
      · have := Alt_join ks1 cs1 a a1 b1 b1 L lc [] [] c [] hS hPc
          (Or.inl ⟨rfl, rfl, rfl, rfl⟩) (by simp)
        simpa [hkd, hcd] using this

theorem Rep_pushFront_leaf {T : Nat} (hT : 2 ≤ T) {up sep b : Int} {c : BTreeNode}
    {lc : List Int} (hc : Rep (T : Int) 0 ((T : Int) - 1) sep b c lc)
    (hlen : c.keys.length = T - 1) (hlt : up < sep) :
    Rep (T : Int) 0 (T : Int) up b { c with keys := sep :: c.keys } (sep :: lc) := by
  obtain ⟨hl, ht, _, hmax, hch, hS, rfl⟩ := hc
  have hbd := Rep_bounds (t := (T : Int)) (by omega) 0 _ _ _ _ _
    (show Rep (T : Int) 0 ((T : Int) - 1) sep b c c.keys from ⟨hl, ht, by omega, hmax, hch, hS, rfl⟩)
  have hsb := hbd.1 (by omega)
  refine ⟨hl, ht, ?_, ?_, hch, ⟨?_, ?_⟩, rfl⟩
  · simp; omega
  · simp; omega
  · show (sep :: c.keys).Pairwise (fun x y => x < y)
    rw [List.pairwise_cons]
    exact ⟨fun y hy => (hS.2 y hy).1, hS.1⟩
  · intro x hx
    have hx1 : x ∈ sep :: c.keys := hx
    rcases List.mem_cons.1 hx1 with rfl | hx1
    · omega
    · have := hS.2 x hx1; omega

theorem Rep_pushFront_node {T : Nat} (hT : 2 ≤ T) {h : Nat} {up sep b : Int}
    {c mv : BTreeNode} {lc lmv : List Int}
    (hc : Rep (T : Int) (h + 1) ((T : Int) - 1) sep b c lc)
    (hmv : Rep (T : Int) h ((T : Int) - 1) up sep mv lmv)
    (hlen : c.keys.length = T - 1) (hlt : up < sep) :
    Rep (T : Int) (h + 1) (T : Int) up b
      { c with keys := sep :: c.keys, children := some mv :: c.children } (lmv ++ sep :: lc) := by
  obtain ⟨hl, ht, _, hmax, hA⟩ := hc
  refine ⟨hl, ht, ?_, ?_, ⟨lmv, lc, rfl, hlt, hmv, hA⟩⟩
  · simp; omega
  · simp; omega

theorem Rep_popFirst_leaf {T : Nat} (_hT : 2 ≤ T) {m sep b : Int} {d : BTreeNode}
    {ld : List Int} {up : Int} {rest : List Int}
    (hd : Rep (T : Int) 0 m sep b d ld) (hlen : T ≤ d.keys.length) (hk : d.keys = up :: rest) :
    ld = up :: rest ∧ sep < up ∧ up < b ∧
      Rep (T : Int) 0 ((T : Int) - 1) up b { d with keys := rest } rest := by
  obtain ⟨hl, ht, _, hmax, hch, hS, rfl⟩ := hd
  have hup := hS.2 up (by simp [hk])
  have hpw := hS.1
  rw [hk, List.pairwise_cons] at hpw
  rw [hk] at hlen hmax
  simp at hlen hmax
  refine ⟨hk, hup.1, hup.2, hl, ht, ?_, ?_, hch, ⟨hpw.2, ?_⟩, rfl⟩
  · simp; omega
  · simp; omega
  · intro x hx
    exact ⟨hpw.1 x hx, (hS.2 x (by simp [hk, hx])).2⟩

theorem Rep_popFirst_node {T : Nat} (hT : 2 ≤ T) {h : Nat} {m sep b : Int} {d : BTreeNode}
    {ld : List Int} {up : Int} {rest : List Int}
    (hd : Rep (T : Int) (h + 1) m sep b d ld) (hlen : T ≤ d.keys.length)
    (hk : d.keys = up :: rest) :
    ∃ mv restc lmv ld1, d.children = some mv :: restc ∧ ld = lmv ++ up :: ld1 ∧ sep < up ∧
      up < b ∧ Rep (T : Int) h ((T : Int) - 1) sep up mv lmv ∧
      Rep (T : Int) (h + 1) ((T : Int) - 1) up b { d with keys := rest, children := restc } ld1 := by
  obtain ⟨hl, ht, _, hmax, hA⟩ := hd
  have hB := Rep_child_bounded (t := (T : Int)) (by omega) h
  have hbd := Alt_bounds hB _ _ _ _ _ hA
  have hup := hbd.2 up (Alt_keys_mem _ _ _ _ _ hA up (by simp [hk]))
  rw [hk] at hA hlen hmax
  simp at hlen hmax
  match hcs : d.children, hA with
  | [], hA => simp [Alt] at hA
  | none :: _, hA => simp [Alt] at hA
  | some mv :: restc, hA =>
    obtain ⟨l1, l2, rfl, hlt, hmv, hrest⟩ := hA
    refine ⟨mv, restc, l1, l2, rfl, rfl, hlt, hup.2, hmv, ⟨hl, ht, ?_, ?_, hrest⟩⟩
    · simp; omega
    · simp; omega

theorem Rep_pushBack_leaf {T : Nat} (hT : 2 ≤ T) {a sep up : Int} {c : BTreeNode}
    {lc : List Int} (hc : Rep (T : Int) 0 ((T : Int) - 1) a sep c lc)
    (hlen : c.keys.length = T - 1) (hlt : sep < up) :
    Rep (T : Int) 0 (T : Int) a up { c with keys := c.keys ++ [sep] } (lc ++ [sep]) := by
  obtain ⟨hl, ht, _, hmax, hch, hS, rfl⟩ := hc
  have hbd := Rep_bounds (t := (T : Int)) (by omega) 0 _ _ _ _ _
    (show Rep (T : Int) 0 ((T : Int) - 1) a sep c c.keys from ⟨hl, ht, by omega, hmax, hch, hS, rfl⟩)
  have hsb := hbd.1 (by omega)
  refine ⟨hl, ht, ?_, ?_, hch, ⟨?_, ?_⟩, rfl⟩
  · simp; omega
  · simp; omega
  · show (c.keys ++ [sep]).Pairwise (fun x y => x < y)
    rw [List.pairwise_append]
    refine ⟨hS.1, by simp, ?_⟩
    intro x hx y hy
    simp only [List.mem_singleton] at hy
    subst hy
    exact (hS.2 x hx).2
  · intro x hx
    have hx1 : x ∈ c.keys ++ [sep] := hx
    simp only [List.mem_append, List.mem_singleton] at hx1
    rcases hx1 with hx1 | rfl
    · have := hS.2 x hx1; omega
    · omega

theorem Rep_pushBack_node {T : Nat} (hT : 2 ≤ T) {h : Nat} {a sep up : Int}
    {c mv : BTreeNode} {lc lmv : List Int}
    (hc : Rep (T : Int) (h + 1) ((T : Int) - 1) a sep c lc)
    (hmv : Rep (T : Int) h ((T : Int) - 1) sep up mv lmv)
    (hlen : c.keys.length = T - 1) :
    Rep (T : Int) (h + 1) (T : Int) a up
      { c with keys := c.keys ++ [sep], children := c.children ++ [some mv] }
      (lc ++ sep :: lmv) := by
  obtain ⟨hl, ht, _, hmax, hA⟩ := hc
  have hB := Rep_child_bounded (t := (T : Int)) (by omega) h
  refine ⟨hl, ht, ?_, ?_, ?_⟩
  · simp; omega
  · simp; omega
  · have h2 : Alt (Rep (T : Int) h ((T : Int) - 1)) sep up [] [some mv] lmv := ⟨rfl, hmv⟩
    have := Alt_concat hA h2 (fun a b c l hP => (hB a b c l hP).1)
    simpa using this

/-! ## Evaluating `merge`, `borrowFromPrev`, `borrowFromNext` and `fill` -/

theorem merge_eq {n c d : BTreeNode} {sep : Int} {ks1 ks2 : List Int}
    {cs1 cs2 : List (Option BTreeNode)} {i : Nat}
    (hks : n.keys = ks1 ++ sep :: ks2) (hcs : n.children = cs1 ++ some c :: some d :: cs2)
    (h1 : ks1.length = i) (h2 : cs1.length = i) :
    n.merge i = some
      { n with keys := ks1 ++ ks2, children := cs1 ++ some (mergeNode c sep d) :: cs2 } := by
  have e1 : n.children[i]? = some (some c) := by rw [hcs]; exact getElem?_mid_of_length h2
  have e2 : n.children[i + 1]? = some (some d) := by rw [hcs]; exact getElem?_mid1 h2
  have e3 : n.keys[i]? = some sep := by rw [hks]; exact getElem?_mid_of_length h1
  simp only [BTreeNode.merge, e1, e2, e3]
  rw [hks, hcs, eraseIdx_mid_of_length _ h1, set_mid _ h2, eraseIdx_mid1 h2]
  rfl

theorem borrowFromPrev_eq_leaf {n s c : BTreeNode} {sep up : Int} {ks1 ks2 : List Int}
    {cs1 cs2 : List (Option BTreeNode)} {i : Nat}
    (hks : n.keys = ks1 ++ sep :: ks2) (hcs : n.children = cs1 ++ some s :: some c :: cs2)
    (h1 : ks1.length = i) (h2 : cs1.length = i) (hup : s.keys.getLast? = some up)
    (hl : c.leaf = true) :
    n.borrowFromPrev (i + 1) = some
      { n with
        keys := ks1 ++ up :: ks2,
        children := cs1 ++ some { s with keys := s.keys.dropLast } ::
          some { c with keys := sep :: c.keys } :: cs2 } := by
  have e1 : n.children[i]? = some (some s) := by rw [hcs]; exact getElem?_mid_of_length h2
  have e2 : n.children[i + 1]? = some (some c) := by rw [hcs]; exact getElem?_mid1 h2
  have e3 : n.keys[i]? = some sep := by rw [hks]; exact getElem?_mid_of_length h1
  simp only [BTreeNode.borrowFromPrev, Nat.add_sub_cancel, e1, e2, e3, hup, hl, if_true,
    Nat.succ_ne_zero, if_false]
  rw [hks, hcs, set_mid _ h1, set_mid1 _ h2, set_mid _ h2]

theorem borrowFromPrev_eq_node {n s c : BTreeNode} {sep up : Int} {mv : Option BTreeNode}
    {ks1 ks2 : List Int} {cs1 cs2 : List (Option BTreeNode)} {i : Nat}
    (hks : n.keys = ks1 ++ sep :: ks2) (hcs : n.children = cs1 ++ some s :: some c :: cs2)
    (h1 : ks1.length = i) (h2 : cs1.length = i) (hup : s.keys.getLast? = some up)
    (hmv : s.children.getLast? = some mv) (hl : c.leaf = false) :
    n.borrowFromPrev (i + 1) = some
      { n with
        keys := ks1 ++ up :: ks2,
        children := cs1 ++
          some { s with keys := s.keys.dropLast, children := s.children.dropLast } ::
          some { c with keys := sep :: c.keys, children := mv :: c.children } :: cs2 } := by
  have e1 : n.children[i]? = some (some s) := by rw [hcs]; exact getElem?_mid_of_length h2
  have e2 : n.children[i + 1]? = some (some c) := by rw [hcs]; exact getElem?_mid1 h2
  have e3 : n.keys[i]? = some sep := by rw [hks]; exact getElem?_mid_of_length h1
  simp only [BTreeNode.borrowFromPrev, Nat.add_sub_cancel, e1, e2, e3, hup, hmv, hl,
    Nat.succ_ne_zero, if_false, Bool.false_eq_true]
  rw [hks, hcs, set_mid _ h1, set_mid1 _ h2, set_mid _ h2]

theorem borrowFromNext_eq_leaf {n c d : BTreeNode} {sep up : Int} {rest : List Int}
    {ks1 ks2 : List Int} {cs1 cs2 : List (Option BTreeNode)} {i : Nat}
    (hks : n.keys = ks1 ++ sep :: ks2) (hcs : n.children = cs1 ++ some c :: some d :: cs2)
    (h1 : ks1.length = i) (h2 : cs1.length = i) (hup : d.keys = up :: rest)
    (hl : c.leaf = true) :
    n.borrowFromNext i = some
      { n with
        keys := ks1 ++ up :: ks2,
        children := cs1 ++ some { c with keys := c.keys ++ [sep] } ::
          some { d with keys := rest } :: cs2 } := by
  have e1 : n.children[i]? = some (some c) := by rw [hcs]; exact getElem?_mid_of_length h2
  have e2 : n.children[i + 1]? = some (some d) := by rw [hcs]; exact getElem?_mid1 h2
  have e3 : n.keys[i]? = some sep := by rw [hks]; exact getElem?_mid_of_length h1
  simp only [BTreeNode.borrowFromNext, e1, e2, e3, hup, hl, if_true]
  rw [hks, hcs, set_mid _ h1, set_mid _ h2, set_mid1 _ h2]

theorem borrowFromNext_eq_node {n c d : BTreeNode} {sep up : Int} {rest : List Int}
    {mv : Option BTreeNode} {restc : List (Option BTreeNode)}
    {ks1 ks2 : List Int} {cs1 cs2 : List (Option BTreeNode)} {i : Nat}
    (hks : n.keys = ks1 ++ sep :: ks2) (hcs : n.children = cs1 ++ some c :: some d :: cs2)
    (h1 : ks1.length = i) (h2 : cs1.length = i) (hup : d.keys = up :: rest)
    (hmv : d.children = mv :: restc) (hl : c.leaf = false) :
    n.borrowFromNext i = some
      { n with
        keys := ks1 ++ up :: ks2,
        children := cs1 ++
          some { c with keys := c.keys ++ [sep], children := c.children ++ [mv] } ::
          some { d with keys := rest, children := restc } :: cs2 } := by
  have e1 : n.children[i]? = some (some c) := by rw [hcs]; exact getElem?_mid_of_length h2
  have e2 : n.children[i + 1]? = some (some d) := by rw [hcs]; exact getElem?_mid1 h2
  have e3 : n.keys[i]? = some sep := by rw [hks]; exact getElem?_mid_of_length h1
  simp only [BTreeNode.borrowFromNext, e1, e2, e3, hup, hmv, hl, if_false, Bool.false_eq_true]
  rw [hks, hcs, set_mid _ h1, set_mid _ h2, set_mid1 _ h2]

theorem fill_prev {n s : BTreeNode} {i : Nat} (hs : n.children[i]? = some (some s))
    (hlen : (s.keys.length : Int) ≥ n.t) : n.fill (i + 1) = n.borrowFromPrev (i + 1) := by
  simp [BTreeNode.fill, hs, hlen]

theorem fill_next {n d : BTreeNode} {idx : Nat}
    (hprev : idx = 0 ∨ ∃ s, n.children[idx - 1]? = some (some s) ∧ ¬ (s.keys.length : Int) ≥ n.t)
    (hne : idx ≠ n.keys.length) (hd : n.children[idx + 1]? = some (some d)) :
    n.fill idx =
      if (d.keys.length : Int) ≥ n.t then n.borrowFromNext idx else n.merge idx := by
  rcases hprev with h0 | ⟨s, hs, hlen⟩
  · subst h0
    by_cases hdl : (d.keys.length : Int) ≥ n.t
    · simp [BTreeNode.fill, hne, hd, hdl]
    · simp [BTreeNode.fill, hne, hd, hdl]
  · by_cases h0 : idx = 0
    · subst h0
      by_cases hdl : (d.keys.length : Int) ≥ n.t
      · simp [BTreeNode.fill, hne, hd, hdl]
      · simp [BTreeNode.fill, hne, hd, hdl]
    · by_cases hdl : (d.keys.length : Int) ≥ n.t
      · simp [BTreeNode.fill, hne, hd, hdl, h0, hs, hlen]
      · simp [BTreeNode.fill, hne, hd, hdl, h0, hs, hlen]

theorem fill_last {n s : BTreeNode} {i : Nat} (hs : n.children[i]? = some (some s))
    (hlen : ¬ (s.keys.length : Int) ≥ n.t) (hlast : i + 1 = n.keys.length) :
    n.fill (i + 1) = n.merge i := by
  have hl : n.keys.length = i + 1 := hlast.symm
  simp [BTreeNode.fill, hs, hlen, hl]

/-! ## Rebalancing below a parent -/

theorem child_at_unique {n c c1 : BTreeNode} {i : Nat} (h1 : n.children[i]? = some (some c))
    (h2 : n.children[i]? = some (some c1)) : c1 = c := by
  rw [h1] at h2
  simpa using h2.symm

theorem Rep_mergeAt {T : Nat} (hT : 2 ≤ T) {h : Nat} {m lo hi : Int} {n : BTreeNode}
    {l : List Int} (hR : Rep (T : Int) (h + 1) m lo hi n l) {i : Nat} (hi1 : i < n.keys.length)
    {c d : BTreeNode} (hc : n.children[i]? = some (some c))
    (hd : n.children[i + 1]? = some (some d))
    (hcl : c.keys.length = T - 1) (hdl : d.keys.length = T - 1) :
    ∃ ks1 sep ks2 cs1 cs2 L lc ld R a b,
      n.keys = ks1 ++ sep :: ks2 ∧ ks1.length = i ∧ cs1.length = i ∧
      n.merge i = some
        { n with keys := ks1 ++ ks2, children := cs1 ++ some (mergeNode c sep d) :: cs2 } ∧
      l = L ++ (lc ++ sep :: ld) ++ R ∧
      Seg (Rep (T : Int) h ((T : Int) - 1)) lo a ks1 cs1 L ∧
      Rep (T : Int) h (T : Int) a b (mergeNode c sep d) (lc ++ sep :: ld) ∧
      AltR (Rep (T : Int) h ((T : Int) - 1)) b hi ks2 cs2 R ∧ (ks2 ≠ [] → a < b) ∧
      (mergeNode c sep d).keys.length = 2 * T - 1 := by
  obtain ⟨hl, ht, hm, hmax, hA⟩ := hR
  have hB := Rep_child_bounded (t := (T : Int)) (by omega) h
  obtain ⟨ks1, ks2, cs1, c0, d0, cs2, L, lc, ld, R, a, sep, b, hks, hcs, h1, h2, rfl, hS, hPc, hPd,
    hRr, hasep, hsepb⟩ := Alt_split2 hA hi1
  have ec : c0 = c := child_at_unique hc (by rw [hcs]; exact getElem?_mid_of_length h2)
  have ed : d0 = d := child_at_unique hd (by rw [hcs]; exact getElem?_mid1 h2)
  subst ec
  subst ed
  have hsb := (hB _ _ _ _ hPd).1
  refine ⟨ks1, sep, ks2, cs1, cs2, L, lc, ld, R, a, b, hks, h1, h2, merge_eq hks hcs h1 h2,
    by simp, hS, Rep_merge hT hPc hPd hcl hdl, hRr, fun _ => by omega, ?_⟩
  simp [mergeNode, hcl, hdl]
  omega

theorem Rep_borrowPrev {T : Nat} (hT : 2 ≤ T) {h : Nat} {m lo hi : Int} {n : BTreeNode}
    {l : List Int} (hR : Rep (T : Int) (h + 1) m lo hi n l) {i : Nat} (hi1 : i < n.keys.length)
    {s c : BTreeNode} (hs : n.children[i]? = some (some s))
    (hc : n.children[i + 1]? = some (some c))
    (hsl : T ≤ s.keys.length) (hcl : c.keys.length = T - 1) :
    ∃ n1 ks1 sep up ks2 c1,
      n.borrowFromPrev (i + 1) = some n1 ∧ Rep (T : Int) (h + 1) m lo hi n1 l ∧
      n.keys = ks1 ++ sep :: ks2 ∧ n1.keys = ks1 ++ up :: ks2 ∧ ks1.length = i ∧ up < sep ∧
      n1.children[i + 1]? = some (some c1) ∧ T ≤ c1.keys.length := by
  obtain ⟨hl, ht, hm, hmax, hA⟩ := hR
  have hB := Rep_child_bounded (t := (T : Int)) (by omega) h
  obtain ⟨ks1, ks2, cs1, s0, c0, cs2, L, ls, lc, R, a, sep, b, hks, hcs, h1, h2, rfl, hS, hPs, hPc,
    hRr, hasep, hsepb⟩ := Alt_split2 hA hi1
  have es : s0 = s := child_at_unique hs (by rw [hcs]; exact getElem?_mid_of_length h2)
  have ec : c0 = c := child_at_unique hc (by rw [hcs]; exact getElem?_mid1 h2)
  subst es
  subst ec
  have hsb := (hB _ _ _ _ hPc).1
  have hlen1 : ((ks1 ++ sep :: ks2).length : Int) = n.keys.length := by rw [hks]
  cases h with
  | zero =>
    obtain ⟨up, ls1, hup, rfl, haup, hupsep, hs1⟩ := Rep_popLast_leaf hT hPs hsl
    have hc1 := Rep_pushFront_leaf hT hPc hcl hupsep
    have hleaf : c0.leaf = true := hPc.1
    refine ⟨_, ks1, sep, up, ks2, _, borrowFromPrev_eq_leaf hks hcs h1 h2 hup hleaf,
      ⟨hl, ht, ?_, ?_, ?_⟩, hks, rfl, h1, hupsep, getElem?_mid1 h2, ?_⟩
    · simp at hlen1 ⊢; omega
    · simp at hlen1 ⊢; omega
    · have := Alt_join3 hS hs1 (Rep_setmin hc1 (by simp; omega)) haup (by omega) hRr
      simpa using this
    · simp; omega
  | succ h =>
    obtain ⟨up, mv, ls1, lmv, hup, hmv, rfl, haup, hupsep, hs1, hmv1⟩ :=
      Rep_popLast_node hT hPs hsl
    have hc1 := Rep_pushFront_node hT hPc hmv1 hcl hupsep
    have hleaf : c0.leaf = false := hPc.1
    refine ⟨_, ks1, sep, up, ks2, _, borrowFromPrev_eq_node hks hcs h1 h2 hup hmv hleaf,
      ⟨hl, ht, ?_, ?_, ?_⟩, hks, rfl, h1, hupsep, getElem?_mid1 h2, ?_⟩
    · simp at hlen1 ⊢; omega
    · simp at hlen1 ⊢; omega
    · have := Alt_join3 hS hs1 (Rep_setmin hc1 (by simp; omega)) haup (by omega) hRr
      simpa using this
    · simp; omega

theorem Rep_borrowNext {T : Nat} (hT : 2 ≤ T) {h : Nat} {m lo hi : Int} {n : BTreeNode}
    {l : List Int} (hR : Rep (T : Int) (h + 1) m lo hi n l) {i : Nat} (hi1 : i < n.keys.length)
    {c d : BTreeNode} (hc : n.children[i]? = some (some c))
    (hd : n.children[i + 1]? = some (some d))
    (hcl : c.keys.length = T - 1) (hdl : T ≤ d.keys.length) :
    ∃ n1 ks1 sep up ks2 c1,
      n.borrowFromNext i = some n1 ∧ Rep (T : Int) (h + 1) m lo hi n1 l ∧
      n.keys = ks1 ++ sep :: ks2 ∧ n1.keys = ks1 ++ up :: ks2 ∧ ks1.length = i ∧ sep < up ∧
      n1.children[i]? = some (some c1) ∧ T ≤ c1.keys.length := by
  obtain ⟨hl, ht, hm, hmax, hA⟩ := hR
  have hB := Rep_child_bounded (t := (T : Int)) (by omega) h
  obtain ⟨ks1, ks2, cs1, c0, d0, cs2, L, lc, ld, R, a, sep, b, hks, hcs, h1, h2, rfl, hS, hPc, hPd,
    hRr, hasep, hsepb⟩ := Alt_split2 hA hi1
  have ec : c0 = c := child_at_unique hc (by rw [hcs]; exact getElem?_mid_of_length h2)
  have ed : d0 = d := child_at_unique hd (by rw [hcs]; exact getElem?_mid1 h2)
  subst ec
  subst ed
  have hlen1 : ((ks1 ++ sep :: ks2).length : Int) = n.keys.length := by rw [hks]
  cases hdk : d0.keys with
  | nil => simp [hdk] at hdl; omega
  | cons up rest =>
    cases h with
    | zero =>
      obtain ⟨rfl, hsepup, hupb, hd1⟩ := Rep_popFirst_leaf hT hPd hdl hdk
      have hc1 := Rep_pushBack_leaf hT hPc hcl hsepup
      have hleaf : c0.leaf = true := hPc.1
      refine ⟨_, ks1, sep, up, ks2, _, borrowFromNext_eq_leaf hks hcs h1 h2 hdk hleaf,
        ⟨hl, ht, ?_, ?_, ?_⟩, hks, rfl, h1, hsepup, getElem?_mid_of_length h2, ?_⟩
      · simp at hlen1 ⊢; omega
      · simp at hlen1 ⊢; omega
      · have := Alt_join3 hS (Rep_setmin hc1 (by simp; omega)) hd1 (by omega) hupb hRr
        simpa using this
      · simp; omega
    | succ h =>
      obtain ⟨mv, restc, lmv, ld1, hdc, rfl, hsepup, hupb, hmv1, hd1⟩ :=
        Rep_popFirst_node hT hPd hdl hdk
      have hc1 := Rep_pushBack_node hT hPc hmv1 hcl
      have hleaf : c0.leaf = false := hPc.1
      refine ⟨_, ks1, sep, up, ks2, _, borrowFromNext_eq_node hks hcs h1 h2 hdk hdc hleaf,
        ⟨hl, ht, ?_, ?_, ?_⟩, hks, rfl, h1, hsepup, getElem?_mid_of_length h2, ?_⟩
      · simp at hlen1 ⊢; omega
      · simp at hlen1 ⊢; omega
      · have := Alt_join3 hS (Rep_setmin hc1 (by simp; omega)) hd1 (by omega) hupb hRr
        simpa using this
      · simp; omega

/-! ## `fill` -/

theorem Rep_child_at {T : Nat} {h : Nat} {m lo hi : Int} {n : BTreeNode}
    {l : List Int} (hR : Rep (T : Int) (h + 1) m lo hi n l) {i : Nat} (hi1 : i ≤ n.keys.length) :
    ∃ c, n.children[i]? = some (some c) ∧ T - 1 ≤ c.keys.length := by
  obtain ⟨ks1, ks2, cs1, c, cs2, L, lc, R, a, b, hks, hcs, h1, h2, rfl, hS, hPc, hRr, _⟩ :=
    Alt_split i lo hi n.keys n.children l hR.2.2.2.2 hi1
  refine ⟨c, by rw [hcs]; exact getElem?_mid_of_length h2, ?_⟩
  have := (Rep_len hPc).2.1
  omega

theorem findKey_split {K A B : List Int} {k : Int} (h : K = A ++ B) (hA : ∀ x ∈ A, x < k)
    (hB : ∀ y, B.head? = some y → k < y) :
    countWhile (fun x => decide (x < k)) K = A.length ∧
      K[countWhile (fun x => decide (x < k)) K]? ≠ some k := by
  have hcw : countWhile (fun x => decide (x < k)) K = A.length := by
    rw [h]
    refine countWhile_append _ A B (fun x hx => by simpa using hA x hx) (fun y hy => ?_)
    have := hB y hy
    simp only [decide_eq_false_iff_not, not_lt]
    omega
  refine ⟨hcw, ?_⟩
  rw [hcw, h, List.getElem?_append_right (le_refl _)]
  intro e
  have : B.head? = some k := by
    cases B with
    | nil => simp at e
    | cons y ys => simpa using e
  have := hB k this
  omega

theorem findKey_facts {ks : List Int} (hs : ks.Pairwise (fun x y => x < y)) {k : Int}
    (hnf : ks[countWhile (fun x => decide (x < k)) ks]? ≠ some k) :
    (∀ x ∈ ks.take (countWhile (fun x => decide (x < k)) ks), x < k) ∧
    (∀ y ∈ ks.drop (countWhile (fun x => decide (x < k)) ks), k < y) :=
  sorted_split hs (fun hmem => hnf ((sorted_find hs k).2 hmem))

theorem Rep_fill_next {T : Nat} (hT : 2 ≤ T) {h : Nat} {m lo hi : Int} {n : BTreeNode}
    {l : List Int} (hR : Rep (T : Int) (h + 1) m lo hi n l) (k : Int)
    (hnf : n.keys[n.findKey k]? ≠ some k) {c : BTreeNode}
    (hc : n.children[n.findKey k]? = some (some c)) (hcl : c.keys.length = T - 1)
    (hprev : n.findKey k = 0 ∨
      ∃ s, n.children[n.findKey k - 1]? = some (some s) ∧ ¬ (s.keys.length : Int) ≥ n.t)
    (hne : n.findKey k ≠ n.keys.length) :
    ∃ n1, n.fill (n.findKey k) = some n1 ∧ FillPost T h lo hi n l k n1 := by
  have hB := Rep_child_bounded (t := (T : Int)) (by omega) h
  have hKS := Alt_keys_sorted hB _ _ _ _ _ hR.2.2.2.2
  have ht : n.t = (T : Int) := hR.2.1
  have hle : n.findKey k ≤ n.keys.length := countWhile_le _ _
  have hi1 : n.findKey k < n.keys.length := by omega
  obtain ⟨htake, hdrop⟩ := findKey_facts hKS.1 hnf
  obtain ⟨d, hd, hdmin⟩ := Rep_child_at hR (i := n.findKey k + 1) (by omega)
  have hfill := fill_next hprev hne hd
  by_cases hdl : T ≤ d.keys.length
  · obtain ⟨n1, ks1, sep, up, ks2, c1, hbn, hR1, hks, hks1, h1, hlt, hc1, hc1len⟩ :=
      Rep_borrowNext hT hR hi1 hc hd hcl hdl
    have hsep : k < sep := by
      refine hdrop sep ?_
      change sep ∈ List.drop (n.findKey k) n.keys
      rw [hks, List.drop_left' h1]
      simp
    have hpos := findKey_split (k := k) hks1
      (fun x hx => htake x (by
        change x ∈ List.take (n.findKey k) n.keys
        rw [hks, List.take_left' h1]
        exact hx))
      (fun y hy => by
        simp only [List.head?_cons, Option.some.injEq] at hy
        omega)
    have hfk : n1.findKey k = n.findKey k := by
      change countWhile _ n1.keys = _
      rw [hpos.1, h1]
    refine ⟨n1, ?_, Rep_setmin hR1 ?_, ?_, ?_, c1, ?_, hc1len⟩
    · rw [hfill, if_pos (by rw [ht]; omega)]
      exact hbn
    · rw [hks1, hks]; simp
    · exact hpos.2
    · rw [hfk, if_neg]
      simp [hne]
    · rw [hfk]; exact hc1
  · have hdl1 : d.keys.length = T - 1 := by omega
    obtain ⟨ks1, sep, ks2, cs1, cs2, L, lc, ld, R, a, b, hks, h1, h2, hmg, hl, hS, hRm, hRr, hab,
      hmlen⟩ := Rep_mergeAt hT hR hi1 hc hd hcl hdl1
    have hpos := findKey_split (k := k) (K := ks1 ++ ks2) rfl
      (fun x hx => htake x (by
        change x ∈ List.take (n.findKey k) n.keys
        rw [hks, List.take_left' h1]
        exact hx))
      (fun y hy => hdrop y (by
        change y ∈ List.drop (n.findKey k) n.keys
        rw [hks, List.drop_left' h1]
        exact List.mem_cons_of_mem _ (List.mem_of_mem_head? hy)))
    have hRn1 : Rep (T : Int) (h + 1) ((n.keys.length : Int) - 1) lo hi
        { n with keys := ks1 ++ ks2, children := cs1 ++ some (mergeNode c sep d) :: cs2 } l := by
      refine ⟨hR.1, hR.2.1, ?_, ?_, ?_⟩
      · rw [hks]; simp; omega
      · have := hR.2.2.2.1
        rw [hks] at this
        simp at this ⊢
        omega
      · rw [hl]
        exact Alt_join ks1 cs1 lo a b hi L _ R ks2 _ cs2 hS
          (Rep_setmin hRm (by rw [hmlen]; omega)) hRr hab
    refine ⟨_, by rw [hfill, if_neg (by rw [ht]; omega)]; exact hmg, hRn1, hpos.2, ?_,
      mergeNode c sep d, ?_, by rw [hmlen]; omega⟩
    · change _ = countWhile _ (ks1 ++ ks2)
      rw [hpos.1, h1, if_neg]
      simp [hne]
    · change (cs1 ++ some (mergeNode c sep d) :: cs2)[countWhile _ (ks1 ++ ks2)]? = _
      rw [hpos.1, h1]
      exact getElem?_mid_of_length h2

theorem Rep_fill {T : Nat} (hT : 2 ≤ T) {h : Nat} {m lo hi : Int} {n : BTreeNode}
    {l : List Int} (hR : Rep (T : Int) (h + 1) m lo hi n l) (hk1 : 1 ≤ n.keys.length) (k : Int)
    (hnf : n.keys[n.findKey k]? ≠ some k) {c : BTreeNode}
    (hc : n.children[n.findKey k]? = some (some c)) (hlt : c.keys.length < T) :
    ∃ n1, n.fill (n.findKey k) = some n1 ∧ FillPost T h lo hi n l k n1 := by
  have hB := Rep_child_bounded (t := (T : Int)) (by omega) h
  have hKS := Alt_keys_sorted hB _ _ _ _ _ hR.2.2.2.2
  have ht : n.t = (T : Int) := hR.2.1
  have hle : n.findKey k ≤ n.keys.length := countWhile_le _ _
  obtain ⟨htake, hdrop⟩ := findKey_facts hKS.1 hnf
  obtain ⟨c0, hc0, hcmin⟩ := Rep_child_at hR hle
  have ec := child_at_unique hc hc0
  subst ec
  have hcl : c0.keys.length = T - 1 := by omega
  cases hidx : n.findKey k with
  | zero =>
    have := Rep_fill_next hT hR k hnf hc hcl (Or.inl hidx) (by omega)
    rw [hidx] at this
    exact this
  | succ i =>
    obtain ⟨s, hs, hsmin⟩ := Rep_child_at hR (i := i) (by omega)
    by_cases hsl : T ≤ s.keys.length
    · -- borrow from the previous sibling
      have hc1 : n.children[i + 1]? = some (some c0) := by rw [← hidx]; exact hc
      obtain ⟨n1, ks1, sep, up, ks2, c1, hbp, hR1, hks, hks1, h1, hupsep, hc1', hc1len⟩ :=
        Rep_borrowPrev hT hR (by omega) hs hc1 hsl hcl
      have hsepk : sep < k := by
        refine htake sep ?_
        change sep ∈ List.take (n.findKey k) n.keys
        have e : n.keys = (ks1 ++ [sep]) ++ ks2 := by rw [hks]; simp
        rw [e, List.take_left' (by simp [h1, hidx])]
        simp
      have hpos := findKey_split (k := k) (K := n1.keys) (A := ks1 ++ [up]) (B := ks2)
        (by rw [hks1]; simp)
        (fun x hx => by
          simp only [List.mem_append, List.mem_singleton] at hx
          rcases hx with hx | rfl
          · refine htake x ?_
            change x ∈ List.take (n.findKey k) n.keys
            have e : n.keys = (ks1 ++ [sep]) ++ ks2 := by rw [hks]; simp
            rw [e, List.take_left' (by simp [h1, hidx])]
            simp [hx]
          · omega)
        (fun y hy => hdrop y (by
          change y ∈ List.drop (n.findKey k) n.keys
          have e : n.keys = (ks1 ++ [sep]) ++ ks2 := by rw [hks]; simp
          rw [e, List.drop_left' (by simp [h1, hidx])]
          exact List.mem_of_mem_head? hy))
      have hfk : n1.findKey k = i + 1 := by
        change countWhile _ n1.keys = _
        rw [hpos.1]
        simp [h1]
      have hlen1 : n1.keys.length = n.keys.length := by rw [hks1, hks]; simp
      refine ⟨n1, ?_, Rep_setmin hR1 (by rw [hlen1]; omega), hpos.2, ?_, c1, ?_, hc1len⟩
      · rw [fill_prev hs (by rw [ht]; omega)]
        exact hbp
      · rw [hfk, hidx, if_neg]
        rw [hlen1]
        intro hcontra
        omega
      · rw [hfk]; exact hc1'
    · by_cases hlast : i + 1 = n.keys.length
      · -- merge with the previous sibling
        have hsl1 : s.keys.length = T - 1 := by omega
        have hc1 : n.children[i + 1]? = some (some c0) := by rw [← hidx]; exact hc
        obtain ⟨ks1, sep, ks2, cs1, cs2, L, lc, ld, R, a, b, hks, h1, h2, hmg, hl, hS, hRm, hRr,
          hab, hmlen⟩ := Rep_mergeAt hT hR (by omega) hs hc1 hsl1 hcl
        have hks2 : ks2 = [] := by
          have := congrArg List.length hks
          simp at this
          exact List.length_eq_zero.1 (by omega)
        subst hks2
        have hpos := findKey_split (k := k) (K := ks1 ++ []) (A := ks1) (B := []) rfl
          (fun x hx => htake x (by
            change x ∈ List.take (n.findKey k) n.keys
            have e : n.keys = (ks1 ++ [sep]) ++ [] := by rw [hks]; simp
            rw [e, List.take_left' (by simp [h1, hidx])]
            simp [hx]))
          (fun y hy => by simp at hy)
        have hRn1 : Rep (T : Int) (h + 1) ((n.keys.length : Int) - 1) lo hi
            { n with keys := ks1 ++ [], children := cs1 ++ some (mergeNode s sep c0) :: cs2 }
            l := by
          refine ⟨hR.1, hR.2.1, ?_, ?_, ?_⟩
          · rw [hks]; simp
          · have := hR.2.2.2.1
            rw [hks] at this
            simp at this ⊢
            omega
          · rw [hl]
            exact Alt_join ks1 cs1 lo a b hi L _ R [] _ cs2 hS
              (Rep_setmin hRm (by rw [hmlen]; omega)) hRr hab
        refine ⟨_, by rw [fill_last hs (by rw [ht]; omega) hlast]; exact hmg, hRn1, hpos.2, ?_,
          mergeNode s sep c0, ?_, by rw [hmlen]; omega⟩
        · change _ = countWhile _ (ks1 ++ [])
          rw [hpos.1, h1, hidx, if_pos]
          · simp
          · refine ⟨by simpa using hlast, ?_⟩
            change i + 1 > (ks1 ++ []).length
            simp [h1]
        · change (cs1 ++ some (mergeNode s sep c0) :: cs2)[countWhile _ (ks1 ++ [])]? = _
          rw [hpos.1, h1]
          exact getElem?_mid_of_length h2
      · have := Rep_fill_next hT hR k hnf hc hcl
          (Or.inr ⟨s, by rw [hidx]; simpa using hs, by rw [ht]; omega⟩) (by rw [hidx]; exact hlast)
        rw [hidx] at this
        exact this

/-! ## Deletion -/

theorem sorted_eraseIdx_mem {ks : List Int} (hs : ks.Pairwise (fun x y => x < y)) {i : Nat}
    {k : Int} (hk : ks[i]? = some k) : ∀ x, x ∈ ks.eraseIdx i ↔ x ∈ ks ∧ x ≠ k := by
  obtain ⟨hlt, hget⟩ := List.getElem?_eq_some.1 hk
  have hsplit : ks = ks.take i ++ k :: ks.drop (i + 1) := by
    have h1 := List.take_append_drop i ks
    rw [List.drop_eq_getElem_cons hlt, hget] at h1
    exact h1.symm
  have hlen : (ks.take i).length = i := by simp; omega
  have herase : ks.eraseIdx i = ks.take i ++ ks.drop (i + 1) := by
    conv => lhs; rw [hsplit]
    exact eraseIdx_mid_of_length k hlen
  have hpw := hs
  rw [hsplit, List.pairwise_append, List.pairwise_cons] at hpw
  obtain ⟨_, ⟨hB, _⟩, hA⟩ := hpw
  intro x
  rw [herase]
  conv => rhs; rw [hsplit]
  simp only [List.mem_append, List.mem_cons]
  constructor
  · rintro (hx | hx)
    · exact ⟨Or.inl hx, fun e => by have := hA x hx k (by simp); omega⟩
    · exact ⟨Or.inr (Or.inr hx), fun e => by have := hB x hx; omega⟩
  · rintro ⟨hx | hx | hx, hne⟩
    · exact Or.inl hx
    · exact absurd hx hne
    · exact Or.inr hx

theorem mem_descend {L lc lc2 R : List Int} {k : Int} (hL : k ∉ L) (hR : k ∉ R)
    (h : ∀ x, x ∈ lc2 ↔ x ∈ lc ∧ x ≠ k) (x : Int) :
    x ∈ L ++ lc2 ++ R ↔ x ∈ L ++ lc ++ R ∧ x ≠ k := by
  simp only [List.mem_append, h]
  constructor
  · rintro ((hx | ⟨hx, hne⟩) | hx)
    · exact ⟨Or.inl (Or.inl hx), fun e => hL (e ▸ hx)⟩
    · exact ⟨Or.inl (Or.inr hx), hne⟩
    · exact ⟨Or.inr hx, fun e => hR (e ▸ hx)⟩
  · rintro ⟨(hx | hx) | hx, hne⟩
    · exact Or.inl (Or.inl hx)
    · exact Or.inl (Or.inr ⟨hx, hne⟩)
    · exact Or.inr hx

theorem Rep_descend {T : Nat} (hT : 2 ≤ T) {h fuel : Nat} (IH : RemoveOK T h fuel)
    {m lo hi : Int} {n : BTreeNode} {l : List Int} (hR : Rep (T : Int) (h + 1) m lo hi n l)
    (k : Int) (hnf : n.keys[n.findKey k]? ≠ some k) {c : BTreeNode}
    (hc : n.children[n.findKey k]? = some (some c)) (hcl : T ≤ c.keys.length) :
    ∃ c2 l1, c.remove fuel k = some c2 ∧
      Rep (T : Int) (h + 1) m lo hi
        { n with children := n.children.set (n.findKey k) (some c2) } l1 ∧
      ∀ x, x ∈ l1 ↔ x ∈ l ∧ x ≠ k := by
  obtain ⟨hl, ht, hm, hmax, hA⟩ := hR
  have hB := Rep_child_bounded (t := (T : Int)) (by omega) h
  obtain ⟨ks1, ks2, cs1, c0, cs2, L, lc, R, a, b, hks, hcs, h1, h2, rfl, hS, hPc, hRr, hab,
    hkL, hkR, _, _⟩ := Alt_locate hB hA k hnf
  have ec : c0 = c := child_at_unique hc (by rw [hcs]; exact getElem?_mid_of_length h2)
  subst ec
  obtain ⟨c2, lc2, hrem, hRc2, hmem⟩ := IH k _ a b c0 lc hPc (Or.inr (by omega))
  refine ⟨c2, L ++ lc2 ++ R, hrem, ⟨hl, ht, hm, hmax, ?_⟩, mem_descend hkL hkR hmem⟩
  have hset : n.children.set (n.findKey k) (some c2) = cs1 ++ some c2 :: cs2 := by
    rw [hcs]
    exact set_mid _ h2
  show Alt _ lo hi n.keys (n.children.set (n.findKey k) (some c2)) _
  rw [hset, hks]
  exact Alt_join ks1 cs1 lo a b hi L lc2 R ks2 c2 cs2 hS
    (Rep_setmin hRc2 (by have := (Rep_len hRc2).2.1; omega)) hRr hab

theorem remove_eq_descend {n c n1 c1 : BTreeNode} {k : Int} {fuel j : Nat}
    (hnf : n.keys[n.findKey k]? ≠ some k) (hl : n.leaf = false)
    (hc : n.children[n.findKey k]? = some (some c))
    (hfill : (if (c.keys.length : Int) < n.t then n.fill (n.findKey k) else some n) = some n1)
    (hj : (if decide (n.findKey k = n.keys.length) = true ∧ n.findKey k > n1.keys.length
      then n.findKey k - 1 else n.findKey k) = j)
    (hc1 : n1.children[j]? = some (some c1)) :
    n.remove (fuel + 1) k =
      (c1.remove fuel k).map (fun c2 => { n1 with children := n1.children.set j (some c2) }) := by
  simp only [BTreeNode.remove, hnf, if_false, hl, hc, hfill, hj, hc1, Bool.false_eq_true]

theorem Rep_remove_notHere {T : Nat} (hT : 2 ≤ T) {h fuel : Nat} (IH : RemoveOK T h fuel)
    {m lo hi : Int} {n : BTreeNode} {l : List Int} (hR : Rep (T : Int) (h + 1) m lo hi n l)
    (hk1 : 1 ≤ n.keys.length) (k : Int) (hnf : n.keys[n.findKey k]? ≠ some k) :
    ∃ n1 l1, n.remove (fuel + 1) k = some n1 ∧
      Rep (T : Int) (h + 1) ((n.keys.length : Int) - 1) lo hi n1 l1 ∧
      ∀ x, x ∈ l1 ↔ x ∈ l ∧ x ≠ k := by
  have ht : n.t = (T : Int) := hR.2.1
  have hle : n.findKey k ≤ n.keys.length := countWhile_le _ _
  obtain ⟨c, hc, hcmin⟩ := Rep_child_at hR hle
  by_cases hlt : c.keys.length < T
  · obtain ⟨n1, hfill, hR1, hnf1, hj, c1, hc1, hc1len⟩ := Rep_fill hT hR hk1 k hnf hc hlt
    obtain ⟨c2, l1, hrem, hR2, hmem⟩ := Rep_descend hT IH hR1 k hnf1 hc1 hc1len
    refine ⟨_, l1, ?_, hR2, hmem⟩
    rw [remove_eq_descend hnf hR.1 hc (by rw [if_pos (by rw [ht]; omega)]; exact hfill) hj hc1,
      hrem]
    rfl
  · obtain ⟨c2, l1, hrem, hR2, hmem⟩ := Rep_descend hT IH hR k hnf hc (by omega)
    refine ⟨_, l1, ?_, Rep_setmin hR2 (by simp), hmem⟩
    have hj : (if decide (n.findKey k = n.keys.length) = true ∧ n.findKey k > n.keys.length
        then n.findKey k - 1 else n.findKey k) = n.findKey k := by
      rw [if_neg]
      intro hcontra
      omega
    rw [remove_eq_descend hnf hR.1 hc (by rw [if_neg (by rw [ht]; omega)]) hj hc, hrem]
    rfl

/-! ## Deleting a key found in an internal node -/

theorem sorted_mid_notin {A B : List Int} {k : Int}
    (hs : (A ++ k :: B).Pairwise (fun x y => x < y)) : k ∉ A ∧ k ∉ B := by
  rw [List.pairwise_append, List.pairwise_cons] at hs
  obtain ⟨_, ⟨hB, _⟩, hA⟩ := hs
  exact ⟨fun h => by have := hA k h k (by simp); omega, fun h => by have := hB k h; omega⟩

theorem mem_2A {L lc lc2 ld R : List Int} {k pred : Int} (hp : pred ∈ lc)
    (hk : k ∉ L ++ lc ∧ k ∉ ld ++ R) (h : ∀ x, x ∈ lc2 ↔ x ∈ lc ∧ x ≠ pred) (x : Int) :
    x ∈ L ++ lc2 ++ pred :: (ld ++ R) ↔ x ∈ L ++ lc ++ k :: (ld ++ R) ∧ x ≠ k := by
  simp only [List.mem_append, List.mem_cons, h, not_or] at hk ⊢
  obtain ⟨⟨hk1, hk2⟩, hk3, hk4⟩ := hk
  by_cases hxk : x = k
  · subst hxk
    have : x ≠ pred := fun e => hk2 (e ▸ hp)
    simp [hk1, hk2, hk3, hk4, this]
  · by_cases hxp : x = pred
    · subst hxp
      simp [hp, hxk]
    · simp [hxk, hxp]

theorem mem_2B {L lc ld ld2 R : List Int} {k succ : Int} (hp : succ ∈ ld)
    (hk : k ∉ L ++ lc ∧ k ∉ ld ++ R) (h : ∀ x, x ∈ ld2 ↔ x ∈ ld ∧ x ≠ succ) (x : Int) :
    x ∈ L ++ lc ++ succ :: (ld2 ++ R) ↔ x ∈ L ++ lc ++ k :: (ld ++ R) ∧ x ≠ k := by
  simp only [List.mem_append, List.mem_cons, h, not_or] at hk ⊢
  obtain ⟨⟨hk1, hk2⟩, hk3, hk4⟩ := hk
  by_cases hxk : x = k
  · subst hxk
    have : x ≠ succ := fun e => hk3 (e ▸ hp)
    simp [hk1, hk2, hk3, hk4, this]
  · by_cases hxp : x = succ
    · subst hxp
      simp [hp, hxk]
    · simp [hxk, hxp]

theorem rfnl_2A {n c : BTreeNode} {k pred : Int} {idx fuel : Nat}
    (rec : BTreeNode → Int → Option BTreeNode)
    (hk : n.keys[idx]? = some k) (hc : n.children[idx]? = some (some c))
    (hcl : (c.keys.length : Int) ≥ n.t) (hp : lastKey fuel c = some pred) :
    n.removeFromNonLeaf rec fuel idx =
      (rec c pred).map (fun c2 =>
        { n with keys := n.keys.set idx pred, children := n.children.set idx (some c2) }) := by
  simp only [BTreeNode.removeFromNonLeaf, hk, hc, hcl, if_true, BTreeNode.getPred, hp]

theorem rfnl_2B {n c d : BTreeNode} {k succ : Int} {idx fuel : Nat}
    (rec : BTreeNode → Int → Option BTreeNode)
    (hk : n.keys[idx]? = some k) (hc : n.children[idx]? = some (some c))
    (hcl : ¬ (c.keys.length : Int) ≥ n.t) (hd : n.children[idx + 1]? = some (some d))
    (hdl : (d.keys.length : Int) ≥ n.t) (hp : firstKey fuel d = some succ) :
    n.removeFromNonLeaf rec fuel idx =
      (rec d succ).map (fun c2 =>
        { n with keys := n.keys.set idx succ,
                 children := n.children.set (idx + 1) (some c2) }) := by
  simp only [BTreeNode.removeFromNonLeaf, hk, hc, hcl, if_false, hd, hdl, if_true,
    BTreeNode.getSucc, hp]

theorem rfnl_2C {n c d n1 mg : BTreeNode} {k : Int} {idx fuel : Nat}
    (rec : BTreeNode → Int → Option BTreeNode)
    (hk : n.keys[idx]? = some k) (hc : n.children[idx]? = some (some c))
    (hcl : ¬ (c.keys.length : Int) ≥ n.t) (hd : n.children[idx + 1]? = some (some d))
    (hdl : ¬ (d.keys.length : Int) ≥ n.t) (hm : n.merge idx = some n1)
    (hmg : n1.children[idx]? = some (some mg)) :
    n.removeFromNonLeaf rec fuel idx =
      (rec mg k).map (fun c2 => { n1 with children := n1.children.set idx (some c2) }) := by
  simp only [BTreeNode.removeFromNonLeaf, hk, hc, hcl, if_false, hd, hdl, hm, hmg]

theorem remove_eq_here {n : BTreeNode} {k : Int} {fuel : Nat}
    (hf : n.keys[n.findKey k]? = some k) (hl : n.leaf = false) :
    n.remove (fuel + 1) k = n.removeFromNonLeaf (BTreeNode.remove fuel) fuel (n.findKey k) := by
  simp only [BTreeNode.remove, hf, if_true, hl, Bool.false_eq_true, if_false]

theorem Rep_remove_2A {T : Nat} (hT : 2 ≤ T) {h fuel : Nat} (IH : RemoveOK T h fuel)
    (hfuel : h < fuel) {m lo hi : Int} {n : BTreeNode} {l : List Int}
    (hR : Rep (T : Int) (h + 1) m lo hi n l) (k : Int) (hf : n.keys[n.findKey k]? = some k)
    {c : BTreeNode} (hc : n.children[n.findKey k]? = some (some c)) (hcl : T ≤ c.keys.length) :
    ∃ n1 l1, n.remove (fuel + 1) k = some n1 ∧
      Rep (T : Int) (h + 1) ((n.keys.length : Int) - 1) lo hi n1 l1 ∧
      ∀ x, x ∈ l1 ↔ x ∈ l ∧ x ≠ k := by
  have hRfull := hR
  obtain ⟨hl, ht, hm, hmax, hA⟩ := hR
  have hB := Rep_child_bounded (t := (T : Int)) (by omega) h
  have hi1 : n.findKey k < n.keys.length := (List.getElem?_eq_some.1 hf).1
  obtain ⟨ks1, ks2, cs1, c0, d, cs2, L, lc, ld, R, a, sep, b, hks, hcs, h1, h2, rfl, hS, hPc, hPd,
    hRr, hasep, hsepb⟩ := Alt_split2 hA hi1
  have ec : c0 = c := child_at_unique hc (by rw [hcs]; exact getElem?_mid_of_length h2)
  subst ec
  have esep : sep = k := by
    have : n.keys[n.findKey k]? = some sep := by rw [hks]; exact getElem?_mid_of_length h1
    rw [hf] at this
    simpa using this.symm
  subst esep
  have hsorted := Rep_sorted (t := (T : Int)) (by omega) _ _ _ _ _ _ hRfull
  have hkn := sorted_mid_notin (A := L ++ lc) (B := ld ++ R) (k := sep) (by simpa using hsorted)
  obtain ⟨pred, hlast, hgl⟩ := Rep_lastKey hT h fuel _ a sep c0 lc hPc (by omega) hfuel
  obtain ⟨c2, lc2, hrem, hRc2, hmem⟩ := IH pred _ a sep c0 lc hPc (Or.inr (by omega))
  obtain ⟨hpm, hpmax⟩ := sorted_last_max (Rep_sorted (t := (T : Int)) (by omega) _ _ _ _ _ _ hPc) hgl
  have hbc := (hB _ _ _ _ hPc).2
  have hbd := hB _ _ _ _ hPd
  have hpb := hbc pred hpm
  have hRc2r : Rep (T : Int) h ((T : Int) - 1) a pred c2 lc2 :=
    Rep_rebound (t := (T : Int)) (by omega) _ _ _ _ _ _ _ _
      (Rep_setmin hRc2 (by have := (Rep_len hRc2).2.1; omega)) hpb.1
      (fun x hx => ⟨(hbc x ((hmem x).1 hx).1).1, hpmax x ((hmem x).1 hx).1 ((hmem x).1 hx).2⟩)
  have hPdr : Rep (T : Int) h ((T : Int) - 1) pred b d ld :=
    Rep_rebound (t := (T : Int)) (by omega) _ _ _ _ _ _ _ _ hPd (by omega)
      (fun x hx => ⟨by have := (hbd.2 x hx).1; omega, (hbd.2 x hx).2⟩)
  refine ⟨{ n with keys := ks1 ++ pred :: ks2, children := cs1 ++ some c2 :: some d :: cs2 },
    L ++ lc2 ++ pred :: (ld ++ R), ?_, ⟨hl, ht, ?_, ?_, ?_⟩, mem_2A hpm hkn hmem⟩
  · rw [remove_eq_here hf hl, rfnl_2A _ hf hc (by rw [ht]; omega) hlast, hrem]
    simp only [Option.map_some']
    rw [hks, hcs, set_mid _ h1, set_mid _ h2]
  · rw [hks]; simp
  · rw [hks] at hmax; simpa using hmax
  · exact Alt_join3 hS hRc2r hPdr hpb.1 (by omega) hRr

theorem Rep_remove_2B {T : Nat} (hT : 2 ≤ T) {h fuel : Nat} (IH : RemoveOK T h fuel)
    (hfuel : h < fuel) {m lo hi : Int} {n : BTreeNode} {l : List Int}
    (hR : Rep (T : Int) (h + 1) m lo hi n l) (k : Int) (hf : n.keys[n.findKey k]? = some k)
    {c d : BTreeNode} (hc : n.children[n.findKey k]? = some (some c))
    (hcl : c.keys.length < T) (hd : n.children[n.findKey k + 1]? = some (some d))
    (hdl : T ≤ d.keys.length) :
    ∃ n1 l1, n.remove (fuel + 1) k = some n1 ∧
      Rep (T : Int) (h + 1) ((n.keys.length : Int) - 1) lo hi n1 l1 ∧
      ∀ x, x ∈ l1 ↔ x ∈ l ∧ x ≠ k := by
  have hRfull := hR
  obtain ⟨hl, ht, hm, hmax, hA⟩ := hR
  have hB := Rep_child_bounded (t := (T : Int)) (by omega) h
  have hi1 : n.findKey k < n.keys.length := (List.getElem?_eq_some.1 hf).1
  obtain ⟨ks1, ks2, cs1, c0, d0, cs2, L, lc, ld, R, a, sep, b, hks, hcs, h1, h2, rfl, hS, hPc, hPd,
    hRr, hasep, hsepb⟩ := Alt_split2 hA hi1
  have ec : c0 = c := child_at_unique hc (by rw [hcs]; exact getElem?_mid_of_length h2)
  have ed : d0 = d := child_at_unique hd (by rw [hcs]; exact getElem?_mid1 h2)
  subst ec
  subst ed
  have esep : sep = k := by
    have : n.keys[n.findKey k]? = some sep := by rw [hks]; exact getElem?_mid_of_length h1
    rw [hf] at this
    simpa using this.symm
  subst esep
  have hsorted := Rep_sorted (t := (T : Int)) (by omega) _ _ _ _ _ _ hRfull
  have hkn := sorted_mid_notin (A := L ++ lc) (B := ld ++ R) (k := sep) (by simpa using hsorted)
  obtain ⟨succ, hfirst, hgl⟩ := Rep_firstKey hT h fuel _ sep b d0 ld hPd (by omega) hfuel
  obtain ⟨d2, ld2, hrem, hRd2, hmem⟩ := IH succ _ sep b d0 ld hPd (Or.inr (by omega))
  obtain ⟨hpm, hpmin⟩ :=
    sorted_head_min (Rep_sorted (t := (T : Int)) (by omega) _ _ _ _ _ _ hPd) hgl
  have hbc := hB _ _ _ _ hPc
  have hbd := (hB _ _ _ _ hPd).2
  have hpb := hbd succ hpm
  have hRd2r : Rep (T : Int) h ((T : Int) - 1) succ b d2 ld2 :=
    Rep_rebound (t := (T : Int)) (by omega) _ _ _ _ _ _ _ _
      (Rep_setmin hRd2 (by have := (Rep_len hRd2).2.1; omega)) hpb.2
      (fun x hx => ⟨hpmin x ((hmem x).1 hx).1 ((hmem x).1 hx).2, (hbd x ((hmem x).1 hx).1).2⟩)
  have hPcr : Rep (T : Int) h ((T : Int) - 1) a succ c0 lc :=
    Rep_rebound (t := (T : Int)) (by omega) _ _ _ _ _ _ _ _ hPc (by omega)
      (fun x hx => ⟨(hbc.2 x hx).1, by have := (hbc.2 x hx).2; omega⟩)
  refine ⟨{ n with keys := ks1 ++ succ :: ks2, children := cs1 ++ some c0 :: some d2 :: cs2 },
    L ++ lc ++ succ :: (ld2 ++ R), ?_, ⟨hl, ht, ?_, ?_, ?_⟩, mem_2B hpm hkn hmem⟩
  · rw [remove_eq_here hf hl,
      rfnl_2B _ hf hc (by rw [ht]; omega) hd (by rw [ht]; omega) hfirst, hrem]
    simp only [Option.map_some']
    rw [hks, hcs, set_mid _ h1, set_mid1 _ h2]
  · rw [hks]; simp
  · rw [hks] at hmax; simpa using hmax
  · exact Alt_join3 hS hPcr hRd2r (by omega) hpb.2 hRr

theorem Rep_remove_2C {T : Nat} (hT : 2 ≤ T) {h fuel : Nat} (IH : RemoveOK T h fuel)
    {m lo hi : Int} {n : BTreeNode} {l : List Int}
    (hR : Rep (T : Int) (h + 1) m lo hi n l) (k : Int) (hf : n.keys[n.findKey k]? = some k)
    {c d : BTreeNode} (hc : n.children[n.findKey k]? = some (some c))
    (hcl : c.keys.length = T - 1) (hd : n.children[n.findKey k + 1]? = some (some d))
    (hdl : d.keys.length = T - 1) :
    ∃ n1 l1, n.remove (fuel + 1) k = some n1 ∧
      Rep (T : Int) (h + 1) ((n.keys.length : Int) - 1) lo hi n1 l1 ∧
      ∀ x, x ∈ l1 ↔ x ∈ l ∧ x ≠ k := by
  have hi1 : n.findKey k < n.keys.length := (List.getElem?_eq_some.1 hf).1
  have hsorted := Rep_sorted (t := (T : Int)) (by omega) _ _ _ _ _ _ hR
  obtain ⟨ks1, sep, ks2, cs1, cs2, L, lc, ld, R, a, b, hks, h1, h2, hmg, rfl, hS, hRm, hRr, hab,
    hmlen⟩ := Rep_mergeAt hT hR hi1 hc hd hcl hdl
  obtain ⟨hl, ht, hm, hmax, hA⟩ := hR
  have esep : sep = k := by
    have : n.keys[n.findKey k]? = some sep := by rw [hks]; exact getElem?_mid_of_length h1
    rw [hf] at this
    simpa using this.symm
  subst esep
  have hkn := sorted_mid_notin (A := L ++ lc) (B := ld ++ R) (k := sep) (by simpa using hsorted)
  obtain ⟨m2, lm2, hrem, hRm2, hmem⟩ := IH sep _ a b _ _ hRm (Or.inr (by omega))
  refine ⟨{ n with keys := ks1 ++ ks2, children := cs1 ++ some m2 :: cs2 }, L ++ lm2 ++ R, ?_,
    ⟨hl, ht, ?_, ?_, ?_⟩, ?_⟩
  · rw [remove_eq_here hf hl,
      rfnl_2C _ hf hc (by rw [ht]; omega) hd (by rw [ht]; omega) hmg
        (show (cs1 ++ some (mergeNode c sep d) :: cs2)[n.findKey sep]? = _ from
          getElem?_mid_of_length h2), hrem]
    simp only [Option.map_some']
    rw [set_mid _ h2]
  · rw [hks]; simp; omega
  · rw [hks] at hmax; simp at hmax ⊢; omega
  · exact Alt_join ks1 cs1 lo a b hi L lm2 R ks2 m2 cs2 hS
      (Rep_setmin hRm2 (by have := (Rep_len hRm2).2.1; omega)) hRr hab
  · intro x
    simp only [List.mem_append, not_or] at hkn
    exact mem_descend (fun e => hkn.1.1 e) (fun e => hkn.2.2 e) hmem x

theorem Rep_remove_leaf {T : Nat} {fuel : Nat} : RemoveOK T 0 (fuel + 1) := by
  intro k m lo hi n l hR _
  obtain ⟨hl, ht, hm, hmax, hc, hS, rfl⟩ := hR
  by_cases hf : n.keys[n.findKey k]? = some k
  · have hi1 : n.findKey k < n.keys.length := (List.getElem?_eq_some.1 hf).1
    refine ⟨{ n with keys := n.keys.eraseIdx (n.findKey k) }, _, ?_,
      ⟨hl, ht, ?_, ?_, hc, ⟨?_, ?_⟩, rfl⟩, sorted_eraseIdx_mem hS.1 hf⟩
    · simp only [BTreeNode.remove, hf, if_true, hl, BTreeNode.removeFromLeaf, hi1]
    · simp [List.length_eraseIdx, hi1]; omega
    · simp [List.length_eraseIdx, hi1]; omega
    · exact hS.1.sublist (List.eraseIdx_sublist _ _)
    · intro x hx
      exact hS.2 x ((List.eraseIdx_sublist _ _).subset hx)
  · have hk : k ∉ n.keys := fun hmem => hf ((sorted_find hS.1 k).2 hmem)
    refine ⟨n, _, ?_, ⟨hl, ht, by omega, hmax, hc, hS, rfl⟩, ?_⟩
    · simp only [BTreeNode.remove, hf, if_false, hl, if_true]
    · intro x
      exact ⟨fun hx => ⟨hx, fun e => hk (e ▸ hx)⟩, fun hx => hx.1⟩

theorem Rep_remove {T : Nat} (hT : 2 ≤ T) :
    ∀ (h fuel : Nat), h < fuel → RemoveOK T h fuel
  | _, 0, hf => by omega
  | 0, fuel + 1, _ => Rep_remove_leaf
  | h + 1, fuel + 1, hf => by
    have IH := Rep_remove hT h fuel (by omega)
    intro k m lo hi n l hR hk1
    have hk1 : 1 ≤ n.keys.length := by
      rcases hk1 with h0 | h1
      · omega
      · exact h1
    by_cases hfound : n.keys[n.findKey k]? = some k
    · have hi1 : n.findKey k < n.keys.length := (List.getElem?_eq_some.1 hfound).1
      obtain ⟨c, hc, hcmin⟩ := Rep_child_at hR (le_of_lt hi1)
      obtain ⟨d, hd, hdmin⟩ := Rep_child_at hR (i := n.findKey k + 1) (by omega)
      by_cases hcl : T ≤ c.keys.length
      · exact Rep_remove_2A hT IH (by omega) hR k hfound hc hcl
      · by_cases hdl : T ≤ d.keys.length
        · exact Rep_remove_2B hT IH (by omega) hR k hfound hc (by omega) hd hdl
        · exact Rep_remove_2C hT IH hR k hfound hc (by omega) hd (by omega)
    · exact Rep_remove_notHere hT IH hR hk1 k hfound

/-! ## The validator -/

theorem keysLoop_none (lo hi : Int) :
    ∀ (ks : List Int) (prev : Option Int),
      keysLoop lo hi prev ks = none ↔
        (ks.Pairwise (fun x y => x < y) ∧ (∀ x ∈ ks, lo < x ∧ x < hi) ∧
          ∀ p, prev = some p → ∀ x ∈ ks, p < x)
  | [], prev => by simp [keysLoop]
  | key :: rest, prev => by
    have ih := keysLoop_none lo hi rest (some key)
    constructor
    · intro h
      simp only [keysLoop] at h
      split_ifs at h with c1 c2
      obtain ⟨h1, h2, h3⟩ := ih.1 h
      have hb : lo < key ∧ key < hi := ⟨c2.1, c2.2⟩
      refine ⟨List.pairwise_cons.2 ⟨fun x hx => h3 key rfl x hx, h1⟩, ?_, ?_⟩
      · intro x hx
        rcases List.mem_cons.1 hx with rfl | hx
        · exact hb
        · exact h2 x hx
      · intro q hq x hx
        subst hq
        have hqk : q < key := by
          by_contra hc
          exact c1 (by simp; omega)
        rcases List.mem_cons.1 hx with rfl | hx
        · exact hqk
        · have := h3 _ rfl x hx
          omega
    · rintro ⟨h1, h2, h3⟩
      rw [List.pairwise_cons] at h1
      have hb := h2 key (by simp)
      simp only [keysLoop]
      rw [if_neg, if_neg]
      · exact ih.2 ⟨h1.2, fun x hx => h2 x (List.mem_cons_of_mem _ hx),
          fun q hq x hx => by cases hq; exact h1.1 x hx⟩
      · intro hc
        exact hc ⟨hb.1, hb.2⟩
      · cases prev with
        | none => simp
        | some p =>
          have := h3 p rfl key (by simp)
          simp
          omega

theorem keysLoop_sortedIn (lo hi : Int) (ks : List Int) :
    keysLoop lo hi none ks = none ↔ SortedIn lo hi ks := by
  rw [keysLoop_none]
  simp [SortedIn]

theorem shapeChecks_sound {node : BTreeNode} {isRoot : Bool} {t depth leafDepth ld1 : Int}
    (h : shapeChecks node isRoot t depth leafDepth = .inr ld1) :
    ShapeOK node isRoot t depth leafDepth ld1 := by
  unfold shapeChecks at h
  simp only at h
  split_ifs at h with c1 c2 c3 c4 c5 c6 c7 c8 c9 c10
  · -- leaf, leafDepth = -1
    cases h
    refine ⟨by simpa using c1, by omega, fun hr => ?_, fun hr hf => ?_, fun _ => ?_, fun hf => ?_⟩
    · by_contra hc
      exact c3 ⟨hr, by omega⟩
    · simp [c5] at hf
    · exact ⟨List.length_eq_zero.1 (by simpa using c6), Or.inl ⟨c7, rfl⟩⟩
    · simp [c5] at hf
  · -- leaf, leafDepth = depth
    have he : leafDepth = ld1 := Sum.inr.inj h
    have hd : leafDepth = depth := by simpa using c8
    subst he
    refine ⟨by simpa using c1, by omega, fun hr => ?_, fun hr hf => ?_, fun _ => ?_, fun hf => ?_⟩
    · by_contra hc
      exact c3 ⟨hr, by omega⟩
    · simp [c5] at hf
    · exact ⟨List.length_eq_zero.1 (by simpa using c6), Or.inr ⟨hd, hd⟩⟩
    · simp [c5] at hf
  · -- internal
    cases h
    have hl : node.leaf = false := by simpa using c5
    refine ⟨by simpa using c1, by omega, fun hr => ?_, fun hr _ => ?_, fun hf => ?_, fun _ => ?_⟩
    · by_contra hc
      exact c3 ⟨hr, by omega⟩
    · intro hz
      exact c4 ⟨hr, hl, by omega⟩
    · simp [hl] at hf
    · refine ⟨by simp at c9; omega, ?_, rfl⟩
      intro c hcm hcn
      apply c10
      rw [List.any_eq_true]
      exact ⟨c, hcm, by simp [hcn]⟩

theorem shapeChecks_complete {node : BTreeNode} {isRoot : Bool} {t depth leafDepth ld1 : Int}
    (h : ShapeOK node isRoot t depth leafDepth ld1) :
    shapeChecks node isRoot t depth leafDepth = .inr ld1 := by
  obtain ⟨h1, h2, h3, h4, h5, h6⟩ := h
  unfold shapeChecks
  simp only
  rw [if_neg (by simpa using h1), if_neg (by omega), if_neg, if_neg]
  · cases hl : node.leaf with
    | true =>
      obtain ⟨hc, hld⟩ := h5 hl
      rw [if_pos rfl, if_neg (by simp [hc])]
      rcases hld with ⟨ha, hb⟩ | ⟨ha, hb⟩
      · rw [if_pos ha, hb]
      · by_cases hm : leafDepth = -1
        · rw [if_pos hm, hb]
        · rw [if_neg hm, if_neg (by simp [ha]), ha, hb]
    | false =>
      obtain ⟨hc, hn, hld⟩ := h6 hl
      rw [if_neg (by simp), if_neg (by simp [hc]), if_neg, hld]
      intro hany
      rw [List.any_eq_true] at hany
      obtain ⟨c, hcm, hcn⟩ := hany
      cases c with
      | none => exact hn none hcm rfl
      | some c => simp at hcn
  · rintro ⟨hr, hl, hz⟩
    exact h4 hr hl (by omega)
  · rintro ⟨hr, hlt⟩
    have := h3 hr
    omega

theorem shapeChecks_inl_ne {node : BTreeNode} {isRoot : Bool} {t depth leafDepth : Int}
    {e : String} (h : shapeChecks node isRoot t depth leafDepth = .inl e) : e ≠ "VALID" := by
  unfold shapeChecks at h
  simp only at h
  split_ifs at h <;> (cases h; decide)

theorem keysLoop_some_ne (lo hi : Int) :
    ∀ (ks : List Int) (prev : Option Int) (e : String),
      keysLoop lo hi prev ks = some e → e ≠ "VALID"
  | [], prev, e, h => by simp [keysLoop] at h
  | key :: rest, prev, e, h => by
    simp only [keysLoop] at h
    split_ifs at h
    · cases h; decide
    · exact keysLoop_some_ne lo hi rest _ e h
    · cases h; decide

theorem Alt_all_some {P : Int → Int → BTreeNode → List Int → Prop} :
    ∀ (ks : List Int) (cs : List (Option BTreeNode)) (lo hi : Int) (l : List Int),
      Alt P lo hi ks cs l → ∀ c ∈ cs, c ≠ none
  | _, [], _, _, _, hA => by simp [Alt] at hA
  | _, none :: _, _, _, _, hA => by simp [Alt] at hA
  | [], some c :: cs, lo, hi, l, hA => by
    obtain ⟨rfl, _⟩ := hA
    simp
  | k :: ks, some c :: cs, lo, hi, l, hA => by
    obtain ⟨l1, l2, rfl, hlt, hPc, hrest⟩ := hA
    intro x hx
    rcases List.mem_cons.1 hx with rfl | hx
    · simp
    · exact Alt_all_some ks cs k hi l2 hrest x hx

theorem middleLoop_complete {P : Int → Int → BTreeNode → List Int → Prop} {D : Int}
    (rec : Option BTreeNode → Int → Int → Int → Option (String × Int))
    (hrec : ∀ lo hi c l, P lo hi c l → rec (some c) lo hi D = some ("VALID", D)) :
    ∀ (ks : List Int) (cs1 : List (Option BTreeNode)) (a a1 : Int) (L : List Int)
      (pk : List Int) (pc rest : List (Option BTreeNode)),
      Seg P a a1 ks cs1 L → pc.length = pk.length + 1 →
      middleLoop rec (pk ++ a :: ks) (pc ++ cs1 ++ rest) ks.length pc.length D =
        some ("VALID", D)
  | [], _, _, _, _, _, _, _, _, _ => by simp [middleLoop]
  | k :: ks, [], _, _, _, _, _, _, hS, _ => by simp [Seg] at hS
  | k :: ks, none :: _, _, _, _, _, _, _, hS, _ => by simp [Seg] at hS
  | k :: ks, some c :: cs1, a, a1, L, pk, pc, rest, hS, hlen => by
    obtain ⟨l1, l2, rfl, hlt, hPc, hS1⟩ := hS
    have e1 : (pc ++ some c :: cs1 ++ rest)[pc.length]? = some (some c) := by
      rw [List.append_assoc]
      exact getElem?_mid _ _ _
    have e2 : (pk ++ a :: k :: ks)[pc.length - 1]? = some a :=
      getElem?_mid_of_length (by omega)
    have e3 : (pk ++ a :: k :: ks)[pc.length]? = some k := by
      rw [hlen]
      exact getElem?_mid1 rfl
    have ih := middleLoop_complete rec hrec ks cs1 k a1 l2 (pk ++ [a]) (pc ++ [some c]) rest hS1
      (by simp [hlen])
    simp only [List.append_assoc, List.singleton_append, List.length_append,
      List.length_singleton] at ih
    simp only [List.length_cons, middleLoop, e1, e2, e3, hrec _ _ _ _ hPc, ne_eq,
      not_true_eq_false, if_false]
    simpa using ih

theorem middleLoop_sound {P : Int → Int → BTreeNode → List Int → Prop} {D : Int}
    (rec : Option BTreeNode → Int → Int → Int → Option (String × Int))
    (hrec : ∀ c lo hi ld1, rec c lo hi D = some ("VALID", ld1) →
      ld1 = D ∧ ∃ c1 l, c = some c1 ∧ P lo hi c1 l) :
    ∀ (ks : List Int) (cs : List (Option BTreeNode)) (a : Int)
      (pk : List Int) (pc : List (Option BTreeNode)) (ld2 : Int),
      (a :: ks).Pairwise (fun x y => x < y) → pc.length = pk.length + 1 →
      middleLoop rec (pk ++ a :: ks) (pc ++ cs) ks.length pc.length D = some ("VALID", ld2) →
      ld2 = D ∧ ∃ cs1 rest L, cs = cs1 ++ rest ∧ cs1.length = ks.length ∧
        Seg P a (ks.getLast?.getD a) ks cs1 L
  | [], cs, a, pk, pc, ld2, _, _, h => by
    simp only [List.length_nil, middleLoop, Option.some.injEq, Prod.mk.injEq, true_and] at h
    exact ⟨h.symm, [], cs, [], rfl, rfl, rfl, rfl⟩
  | k :: ks, cs, a, pk, pc, ld2, hpw, hlen, h => by
    have e2 : (pk ++ a :: k :: ks)[pc.length - 1]? = some a :=
      getElem?_mid_of_length (by omega)
    have e3 : (pk ++ a :: k :: ks)[pc.length]? = some k := by
      rw [hlen]
      exact getElem?_mid1 rfl
    cases cs with
    | nil =>
      have e1 : (pc ++ ([] : List (Option BTreeNode)))[pc.length]? = none := by simp
      simp only [List.length_cons, middleLoop, e1] at h
      cases h
    | cons c cs =>
      have e1 : (pc ++ c :: cs)[pc.length]? = some c := getElem?_mid _ _ _
      simp only [List.length_cons, middleLoop, e1, e2, e3] at h
      cases hr : rec c a k D with
      | none => simp [hr] at h
      | some res =>
        obtain ⟨r, ld⟩ := res
        simp only [hr] at h
        by_cases hv : r = "VALID"
        · subst hv
          simp only [ne_eq, not_true_eq_false, if_false] at h
          obtain ⟨rfl, c1, l1, rfl, hPc⟩ := hrec c a k ld hr
          rw [List.pairwise_cons] at hpw
          have h' : middleLoop rec ((pk ++ [a]) ++ k :: ks) ((pc ++ [some c1]) ++ cs) ks.length
              (pc ++ [some c1]).length ld = some ("VALID", ld2) := by
            simpa using h
          obtain ⟨hld, cs1, rest, L, rfl, hl1, hS⟩ :=
            middleLoop_sound rec hrec ks cs k (pk ++ [a]) (pc ++ [some c1]) ld2 hpw.2
              (by simp [hlen]) h'
          refine ⟨hld, some c1 :: cs1, rest, l1 ++ k :: L, by simp, by simp [hl1], ?_⟩
          have hlast : (k :: ks).getLast?.getD a = ks.getLast?.getD k := by
            rw [List.getLast?_cons]
            simp
          rw [hlast]
          exact ⟨l1, L, rfl, hpw.1 k (by simp), hPc, hS⟩
        · simp only [ne_eq, hv, not_false_eq_true, if_true, Option.some.injEq,
            Prod.mk.injEq, false_and] at h

theorem getElem?_last_cons (k0 : Int) (ks : List Int) :
    (k0 :: ks)[ks.length]? = some (ks.getLast?.getD k0) := by
  have := List.getLast?_eq_getElem? (k0 :: ks)
  simp only [List.length_cons, Nat.add_sub_cancel] at this
  rw [← this, List.getLast?_cons]

theorem validateNode_internal {fuel : Nat} {n : BTreeNode} {isRoot : Bool}
    {t lo hi d ld ld1 : Int} {c0 : Option BTreeNode} {k0 : Int}
    (hshape : shapeChecks n isRoot t d ld = .inr ld1)
    (hkeys : keysLoop lo hi none n.keys = none) (hl : n.leaf = false)
    (hc0 : n.children[0]? = some c0) (hk0 : n.keys[0]? = some k0) :
    validateNode (fuel + 1) (some n) isRoot t lo hi d ld =
      match validateNode fuel c0 false t lo k0 (d + 1) ld1 with
      | none => none
      | some (r, la) =>
        if r ≠ "VALID" then some (r, la)
        else
          match middleLoop (fun c lo hi l => validateNode fuel c false t lo hi (d + 1) l)
              n.keys n.children (n.keys.length - 1) 1 la with
          | none => none
          | some (r, lb) =>
            if r ≠ "VALID" then some (r, lb)
            else
              match n.children[n.keys.length]?, n.keys[n.keys.length - 1]? with
              | some cl, some kl =>
                match validateNode fuel cl false t kl hi (d + 1) lb with
                | none => none
                | some (r, lc) => if r ≠ "VALID" then some (r, lc) else some ("VALID", lc)
              | _, _ => none := by
  simp only [validateNode, hshape, hkeys, hl, hc0, hk0]
  rfl

theorem validateNode_complete {t : Int} (ht : 2 ≤ t) :
    ∀ (h fuel : Nat) (isRoot : Bool) (lo hi d ld m : Int) (n : BTreeNode) (l : List Int),
      Rep t h m lo hi n l → (isRoot = false → t - 1 ≤ (n.keys.length : Int)) →
      (isRoot = true → h ≠ 0 → n.keys.length ≠ 0) → h < fuel → (ld = -1 ∨ ld = d + h) →
      (maxKeys t = 2 * t - 1 ∨ (h = 0 ∧ (n.keys.length : Int) ≤ maxKeys t)) →
      validateNode fuel (some n) isRoot t lo hi d ld = some ("VALID", d + h)
  | _, 0, _, _, _, _, _, _, _, _, _, _, _, hf, _, _ => by omega
  | 0, fuel + 1, isRoot, lo, hi, d, ld, m, n, l, hR, hmin, _, _, hld, hfit => by
    obtain ⟨hl, hnt, hm, hmax0, hc, hS, rfl⟩ := hR
    have hmax : (n.keys.length : Int) ≤ maxKeys t := by
      rcases hfit with e | ⟨_, e⟩
      · omega
      · exact e
    have hshape : shapeChecks n isRoot t d ld = .inr d := by
      apply shapeChecks_complete
      refine ⟨hnt, hmax, hmin, fun _ hf => by simp [hl] at hf, fun _ => ⟨hc, ?_⟩,
        fun hf => by simp [hl] at hf⟩
      rcases hld with h1 | h1
      · exact Or.inl ⟨h1, rfl⟩
      · exact Or.inr ⟨by simpa using h1, rfl⟩
    have hkeys := (keysLoop_sortedIn lo hi n.keys).2 hS
    simp only [validateNode, hshape, hkeys, hl, if_true]
    simp
  | h + 1, fuel + 1, isRoot, lo, hi, d, ld, m, n, l, hR, hmin, hroot, hf, hld, hfit => by
    obtain ⟨hl, hnt, hm, hmax0, hA⟩ := hR
    have hW : maxKeys t = 2 * t - 1 := by
      rcases hfit with e | ⟨e, _⟩
      · exact e
      · omega
    have hmax : (n.keys.length : Int) ≤ maxKeys t := by omega
    have hB := Rep_child_bounded ht h
    have hshape : shapeChecks n isRoot t d ld = .inr ld := by
      apply shapeChecks_complete
      exact ⟨hnt, hmax, hmin, fun hr _ => hroot hr (by omega), fun hf => by simp [hl] at hf,
        fun _ => ⟨Alt_length _ _ _ _ _ hA, Alt_all_some _ _ _ _ _ hA, rfl⟩⟩
    have hkeys := (keysLoop_sortedIn lo hi n.keys).2 (Alt_keys_sorted hB _ _ _ _ _ hA)
    have hne : n.keys.length ≠ 0 := by
      cases isRoot with
      | true => exact hroot rfl (by omega)
      | false =>
        have := hmin rfl
        omega
    have hD : ld = -1 ∨ ld = (d + 1) + (h : Int) := by
      rcases hld with h1 | h1
      · exact Or.inl h1
      · right; rw [h1]; push_cast; ring
    have IH : ∀ lo hi c l ld1, Rep t h (t - 1) lo hi c l →
        (ld1 = -1 ∨ ld1 = (d + 1) + (h : Int)) →
        validateNode fuel (some c) false t lo hi (d + 1) ld1 = some ("VALID", (d + 1) + (h : Int)) :=
      fun lo hi c l ld1 hc hl1 =>
        validateNode_complete ht h fuel false lo hi (d + 1) ld1 (t - 1) c l hc
          (fun _ => (Rep_len hc).2.1) (fun hr => by simp at hr) (by omega) hl1 (Or.inl hW)
    match hks : n.keys, hcs : n.children, hA with
    | _, [], hA => simp [Alt] at hA
    | _, none :: _, hA => simp [Alt] at hA
    | [], some c :: cs, hA => simp [hks] at hne
    | k0 :: ks, some c0 :: cs, hA =>
      obtain ⟨l1, l2, rfl, hlt, hP0, hrest⟩ := hA
      obtain ⟨ka, kb, cs1, cl, cb, L, lc, R, a1, b1, hka, hcb, e1, e2, rfl, hS, hPl, hRr, _⟩ :=
        Alt_split ks.length k0 hi ks cs l2 hrest (le_refl _)
      have hkb : kb = [] := by
        have := congrArg List.length hka
        simp at this
        exact List.length_eq_zero.1 (by omega)
      subst hkb
      simp only [List.append_nil] at hka
      subst hka
      rcases hRr with ⟨_, rfl, rfl, rfl⟩ | ⟨ks3, l3, hcontra, _, _⟩
      swap
      · simp at hcontra
      subst hcb
      have ha1 := (Seg_last _ _ _ _ _ hS).1
      have hfirst := IH lo k0 c0 l1 ld hP0 hD
      have hmid := middleLoop_complete
        (fun c lo hi l => validateNode fuel c false t lo hi (d + 1) l)
        (fun lo hi c l hc => IH lo hi c l _ hc (Or.inr rfl))
        ks cs1 k0 a1 L [] [some c0] [some cl] hS (by simp)
      simp only [List.nil_append, List.singleton_append, List.length_singleton,
        List.cons_append] at hmid
      have hlast := IH a1 b1 cl lc _ hPl (Or.inr rfl)
      have hgetc : (some c0 :: (cs1 ++ [some cl]))[(k0 :: ks).length]? = some (some cl) := by
        have e : some c0 :: (cs1 ++ [some cl]) = (some c0 :: cs1) ++ some cl :: [] := by simp
        rw [e]
        exact getElem?_mid_of_length (by simp [e2])
      have hgetk : (k0 :: ks)[(k0 :: ks).length - 1]? = some a1 := by
        rw [ha1]
        simp only [List.length_cons, Nat.add_sub_cancel]
        exact getElem?_last_cons k0 ks
      have hc0 : n.children[0]? = some (some c0) := by rw [hcs]; simp
      have hk0 : n.keys[0]? = some k0 := by rw [hks]; simp
      rw [validateNode_internal hshape hkeys hl hc0 hk0, hfirst]
      simp only [ne_eq, not_true_eq_false, if_false]
      rw [hks, hcs]
      simp only [List.length_cons, Nat.add_sub_cancel]
      rw [hmid]
      simp only [ne_eq, not_true_eq_false, if_false]
      simp only [List.length_cons, Nat.add_sub_cancel] at hgetc hgetk
      rw [hgetc, hgetk]
      simp only [hlast, ne_eq, not_true_eq_false, if_false]
      congr 2
      push_cast
      ring

theorem validateNode_null (fuel : Nat) (isRoot : Bool) (t lo hi d ld : Int) :
    validateNode fuel none isRoot t lo hi d ld = some ("INVALID: null node pointer", ld) := by
  cases fuel <;> simp [validateNode]

theorem valid_of_ite {r : String} {x y : String × Int} {ld : Int}
    (h : (if r ≠ "VALID" then some (r, ld) else some y) = some x) (hx : x.1 = "VALID") :
    r = "VALID" := by
  by_contra hr
  rw [if_pos hr] at h
  cases h
  exact hr hx

set_option maxHeartbeats 1000000 in
theorem validateNode_sound {t : Int} (ht : 2 ≤ t) :
    ∀ (fuel : Nat) (n : BTreeNode) (isRoot : Bool) (lo hi d ld ld1 : Int), 0 ≤ d →
      validateNode fuel (some n) isRoot t lo hi d ld = some ("VALID", ld1) →
      ∃ (h : Nat) (l : List Int), Rep t h (if isRoot = true then 0 else t - 1) lo hi n l ∧
        (isRoot = true → h ≠ 0 → n.keys.length ≠ 0) ∧ (ld = -1 ∨ ld = d + h) ∧ ld1 = d + h ∧
        (maxKeys t = 2 * t - 1 ∨ (h = 0 ∧ (n.keys.length : Int) ≤ maxKeys t))
  | 0, n, isRoot, lo, hi, d, ld, ld1, _, h => by simp [validateNode] at h
  | fuel + 1, n, isRoot, lo, hi, d, ld, ld1, hd, h => by
    have hchild : ∀ (c : Option BTreeNode) (lo hi la lb : Int),
        validateNode fuel c false t lo hi (d + 1) la = some ("VALID", lb) →
        ∃ c1 h l, c = some c1 ∧ Rep t h (t - 1) lo hi c1 l ∧
          (la = -1 ∨ la = (d + 1) + (h : Int)) ∧ lb = (d + 1) + (h : Int) ∧
          (c1.keys.length : Int) ≤ maxKeys t := by
      intro c lo hi la lb hv
      cases c with
      | none =>
        rw [validateNode_null] at hv
        simp only [Option.some.injEq, Prod.mk.injEq] at hv
        exact absurd hv.1 (by decide)
      | some c1 =>
        obtain ⟨h1, l1, hR1, _, hla, hlb, hfit⟩ :=
          validateNode_sound ht fuel c1 false lo hi (d + 1) la lb (by omega) hv
        refine ⟨c1, h1, l1, rfl, by simpa using hR1, hla, hlb, ?_⟩
        rcases hfit with e | ⟨_, e⟩
        · have := (Rep_len hR1).2.2
          omega
        · exact e
    cases hsc : shapeChecks n isRoot t d ld with
    | inl e =>
      simp only [validateNode, hsc, Option.some.injEq, Prod.mk.injEq] at h
      exact absurd h.1 (shapeChecks_inl_ne hsc)
    | inr la =>
      obtain ⟨s1, s2, s3, s4, s5, s6⟩ := shapeChecks_sound hsc
      have hmin : (if isRoot = true then 0 else t - 1) ≤ (n.keys.length : Int) := by
        cases isRoot with
        | true => simp
        | false => simpa using s3 rfl
      cases hkl : keysLoop lo hi none n.keys with
      | some e =>
        simp only [validateNode, hsc, hkl, Option.some.injEq, Prod.mk.injEq] at h
        exact absurd h.1 (keysLoop_some_ne _ _ _ _ _ hkl)
      | none =>
        have hS := (keysLoop_sortedIn lo hi n.keys).1 hkl
        cases hl : n.leaf with
        | true =>
          simp only [validateNode, hsc, hkl, hl, if_true, Option.some.injEq, Prod.mk.injEq,
            true_and] at h
          subst h
          obtain ⟨hc, hld⟩ := s5 hl
          refine ⟨0, n.keys, ⟨hl, s1, hmin, le_trans s2 (maxKeys_le ht), hc, hS, rfl⟩,
            fun _ h0 => absurd rfl h0, ?_, ?_, Or.inr ⟨rfl, s2⟩⟩
          · rcases hld with ⟨h1, _⟩ | ⟨h1, _⟩
            · exact Or.inl h1
            · exact Or.inr (by simpa using h1)
          · rcases hld with ⟨_, h1⟩ | ⟨_, h1⟩ <;> simpa using h1
        | false =>
          obtain ⟨hclen, hnn, hla⟩ := s6 hl
          subst hla
          cases hk0 : n.keys[0]? with
          | none =>
            cases hc0 : n.children[0]? <;>
              simp [validateNode, hsc, hkl, hl, hk0, hc0] at h
          | some k0 =>
            cases hc0 : n.children[0]? with
            | none => simp [validateNode, hsc, hkl, hl, hk0, hc0] at h
            | some c0 =>
              rw [validateNode_internal hsc hkl hl hc0 hk0] at h
              obtain ⟨ks, hks⟩ : ∃ ks, n.keys = k0 :: ks := by
                cases hn : n.keys with
                | nil => simp [hn] at hk0
                | cons a as => simp [hn] at hk0; exact ⟨as, by rw [hk0]⟩
              obtain ⟨cs, hcs⟩ : ∃ cs, n.children = c0 :: cs := by
                cases hn : n.children with
                | nil => simp [hn] at hc0
                | cons a as => simp [hn] at hc0; exact ⟨as, by rw [hc0]⟩
              -- first child
              cases hv0 : validateNode fuel c0 false t lo k0 (d + 1) la with
              | none => simp [hv0] at h
              | some res0 =>
                obtain ⟨r0, lb⟩ := res0
                simp only [hv0] at h
                by_cases hr0 : r0 = "VALID"
                swap
                · rw [if_pos hr0] at h
                  simp only [Option.some.injEq, Prod.mk.injEq] at h
                  exact absurd h.1 hr0
                subst hr0
                rw [if_neg (by simp)] at h
                obtain ⟨c1, h0, l0, rfl, hR0, hla0, rfl, hfit0⟩ := hchild c0 lo k0 la lb hv0
                have hW : maxKeys t = 2 * t - 1 := by
                  rcases maxKeys_cases ht with e | e
                  · exact e
                  · have := (Rep_len hR0).2.1
                    omega
                have hrec : ∀ c lo hi lx,
                    (fun c lo hi l => validateNode fuel c false t lo hi (d + 1) l) c lo hi
                      ((d + 1) + (h0 : Int)) = some ("VALID", lx) →
                    lx = (d + 1) + (h0 : Int) ∧ ∃ c1 l, c = some c1 ∧ Rep t h0 (t - 1) lo hi c1 l := by
                  intro c lo hi lx hv
                  obtain ⟨c2, h2, l2, rfl, hR2, hl2, rfl, _⟩ := hchild c lo hi _ lx hv
                  have he : h2 = h0 := by
                    rcases hl2 with hl2 | hl2 <;> omega
                  subst he
                  exact ⟨rfl, c2, l2, rfl, hR2⟩
                -- middle children
                cases hvm : middleLoop (fun c lo hi l => validateNode fuel c false t lo hi (d + 1) l)
                    n.keys n.children (n.keys.length - 1) 1 ((d + 1) + (h0 : Int)) with
                | none => simp [hvm] at h
                | some resm =>
                  obtain ⟨rm, lc⟩ := resm
                  simp only [hvm] at h
                  by_cases hrm : rm = "VALID"
                  swap
                  · rw [if_pos hrm] at h
                    simp only [Option.some.injEq, Prod.mk.injEq] at h
                    exact absurd h.1 hrm
                  subst hrm
                  rw [if_neg (by simp)] at h
                  have hpw : (k0 :: ks).Pairwise (fun x y => x < y) := by
                    rw [← hks]; exact hS.1
                  have hvm1 : middleLoop
                      (fun c lo hi l => validateNode fuel c false t lo hi (d + 1) l)
                      ([] ++ k0 :: ks) ([some c1] ++ cs) ks.length [some c1].length
                      ((d + 1) + (h0 : Int)) = some ("VALID", lc) := by
                    rw [hks, hcs] at hvm
                    simpa using hvm
                  obtain ⟨rfl, cs1, rest, L, rfl, hcs1, hSeg⟩ :=
                    middleLoop_sound _ hrec ks cs k0 [] [some c1] lc hpw (by simp) hvm1
                  -- last child
                  have hlen : n.keys.length = ks.length + 1 := by rw [hks]; simp
                  have hkl1 : n.keys[n.keys.length - 1]? = some (ks.getLast?.getD k0) := by
                    rw [hlen, Nat.add_sub_cancel, hks]
                    exact getElem?_last_cons k0 ks
                  have hcl1 : n.children[n.keys.length]? = rest[0]? := by
                    rw [hlen, hcs]
                    have e : some c1 :: (cs1 ++ rest) = (some c1 :: cs1) ++ rest := by simp
                    rw [e, List.getElem?_append_right (by simp [hcs1])]
                    simp [hcs1]
                  rw [hkl1, hcl1] at h
                  cases hrest : rest with
                  | nil => simp [hrest] at h
                  | cons cl rest1 =>
                    have hrest1 : rest1 = [] := by
                      have := hclen
                      rw [hcs, hrest, hlen] at this
                      simp at this
                      exact List.length_eq_zero.1 (by omega)
                    subst hrest1
                    subst hrest
                    simp only [List.getElem?_cons_zero] at h
                    cases hvl : validateNode fuel cl false t (ks.getLast?.getD k0) hi (d + 1)
                        ((d + 1) + (h0 : Int)) with
                    | none => simp [hvl] at h
                    | some resl =>
                      obtain ⟨rl, le⟩ := resl
                      simp only [hvl] at h
                      by_cases hrl : rl = "VALID"
                      swap
                      · rw [if_pos hrl] at h
                        simp only [Option.some.injEq, Prod.mk.injEq] at h
                        exact absurd h.1 hrl
                      subst hrl
                      rw [if_neg (by simp)] at h
                      simp only [Option.some.injEq, Prod.mk.injEq, true_and] at h
                      subst h
                      obtain ⟨rfl, cl1, ll, rfl, hRl⟩ := hrec cl _ hi le hvl
                      refine ⟨h0 + 1, l0 ++ k0 :: (L ++ ll),
                        ⟨hl, s1, hmin, le_trans s2 (maxKeys_le ht), ?_⟩, ?_, ?_, ?_, Or.inl hW⟩
                      · rw [hks, hcs]
                        refine ⟨l0, L ++ ll, rfl, (hS.2 k0 (by simp [hks])).1, hR0, ?_⟩
                        have := Alt_join ks cs1 k0 (ks.getLast?.getD k0) hi hi L ll [] [] cl1 []
                          hSeg hRl (Or.inl ⟨rfl, rfl, rfl, rfl⟩) (by simp)
                        simpa using this
                      · intro _ _
                        rw [hlen]
                        omega
                      · rcases hla0 with h1 | h1
                        · exact Or.inl h1
                        · right; rw [h1]; push_cast; ring
                      · push_cast; ring

/-! ## Tree-level facts -/

theorem LLONG_lt : LLONG_MIN < LLONG_MAX := by decide

theorem IsInt_bounds {k : Int} (hk : IsInt k) : LLONG_MIN < k ∧ k < LLONG_MAX := by
  unfold IsInt at hk
  unfold LLONG_MIN LLONG_MAX
  omega

theorem nat_of_two_le {t : Int} (ht : 2 ≤ t) : ∃ T : Nat, t = (T : Int) ∧ 2 ≤ T :=
  ⟨t.toNat, by omega, by omega⟩

theorem validateBTree_iff_fits (tr : BTree) :
    validateBTree tr = some "VALID" ↔ (∃ l, TreeRep tr l) ∧ TreeFits tr := by
  unfold validateBTree TreeRep TreeFits
  by_cases ht : tr.t < 2
  · simp only [ht, if_true]
    constructor
    · intro h
      simp only [Option.some.injEq] at h
      exact absurd h (by decide)
    · rintro ⟨⟨l, h2, _⟩, _⟩
      omega
  · have ht2 : 2 ≤ tr.t := by omega
    simp only [ht, if_false]
    cases hr : tr.root with
    | none =>
      simp only [true_iff]
      exact ⟨⟨[], ht2, rfl⟩, Or.inr (fun r hr1 => by cases hr1)⟩
    | some r =>
      simp only
      constructor
      · intro h
        cases hv : validateNode r.depth (some r) true tr.t LLONG_MIN LLONG_MAX 0 (-1) with
        | none => simp [hv] at h
        | some res =>
          obtain ⟨s, ld⟩ := res
          simp only [hv, Option.map_some', Option.some.injEq] at h
          subst h
          obtain ⟨h, l, hR, hroot, _, _, hfit⟩ :=
            validateNode_sound ht2 r.depth r true LLONG_MIN LLONG_MAX 0 (-1) ld (le_refl _) hv
          refine ⟨⟨l, ht2, h, by simpa using hR, hroot rfl⟩, ?_⟩
          rcases hfit with e | ⟨e, hle⟩
          · exact Or.inl e
          · right
            intro r1 hr1
            cases hr1
            subst e
            exact ⟨hR.1, hle⟩
      · rintro ⟨⟨l, _, h, hR, hroot⟩, hfit⟩
        have hd := Rep_depth _ _ _ _ _ _ hR
        have := validateNode_complete ht2 h r.depth true LLONG_MIN LLONG_MAX 0 (-1) 0 r l hR
          (fun hf => by simp at hf) (fun _ h0 => hroot h0) (by omega) (Or.inl rfl)
          (by
            rcases hfit with e | e
            · exact Or.inl e
            · obtain ⟨hl, hle⟩ := e r rfl
              have := Rep_leaf hR
              rw [hl] at this
              exact Or.inr ⟨by simpa using this.symm, hle⟩)
        rw [this]
        rfl

theorem validateBTree_sound (tr : BTree) (h : validateBTree tr = some "VALID") :
    ∃ l, TreeRep tr l :=
  ((validateBTree_iff_fits tr).1 h).1

theorem TreeFits_of_le {tr : BTree} (h1 : 1 ≤ tr.t) (h2 : tr.t ≤ 1073741824) : TreeFits tr :=
  Or.inl (maxKeys_eq h1 h2)

theorem validateBTree_iff (tr : BTree) (h30 : tr.t ≤ 1073741824) :
    validateBTree tr = some "VALID" ↔ ∃ l, TreeRep tr l := by
  rw [validateBTree_iff_fits]
  constructor
  · exact fun h => h.1
  · rintro ⟨l, hT⟩
    exact ⟨⟨l, hT⟩, TreeFits_of_le (by have := hT.1; omega) h30⟩

theorem Alt_allKeys {P : Int → Int → BTreeNode → List Int → Prop}
    (hP : ∀ lo hi c l, P lo hi c l → ∀ x, x ∈ c.allKeys ↔ x ∈ l) :
    ∀ (ks : List Int) (cs : List (Option BTreeNode)) (lo hi : Int) (l : List Int),
      Alt P lo hi ks cs l → ∀ x, (x ∈ ks ∨ x ∈ allKeysList cs) ↔ x ∈ l
  | _, [], _, _, _, hA => by simp [Alt] at hA
  | _, none :: _, _, _, _, hA => by simp [Alt] at hA
  | [], some c :: cs, lo, hi, l, hA => by
    obtain ⟨rfl, hc⟩ := hA
    intro x
    simp [allKeysList, allKeysOpt, hP _ _ _ _ hc x]
  | k :: ks, some c :: cs, lo, hi, l, hA => by
    obtain ⟨l1, l2, rfl, hlt, hPc, hrest⟩ := hA
    intro x
    have ih := Alt_allKeys hP ks cs k hi l2 hrest x
    have hc := hP _ _ _ _ hPc x
    simp only [allKeysList, allKeysOpt, List.mem_cons, List.mem_append, hc, ← ih]
    constructor
    · rintro ((h | h) | h | h)
      · exact Or.inr (Or.inl h)
      · exact Or.inr (Or.inr (Or.inl h))
      · exact Or.inl h
      · exact Or.inr (Or.inr (Or.inr h))
    · rintro (h | h | h | h)
      · exact Or.inr (Or.inl h)
      · exact Or.inl (Or.inl h)
      · exact Or.inl (Or.inr h)
      · exact Or.inr (Or.inr h)

theorem Rep_allKeys {t : Int} :
    ∀ (h : Nat) (m lo hi : Int) (n : BTreeNode) (l : List Int),
      Rep t h m lo hi n l → ∀ x, x ∈ n.allKeys ↔ x ∈ l
  | 0, m, lo, hi, n, l, hR => by
    obtain ⟨_, _, _, _, hc, _, rfl⟩ := hR
    intro x
    cases n
    simp only at hc
    simp [BTreeNode.allKeys, hc, allKeysList]
  | h + 1, m, lo, hi, n, l, hR => by
    obtain ⟨_, _, _, _, hA⟩ := hR
    intro x
    have := Alt_allKeys (fun lo hi c l hc => Rep_allKeys h _ lo hi c l hc) _ _ _ _ _ hA x
    cases n
    simp only at this
    simpa [BTreeNode.allKeys] using this

theorem TreeRep_allKeys {tr : BTree} {l : List Int} (h : TreeRep tr l) :
    ∀ x, x ∈ tr.allKeys ↔ x ∈ l := by
  obtain ⟨_, h⟩ := h
  unfold BTree.allKeys
  cases hr : tr.root with
  | none =>
    rw [hr] at h
    simp only at h
    simp [allKeysOpt, h]
  | some r =>
    rw [hr] at h
    obtain ⟨h1, hR, _⟩ := h
    intro x
    simpa [allKeysOpt] using Rep_allKeys _ _ _ _ _ _ hR x

theorem TreeRep_sorted {tr : BTree} {l : List Int} (h : TreeRep tr l) :
    l.Pairwise (fun x y => x < y) := by
  obtain ⟨ht, h⟩ := h
  cases hr : tr.root with
  | none =>
    rw [hr] at h
    simp only at h
    simp [h]
  | some r =>
    rw [hr] at h
    obtain ⟨h1, hR, _⟩ := h
    exact Rep_sorted ht _ _ _ _ _ _ hR

theorem TreeRep_traverse {tr : BTree} {l : List Int} (h : TreeRep tr l) :
    tr.traverse = some l := by
  obtain ⟨ht, h⟩ := h
  unfold BTree.traverse
  cases hr : tr.root with
  | none =>
    rw [hr] at h
    simp only at h
    simp [h]
  | some r =>
    rw [hr] at h
    obtain ⟨h1, hR, _⟩ := h
    simp only
    exact Rep_traverse _ _ _ _ _ _ _ hR (by rw [Rep_depth _ _ _ _ _ _ hR]; omega)

theorem TreeRep_search {tr : BTree} {l : List Int} (h : TreeRep tr l) (k : Int) :
    ∃ r, tr.search k = some r ∧ (r = none ↔ k ∉ l) ∧ ∀ n, r = some n → k ∈ n.keys := by
  obtain ⟨ht, h⟩ := h
  unfold BTree.search
  cases hr : tr.root with
  | none =>
    rw [hr] at h
    simp only at h
    exact ⟨none, rfl, by simp [h], by simp⟩
  | some r =>
    rw [hr] at h
    obtain ⟨h1, hR, _⟩ := h
    simp only
    exact Rep_search ht k _ _ _ _ _ _ _ hR (by rw [Rep_depth _ _ _ _ _ _ hR]; omega)

/-- Two strictly increasing lists with the same elements are equal. -/
theorem sorted_ext {l1 l2 : List Int} (h1 : l1.Pairwise (fun x y => x < y))
    (h2 : l2.Pairwise (fun x y => x < y)) (h : ∀ x, x ∈ l1 ↔ x ∈ l2) : l1 = l2 := by
  have n1 : l1.Nodup := h1.imp (fun hxy => ne_of_lt hxy)
  have n2 : l2.Nodup := h2.imp (fun hxy => ne_of_lt hxy)
  have hp : l1.Perm l2 := (List.perm_ext_iff_of_nodup n1 n2).2 h
  exact List.eq_of_perm_of_sorted hp h1 h2

/-! ## `BTree::insert` and `BTree::remove` on valid trees -/

theorem depth_mk (a : Bool) (b : Int) (c : List Int) (d : List (Option BTreeNode)) :
    (BTreeNode.mk a b c d).depth = depthList d + 1 := rfl

theorem insert_TreeRep {tr : BTree} {l : List Int} (h : TreeRep tr l)
    (h30 : tr.t < 1073741824) {k : Int}
    (hk : LLONG_MIN < k ∧ k < LLONG_MAX) (hnot : k ∉ l) :
    ∃ tr1 l1, tr.insert k = some tr1 ∧ TreeRep tr1 l1 ∧ (∀ x, x ∈ l1 ↔ x = k ∨ x ∈ l) ∧
      tr1.t = tr.t ∧ (∀ r, tr1.root = some r → r.keys.length ≠ 0) ∧
      (tr1.height = tr.height ∨ tr1.height = tr.height + 1) := by
  obtain ⟨ht, h⟩ := h
  obtain ⟨T, hT, hT2⟩ := nat_of_two_le ht
  have hT30 : T < 1073741824 := by omega
  have hW : maxKeys tr.t = 2 * tr.t - 1 := maxKeys_eq (by omega) (by omega)
  have hnew : ∀ b, newBTreeNode tr.t b = some ⟨b, tr.t, [], []⟩ :=
    fun b => newBTreeNode_eq (by omega) h30 b
  cases hr : tr.root with
  | none =>
    rw [hr] at h
    simp only at h
    subst h
    refine ⟨⟨some ⟨true, tr.t, [k], []⟩, tr.t⟩, [k], (by simp [BTree.insert, hr, hnew]),
      ⟨ht, 0, ⟨rfl, rfl, (by simp), (by simp; omega), rfl, ?_, rfl⟩, fun h0 => absurd rfl h0⟩,
      (by simp), rfl, ?_, ?_⟩
    · exact ⟨by simp, fun x hx => by simp at hx; subst hx; exact hk⟩
    · intro r hr1
      simp only [Option.some.injEq] at hr1
      subst hr1
      simp
    · right
      simp [BTree.height, hr, depthOpt, depth_mk, depthList]
  | some r =>
    rw [hr] at h
    obtain ⟨h1, hR, hroot⟩ := h
    rw [hT] at hR
    have hdepth := Rep_depth _ _ _ _ _ _ hR
    by_cases hfull : (r.keys.length : Int) = 2 * tr.t - 1
    · have hfull1 : r.keys.length = 2 * T - 1 := by omega
      obtain ⟨mid, l1, l2, hmid, rfl, hamid, hmidb, hy1, hz, hch⟩ :=
        Rep_split hT2 h1 LLONG_MIN LLONG_MAX r l (Rep_setmin hR (by omega)) hfull1
      have hsp := splitChild_eq
        (p := { leaf := false, t := tr.t, keys := [], children := [some r] })
        (i := 0) hT hT2 hT30 (Rep_len hR).1 (by simp) hmid hfull1 hch (by simp)
      simp only [List.set_cons_zero, List.insertIdx_zero] at hsp
      have hins1 : ([some (splitLeft T r)] : List (Option BTreeNode)).insertIdx (0 + 1)
          (some (splitRight T r)) = [some (splitLeft T r), some (splitRight T r)] := by
        simp [List.insertIdx_succ_cons, List.insertIdx_zero]
      rw [hins1] at hsp
      have hkmid : k ≠ mid := fun e => hnot (by simp [e])
      by_cases hlt : mid < k
      · have hzlen : (splitRight T r).keys.length < 2 * T - 1 := by
          have : (splitRight T r).keys.length ≤ T - 1 := by simp [splitRight]
          omega
        obtain ⟨z1, lz, hins, hRz, _, hmemz⟩ :=
          Rep_insertNonFull hT2 hT30 k h1 r.depth _ mid LLONG_MAX (splitRight T r) l2 hz hzlen hlt hk.2
            (fun hmem => hnot (by simp [hmem])) (by omega)
        refine ⟨⟨some ⟨false, tr.t, [mid], [some (splitLeft T r), some z1]⟩, tr.t⟩,
          l1 ++ mid :: lz, ?_, ⟨ht, h1 + 1, ?_, fun _ => by simp⟩, ?_, rfl, ?_, ?_⟩
        · simp only [BTree.insert, hr, hW, hfull, if_true, hnew, List.nil_append, hsp]
          simp [hlt, hins]
        · rw [hT]
          exact ⟨rfl, rfl, by simp, (by simp; omega), l1, lz, rfl, hamid, hy1, rfl, hRz⟩
        · intro x
          have := mem_ins_ctx (A := l1 ++ [mid]) (B := []) hmemz x
          simpa using this
        · intro r1 hr1
          simp only [Option.some.injEq] at hr1
          subst hr1
          simp
        · right
          have hd1 := Rep_depth _ _ _ _ _ _ hRz
          have hd2 := Rep_depth _ _ _ _ _ _ hy1
          simp [BTree.height, hr, depthOpt, depth_mk, depthList, hd1, hd2, hdepth]
      · have hkm : k < mid := by omega
        have hylen : (splitLeft T r).keys.length < 2 * T - 1 := by
          have : (splitLeft T r).keys.length ≤ T - 1 := by simp [splitLeft, resize]; omega
          omega
        obtain ⟨y2, ly, hins, hRy, _, hmemy⟩ :=
          Rep_insertNonFull hT2 hT30 k h1 r.depth _ LLONG_MIN mid (splitLeft T r) l1 hy1 hylen hk.1 hkm
            (fun hmem => hnot (by simp [hmem])) (by omega)
        refine ⟨⟨some ⟨false, tr.t, [mid], [some y2, some (splitRight T r)]⟩, tr.t⟩,
          ly ++ mid :: l2, ?_, ⟨ht, h1 + 1, ?_, fun _ => by simp⟩, ?_, rfl, ?_, ?_⟩
        · simp only [BTree.insert, hr, hW, hfull, if_true, hnew, List.nil_append, hsp]
          simp [hlt, hins]
        · rw [hT]
          exact ⟨rfl, rfl, by simp, (by simp; omega), ly, l2, rfl, by omega, hRy, rfl, hz⟩
        · intro x
          have := mem_ins_ctx (A := []) (B := mid :: l2) hmemy x
          simpa using this
        · intro r1 hr1
          simp only [Option.some.injEq] at hr1
          subst hr1
          simp
        · right
          have hd1 := Rep_depth _ _ _ _ _ _ hRy
          have hd2 := Rep_depth _ _ _ _ _ _ hz
          simp [BTree.height, hr, depthOpt, depth_mk, depthList, hd1, hd2, hdepth]
    · have hlen : r.keys.length < 2 * T - 1 := by
        have := (Rep_len hR).2.2
        omega
      obtain ⟨r2, l2, hins, hR2, hle, hmem⟩ :=
        Rep_insertNonFull hT2 hT30 k h1 r.depth 0 LLONG_MIN LLONG_MAX r l hR hlen hk.1 hk.2 hnot
          (by omega)
      have hr2len : r2.keys.length ≠ 0 := by
        cases h1 with
        | zero =>
          intro hz
          have hl2 : l2 = r2.keys := hR2.2.2.2.2.2.2
          have : k ∈ l2 := (hmem k).2 (Or.inl rfl)
          rw [hl2] at this
          exact absurd (List.length_pos_of_mem this) (by omega)
        | succ h1 =>
          have := hroot (by omega)
          omega
      refine ⟨⟨some r2, tr.t⟩, l2, ?_, ⟨ht, h1, (by rw [hT]; exact hR2), fun _ => hr2len⟩,
        hmem, rfl, ?_, ?_⟩
      · simp only [BTree.insert, hr, hW, hfull, if_false, hins]
        rfl
      · intro r1 hr1
        simp only [Option.some.injEq] at hr1
        subst hr1
        exact hr2len
      · left
        simp [BTree.height, hr, depthOpt, hdepth, Rep_depth _ _ _ _ _ _ hR2]

theorem remove_TreeRep {tr : BTree} {l : List Int} (h : TreeRep tr l) (k : Int) :
    ∃ tr1 l1, tr.remove k = some tr1 ∧ TreeRep tr1 l1 ∧ (∀ x, x ∈ l1 ↔ x ∈ l ∧ x ≠ k) ∧
      tr1.t = tr.t ∧ (∀ r, tr1.root = some r → r.keys.length ≠ 0) ∧
      tr1.height ≤ tr.height ∧ tr.height ≤ tr1.height + 1 := by
  obtain ⟨ht, h⟩ := h
  obtain ⟨T, hT, hT2⟩ := nat_of_two_le ht
  cases hr : tr.root with
  | none =>
    rw [hr] at h
    simp only at h
    subst h
    refine ⟨tr, [], (by simp [BTree.remove, hr]), ⟨ht, (by rw [hr])⟩, (by simp), rfl, ?_,
      le_refl _, (by omega)⟩
    intro r hr1
    rw [hr] at hr1
    cases hr1
  | some r =>
    rw [hr] at h
    obtain ⟨h1, hR, hroot⟩ := h
    rw [hT] at hR
    have hdepth := Rep_depth _ _ _ _ _ _ hR
    obtain ⟨r1, l1, hrem, hR1, hmem⟩ :=
      Rep_remove hT2 h1 r.depth (by omega) k 0 LLONG_MIN LLONG_MAX r l hR
        (by
          cases h1 with
          | zero => exact Or.inl rfl
          | succ h1 => right; have := hroot (by omega); omega)
    have hd1 := Rep_depth _ _ _ _ _ _ hR1
    by_cases hz : r1.keys.length = 0
    · cases h1 with
      | zero =>
        have hleaf : r1.leaf = true := hR1.1
        have hl1 : l1 = [] := by
          have : l1 = r1.keys := hR1.2.2.2.2.2.2
          rw [this]
          exact List.length_eq_zero.1 hz
        refine ⟨⟨none, tr.t⟩, l1, ?_, ⟨ht, hl1⟩, hmem, rfl, ?_, ?_, ?_⟩
        · simp [BTree.remove, hr, hrem, hz, hleaf]
        · intro r2 hr2
          cases hr2
        · simp [BTree.height, depthOpt]
        · simp [BTree.height, hr, depthOpt, hdepth]
      | succ h1 =>
        have hleaf : r1.leaf = false := hR1.1
        have hA := hR1.2.2.2.2
        have hk0 : r1.keys = [] := List.length_eq_zero.1 hz
        rw [hk0] at hA
        match hcs : r1.children, hA with
        | [], hA => simp [Alt] at hA
        | none :: _, hA => simp [Alt] at hA
        | some c :: cs, hA =>
          obtain ⟨rfl, hc⟩ := hA
          have hclen := (Rep_len hc).2.1
          have hdc := Rep_depth _ _ _ _ _ _ hc
          refine ⟨⟨some c, tr.t⟩, l1, ?_,
            ⟨ht, h1, (by rw [hT]; exact Rep_setmin hc (by omega)), fun _ => (by omega)⟩,
            hmem, rfl, ?_, ?_, ?_⟩
          · simp [BTree.remove, hr, hrem, hz, hleaf, hcs]
          · intro r2 hr2
            simp only [Option.some.injEq] at hr2
            subst hr2
            omega
          · simp [BTree.height, hr, depthOpt, hdepth, hdc]
          · simp [BTree.height, hr, depthOpt, hdepth, hdc]
    · refine ⟨⟨some r1, tr.t⟩, l1, ?_,
        ⟨ht, h1, (by rw [hT]; exact Rep_setmin hR1 (by omega)), fun _ => hz⟩,
        hmem, rfl, ?_, ?_, ?_⟩
      · simp [BTree.remove, hr, hrem, hz]
      · intro r2 hr2
        simp only [Option.some.injEq] at hr2
        subst hr2
        exact hz
      · simp [BTree.height, hr, depthOpt, hdepth, hd1]
      · simp [BTree.height, hr, depthOpt, hdepth, hd1]

theorem remove_fits {tr tr1 : BTree} {l l1 : List Int} (hf : TreeFits tr) (hT : TreeRep tr l)
    (hT1 : TreeRep tr1 l1) (ht : tr1.t = tr.t) (hh : tr1.height ≤ tr.height)
    (hsub : ∀ x ∈ l1, x ∈ l) : TreeFits tr1 := by
  rcases hf with e | e
  · left
    rw [ht]
    exact e
  · right
    intro r1 hr1
    obtain ⟨_, h1⟩ := hT1
    rw [hr1] at h1
    obtain ⟨k1, hR1, _⟩ := h1
    have hd1 := Rep_depth _ _ _ _ _ _ hR1
    cases hr : tr.root with
    | none =>
      simp only [BTree.height, hr, hr1, depthOpt] at hh
      omega
    | some r =>
      obtain ⟨hl, hle⟩ := e r hr
      obtain ⟨_, h0⟩ := hT
      rw [hr] at h0
      obtain ⟨k0, hR, _⟩ := h0
      have hd := Rep_depth _ _ _ _ _ _ hR
      have hk0 : k0 = 0 := by
        have := Rep_leaf hR
        rw [hl] at this
        simpa using this.symm
      subst hk0
      simp only [BTree.height, hr, hr1, depthOpt] at hh
      have hk1 : k1 = 0 := by omega
      subst hk1
      have e1 : l1 = r1.keys := hR1.2.2.2.2.2.2
      have e0 : l = r.keys := hR.2.2.2.2.2.2
      have hnd : l1.Nodup := by
        rw [e1]
        exact hR1.2.2.2.2.2.1.1.imp (fun hxy => ne_of_lt hxy)
      have hlen := (List.subperm_of_subset hnd hsub).length_le
      rw [e1, e0] at hlen
      refine ⟨hR1.1, ?_⟩
      rw [ht]
      omega

theorem remove_valid {tr tr1 : BTree} {l l1 : List Int} (hv : validateBTree tr = some "VALID")
    (hT : TreeRep tr l) (hT1 : TreeRep tr1 l1) (ht : tr1.t = tr.t)
    (hh : tr1.height ≤ tr.height) (hsub : ∀ x ∈ l1, x ∈ l) :
    validateBTree tr1 = some "VALID" :=
  (validateBTree_iff_fits tr1).2
    ⟨⟨l1, hT1⟩, remove_fits ((validateBTree_iff_fits tr).1 hv).2 hT hT1 ht hh hsub⟩

theorem Rep_keys_mem {t : Int} {h : Nat} {m lo hi : Int} {n : BTreeNode} {l : List Int}
    (hR : Rep t h m lo hi n l) : ∀ x ∈ n.keys, x ∈ l := by
  cases h with
  | zero =>
    obtain ⟨_, _, _, _, _, _, rfl⟩ := hR
    exact fun x hx => hx
  | succ h => exact Alt_keys_mem _ _ _ _ _ hR.2.2.2.2

/-- Removing a key that is not stored leaves the node untouched as long as the
descent never meets a minimal child. -/
theorem Rep_remove_noop {t : Int} :
    ∀ (h fuel : Nat) (m lo hi : Int) (n : BTreeNode) (l : List Int) (k : Int),
      Rep t h m lo hi n l → k ∉ l → n.pathRich fuel k = true → n.remove fuel k = some n
  | _, 0, _, _, _, n, _, k, _, _, hp => by simp [BTreeNode.pathRich] at hp
  | 0, fuel + 1, m, lo, hi, n, l, k, hR, hk, _ => by
    have hkeys := Rep_keys_mem hR
    obtain ⟨hleaf, _⟩ := hR
    have hne : ¬ n.keys[n.findKey k]? = some k := fun e =>
      hk (hkeys k (List.getElem?_mem e))
    simp [BTreeNode.remove, hne, hleaf]
  | h + 1, fuel + 1, m, lo, hi, n, l, k, hR, hk, hp => by
    have hkeys := Rep_keys_mem hR
    obtain ⟨hleaf, ht, _, _, hA⟩ := hR
    have hne : ¬ n.keys[n.findKey k]? = some k := fun e =>
      hk (hkeys k (List.getElem?_mem e))
    have hidx : n.findKey k ≤ n.keys.length := countWhile_le _ _
    obtain ⟨ks1, ks2, cs1, c, cs2, L, lc, R, a, b, hke, hce, hl1, hl2, hle, _, hP, _, _⟩ :=
      Alt_split (n.findKey k) _ _ _ _ _ hA hidx
    have hget : n.children[n.findKey k]? = some (some c) := by
      rw [hce]
      exact getElem?_mid_of_length hl2
    simp only [BTreeNode.pathRich, hleaf, hget, Bool.false_eq_true, if_false,
      Bool.and_eq_true, decide_eq_true_eq] at hp
    obtain ⟨hrich, hpc⟩ := hp
    have hkc : k ∉ lc := fun hc => hk (by rw [hle]; simp [hc])
    have hrec := Rep_remove_noop h fuel _ _ _ c lc k hP hkc hpc
    have hnlt : ¬ (c.keys.length : Int) < n.t := by omega
    have hj : ¬ (decide (n.findKey k = n.keys.length) = true ∧
        n.findKey k > n.keys.length) := fun hcon => by omega
    have hset : n.children.set (n.findKey k) (some c) = n.children := by
      rw [hce, set_mid (some c) hl2]
    simp only [BTreeNode.remove, hne, hleaf, hget, hnlt, hj, hrec, hset, if_false,
      Bool.false_eq_true, Option.map_some']
    cases n
    simp only at hleaf
    simp [hleaf]

theorem remove_noop_tree {tr : BTree} {l : List Int} (hT : TreeRep tr l) {k : Int}
    (hk : k ∉ l) (hp : tr.pathRich k = true) : tr.remove k = some tr := by
  obtain ⟨_, hroot⟩ := hT
  unfold BTree.pathRich at hp
  unfold BTree.remove
  cases hr : tr.root with
  | none => rfl
  | some r =>
    rw [hr] at hroot hp
    obtain ⟨h, hR, _⟩ := hroot
    simp only [Bool.and_eq_true, decide_eq_true_eq] at hp
    have := Rep_remove_noop h r.depth _ _ _ r l k hR hk hp.2
    simp only [this, hp.1, if_false]
    cases tr
    simp only at hr
    simp [hr]

theorem fresh_TreeRep {t : Int} (ht : 2 ≤ t) : TreeRep (BTree.fresh t) [] :=
  ⟨ht, rfl⟩

theorem insertAll_TreeRep :
    ∀ (S : List Int) (tr : BTree) (l : List Int),
      TreeRep tr l → tr.t < 1073741824 → S.Nodup → (∀ k ∈ S, IsInt k) → (∀ k ∈ S, k ∉ l) →
      (∀ r, tr.root = some r → r.keys.length ≠ 0) →
      ∃ tr1 l1, tr.insertAll S = some tr1 ∧ TreeRep tr1 l1 ∧ (∀ x, x ∈ l1 ↔ x ∈ S ∨ x ∈ l) ∧
        tr1.t = tr.t ∧ (∀ r, tr1.root = some r → r.keys.length ≠ 0)
  | [], tr, l, hT, _, _, _, _, hroot => ⟨tr, l, rfl, hT, by simp, rfl, hroot⟩
  | k :: S, tr, l, hT, h30, hnd, hint, hnot, _ => by
    have hnd1 := List.nodup_cons.1 hnd
    obtain ⟨tr1, l1, hins, hT1, hmem1, ht1, hroot1, _⟩ :=
      insert_TreeRep hT h30 (IsInt_bounds (hint k (List.mem_cons_self _ _)))
        (hnot k (List.mem_cons_self _ _))
    obtain ⟨tr2, l2, hall, hT2, hmem2, ht2, hroot2⟩ :=
      insertAll_TreeRep S tr1 l1 hT1 (by rw [ht1]; exact h30) hnd1.2
        (fun x hx => hint x (List.mem_cons_of_mem _ hx))
        (fun x hx hx1 => by
          rcases (hmem1 x).1 hx1 with rfl | hxl
          · exact hnd1.1 hx
          · exact hnot x (List.mem_cons_of_mem _ hx) hxl)
        hroot1
    refine ⟨tr2, l2, by simp [BTree.insertAll, hins, hall], hT2, ?_, ht2.trans ht1, hroot2⟩
    intro x
    rw [hmem2, hmem1, List.mem_cons]
    tauto

theorem removeAll_TreeRep :
    ∀ (S : List Int) (tr : BTree) (l : List Int),
      TreeRep tr l → (∀ r, tr.root = some r → r.keys.length ≠ 0) →
      ∃ tr1 l1, tr.removeAll S = some tr1 ∧ TreeRep tr1 l1 ∧ (∀ x, x ∈ l1 ↔ x ∈ l ∧ x ∉ S) ∧
        tr1.t = tr.t ∧ (∀ r, tr1.root = some r → r.keys.length ≠ 0)
  | [], tr, l, hT, hroot => ⟨tr, l, rfl, hT, by simp, rfl, hroot⟩
  | k :: S, tr, l, hT, _ => by
    obtain ⟨tr1, l1, hrem, hT1, hmem1, ht1, hroot1, _⟩ := remove_TreeRep hT k
    obtain ⟨tr2, l2, hall, hT2, hmem2, ht2, hroot2⟩ := removeAll_TreeRep S tr1 l1 hT1 hroot1
    refine ⟨tr2, l2, by simp [BTree.removeAll, hrem, hall], hT2, ?_, ht2.trans ht1, hroot2⟩
    intro x
    rw [hmem2, hmem1, List.mem_cons]
    tauto

theorem TreeRep_nil_root {tr : BTree} (hT : TreeRep tr [])
    (hroot : ∀ r, tr.root = some r → r.keys.length ≠ 0) : tr.root = none := by
  obtain ⟨_, h⟩ := hT
  cases hr : tr.root with
  | none => rfl
  | some r =>
    rw [hr] at h
    obtain ⟨h1, hR, _⟩ := h
    have := hroot r hr
    exact absurd rfl (Rep_nonempty hR (by omega))

/-! ## A full node of degree `2^30` -/

theorem giantKeys_length : giantKeys.length = 2147483647 := by
  unfold giantKeys
  rw [List.length_map, List.length_range]

theorem giantKeys_mem {x : Int} : x ∈ giantKeys ↔ 0 ≤ x ∧ x < 2147483647 := by
  unfold giantKeys
  simp only [List.mem_map, List.mem_range]
  constructor
  · rintro ⟨i, hi, rfl⟩
    omega
  · rintro ⟨h0, h1⟩
    exact ⟨x.toNat, by omega, by omega⟩

theorem giantKeys_sorted : giantKeys.Pairwise (fun x y => x < y) := by
  unfold giantKeys
  exact List.Pairwise.map _ (fun a b h => Int.ofNat_lt.2 h) (List.pairwise_lt_range _)

theorem maxKeys_bigDegree : maxKeys 1073741824 = 2147483647 := by decide

theorem giantTree_TreeRep : TreeRep giantTree giantKeys := by
  refine ⟨by decide, 0, ⟨rfl, rfl, ?_, ?_, rfl, ⟨giantKeys_sorted, ?_⟩, rfl⟩,
    fun h => absurd rfl h⟩
  · exact Int.ofNat_nonneg _
  · show ((giantKeys.length : Nat) : Int) ≤ 2 * 1073741824 - 1
    rw [giantKeys_length]
    decide
  · intro x hx
    have := giantKeys_mem.1 hx
    unfold LLONG_MIN LLONG_MAX
    omega

theorem giantTree_valid : validateBTree giantTree = some "VALID" :=
  (validateBTree_iff giantTree (by decide)).2 ⟨giantKeys, giantTree_TreeRep⟩

theorem giantTree_allKeys (x : Int) : x ∈ giantTree.allKeys ↔ 0 ≤ x ∧ x < 2147483647 := by
  rw [TreeRep_allKeys giantTree_TreeRep]
  exact giantKeys_mem

theorem giantTree_insert (k : Int) : giantTree.insert k = none := by
  have hlen : ((giantLeaf.keys.length : Nat) : Int) = maxKeys giantTree.t := by
    show ((giantKeys.length : Nat) : Int) = maxKeys 1073741824
    rw [giantKeys_length, maxKeys_bigDegree]
    rfl
  have hnew : newBTreeNode giantTree.t false = none := rfl
  have hroot : giantTree.root = some giantLeaf := rfl
  simp only [BTree.insert, hroot, hlen, if_true, hnew]

/-- Counterexample to C1: the empty tree of degree `2^30` is valid and stores no
key, yet `insert(5)` does not return: `new BTreeNode(t, true)` calls
`children.reserve(2 * t)`, the `int` product wraps to `-2^31`, and `reserve`
throws `std::length_error`. -/
theorem insert_big_degree_throws :
    validateBTree (BTree.fresh bigDegree) = some "VALID" ∧
      2 ≤ (BTree.fresh bigDegree).t ∧ IsInt 5 ∧ (5 : Int) ∉ (BTree.fresh bigDegree).allKeys ∧
      wrapInt (2 * bigDegree) = -2147483648 ∧ newBTreeNode bigDegree true = none ∧
      (BTree.fresh bigDegree).insert 5 = none :=
  ⟨by decide, by decide, by decide, by decide, by decide, rfl, rfl⟩

/-- C1 as amended: for every tree of degree `t < 2^30` on which `validateBTree`
returns "VALID" (hence `t ≥ 2`) and every `int` key `k` not stored in it,
`BTree::insert(k)` returns and `validateBTree` returns "VALID" on the resulting
tree. -/
theorem insert_preserves_valid (tr : BTree) (k : Int)
    (hv : validateBTree tr = some "VALID") (h30 : tr.t < 1073741824) (hk : IsInt k)
    (hnew : k ∉ tr.allKeys) :
    ∃ tr1, tr.insert k = some tr1 ∧ validateBTree tr1 = some "VALID" := by
  obtain ⟨l, hT⟩ := validateBTree_sound tr hv
  obtain ⟨tr1, l1, hins, hT1, _, ht1, _⟩ :=
    insert_TreeRep hT h30 (IsInt_bounds hk) (fun h => hnew ((TreeRep_allKeys hT k).2 h))
  exact ⟨tr1, hins, (validateBTree_iff tr1 (by omega)).2 ⟨l1, hT1⟩⟩

/-- Witness of the amended C1: inserting 30 into the full leaf root of the demo
splits the root and the result is valid. -/
theorem insert_preserves_valid_witness :
    ∃ tr1, fullLeafTree.insert 30 = some tr1 ∧ validateBTree tr1 = some "VALID" :=
  insert_preserves_valid fullLeafTree 30 (by decide) (by decide) (by decide) (by decide)

/-- C2: for every tree on which `validateBTree` returns "VALID" and every integer
`k`, stored or not, `BTree::remove(k)` returns and `validateBTree` returns "VALID"
on the resulting tree. -/
theorem remove_preserves_valid (tr : BTree) (k : Int)
    (hv : validateBTree tr = some "VALID") :
    ∃ tr1, tr.remove k = some tr1 ∧ validateBTree tr1 = some "VALID" := by
  obtain ⟨l, hT⟩ := validateBTree_sound tr hv
  obtain ⟨tr1, l1, hrem, hT1, hmem, ht1, _, hle, _⟩ := remove_TreeRep hT k
  exact ⟨tr1, hrem, remove_valid hv hT hT1 ht1 hle (fun x hx => ((hmem x).1 hx).1)⟩

/-- Witness of C2: removing the root key 10 of the demo tree. -/
theorem remove_preserves_valid_witness :
    ∃ tr1, demoTree.remove 10 = some tr1 ∧ validateBTree tr1 = some "VALID" :=
  remove_preserves_valid demoTree 10 (by decide)

/-- Counterexample to C3: with `t = 2^30` and `S = [5]` the first `insert` on the
fresh tree does not return (the constructor of the root throws), so the inserts
do not complete and nothing is traversed. -/
theorem insertAll_big_degree_throws :
    2 ≤ bigDegree ∧ ([5] : List Int).Nodup ∧ (∀ k ∈ ([5] : List Int), IsInt k) ∧
      (BTree.fresh bigDegree).insertAll [5] = none ∧
      ((BTree.fresh bigDegree).insertAll [5]).bind BTree.traverse = none :=
  ⟨by decide, by decide, by decide, rfl, rfl⟩

/-- C3 as amended: for every `2 ≤ t < 2^30` and every list `S` of pairwise distinct
`int` keys, inserting the elements of `S` in the order of the list into a fresh
`BTree(t)` succeeds, and `traverse` then emits a strictly ascending sequence that
is a permutation of `S`, that is, the elements of `S` in ascending order. -/
theorem insertAll_traverse_sorted (t : Int) (S : List Int) (ht : 2 ≤ t)
    (h30 : t < 1073741824) (hS : S.Nodup) (hint : ∀ k ∈ S, IsInt k) :
    ∃ tr out, (BTree.fresh t).insertAll S = some tr ∧ tr.traverse = some out ∧
      out.Pairwise (fun x y => x < y) ∧ out.Perm S := by
  obtain ⟨tr, l, hall, hT, hmem, _, _⟩ :=
    insertAll_TreeRep S (BTree.fresh t) [] (fresh_TreeRep ht) h30 hS hint (by simp)
      (by simp [BTree.fresh])
  have hs := TreeRep_sorted hT
  refine ⟨tr, l, hall, TreeRep_traverse hT, hs, ?_⟩
  refine (List.perm_ext_iff_of_nodup (hs.imp (fun hxy => ne_of_lt hxy)) hS).2 ?_
  intro x
  simp [hmem]

/-- Witness of the amended C3: the demo inserts with `t = 3`; the traversal is
`5 6 7 10 12 17 20 30`. -/
theorem insertAll_traverse_sorted_witness :
    (∃ tr out, (BTree.fresh 3).insertAll demoKeys = some tr ∧ tr.traverse = some out ∧
      out.Pairwise (fun x y => x < y) ∧ out.Perm demoKeys) ∧
    ((BTree.fresh 3).insertAll demoKeys).bind BTree.traverse =
      some [5, 6, 7, 10, 12, 17, 20, 30] :=
  ⟨insertAll_traverse_sorted 3 demoKeys (by decide) (by decide) (by decide) (by decide),
    by decide!⟩

/-- C4: on every valid tree and for every integer `k`, `traverse` and `search(k)`
return; `search(k)` returns a node exactly when `k` is among the keys emitted by
`traverse`; a returned node has `k` among its own keys; otherwise, and in
particular on the empty tree, the result is the null pointer. -/
theorem search_iff_traversed (tr : BTree) (k : Int)
    (hv : validateBTree tr = some "VALID") :
    ∃ out r, tr.traverse = some out ∧ tr.search k = some r ∧
      (r ≠ none ↔ k ∈ out) ∧ (∀ n, r = some n → k ∈ n.keys) ∧
      (k ∉ out → r = none) ∧ (tr.root = none → r = none) := by
  obtain ⟨l, hT⟩ := validateBTree_sound tr hv
  obtain ⟨r, hs, hiff, hn⟩ := TreeRep_search hT k
  refine ⟨l, r, TreeRep_traverse hT, hs, ?_, hn, hiff.2, ?_⟩
  · rw [Ne, hiff]
    exact not_not
  · intro hroot
    simp only [BTree.search, hroot, Option.some.injEq] at hs
    exact hs.symm

/-- Witness of C4: the demo tree; `search(6)` finds the leaf `5 6 7` and
`search(15)` finds nothing. -/
theorem search_iff_traversed_witness :
    (∃ out r, demoTree.traverse = some out ∧ demoTree.search 6 = some r ∧
      (r ≠ none ↔ (6 : Int) ∈ out) ∧ (∀ n, r = some n → (6 : Int) ∈ n.keys) ∧
      ((6 : Int) ∉ out → r = none) ∧ (demoTree.root = none → r = none)) ∧
    demoTree.search 6 = some (some ⟨true, 3, [5, 6, 7], []⟩) ∧
    demoTree.search 15 = some none :=
  ⟨search_iff_traversed demoTree 6 (by decide), rfl, rfl⟩

/-- C5: on every valid tree and for every integer `k`, `remove(k)` returns and a
following `search(k)` returns the null pointer. -/
theorem search_after_remove (tr : BTree) (k : Int)
    (hv : validateBTree tr = some "VALID") :
    ∃ tr1, tr.remove k = some tr1 ∧ tr1.search k = some none := by
  obtain ⟨l, hT⟩ := validateBTree_sound tr hv
  obtain ⟨tr1, l1, hrem, hT1, hmem, _⟩ := remove_TreeRep hT k
  obtain ⟨r, hs, hiff, _⟩ := TreeRep_search hT1 k
  have hr : r = none := hiff.2 (fun h => ((hmem k).1 h).2 rfl)
  rw [hr] at hs
  exact ⟨tr1, hrem, hs⟩

/-- Witness of C5: removing 6 from the demo tree. -/
theorem search_after_remove_witness :
    ∃ tr1, demoTree.remove 6 = some tr1 ∧ tr1.search 6 = some none :=
  search_after_remove demoTree 6 (by decide)

/-- Counterexample to C6: with `t = 2^30`, `S = [7, 8]` and the second order
`[8, 7]`, the first `insert` on the fresh tree does not return (the constructor of
the root throws), so the run never reaches the removes. -/
theorem insertAll_removeAll_big_degree :
    2 ≤ bigDegree ∧ ([7, 8] : List Int).Nodup ∧ (∀ k ∈ ([7, 8] : List Int), IsInt k) ∧
      ([8, 7] : List Int).Perm [7, 8] ∧
      (BTree.fresh bigDegree).insert 7 = none ∧
      ((BTree.fresh bigDegree).insertAll [7, 8]).bind (fun tr => tr.removeAll [8, 7]) = none :=
  ⟨by decide, by decide, by decide, List.Perm.swap 7 8 [], rfl, rfl⟩

/-- C6 as amended: for every `2 ≤ t < 2^30`, every list `S` of pairwise distinct
`int` keys and every reordering `S1` of `S`, inserting `S` into a fresh tree and
then removing the keys in the order `S1` succeeds and leaves the root absent, with
`validateBTree` returning "VALID". -/
theorem insertAll_removeAll_empty (t : Int) (S S1 : List Int) (ht : 2 ≤ t)
    (h30 : t < 1073741824) (hS : S.Nodup) (hint : ∀ k ∈ S, IsInt k) (hperm : S1.Perm S) :
    ∃ tr tr1, (BTree.fresh t).insertAll S = some tr ∧ tr.removeAll S1 = some tr1 ∧
      tr1.root = none ∧ validateBTree tr1 = some "VALID" := by
  obtain ⟨tr, l, hall, hT, hmem, htt, hroot⟩ :=
    insertAll_TreeRep S (BTree.fresh t) [] (fresh_TreeRep ht) h30 hS hint (by simp)
      (by simp [BTree.fresh])
  obtain ⟨tr1, l1, hrem, hT1, hmem1, htt1, hroot1⟩ := removeAll_TreeRep S1 tr l hT hroot
  have ht1 : tr1.t ≤ 1073741824 := by
    rw [htt1, htt]
    exact le_of_lt h30
  have hl1 : l1 = [] := by
    rw [List.eq_nil_iff_forall_not_mem]
    intro x hx
    obtain ⟨hxl, hxS1⟩ := (hmem1 x).1 hx
    rcases (hmem x).1 hxl with hxS | hnil
    · exact hxS1 (hperm.mem_iff.2 hxS)
    · simp at hnil
  subst hl1
  exact ⟨tr, tr1, hall, hrem, TreeRep_nil_root hT1 hroot1,
    (validateBTree_iff tr1 ht1).2 ⟨[], hT1⟩⟩

/-- Witness of the amended C6: `t = 2`, insert 1..10 in order, remove 1..10 in
order. -/
theorem insertAll_removeAll_empty_witness :
    ∃ tr tr1, (BTree.fresh 2).insertAll [1, 2, 3, 4, 5, 6, 7, 8, 9, 10] = some tr ∧
      tr.removeAll [1, 2, 3, 4, 5, 6, 7, 8, 9, 10] = some tr1 ∧
      tr1.root = none ∧ validateBTree tr1 = some "VALID" :=
  insertAll_removeAll_empty 2 [1, 2, 3, 4, 5, 6, 7, 8, 9, 10]
    [1, 2, 3, 4, 5, 6, 7, 8, 9, 10] (by decide) (by decide) (by decide) (by decide)
    (List.Perm.refl _)

/-- C7: on every valid tree and for every key `k` that is not stored in it,
`remove(k)` returns, `traverse` emits the same sequence after the call as before
it, and `validateBTree` still returns "VALID". -/
theorem remove_absent_traverse (tr : BTree) (k : Int)
    (hv : validateBTree tr = some "VALID") (habs : k ∉ tr.allKeys) :
    ∃ tr1 out, tr.remove k = some tr1 ∧ tr.traverse = some out ∧
      tr1.traverse = some out ∧ validateBTree tr1 = some "VALID" := by
  obtain ⟨l, hT⟩ := validateBTree_sound tr hv
  obtain ⟨tr1, l1, hrem, hT1, hmem, ht1, _, hle, _⟩ := remove_TreeRep hT k
  have hv1 := remove_valid hv hT hT1 ht1 hle (fun x hx => ((hmem x).1 hx).1)
  have hkl : k ∉ l := fun h => habs ((TreeRep_allKeys hT k).2 h)
  have hl : l1 = l := by
    refine sorted_ext (TreeRep_sorted hT1) (TreeRep_sorted hT) (fun x => ?_)
    rw [hmem]
    exact ⟨fun h => h.1, fun h => ⟨h, fun e => hkl (e ▸ h)⟩⟩
  subst hl
  exact ⟨tr1, l1, hrem, TreeRep_traverse hT, TreeRep_traverse hT1, hv1⟩

/-- Witness of C7: removing the absent key 4 from the two-level tree with minimal
leaves. -/
theorem remove_absent_traverse_witness :
    ∃ tr1 out, minimalTree.remove 4 = some tr1 ∧ minimalTree.traverse = some out ∧
      tr1.traverse = some out ∧ validateBTree tr1 = some "VALID" :=
  remove_absent_traverse minimalTree 4 (by decide) (by decide)

/-- Counterexample to C8: the tree with root key 2 over the leaves `1` and `3`
(`t = 2`) is valid and does not store 4, yet `remove(4)` merges the two leaves
with the root key: the result is the single leaf `1 2 3`, and the height drops
from 2 to 1. -/
theorem remove_absent_restructures :
    validateBTree minimalTree = some "VALID" ∧ (4 : Int) ∉ minimalTree.allKeys ∧
      minimalTree.remove 4 = some mergedTree ∧
      minimalTree.height = 2 ∧ mergedTree.height = 1 ∧
      minimalTree.root.map (fun r => r.keys) = some [2] ∧
      mergedTree.root.map (fun r => r.keys) = some [1, 2, 3] :=
  ⟨by decide, by decide, rfl, by decide, by decide, rfl, rfl⟩

/-- C8 as amended: on every valid tree and for every key `k` that is not stored
in it, `remove(k)` returns a tree with the same degree and the same stored keys
whose height is the old height or one less; the tree is left exactly as it was
when the root is not empty and every child the descent enters holds at least `t`
keys. -/
theorem remove_absent_frame (tr : BTree) (k : Int)
    (hv : validateBTree tr = some "VALID") (habs : k ∉ tr.allKeys) :
    ∃ tr1, tr.remove k = some tr1 ∧ tr1.t = tr.t ∧
      (∀ x, x ∈ tr1.allKeys ↔ x ∈ tr.allKeys) ∧
      (tr1.height = tr.height ∨ tr1.height + 1 = tr.height) ∧
      (tr.pathRich k = true → tr1 = tr) := by
  obtain ⟨l, hT⟩ := validateBTree_sound tr hv
  obtain ⟨tr1, l1, hrem, hT1, hmem, ht, _, hle, hge⟩ := remove_TreeRep hT k
  have hkl : k ∉ l := fun h => habs ((TreeRep_allKeys hT k).2 h)
  refine ⟨tr1, hrem, ht, ?_, by omega, ?_⟩
  · intro x
    rw [TreeRep_allKeys hT1, TreeRep_allKeys hT, hmem]
    exact ⟨fun h => h.1, fun h => ⟨h, fun e => hkl (e ▸ h)⟩⟩
  · intro hp
    have := remove_noop_tree hT hkl hp
    rw [this] at hrem
    exact (Option.some.inj hrem).symm

/-- Witness of the amended C8: removing the absent key 15 from the demo tree,
whose leaves hold at least `t = 3` keys; the tree is unchanged. -/
theorem remove_absent_frame_witness :
    (∃ tr1, demoTree.remove 15 = some tr1 ∧ tr1.t = demoTree.t ∧
      (∀ x, x ∈ tr1.allKeys ↔ x ∈ demoTree.allKeys) ∧
      (tr1.height = demoTree.height ∨ tr1.height + 1 = demoTree.height) ∧
      (demoTree.pathRich 15 = true → tr1 = demoTree)) ∧
    demoTree.pathRich 15 = true :=
  ⟨remove_absent_frame demoTree 15 (by decide) (by decide), by decide⟩

theorem firstFailure_nil : firstFailure [] = none := rfl

theorem firstFailure_cons (c : Bool × String) (cs : List (Bool × String)) :
    firstFailure (c :: cs) = if c.1 = true then some c.2 else firstFailure cs := by
  unfold firstFailure
  cases h : c.1 <;> simp [List.find?, h]

theorem firstFailure_append (a b : List (Bool × String)) :
    firstFailure (a ++ b) = (firstFailure a).or (firstFailure b) := by
  induction a with
  | nil => simp [firstFailure_nil]
  | cons c cs ih =>
    rw [List.cons_append, firstFailure_cons, firstFailure_cons, ih]
    split <;> simp

theorem descentFailure_nil (t D : Int) : descentFailure t D [] = none := rfl

theorem descentFailure_append (t D : Int) (a b : List Visit) :
    descentFailure t D (a ++ b) = (descentFailure t D a).or (descentFailure t D b) := by
  unfold descentFailure
  rw [List.flatMap_append, firstFailure_append]

theorem descentFailure_cons (t D : Int) (v : Visit) (vs : List Visit) :
    descentFailure t D (v :: vs) =
      (firstFailure (nodeChecks t D v)).or (descentFailure t D vs) := by
  unfold descentFailure
  rw [List.flatMap_cons, firstFailure_append]

/-- The loop over the keys returns the first failing key check. -/
theorem keysLoop_eq_aux (lo hi : Int) :
    ∀ (rest pre : List Int),
      keysLoop lo hi pre.getLast? rest =
        firstFailure ((List.range' pre.length rest.length).flatMap (fun i =>
          [(decide (0 < i ∧ (pre ++ rest).getD (i - 1) 0 ≥ (pre ++ rest).getD i 0),
              "INVALID: keys not strictly increasing"),
           (decide (¬ (lo < (pre ++ rest).getD i 0 ∧ (pre ++ rest).getD i 0 < hi)),
              "INVALID: key violates parent interval constraint")]))
  | [], pre => by simp [keysLoop, firstFailure_nil]
  | key :: rest, pre => by
    have ih := keysLoop_eq_aux lo hi rest (pre ++ [key])
    have hcur : (pre ++ key :: rest).getD pre.length 0 = key := by
      rw [List.getD_eq_getElem?_getD, getElem?_mid]
      rfl
    have e : (lo < key → hi ≤ key) ↔ (key ≤ lo ∨ hi ≤ key) := by
      constructor
      · intro h
        by_cases h1 : lo < key
        · exact Or.inr (h h1)
        · exact Or.inl (by omega)
      · intro h h1
        omega
    have hprev : ∀ p, pre.getLast? = some p → (pre ++ key :: rest).getD (pre.length - 1) 0 = p := by
      intro p hp
      rcases List.eq_nil_or_concat pre with rfl | ⟨pre0, q, rfl⟩
      · simp at hp
      · rw [List.concat_eq_append] at hp ⊢
        have hq : (pre0 ++ [q]).getLast? = some q := by simp
        rw [hq] at hp
        have hp := Option.some.inj hp
        subst hp
        have : (pre0 ++ [q]).length - 1 = pre0.length := by simp
        rw [this, List.append_assoc, List.getD_eq_getElem?_getD, List.singleton_append,
          getElem?_mid]
        rfl
    have hlen : (pre ++ [key]).length = pre.length + 1 := by simp
    have hlast : (pre ++ [key]).getLast? = some key := by simp
    have happ : pre ++ [key] ++ rest = pre ++ key :: rest := by simp
    rw [hlast, hlen, happ] at ih
    rw [List.length_cons, List.range'_succ, List.flatMap_cons, List.cons_append,
      firstFailure_cons, List.cons_append, firstFailure_cons, List.nil_append, ← ih]
    simp only [hcur, keysLoop]
    cases hp : pre.getLast? with
    | none =>
      have hnil : pre = [] := by
        cases pre with
        | nil => rfl
        | cons a as => simp [List.getLast?_cons_cons] at hp
      subst hnil
      simp [e]
    | some p =>
      have hpos : 0 < pre.length := by
        cases pre with
        | nil => simp at hp
        | cons a as => simp
      rw [hprev p hp]
      simp [hpos, e]

theorem keysLoop_eq (lo hi : Int) (keys : List Int) :
    keysLoop lo hi none keys = firstFailure (keyChecks lo hi keys) := by
  have := keysLoop_eq_aux lo hi keys []
  simpa [keyChecks, List.range_eq_range'] using this

theorem shapeChecks_eq (node : BTreeNode) (isRoot : Bool) (t lo hi depth ld D : Int)
    (hW : maxKeys t = 2 * t - 1) (h1 : ld = -1 → node.leaf = true → depth = D) (h2 : ld ≠ -1 → ld = D) :
    shapeChecks node isRoot t depth ld =
      match firstFailure (frontChecks t D ⟨node, isRoot, lo, hi, depth⟩) with
      | some e => Sum.inl e
      | none => Sum.inr (if node.leaf = true then D else ld) := by
  unfold shapeChecks frontChecks
  rw [hW]
  simp only [firstFailure_cons, firstFailure_nil]
  by_cases c1 : node.t ≠ t
  · have e1 : decide (node.t ≠ t) = true := decide_eq_true c1
    rw [if_pos c1]
    simp only [e1, if_true]
  have e1 : decide (node.t ≠ t) = false := decide_eq_false c1
  rw [if_neg c1]
  by_cases c2 : (node.keys.length : Int) > 2 * t - 1
  · have e2 : decide ((node.keys.length : Int) > 2 * t - 1) = true := decide_eq_true c2
    rw [if_pos c2]
    simp only [e1, e2, if_true, if_false, Bool.false_eq_true]
  have e2 : decide ((node.keys.length : Int) > 2 * t - 1) = false := decide_eq_false c2
  rw [if_neg c2]
  by_cases c3 : isRoot = false ∧ (node.keys.length : Int) < t - 1
  · have e3 : (!isRoot && decide ((node.keys.length : Int) < t - 1)) = true := by
      simp [c3.1, c3.2]
    rw [if_pos c3]
    simp only [e1, e2, e3, if_true, if_false, Bool.false_eq_true]
  have e3 : (!isRoot && decide ((node.keys.length : Int) < t - 1)) = false := by
    cases hr : isRoot
    · have : ¬ (node.keys.length : Int) < t - 1 := fun h => c3 ⟨hr, h⟩
      simp [this]
    · simp
  rw [if_neg c3]
  by_cases c4 : isRoot = true ∧ node.leaf = false ∧ (node.keys.length : Int) = 0
  · have e4 : (isRoot && !node.leaf && decide (node.keys.length = 0)) = true := by
      obtain ⟨a, b, c⟩ := c4
      have : node.keys.length = 0 := by omega
      simp [a, b, this]
    rw [if_pos c4]
    simp only [e1, e2, e3, e4, if_true, if_false, Bool.false_eq_true]
  have e4 : (isRoot && !node.leaf && decide (node.keys.length = 0)) = false := by
    cases hr : isRoot
    · simp
    · cases hl : node.leaf
      · have : ¬ node.keys.length = 0 := fun h => c4 ⟨hr, hl, by omega⟩
        simp [this]
      · simp
  rw [if_neg c4]
  simp only [e1, e2, e3, e4, if_false, Bool.false_eq_true]
  cases hleaf : node.leaf
  · -- internal node
    simp only [Bool.false_eq_true, if_false, Bool.false_and, Bool.not_false, Bool.true_and]
    by_cases c7 : (node.children.length : Int) ≠ (node.keys.length : Int) + 1
    · have e7 : decide (node.children.length ≠ node.keys.length + 1) = true :=
        decide_eq_true (by omega)
      rw [if_pos c7]
      simp only [e7, if_true]
    have e7 : decide (node.children.length ≠ node.keys.length + 1) = false :=
      decide_eq_false (by omega)
    rw [if_neg c7]
    by_cases c8 : node.children.any Option.isNone = true
    · rw [if_pos c8]
      simp only [e7, c8, if_true, if_false, Bool.false_eq_true]
    · rw [if_neg c8]
      simp only [e7, c8, if_false, Bool.false_eq_true]
  · -- leaf
    simp only [if_true, Bool.true_and, Bool.not_true, Bool.false_and, Bool.false_eq_true,
      if_false]
    by_cases c5 : (node.children.length : Int) ≠ 0
    · have e5 : decide (node.children.length ≠ 0) = true := decide_eq_true (by omega)
      rw [if_pos c5]
      simp only [e5, if_true]
    have e5 : decide (node.children.length ≠ 0) = false := decide_eq_false (by omega)
    rw [if_neg c5]
    simp only [e5, if_false, Bool.false_eq_true]
    by_cases hl : ld = -1
    · have hD := h1 hl hleaf
      have e6 : decide (depth ≠ D) = false := decide_eq_false (by simp [hD])
      rw [if_pos hl]
      simp only [e6, if_false, Bool.false_eq_true]
      rw [hD]
    · have hD := h2 hl
      subst hD
      rw [if_neg hl]
      by_cases c6 : ld ≠ depth
      · have e6 : decide (depth ≠ ld) = true := decide_eq_true (fun e => c6 e.symm)
        rw [if_pos c6]
        simp only [e6, if_true]
      · have e6 : decide (depth ≠ ld) = false :=
          decide_eq_false (fun h => c6 (fun e => h e.symm))
        rw [if_neg c6]
        simp only [e6, if_false, Bool.false_eq_true]

theorem visits_eq (n : BTreeNode) (isRoot : Bool) (lo hi depth : Int) :
    visits n isRoot lo hi depth =
      ⟨n, isRoot, lo, hi, depth⟩ :: visitsList n.children n.keys lo hi (depth + 1) 0 := by
  cases n
  simp [visits]

theorem visitsList_append (keys : List Int) (lo hi d : Int) :
    ∀ (a b : List (Option BTreeNode)) (i : Nat),
      visitsList (a ++ b) keys lo hi d i =
        visitsList a keys lo hi d i ++ visitsList b keys lo hi d (i + a.length)
  | [], b, i => by simp [visitsList]
  | none :: a, b, i => by
    have := visitsList_append keys lo hi d a b (i + 1)
    have e : i + 1 + a.length = i + (a.length + 1) := by omega
    rw [e] at this
    rw [List.cons_append]
    simp only [visitsList, List.length_cons]
    exact this
  | some c :: a, b, i => by
    have := visitsList_append keys lo hi d a b (i + 1)
    have e : i + 1 + a.length = i + (a.length + 1) := by omega
    rw [e] at this
    rw [List.cons_append]
    simp only [visitsList, List.length_cons, List.append_assoc]
    rw [this]

theorem hasLeaf_append (a b : List Visit) : hasLeaf (a ++ b) = (hasLeaf a || hasLeaf b) := by
  simp [hasLeaf]

theorem hasLeaf_false_iff (a : List Visit) :
    hasLeaf a = false ↔ a.find? (fun v => v.node.leaf) = none := by
  simp [hasLeaf, List.find?_eq_none]

theorem DepthPre_left {D ld : Int} {a b : List Visit} (h : DepthPre D ld (a ++ b)) :
    DepthPre D ld a := by
  refine ⟨fun hl v hv => h.1 hl v ?_, h.2⟩
  simp [List.find?_append, hv]

theorem DepthPre_right {D ld ld1 : Int} {a b : List Visit} (h : DepthPre D ld (a ++ b))
    (hp : DepthPost D ld a ld1) : DepthPre D ld1 b := by
  cases hla : hasLeaf a
  · have e := hp.2 hla
    subst e
    have hnone := (hasLeaf_false_iff a).1 hla
    refine ⟨fun hl v hv => h.1 hl v ?_, h.2⟩
    simp [List.find?_append, hnone, hv]
  · obtain ⟨e1, e2⟩ := hp.1 hla
    exact ⟨fun hl => absurd hl e2, fun _ => e1⟩

theorem DepthPost_append {D ld ld1 ld2 : Int} {a b : List Visit}
    (ha : DepthPost D ld a ld1) (hb : DepthPost D ld1 b ld2) : DepthPost D ld (a ++ b) ld2 := by
  rw [DepthPost, hasLeaf_append]
  cases hlb : hasLeaf b
  · have e := hb.2 hlb
    subst e
    simpa using ha
  · obtain ⟨e1, e2⟩ := hb.1 hlb
    refine ⟨fun _ => ⟨e1, e2⟩, fun h => ?_⟩
    simp at h

theorem DepthPost_nil (D ld : Int) : DepthPost D ld [] ld := by
  simp [DepthPost, hasLeaf]

theorem keyChecks_mem (lo hi : Int) (keys : List Int) :
    ∀ c ∈ keyChecks lo hi keys, c.2 ∈ taxonomy := by
  intro c hc
  simp only [keyChecks, List.mem_flatMap, List.mem_cons, List.mem_singleton,
    List.not_mem_nil, or_false] at hc
  obtain ⟨i, _, rfl | rfl⟩ := hc <;> simp [taxonomy]

theorem nodeChecks_mem (t D : Int) (v : Visit) : ∀ c ∈ nodeChecks t D v, c.2 ∈ taxonomy := by
  intro c hc
  rw [nodeChecks, List.mem_append] at hc
  rcases hc with hc | hc
  · simp only [frontChecks, List.mem_cons, List.mem_singleton, List.not_mem_nil,
      or_false] at hc
    rcases hc with rfl | rfl | rfl | rfl | rfl | rfl | rfl | rfl <;> simp [taxonomy]
  · exact keyChecks_mem _ _ _ c hc

theorem firstFailure_mem {cs : List (Bool × String)} {e : String}
    (h : firstFailure cs = some e) : ∃ c ∈ cs, c.2 = e := by
  unfold firstFailure at h
  cases hf : cs.find? (fun c => c.1) with
  | none => simp [hf] at h
  | some c =>
    rw [hf] at h
    exact ⟨c, List.mem_of_find?_eq_some hf, by simpa using h⟩

theorem descentFailure_mem {t D : Int} {vs : List Visit} {e : String}
    (h : descentFailure t D vs = some e) : e ∈ taxonomy := by
  obtain ⟨c, hc, rfl⟩ := firstFailure_mem h
  rw [List.mem_flatMap] at hc
  obtain ⟨v, _, hcv⟩ := hc
  exact nodeChecks_mem t D v c hcv

theorem taxonomy_ne_valid {e : String} (h : e ∈ taxonomy) : e ≠ "VALID" := by
  intro he
  subst he
  revert h
  decide

theorem depthOpt_le_depthList {c : Option BTreeNode} :
    ∀ {cs : List (Option BTreeNode)}, c ∈ cs → depthOpt c ≤ depthList cs
  | [], h => by simp at h
  | d :: ds, h => by
    rw [List.mem_cons] at h
    simp only [depthList]
    rcases h with rfl | h
    · exact le_max_left _ _
    · exact le_trans (depthOpt_le_depthList h) (le_max_right _ _)

theorem depth_child {n c : BTreeNode} (h : some c ∈ n.children) : c.depth < n.depth := by
  cases n with
  | mk lf t ks cs =>
    have := depthOpt_le_depthList h
    simp only [depthOpt] at this
    simp only [BTreeNode.depth]
    omega

/-- One child of the descent: either it fails, and its diagnostic is the result,
or it passes and the next visits start from the state it leaves. -/
theorem child_step {t D : Int} {fuel : Nat} {c : BTreeNode} {a b d1 ld : Int}
    {rest : List Visit} (hc : DescentSpec t D fuel c false a b d1)
    (hpre : DepthPre D ld (visits c false a b d1 ++ rest)) :
    ∃ r ld1, validateNode fuel (some c) false t a b d1 ld = some (r, ld1) ∧
      ((descentFailure t D (visits c false a b d1) = some r ∧ r ≠ "VALID") ∨
       (descentFailure t D (visits c false a b d1) = none ∧ r = "VALID" ∧
          DepthPost D ld (visits c false a b d1) ld1 ∧ DepthPre D ld1 rest)) := by
  obtain ⟨ld1, hrun, hpost⟩ := hc ld (DepthPre_left hpre)
  cases hf : descentFailure t D (visits c false a b d1) with
  | none =>
    rw [hf] at hrun
    exact ⟨"VALID", ld1, hrun, Or.inr ⟨rfl, rfl, hpost hf, DepthPre_right hpre (hpost hf)⟩⟩
  | some e =>
    rw [hf] at hrun
    exact ⟨e, ld1, hrun, Or.inl ⟨rfl, taxonomy_ne_valid (descentFailure_mem hf)⟩⟩

theorem childLo_pos {lo : Int} {keys : List Int} {i : Nat} {a : Int} (hi : 1 ≤ i)
    (h : keys[i - 1]? = some a) : childLo lo keys i = a := by
  unfold childLo
  have : i ≠ 0 := by omega
  simp [this, List.getD_eq_getElem?_getD, h]

theorem childHi_lt {hi : Int} {keys : List Int} {i : Nat} {b : Int}
    (h : keys[i]? = some b) : childHi hi keys i = b := by
  simp [childHi, List.getD_eq_getElem?_getD, h]

theorem middleLoop_descent {t D : Int} {fuel : Nat} {keys : List Int}
    {children : List (Option BTreeNode)} {lo hi d1 : Int}
    (hlen : children.length = keys.length + 1)
    (hrec : ∀ c, some c ∈ children → ∀ a b, DescentSpec t D fuel c false a b d1)
    (hsome : ∀ c ∈ children, c ≠ none) :
    ∀ (cnt i : Nat) (ld : Int) (rest : List Visit), 1 ≤ i → i + cnt ≤ keys.length →
      DepthPre D ld (visitsList ((children.drop i).take cnt) keys lo hi d1 i ++ rest) →
      ∃ r ld1, middleLoop (fun c lo hi l => validateNode fuel c false t lo hi d1 l)
          keys children cnt i ld = some (r, ld1) ∧
        ((descentFailure t D (visitsList ((children.drop i).take cnt) keys lo hi d1 i) = some r ∧
            r ≠ "VALID") ∨
         (descentFailure t D (visitsList ((children.drop i).take cnt) keys lo hi d1 i) = none ∧
            r = "VALID" ∧
            DepthPost D ld (visitsList ((children.drop i).take cnt) keys lo hi d1 i) ld1 ∧
            DepthPre D ld1 rest))
  | 0, i, ld, rest, _, _, hpre => by
    refine ⟨"VALID", ld, by simp [middleLoop], Or.inr ⟨?_, rfl, ?_, ?_⟩⟩
    · simp [visitsList, descentFailure_nil]
    · simpa [visitsList] using DepthPost_nil D ld
    · simpa [visitsList] using hpre
  | cnt + 1, i, ld, rest, hi1, hib, hpre => by
    have hic : i < children.length := by omega
    have hget : children[i]? = some (children[i]) := List.getElem?_eq_getElem hic
    cases hci : children[i] with
    | none => exact absurd hci (hsome _ (List.getElem_mem hic))
    | some c =>
      rw [hci] at hget
      have hmem : some c ∈ children := List.getElem?_mem hget
      have hka : (i - 1) < keys.length := by omega
      have hkb : i < keys.length := by omega
      have hga : keys[i - 1]? = some (keys[i - 1]) := List.getElem?_eq_getElem hka
      have hgb : keys[i]? = some (keys[i]) := List.getElem?_eq_getElem hkb
      have hdrop : (children.drop i).take (cnt + 1) =
          some c :: (children.drop (i + 1)).take cnt := by
        rw [List.drop_eq_getElem_cons hic, hci, List.take_succ_cons]
      have hvs : visitsList ((children.drop i).take (cnt + 1)) keys lo hi d1 i =
          visits c false (keys[i - 1]) (keys[i]) d1 ++
            visitsList ((children.drop (i + 1)).take cnt) keys lo hi d1 (i + 1) := by
        rw [hdrop]
        simp only [visitsList]
        rw [childLo_pos hi1 hga, childHi_lt hgb]
      rw [hvs, List.append_assoc] at hpre
      obtain ⟨r, la, hrun, hres⟩ := child_step (hrec c hmem _ _) hpre
      rw [hvs]
      rcases hres with ⟨hf, hne⟩ | ⟨hf, hr, hpost, hpre1⟩
      · refine ⟨r, la, ?_, Or.inl ⟨?_, hne⟩⟩
        · simp only [middleLoop, hget, hga, hgb, hrun, hne, ne_eq, not_false_eq_true, if_true]
        · rw [descentFailure_append, hf]
          rfl
      · subst hr
        obtain ⟨r2, lb, hrun2, hres2⟩ :=
          middleLoop_descent hlen hrec hsome cnt (i + 1) la rest (by omega) (by omega) hpre1
        refine ⟨r2, lb, ?_, ?_⟩
        · simp only [middleLoop, hget, hga, hgb, hrun, ne_eq, not_true_eq_false, if_false]
          exact hrun2
        · rcases hres2 with ⟨hf2, hne2⟩ | ⟨hf2, hr2, hpost2, hpre2⟩
          · refine Or.inl ⟨?_, hne2⟩
            rw [descentFailure_append, hf, hf2]
            rfl
          · refine Or.inr ⟨?_, hr2, DepthPost_append hpost hpost2, hpre2⟩
            rw [descentFailure_append, hf, hf2]
            rfl

theorem firstFailure_eq_none {cs : List (Bool × String)} :
    firstFailure cs = none ↔ ∀ c ∈ cs, c.1 = false := by
  unfold firstFailure
  simp [List.find?_eq_none]

theorem frontChecks_none {t D : Int} {v : Visit}
    (h : firstFailure (frontChecks t D v) = none) :
    (v.isRoot = false → t - 1 ≤ (v.node.keys.length : Int)) ∧
    (v.isRoot = true → v.node.leaf = false → v.node.keys.length ≠ 0) ∧
    (v.node.leaf = true → v.node.children = [] ∧ v.depth = D) ∧
    (v.node.leaf = false →
      v.node.children.length = v.node.keys.length + 1 ∧ ∀ c ∈ v.node.children, c ≠ none) := by
  rw [firstFailure_eq_none] at h
  have h3 := h (!v.isRoot && decide ((v.node.keys.length : Int) < t - 1),
    "INVALID: non-root node has fewer than t-1 keys") (by simp [frontChecks])
  have h4 := h (v.isRoot && !v.node.leaf && decide (v.node.keys.length = 0),
    "INVALID: root internal node has 0 keys") (by simp [frontChecks])
  have h5 := h (v.node.leaf && decide (v.node.children.length ≠ 0),
    "INVALID: leaf node has children") (by simp [frontChecks])
  have h6 := h (v.node.leaf && decide (v.depth ≠ D),
    "INVALID: leaves are not all at same depth") (by simp [frontChecks])
  have h7 := h (!v.node.leaf && decide (v.node.children.length ≠ v.node.keys.length + 1),
    "INVALID: internal node children != keys + 1") (by simp [frontChecks])
  have h8 := h (!v.node.leaf && v.node.children.any Option.isNone,
    "INVALID: internal node has null child") (by simp [frontChecks])
  simp only at h3 h4 h5 h6 h7 h8
  refine ⟨fun hr => ?_, fun hr hl => ?_, fun hl => ⟨?_, ?_⟩, fun hl => ⟨?_, ?_⟩⟩
  · simp [hr] at h3
    omega
  · simpa [hr, hl] using h4
  · have : v.node.children.length = 0 := by simpa [hl] using h5
    exact List.length_eq_zero.1 this
  · simpa [hl] using h6
  · simpa [hl] using h7
  · intro c hc hn
    have : v.node.children.any Option.isNone = false := by simpa [hl] using h8
    rw [List.any_eq_false] at this
    exact this c hc (by simp [hn])

theorem children_split {children : List (Option BTreeNode)} {len : Nat} {c0 cl : BTreeNode}
    (hlen : children.length = len + 1) (hpos : 1 ≤ len)
    (h0 : children[0]? = some (some c0)) (hl : children[len]? = some (some cl)) :
    children = some c0 :: ((children.drop 1).take (len - 1) ++ [some cl]) := by
  match children, hlen, h0, hl with
  | x :: xs, hlen, h0, hl =>
    simp only [List.getElem?_cons_zero, Option.some.injEq] at h0
    subst h0
    have hxl : xs.length = len := by simpa using hlen
    have hl1 : xs[len - 1]? = some (some cl) := by
      have e : len = (len - 1) + 1 := by omega
      rw [e, List.getElem?_cons_succ] at hl
      exact hl
    have hlt : len - 1 < xs.length := by omega
    have hdrop : xs.drop (len - 1) = [some cl] := by
      rw [List.drop_eq_getElem_cons hlt]
      have h2 : xs[len - 1] = some cl := by
        rw [List.getElem?_eq_getElem hlt] at hl1
        exact Option.some.inj hl1
      rw [h2, List.drop_of_length_le (by omega)]
    simp only [List.drop_succ_cons, List.drop_zero]
    rw [← hdrop, List.take_append_drop]

theorem childHi_last (hi : Int) (keys : List Int) : childHi hi keys keys.length = hi := by
  simp [childHi, List.getD_eq_getElem?_getD]

theorem validateNode_descent {t : Int} (ht : 2 ≤ t) (hW : maxKeys t = 2 * t - 1) (D : Int) :
    ∀ (fuel : Nat) (n : BTreeNode) (isRoot : Bool) (lo hi depth : Int),
      n.depth ≤ fuel → 0 ≤ depth → DescentSpec t D fuel n isRoot lo hi depth
  | 0, n, _, _, _, _, hf, _ => by
    cases n
    simp [BTreeNode.depth] at hf
  | fuel + 1, n, isRoot, lo, hi, depth, hf, hd => by
    intro ld hpre
    rw [visits_eq] at hpre ⊢
    have hpre1 : DepthPre D ld
        ([(⟨n, isRoot, lo, hi, depth⟩ : Visit)] ++
          visitsList n.children n.keys lo hi (depth + 1) 0) := hpre
    have h1 : ld = -1 → n.leaf = true → depth = D := by
      intro hl hleaf
      exact hpre.1 hl ⟨n, isRoot, lo, hi, depth⟩ (by simp [List.find?, hleaf])
    have hshape := shapeChecks_eq n isRoot t lo hi depth ld D hW h1 hpre.2
    rw [descentFailure_cons, nodeChecks, firstFailure_append]
    cases hff : firstFailure (frontChecks t D ⟨n, isRoot, lo, hi, depth⟩) with
    | some e =>
      rw [hff] at hshape
      refine ⟨ld, ?_, fun h => by simp at h⟩
      simp [validateNode, hshape]
    | none =>
      rw [hff] at hshape
      simp only at hshape
      obtain ⟨f1, f2, f3, f4⟩ := frontChecks_none hff
      simp only at f1 f2 f3 f4
      have hkeys := keysLoop_eq lo hi n.keys
      cases hkf : firstFailure (keyChecks lo hi n.keys) with
      | some e =>
        rw [hkf] at hkeys
        refine ⟨if n.leaf = true then D else ld, ?_, fun h => by simp at h⟩
        simp [validateNode, hshape, hkeys]
      | none =>
        rw [hkf] at hkeys
        simp only [Option.or_none, Option.none_or]
        cases hleaf : n.leaf with
        | true =>
          obtain ⟨hc, hD⟩ := f3 hleaf
          rw [hleaf] at hshape
          simp only [if_true] at hshape
          refine ⟨D, ?_, fun _ => ?_⟩
          · simp [validateNode, hshape, hkeys, hleaf, hc, visitsList, descentFailure_nil]
          · rw [hc]
            simp only [visitsList]
            refine ⟨fun _ => ⟨rfl, by omega⟩, fun h => ?_⟩
            simp [hasLeaf, hleaf] at h
        | false =>
          obtain ⟨hclen, hsome⟩ := f4 hleaf
          rw [hleaf] at hshape
          simp only [Bool.false_eq_true, if_false] at hshape
          have hpos : 1 ≤ n.keys.length := by
            cases hr : isRoot
            · have := f1 hr
              omega
            · have := f2 hr hleaf
              omega
          -- the first and the last child
          have h0lt : 0 < n.children.length := by omega
          have hllt : n.keys.length < n.children.length := by omega
          have hg0 : n.children[0]? = some (n.children[0]) := List.getElem?_eq_getElem h0lt
          have hgl : n.children[n.keys.length]? = some (n.children[n.keys.length]) :=
            List.getElem?_eq_getElem hllt
          cases hc0 : n.children[0] with
          | none => exact absurd hc0 (hsome _ (List.getElem_mem h0lt))
          | some c0 =>
          cases hcl : n.children[n.keys.length] with
          | none => exact absurd hcl (hsome _ (List.getElem_mem hllt))
          | some cl =>
          rw [hc0] at hg0
          rw [hcl] at hgl
          have hk0 : n.keys[0]? = some (n.keys[0]) := List.getElem?_eq_getElem (by omega)
          have hkl : n.keys[n.keys.length - 1]? = some (n.keys[n.keys.length - 1]) :=
            List.getElem?_eq_getElem (by omega)
          have hrec : ∀ c, some c ∈ n.children →
              ∀ a b, DescentSpec t D fuel c false a b (depth + 1) := by
            intro c hc a b
            have := depth_child hc
            exact validateNode_descent ht hW D fuel c false a b (depth + 1) (by omega) (by omega)
          have hsplit := children_split hclen hpos hg0 hgl
          have hmidlen : ((n.children.drop 1).take (n.keys.length - 1)).length =
              n.keys.length - 1 := by
            simp [List.length_take, List.length_drop, hclen]
          have hvs : visitsList n.children n.keys lo hi (depth + 1) 0 =
              visits c0 false lo (n.keys[0]) (depth + 1) ++
                (visitsList ((n.children.drop 1).take (n.keys.length - 1)) n.keys lo hi
                    (depth + 1) 1 ++
                  (visits cl false (n.keys[n.keys.length - 1]) hi (depth + 1) ++ [])) := by
            have e1 : childLo lo n.keys 0 = lo := by simp [childLo]
            have e2 : childHi hi n.keys 0 = n.keys[0] := childHi_lt hk0
            have e3 : childLo lo n.keys n.keys.length = n.keys[n.keys.length - 1] :=
              childLo_pos hpos hkl
            have e4 : 0 + 1 + (n.keys.length - 1) = n.keys.length := by omega
            conv_lhs => rw [hsplit]
            simp only [visitsList]
            rw [visitsList_append, hmidlen, e4]
            simp only [visitsList]
            rw [e1, e2, e3, childHi_last]
          rw [hvs] at hpre1 ⊢
          have hpreC : DepthPre D ld
              (visits c0 false lo (n.keys[0]) (depth + 1) ++
                (visitsList ((n.children.drop 1).take (n.keys.length - 1)) n.keys lo hi
                    (depth + 1) 1 ++
                  (visits cl false (n.keys[n.keys.length - 1]) hi (depth + 1) ++ []))) := by
            refine DepthPre_right hpre1 ⟨fun h => ?_, fun _ => rfl⟩
            simp [hasLeaf, hleaf] at h
          have hpostV : DepthPost D ld [(⟨n, isRoot, lo, hi, depth⟩ : Visit)] ld := by
            refine ⟨fun h => ?_, fun _ => rfl⟩
            simp [hasLeaf, hleaf] at h
          have hunfold := @validateNode_internal fuel n isRoot t lo hi depth ld ld (some c0)
            (n.keys[0]) hshape hkeys hleaf hg0 hk0
          rw [hunfold]
          obtain ⟨r1, la, hrun1, hres1⟩ :=
            child_step (hrec c0 (List.getElem?_mem hg0) lo (n.keys[0])) hpreC
          rw [hrun1]
          rcases hres1 with ⟨hf1, hne1⟩ | ⟨hf1, hr1, hpost1, hpre2⟩
          · refine ⟨la, ?_, fun h => ?_⟩
            · simp only [hne1, ne_eq, not_false_eq_true, if_true, descentFailure_append, hf1]
              rfl
            · simp [descentFailure_append, hf1] at h
          subst hr1
          obtain ⟨r2, lb, hrun2, hres2⟩ :=
            @middleLoop_descent t D fuel n.keys n.children lo hi (depth + 1) hclen hrec hsome
              (n.keys.length - 1) 1 la _ (le_refl 1) (by omega) hpre2
          simp only [ne_eq, not_true_eq_false, if_false, hrun2]
          rcases hres2 with ⟨hf2, hne2⟩ | ⟨hf2, hr2, hpost2, hpre3⟩
          · refine ⟨lb, ?_, fun h => ?_⟩
            · simp only [hne2, not_false_eq_true, if_true, descentFailure_append, hf1, hf2]
              rfl
            · rw [descentFailure_append, hf1, descentFailure_append, hf2] at h
              simp at h
          subst hr2
          obtain ⟨r3, lc, hrun3, hres3⟩ :=
            child_step (hrec cl (List.getElem?_mem hgl) (n.keys[n.keys.length - 1]) hi) hpre3
          simp only [not_true_eq_false, if_false, hgl, hkl, hrun3]
          rcases hres3 with ⟨hf3, hne3⟩ | ⟨hf3, hr3, hpost3, _⟩
          · refine ⟨lc, ?_, fun h => ?_⟩
            · simp only [hne3, ne_eq, not_false_eq_true, if_true, descentFailure_append, hf1, hf2,
                hf3]
              rfl
            · simp [descentFailure_append, hf1, hf2, hf3] at h
          subst hr3
          refine ⟨lc, ?_, fun _ => ?_⟩
          · simp only [ne_eq, not_true_eq_false, if_false, descentFailure_append, hf1, hf2, hf3,
              descentFailure_nil]
            rfl
          · have := DepthPost_append hpostV
              (DepthPost_append hpost1
                (DepthPost_append hpost2 (DepthPost_append hpost3 (DepthPost_nil D lc))))
            exact this

theorem firstLeafDepth_pre (vs : List Visit) : DepthPre (firstLeafDepth vs) (-1) vs := by
  refine ⟨fun _ v hv => ?_, fun h => absurd rfl h⟩
  simp [firstLeafDepth, hv]

/-- The validator returns what the specification prescribes. -/
theorem validateBTree_eq_spec (tr : BTree) (h30 : tr.t ≤ 1073741824) :
    validateBTree tr = some (specValidate tr) := by
  unfold validateBTree specValidate
  by_cases ht : tr.t < 2
  · simp only [ht, if_true]
  · simp only [ht, if_false]
    cases hr : tr.root with
    | none => rfl
    | some r =>
      simp only
      obtain ⟨ld1, hrun, _⟩ :=
        validateNode_descent (by omega : 2 ≤ tr.t) (maxKeys_eq (by omega) h30)
          (firstLeafDepth (visits r true LLONG_MIN LLONG_MAX 0)) r.depth r true LLONG_MIN
          LLONG_MAX 0 (le_refl _) (le_refl _) (-1) (firstLeafDepth_pre _)
      rw [hrun]
      rfl

theorem nodup_getElem_not_mem_take {pool : List Int} (hnd : pool.Nodup) {i : Nat} {key : Int}
    (hk : pool[i]? = some key) : key ∉ pool.take i := by
  intro hmem
  obtain ⟨j, hj, hjk⟩ := List.getElem_of_mem hmem
  have hjlt : j < i := by
    have := hj
    simp only [List.length_take] at this
    omega
  have hil : i < pool.length := by
    rcases Nat.lt_or_ge i pool.length with h | h
    · exact h
    · rw [List.getElem?_eq_none h] at hk
      cases hk
  have hjl : j < pool.length := by omega
  have e1 : pool[j] = key := by
    rw [List.getElem_take] at hjk
    exact hjk
  have e2 : pool[i] = key := by
    rw [List.getElem?_eq_getElem hil] at hk
    exact Option.some.inj hk
  have := (List.Nodup.getElem_inj_iff hnd).1 (e1.trans e2.symm)
  omega

theorem mem_take_succ_iff {pool : List Int} {i : Nat} {key : Int} (hk : pool[i]? = some key)
    (x : Int) : x ∈ pool.take (i + 1) ↔ x = key ∨ x ∈ pool.take i := by
  have hil : i < pool.length := by
    rcases Nat.lt_or_ge i pool.length with h | h
    · exact h
    · rw [List.getElem?_eq_none h] at hk
      cases hk
  have e2 : pool[i] = key := by
    rw [List.getElem?_eq_getElem hil] at hk
    exact Option.some.inj hk
  rw [List.take_succ, hk]
  simp only [Option.toList, List.mem_append, List.mem_singleton]
  tauto

theorem insertPhase_ok {t n : Int} {seed : Nat} {pool : List Int} (hnd : pool.Nodup)
    (hint : ∀ k ∈ pool, IsInt k) :
    ∀ (cnt i : Nat) (tree : BTree) (l inserted : List Int),
      TreeRep tree l → tree.t < 1073741824 → (∀ x, x ∈ l ↔ x ∈ pool.take i) →
      i + cnt ≤ pool.length →
      ∃ tree1 l1 ins1,
        insertPhase t n seed pool cnt i tree inserted = some (.inr (tree1, ins1)) ∧
          TreeRep tree1 l1 ∧ ins1.length = inserted.length + cnt ∧ tree1.t < 1073741824
  | 0, _, tree, l, inserted, hT, h30, _, _ => ⟨tree, l, inserted, rfl, hT, rfl, h30⟩
  | cnt + 1, i, tree, l, inserted, hT, h30, hl, hb => by
    have hil : i < pool.length := by omega
    have hk : pool[i]? = some (pool[i]) := List.getElem?_eq_getElem hil
    have hnot : pool[i] ∉ l := fun h => nodup_getElem_not_mem_take hnd hk ((hl _).1 h)
    obtain ⟨tree1, l1, hins, hT1, hmem, ht1, _⟩ :=
      insert_TreeRep hT h30 (IsInt_bounds (hint _ (List.getElem_mem hil))) hnot
    have h31 : tree1.t < 1073741824 := by rw [ht1]; exact h30
    have hv : validateBTree tree1 = some "VALID" :=
      (validateBTree_iff tree1 (le_of_lt h31)).2 ⟨l1, hT1⟩
    obtain ⟨tree2, l2, ins2, hrun, hT2, hlen, h32⟩ :=
      insertPhase_ok hnd hint cnt (i + 1) tree1 l1 (inserted ++ [pool[i]]) hT1 h31
        (fun x => by rw [hmem, mem_take_succ_iff hk, hl]) (by omega)
    refine ⟨tree2, l2, ins2, ?_, hT2, ?_, h32⟩
    · simp only [insertPhase, hk, hins, hv, ne_eq, not_true_eq_false, if_false]
      exact hrun
    · simp only [List.length_append, List.length_singleton] at hlen
      omega

theorem deleteHalfPhase_ok {t n : Int} {seed : Nat} {inserted : List Int} {delCount : Nat} :
    ∀ (cnt i : Nat) (tree : BTree) (l : List Int),
      TreeRep tree l → tree.t < 1073741824 → i + cnt ≤ inserted.length →
      ∃ tree1 l1, deleteHalfPhase t n seed inserted delCount cnt i tree = some (.inr tree1) ∧
        TreeRep tree1 l1 ∧ tree1.t < 1073741824
  | 0, _, tree, l, hT, h30, _ => ⟨tree, l, rfl, hT, h30⟩
  | cnt + 1, i, tree, l, hT, h30, hb => by
    have hil : i < inserted.length := by omega
    have hk : inserted[i]? = some (inserted[i]) := List.getElem?_eq_getElem hil
    obtain ⟨tree1, l1, hrem, hT1, _, ht1, _⟩ := remove_TreeRep hT (inserted[i])
    have h31 : tree1.t < 1073741824 := by rw [ht1]; exact h30
    have hv : validateBTree tree1 = some "VALID" :=
      (validateBTree_iff tree1 (le_of_lt h31)).2 ⟨l1, hT1⟩
    obtain ⟨tree2, l2, hrun, hT2, h32⟩ :=
      @deleteHalfPhase_ok t n seed inserted delCount cnt (i + 1) tree1 l1 hT1 h31 (by omega)
    refine ⟨tree2, l2, ?_, hT2, h32⟩
    simp only [deleteHalfPhase, hk, hrem, hv, ne_eq, not_true_eq_false, if_false]
    exact hrun

theorem clearPhase_ok {t n : Int} {seed : Nat} {inserted : List Int} {delCount : Nat} :
    ∀ (cnt i : Nat) (tree : BTree) (l : List Int),
      TreeRep tree l → tree.t < 1073741824 → i + cnt ≤ inserted.length →
      ∃ tree1 l1, clearPhase t n seed inserted delCount cnt i tree = some (.inr tree1) ∧
        TreeRep tree1 l1 ∧ tree1.t < 1073741824
  | 0, _, tree, l, hT, h30, _ => ⟨tree, l, rfl, hT, h30⟩
  | cnt + 1, i, tree, l, hT, h30, hb => by
    have hil : i < inserted.length := by omega
    have hnb : ¬ i ≥ inserted.length := by omega
    have hk : inserted[i]? = some (inserted[i]) := List.getElem?_eq_getElem hil
    obtain ⟨tree1, l1, hrem, hT1, _, ht1, _⟩ := remove_TreeRep hT (inserted[i])
    have h31 : tree1.t < 1073741824 := by rw [ht1]; exact h30
    have hv : validateBTree tree1 = some "VALID" :=
      (validateBTree_iff tree1 (le_of_lt h31)).2 ⟨l1, hT1⟩
    obtain ⟨tree2, l2, hrun, hT2, h32⟩ :=
      @clearPhase_ok t n seed inserted delCount cnt (i + 1) tree1 l1 hT1 h31 (by omega)
    refine ⟨tree2, l2, ?_, hT2, h32⟩
    simp only [clearPhase, hnb, hk, hrem, hv, ne_eq, not_true_eq_false, if_false]
    exact hrun

theorem pool_facts (P : Nat) (hP : (P : Int) ≤ 2147483647) :
    (initialPool P).Nodup ∧ (∀ k ∈ initialPool P, IsInt k) ∧ (initialPool P).length = P := by
  unfold initialPool
  refine ⟨?_, ?_, by simp⟩
  · refine List.Nodup.map ?_ (List.nodup_range P)
    intro a b hab
    simp only at hab
    omega
  · intro k hk
    simp only [List.mem_map, List.mem_range] at hk
    obtain ⟨i, hi, rfl⟩ := hk
    unfold IsInt
    omega

theorem runBTreeGeneratedTest_pass {G : Type} (mkRng : Nat → G)
    (shuffle : List Int → G → List Int × G) (t n : Int) (seed : Nat) (ht : 2 ≤ t)
    (h30 : t < 1073741824) (hn : 0 ≤ n) (hmax : 4 * n ≤ 2147483647)
    (hperm : ∀ l g, (shuffle l g).1.Perm l) :
    runBTreeGeneratedTest mkRng shuffle t n seed = some "PASS" := by
  unfold runBTreeGeneratedTest
  have h1 : ¬ t < 2 := by omega
  have h2 : ¬ n < 0 := by omega
  have h3 : ¬ 4 * n > 2147483647 := by omega
  rw [if_neg h1, if_neg h2, if_neg h3]
  dsimp only
  obtain ⟨hnd0, hint0, hlen0⟩ := pool_facts (max 1 (4 * n)).toNat (by omega)
  have hp := hperm (initialPool (max 1 (4 * n)).toNat) (mkRng seed)
  generalize shuffle (initialPool (max 1 (4 * n)).toNat) (mkRng seed) = sh at hp
  obtain ⟨pool, rng1⟩ := sh
  simp only at hp ⊢
  have hnd : pool.Nodup := (List.Perm.nodup_iff hp).2 hnd0
  have hint : ∀ k ∈ pool, IsInt k := fun k hk => hint0 k (hp.mem_iff.1 hk)
  have hlen : pool.length = (max 1 (4 * n)).toNat := by rw [hp.length_eq, hlen0]
  obtain ⟨tree1, l1, ins1, hrun1, hT1, hl1, h31⟩ :=
    @insertPhase_ok t n seed pool hnd hint n.toNat 0 (BTree.fresh t) [] [] (fresh_TreeRep ht)
      h30 (by simp) (by omega)
  rw [hrun1]
  dsimp only
  have hp2 := hperm ins1 rng1
  generalize shuffle ins1 rng1 = sh2 at hp2
  obtain ⟨inserted, rng2⟩ := sh2
  simp only at hp2 ⊢
  have hlen2 : inserted.length = n.toNat := by
    rw [hp2.length_eq, hl1]
    simp
  obtain ⟨tree2, l2, hrun2, hT2, h32⟩ :=
    @deleteHalfPhase_ok t n seed inserted (n.toNat / 2) (n.toNat / 2) 0 tree1 l1 hT1 h31
      (by omega)
  rw [hrun2]
  dsimp only
  obtain ⟨tree3, l3, hrun3, _⟩ :=
    @clearPhase_ok t n seed inserted (n.toNat / 2) (n.toNat - n.toNat / 2) (n.toNat / 2) tree2 l2
      hT2 h32 (by omega)
  rw [hrun3]

/-! ## Inserting a key that is already stored -/

theorem Str_len {t : Int} {h : Nat} {m : Int} {n : BTreeNode} (hS : Str t h m n) :
    n.t = t ∧ m ≤ (n.keys.length : Int) ∧ (n.keys.length : Int) ≤ 2 * t - 1 := by
  cases h with
  | zero => exact ⟨hS.2.1, hS.2.2.1, hS.2.2.2.1⟩
  | succ h => exact ⟨hS.2.1, hS.2.2.1, hS.2.2.2.1⟩

theorem Str_setmin {t : Int} {h : Nat} {m m1 : Int} {n : BTreeNode} (hS : Str t h m n)
    (hm : m1 ≤ (n.keys.length : Int)) : Str t h m1 n := by
  cases h with
  | zero => exact ⟨hS.1, hS.2.1, hm, hS.2.2.2⟩
  | succ h => exact ⟨hS.1, hS.2.1, hm, hS.2.2.2⟩

theorem allKeys_eq (n : BTreeNode) : n.allKeys = n.keys ++ allKeysList n.children := by
  cases n
  simp [BTreeNode.allKeys]

theorem allKeysList_append :
    ∀ (a b : List (Option BTreeNode)), allKeysList (a ++ b) = allKeysList a ++ allKeysList b
  | [], b => by simp [allKeysList]
  | c :: a, b => by
    simp [allKeysList, allKeysList_append a b]

theorem allKeysList_cons_some (c : BTreeNode) (cs : List (Option BTreeNode)) :
    allKeysList (some c :: cs) = c.allKeys ++ allKeysList cs := by
  simp [allKeysList, allKeysOpt]

theorem split_keys {T : Nat} (hT : 2 ≤ T) {y : BTreeNode} (hlen : y.keys.length = 2 * T - 1)
    {mid : Int} (hk : y.keys[T - 1]? = some mid) :
    y.keys = (splitLeft T y).keys ++ mid :: (splitRight T y).keys ∧
      (splitLeft T y).keys.length = T - 1 ∧ (splitRight T y).keys.length = T - 1 := by
  have h1 : (splitLeft T y).keys = y.keys.take (T - 1) := by
    simp only [splitLeft]
    exact resize_of_le _ _ _ (by omega)
  have h2 : (splitRight T y).keys = y.keys.drop T := by
    simp only [splitRight]
    exact List.take_of_length_le (by simp; omega)
  have hlt : T - 1 < y.keys.length := by omega
  have hd : y.keys.drop (T - 1) = mid :: y.keys.drop T := by
    rw [List.drop_eq_getElem_cons hlt]
    have e : y.keys[T - 1] = mid := by
      rw [List.getElem?_eq_getElem hlt] at hk
      exact Option.some.inj hk
    have e2 : T - 1 + 1 = T := by omega
    rw [e, e2]
  refine ⟨?_, ?_, ?_⟩
  · rw [h1, h2, ← hd, List.take_append_drop]
  · rw [h1, List.length_take]
    omega
  · rw [h2, List.length_drop]
    omega

theorem split_children {T : Nat} {y : BTreeNode} (hleaf : y.leaf = false)
    (hch : y.children.length = 2 * T) :
    y.children = (splitLeft T y).children ++ (splitRight T y).children ∧
      (splitLeft T y).children.length = T ∧ (splitRight T y).children.length = T := by
  have h1 : (splitLeft T y).children = y.children.take T := by
    simp only [splitLeft, hleaf, Bool.false_eq_true, if_false]
    exact resize_of_le _ _ _ (by omega)
  have h2 : (splitRight T y).children = y.children.drop T := by
    simp only [splitRight, hleaf, Bool.false_eq_true, if_false]
    exact List.take_of_length_le (by simp; omega)
  refine ⟨?_, ?_, ?_⟩
  · rw [h1, h2, List.take_append_drop]
  · rw [h1, List.length_take]
    omega
  · rw [h2, List.length_drop]
    omega

theorem Str_split {T : Nat} (hT : 2 ≤ T) {h : Nat} {y : BTreeNode}
    (hS : Str (T : Int) h ((T : Int) - 1) y) (hlen : y.keys.length = 2 * T - 1) :
    ∃ mid, y.keys[T - 1]? = some mid ∧ (y.leaf = false → y.children.length = 2 * T) ∧
      Str (T : Int) h ((T : Int) - 1) (splitLeft T y) ∧
      Str (T : Int) h ((T : Int) - 1) (splitRight T y) ∧
      (splitLeft T y).keys.length = T - 1 ∧ (splitRight T y).keys.length = T - 1 ∧
      ∀ x, y.allKeys.count x =
        (splitLeft T y).allKeys.count x + [mid].count x + (splitRight T y).allKeys.count x := by
  have hlt : T - 1 < y.keys.length := by omega
  have hk : y.keys[T - 1]? = some (y.keys[T - 1]) := List.getElem?_eq_getElem hlt
  obtain ⟨hks, hl1, hl2⟩ := split_keys hT hlen hk
  refine ⟨y.keys[T - 1], hk, ?_⟩
  cases h with
  | zero =>
    obtain ⟨hleaf, ht, _, _, hc⟩ := hS
    have hcl : (splitLeft T y).children = [] := by simp [splitLeft, hleaf, hc]
    have hcr : (splitRight T y).children = [] := by simp [splitRight, hleaf]
    refine ⟨fun hf => by simp [hleaf] at hf,
      ⟨by simp [splitLeft, hleaf], by simp [splitLeft, ht], by omega, by omega, hcl⟩,
      ⟨by simp [splitRight, hleaf], by simp [splitRight, ht], by omega, by omega, hcr⟩,
      hl1, hl2, fun x => ?_⟩
    rw [allKeys_eq y, allKeys_eq (splitLeft T y), allKeys_eq (splitRight T y), hcl, hcr, hc]
    conv_lhs => rw [hks]
    simp only [allKeysList, List.append_nil, List.count_append, List.count_cons, List.count_nil]
    omega
  | succ h =>
    obtain ⟨hleaf, ht, _, _, hclen, hall⟩ := hS
    have hch : y.children.length = 2 * T := by omega
    obtain ⟨hcs, hc1, hc2⟩ := split_children hleaf hch
    refine ⟨fun _ => hch,
      ⟨by simp [splitLeft, hleaf], by simp [splitLeft, ht], by omega, by omega, by omega, ?_⟩,
      ⟨by simp [splitRight, hleaf], by simp [splitRight, ht], by omega, by omega, by omega, ?_⟩,
      hl1, hl2, fun x => ?_⟩
    · intro c hc
      exact hall c (by rw [hcs]; exact List.mem_append_left _ hc)
    · intro c hc
      exact hall c (by rw [hcs]; exact List.mem_append_right _ hc)
    · rw [allKeys_eq y, allKeys_eq (splitLeft T y), allKeys_eq (splitRight T y)]
      conv_lhs => rw [hks, hcs]
      simp only [allKeysList_append, List.count_append, List.count_cons, List.count_nil]
      omega

theorem split_at {α : Type} {l : List α} {i : Nat} {x : α} (h : l[i]? = some x) :
    ∃ pre post, l = pre ++ x :: post ∧ pre.length = i := by
  have hil : i < l.length := by
    rcases Nat.lt_or_ge i l.length with h1 | h1
    · exact h1
    · rw [List.getElem?_eq_none h1] at h
      cases h
  have e : l[i] = x := by
    rw [List.getElem?_eq_getElem hil] at h
    exact Option.some.inj h
  refine ⟨l.take i, l.drop (i + 1), ?_, by simp; omega⟩
  rw [← e, ← List.drop_eq_getElem_cons hil, List.take_append_drop]

theorem split_len {α : Type} (l : List α) {i : Nat} (h : i ≤ l.length) :
    ∃ pre post, l = pre ++ post ∧ pre.length = i :=
  ⟨l.take i, l.drop i, (List.take_append_drop i l).symm, by simp; omega⟩

theorem Str_insertNonFull {T : Nat} (hT : 2 ≤ T) (hT30 : T < 1073741824) (k : Int) :
    ∀ (h fuel : Nat) (m : Int) (n : BTreeNode),
      Str (T : Int) h m n → n.keys.length < 2 * T - 1 → h < fuel →
      ∃ n1, n.insertNonFull fuel k = some n1 ∧ Str (T : Int) h m n1 ∧
        n.keys.length ≤ n1.keys.length ∧
        ∀ x, n1.allKeys.count x = n.allKeys.count x + [k].count x
  | _, 0, _, _, _, _, hf => by omega
  | 0, fuel + 1, m, n, hS, hlen, _ => by
    obtain ⟨hl, ht, hm, _, hc⟩ := hS
    have hres : n.insertNonFull (fuel + 1) k = some
        { leaf := n.leaf, t := n.t,
          keys := n.keys.take (n.keys.length - countWhile (fun x => decide (x > k)) n.keys.reverse)
            ++ k :: n.keys.drop
              (n.keys.length - countWhile (fun x => decide (x > k)) n.keys.reverse),
          children := n.children } := by
      simp only [BTreeNode.insertNonFull, hl, if_true]
    generalize n.keys.length - countWhile (fun x => decide (x > k)) n.keys.reverse = idx at hres
    refine ⟨_, hres, ⟨hl, ht, ?_, ?_, hc⟩, ?_, fun x => ?_⟩
    · simp
      omega
    · simp
      omega
    · simp
      omega
    · rw [allKeys_eq, allKeys_eq n]
      simp only [List.count_append, List.count_cons, List.count_nil]
      have := congrArg (List.count x) (List.take_append_drop idx n.keys)
      rw [List.count_append] at this
      omega
  | h + 1, fuel + 1, m, n, hS, hlen, hf => by
    obtain ⟨hl, ht, hm, hmax, hclen, hall⟩ := hS
    obtain ⟨idx, hdef⟩ : ∃ idx,
        n.keys.length - countWhile (fun x => decide (x > k)) n.keys.reverse = idx := ⟨_, rfl⟩
    have hidx : idx ≤ n.keys.length := by
      rw [← hdef]
      exact Nat.sub_le _ _
    have hil : idx < n.children.length := by omega
    obtain ⟨c, hcmem, hSc⟩ : ∃ c, n.children[idx]? = some (some c) ∧
        Str (T : Int) h ((T : Int) - 1) c := by
      obtain ⟨c1, hc1, hS1⟩ := hall _ (List.getElem_mem hil)
      exact ⟨c1, by rw [List.getElem?_eq_getElem hil, hc1], hS1⟩
    obtain ⟨cs1, cs2, hcs, h2⟩ := split_at hcmem
    obtain ⟨ks1, ks2, hks, h1⟩ := split_len n.keys hidx
    have hcall : ∀ d ∈ cs1 ++ cs2, ∃ c1, d = some c1 ∧ Str (T : Int) h ((T : Int) - 1) c1 := by
      intro d hd
      refine hall d ?_
      rw [hcs]
      rcases List.mem_append.1 hd with hd | hd
      · exact List.mem_append_left _ hd
      · exact List.mem_append_right _ (List.mem_cons_of_mem _ hd)
    have hnk : ∀ x, n.allKeys.count x =
        ks1.count x + ks2.count x + (allKeysList cs1).count x + c.allKeys.count x +
          (allKeysList cs2).count x := by
      intro x
      rw [allKeys_eq n, hks, hcs]
      simp only [allKeysList_append, allKeysList_cons_some, List.count_append]
      omega
    have hlenk : n.keys.length = ks1.length + ks2.length := by rw [hks]; simp
    have hlenc : cs1.length + cs2.length = n.keys.length := by
      rw [hcs] at hclen
      simp at hclen
      omega
    have hW : maxKeys (T : Int) = 2 * (T : Int) - 1 := maxKeys_eq (by omega) (by omega)
    by_cases hfull : (c.keys.length : Int) = 2 * (T : Int) - 1
    · have hfull1 : c.keys.length = 2 * T - 1 := by omega
      obtain ⟨mid, hmid, hch, hSl, hSr, hll, hlr, hcnt⟩ := Str_split hT hSc hfull1
      have hsp := splitChild_eq ht hT hT30 (Str_len hSc).1 hcmem hmid hfull1 hch hidx
      have hkeys1 : n.keys.insertIdx idx mid = ks1 ++ mid :: ks2 := by
        rw [hks]
        exact insertIdx_mid_of_length mid h1
      have hch1 : (n.children.set idx (some (splitLeft T c))).insertIdx (idx + 1)
          (some (splitRight T c)) =
            cs1 ++ some (splitLeft T c) :: some (splitRight T c) :: cs2 := by
        rw [hcs, set_mid _ h2]
        have e : cs1 ++ some (splitLeft T c) :: cs2 = (cs1 ++ [some (splitLeft T c)]) ++ cs2 := by
          simp
        rw [e, insertIdx_mid_of_length _ (by simp [h2])]
        simp
      have hget : (ks1 ++ mid :: ks2)[idx]? = some mid := getElem?_mid_of_length h1
      by_cases hlt : mid < k
      · obtain ⟨z1, hins, hSz, _, hcz⟩ :=
          Str_insertNonFull hT hT30 k h fuel _ (splitRight T c) hSr (by omega) (by omega)
        have hgetc : (cs1 ++ some (splitLeft T c) :: some (splitRight T c) :: cs2)[idx + 1]? =
            some (some (splitRight T c)) := getElem?_mid1 h2
        have hset : (cs1 ++ some (splitLeft T c) :: some (splitRight T c) :: cs2).set (idx + 1)
            (some z1) = cs1 ++ some (splitLeft T c) :: some z1 :: cs2 := set_mid1 _ h2
        have hres : n.insertNonFull (fuel + 1) k = some
            { leaf := n.leaf, t := n.t, keys := ks1 ++ mid :: ks2,
              children := cs1 ++ some (splitLeft T c) :: some z1 :: cs2 } := by
          simp only [BTreeNode.insertNonFull, hl, hdef, hcmem, hW, hfull, ht, if_true, hsp, hkeys1,
            hch1, hget, hlt, if_false]
          simp only [hgetc, hins, Option.map_some', hset]
          simp
        refine ⟨_, hres, ⟨hl, ht, ?_, ?_, ?_, ?_⟩, ?_, fun x => ?_⟩
        · simp
          omega
        · simp
          omega
        · simp
          omega
        · intro d hd
          simp only [List.mem_append, List.mem_cons] at hd
          rcases hd with hd | rfl | rfl | hd
          · exact hcall d (List.mem_append_left _ hd)
          · exact ⟨_, rfl, hSl⟩
          · exact ⟨_, rfl, hSz⟩
          · exact hcall d (List.mem_append_right _ hd)
        · simp
          omega
        · rw [allKeys_eq]
          simp only [allKeysList_append, allKeysList_cons_some, List.count_append,
            List.count_cons, List.count_nil]
          have e1 := hnk x
          have e2 := hcnt x
          have e3 := hcz x
          simp only [List.count_cons, List.count_nil] at e2 e3
          omega
      · obtain ⟨y1, hins, hSy, _, hcy⟩ :=
          Str_insertNonFull hT hT30 k h fuel _ (splitLeft T c) hSl (by omega) (by omega)
        have hgetc : (cs1 ++ some (splitLeft T c) :: some (splitRight T c) :: cs2)[idx]? =
            some (some (splitLeft T c)) := getElem?_mid_of_length h2
        have hset : (cs1 ++ some (splitLeft T c) :: some (splitRight T c) :: cs2).set idx
            (some y1) = cs1 ++ some y1 :: some (splitRight T c) :: cs2 := set_mid _ h2
        have hres : n.insertNonFull (fuel + 1) k = some
            { leaf := n.leaf, t := n.t, keys := ks1 ++ mid :: ks2,
              children := cs1 ++ some y1 :: some (splitRight T c) :: cs2 } := by
          simp only [BTreeNode.insertNonFull, hl, hdef, hcmem, hW, hfull, ht, if_true, hsp, hkeys1,
            hch1, hget, hlt, if_false]
          simp only [hgetc, hins, Option.map_some', hset]
          simp
        refine ⟨_, hres, ⟨hl, ht, ?_, ?_, ?_, ?_⟩, ?_, fun x => ?_⟩
        · simp
          omega
        · simp
          omega
        · simp
          omega
        · intro d hd
          simp only [List.mem_append, List.mem_cons] at hd
          rcases hd with hd | rfl | rfl | hd
          · exact hcall d (List.mem_append_left _ hd)
          · exact ⟨_, rfl, hSy⟩
          · exact ⟨_, rfl, hSr⟩
          · exact hcall d (List.mem_append_right _ hd)
        · simp
          omega
        · rw [allKeys_eq]
          simp only [allKeysList_append, allKeysList_cons_some, List.count_append,
            List.count_cons, List.count_nil]
          have e1 := hnk x
          have e2 := hcnt x
          have e3 := hcy x
          simp only [List.count_cons, List.count_nil] at e2 e3
          omega
    · have hclt : c.keys.length < 2 * T - 1 := by
        have := (Str_len hSc).2.2
        omega
      obtain ⟨c1, hins, hS1, _, hc1⟩ := Str_insertNonFull hT hT30 k h fuel _ c hSc hclt (by omega)
      have hset : n.children.set idx (some c1) = cs1 ++ some c1 :: cs2 := by
        rw [hcs]
        exact set_mid _ h2
      have hres : n.insertNonFull (fuel + 1) k = some
          { leaf := n.leaf, t := n.t, keys := n.keys, children := cs1 ++ some c1 :: cs2 } := by
        simp only [BTreeNode.insertNonFull, hl, hdef, hcmem, hW, hfull, ht, if_false, hins,
          Option.map_some', hset]
        simp
      refine ⟨_, hres, ⟨hl, ht, hm, hmax, ?_, ?_⟩, le_refl _, fun x => ?_⟩
      · simp
        omega
      · intro d hd
        simp only [List.mem_append, List.mem_cons] at hd
        rcases hd with hd | rfl | hd
        · exact hcall d (List.mem_append_left _ hd)
        · exact ⟨_, rfl, hS1⟩
        · exact hcall d (List.mem_append_right _ hd)
      · rw [allKeys_eq]
        simp only [allKeysList_append, allKeysList_cons_some, List.count_append]
        have e1 := hnk x
        have e3 := hc1 x
        rw [hks]
        simp only [List.count_append]
        omega

theorem Alt_count {P : Int → Int → BTreeNode → List Int → Prop}
    (hP : ∀ lo hi c l, P lo hi c l → ∀ x, c.allKeys.count x = l.count x) :
    ∀ (ks : List Int) (cs : List (Option BTreeNode)) (lo hi : Int) (l : List Int),
      Alt P lo hi ks cs l → ∀ x, ks.count x + (allKeysList cs).count x = l.count x
  | _, [], _, _, _, hA => by simp [Alt] at hA
  | _, none :: _, _, _, _, hA => by simp [Alt] at hA
  | [], some c :: cs, lo, hi, l, hA => by
    obtain ⟨rfl, hc⟩ := hA
    intro x
    simp [allKeysList, allKeysOpt, hP _ _ _ _ hc x]
  | k :: ks, some c :: cs, lo, hi, l, hA => by
    obtain ⟨l1, l2, rfl, hlt, hPc, hrest⟩ := hA
    intro x
    have ih := Alt_count hP ks cs k hi l2 hrest x
    have hc := hP _ _ _ _ hPc x
    simp only [allKeysList, allKeysOpt, List.count_cons, List.count_append, hc]
    omega

theorem Rep_allKeys_count {t : Int} :
    ∀ (h : Nat) (m lo hi : Int) (n : BTreeNode) (l : List Int),
      Rep t h m lo hi n l → ∀ x, n.allKeys.count x = l.count x
  | 0, m, lo, hi, n, l, hR => by
    obtain ⟨_, _, _, _, hc, _, rfl⟩ := hR
    intro x
    rw [allKeys_eq, hc]
    simp [allKeysList]
  | h + 1, m, lo, hi, n, l, hR => by
    obtain ⟨_, _, _, _, hA⟩ := hR
    intro x
    have := Alt_count (fun lo hi c l hc => Rep_allKeys_count h _ lo hi c l hc) _ _ _ _ _ hA x
    rw [allKeys_eq, List.count_append]
    exact this

theorem Alt_forall {P : Int → Int → BTreeNode → List Int → Prop} :
    ∀ (ks : List Int) (cs : List (Option BTreeNode)) (lo hi : Int) (l : List Int),
      Alt P lo hi ks cs l → ∀ c ∈ cs, ∃ c1 a b lc, c = some c1 ∧ P a b c1 lc
  | _, [], _, _, _, hA => by simp [Alt] at hA
  | _, none :: _, _, _, _, hA => by simp [Alt] at hA
  | [], some c :: cs, lo, hi, l, hA => by
    obtain ⟨rfl, hc⟩ := hA
    intro d hd
    simp only [List.mem_singleton] at hd
    exact ⟨c, lo, hi, l, hd, hc⟩
  | k :: ks, some c :: cs, lo, hi, l, hA => by
    obtain ⟨l1, l2, rfl, hlt, hPc, hrest⟩ := hA
    intro d hd
    rcases List.mem_cons.1 hd with rfl | hd
    · exact ⟨c, lo, k, l1, rfl, hPc⟩
    · exact Alt_forall ks cs k hi l2 hrest d hd

theorem Rep_Str {t : Int} :
    ∀ (h : Nat) (m lo hi : Int) (n : BTreeNode) (l : List Int),
      Rep t h m lo hi n l → Str t h m n
  | 0, m, lo, hi, n, l, hR => by
    obtain ⟨h1, h2, h3, h4, h5, _⟩ := hR
    exact ⟨h1, h2, h3, h4, h5⟩
  | h + 1, m, lo, hi, n, l, hR => by
    obtain ⟨h1, h2, h3, h4, hA⟩ := hR
    refine ⟨h1, h2, h3, h4, Alt_length _ _ _ _ _ hA, fun c hc => ?_⟩
    obtain ⟨c1, a, b, lc, rfl, hc1⟩ := Alt_forall _ _ _ _ _ hA c hc
    exact ⟨c1, rfl, Rep_Str h _ a b c1 lc hc1⟩

/-- `BTree::insert` of any key into a valid tree returns a tree with the structure
of a valid tree that holds one more copy of the key. -/
theorem insert_Str {tr : BTree} {l : List Int} (hT : TreeRep tr l) (h30 : tr.t < 1073741824)
    (k : Int) :
    ∃ tr1 h, tr.insert k = some tr1 ∧ StrTree tr1 h ∧ tr1.t = tr.t ∧
      ∀ x, tr1.allKeys.count x = tr.allKeys.count x + [k].count x := by
  obtain ⟨ht, h⟩ := hT
  obtain ⟨T, hT, hT2⟩ := nat_of_two_le ht
  have hT30 : T < 1073741824 := by omega
  have hW : maxKeys tr.t = 2 * tr.t - 1 := maxKeys_eq (by omega) (by omega)
  have hnew : ∀ b, newBTreeNode tr.t b = some ⟨b, tr.t, [], []⟩ :=
    fun b => newBTreeNode_eq (by omega) h30 b
  cases hr : tr.root with
  | none =>
    refine ⟨⟨some ⟨true, tr.t, [k], []⟩, tr.t⟩, 0, (by simp [BTree.insert, hr, hnew]),
      ⟨ht, _, rfl, ⟨rfl, rfl, (by simp), (by simp; omega), rfl⟩, fun h0 => absurd rfl h0⟩,
      rfl, fun x => ?_⟩
    simp [BTree.allKeys, hr, allKeysOpt, BTreeNode.allKeys, allKeysList]
  | some r =>
    rw [hr] at h
    obtain ⟨h1, hR, hroot⟩ := h
    rw [hT] at hR
    have hS := Rep_Str _ _ _ _ _ _ hR
    have hdepth := Rep_depth _ _ _ _ _ _ hR
    have hall : tr.allKeys = r.allKeys := by simp [BTree.allKeys, hr, allKeysOpt]
    by_cases hfull : (r.keys.length : Int) = 2 * tr.t - 1
    · have hfull1 : r.keys.length = 2 * T - 1 := by omega
      obtain ⟨mid, hmid, hch, hSl, hSr, hll, hlr, hcnt⟩ :=
        Str_split hT2 (Str_setmin hS (by omega)) hfull1
      have hsp := splitChild_eq
        (p := { leaf := false, t := tr.t, keys := [], children := [some r] })
        (i := 0) hT hT2 hT30 (Rep_len hR).1 (by simp) hmid hfull1 hch (by simp)
      simp only [List.set_cons_zero, List.insertIdx_zero] at hsp
      have hins1 : ([some (splitLeft T r)] : List (Option BTreeNode)).insertIdx (0 + 1)
          (some (splitRight T r)) = [some (splitLeft T r), some (splitRight T r)] := by
        simp [List.insertIdx_succ_cons, List.insertIdx_zero]
      rw [hins1] at hsp
      by_cases hlt : mid < k
      · obtain ⟨z1, hins, hSz, _, hcz⟩ :=
          Str_insertNonFull hT2 hT30 k h1 r.depth _ (splitRight T r) hSr (by omega) (by omega)
        refine ⟨⟨some ⟨false, tr.t, [mid], [some (splitLeft T r), some z1]⟩, tr.t⟩, h1 + 1, ?_,
          ⟨ht, _, rfl, ?_, fun _ => by simp⟩, rfl, fun x => ?_⟩
        · simp only [BTree.insert, hr, hW, hfull, if_true, hnew, List.nil_append, hsp]
          simp [hlt, hins]
        · rw [hT]
          refine ⟨rfl, rfl, by simp, (by simp; omega), rfl, fun c hc => ?_⟩
          simp only [List.mem_cons, List.mem_singleton, List.not_mem_nil, or_false] at hc
          rcases hc with rfl | rfl
          · exact ⟨_, rfl, hSl⟩
          · exact ⟨_, rfl, hSz⟩
        · have e1 := hcnt x
          have e2 := hcz x
          rw [hall]
          simp only [BTree.allKeys, allKeysOpt, BTreeNode.allKeys, allKeysList,
            List.count_append, List.count_cons, List.count_nil, List.append_nil] at e1 e2 ⊢
          omega
      · obtain ⟨y1, hins, hSy, _, hcy⟩ :=
          Str_insertNonFull hT2 hT30 k h1 r.depth _ (splitLeft T r) hSl (by omega) (by omega)
        refine ⟨⟨some ⟨false, tr.t, [mid], [some y1, some (splitRight T r)]⟩, tr.t⟩, h1 + 1, ?_,
          ⟨ht, _, rfl, ?_, fun _ => by simp⟩, rfl, fun x => ?_⟩
        · simp only [BTree.insert, hr, hW, hfull, if_true, hnew, List.nil_append, hsp]
          simp [hlt, hins]
        · rw [hT]
          refine ⟨rfl, rfl, by simp, (by simp; omega), rfl, fun c hc => ?_⟩
          simp only [List.mem_cons, List.mem_singleton, List.not_mem_nil, or_false] at hc
          rcases hc with rfl | rfl
          · exact ⟨_, rfl, hSy⟩
          · exact ⟨_, rfl, hSr⟩
        · have e1 := hcnt x
          have e2 := hcy x
          rw [hall]
          simp only [BTree.allKeys, allKeysOpt, BTreeNode.allKeys, allKeysList,
            List.count_append, List.count_cons, List.count_nil, List.append_nil] at e1 e2 ⊢
          omega
    · have hlen : r.keys.length < 2 * T - 1 := by
        have := (Rep_len hR).2.2
        omega
      obtain ⟨r2, hins, hS2, hle, hc2⟩ :=
        Str_insertNonFull hT2 hT30 k h1 r.depth 0 r hS hlen (by omega)
      refine ⟨⟨some r2, tr.t⟩, h1, ?_, ⟨ht, _, rfl, (by rw [hT]; exact hS2), fun h0 => ?_⟩,
        rfl, fun x => ?_⟩
      · simp only [BTree.insert, hr, hW, hfull, if_false, hins]
        rfl
      · have := hroot h0
        show r2.keys.length ≠ 0
        omega
      · rw [hall]
        simpa [BTree.allKeys, allKeysOpt] using hc2 x

theorem mem_visitsList {keys : List Int} {lo hi d : Int} {v : Visit} :
    ∀ (cs : List (Option BTreeNode)) (i : Nat), v ∈ visitsList cs keys lo hi d i →
      ∃ c a b, some c ∈ cs ∧ v ∈ visits c false a b d
  | [], _, h => by simp [visitsList] at h
  | none :: cs, i, h => by
    simp only [visitsList] at h
    obtain ⟨c, a, b, hc, hv⟩ := mem_visitsList cs (i + 1) h
    exact ⟨c, a, b, List.mem_cons_of_mem _ hc, hv⟩
  | some c :: cs, i, h => by
    simp only [visitsList, List.mem_append] at h
    rcases h with h | h
    · exact ⟨c, _, _, List.mem_cons_self _ _, h⟩
    · obtain ⟨c1, a, b, hc, hv⟩ := mem_visitsList cs (i + 1) h
      exact ⟨c1, a, b, List.mem_cons_of_mem _ hc, hv⟩

/-- On a tree with the structure of a valid tree none of the checks that precede
the key checks fails, the leaves being compared with their common depth. -/
theorem Str_frontChecks {t : Int} :
    ∀ (h : Nat) (m : Int) (n : BTreeNode) (isRoot : Bool) (lo hi depth : Int),
      Str t h m n → (isRoot = false → t - 1 ≤ (n.keys.length : Int)) →
      (isRoot = true → h ≠ 0 → n.keys.length ≠ 0) →
      ∀ v ∈ visits n isRoot lo hi depth, firstFailure (frontChecks t (depth + h) v) = none
  | 0, m, n, isRoot, lo, hi, depth, hS, hnr, _ => by
    obtain ⟨hl, ht, _, hmax, hc⟩ := hS
    intro v hv
    rw [visits_eq, hc] at hv
    simp only [visitsList, List.mem_singleton] at hv
    subst hv
    rw [firstFailure_eq_none]
    intro c hcm
    simp only [frontChecks, List.mem_cons, List.mem_singleton, List.not_mem_nil, or_false] at hcm
    rcases hcm with rfl | rfl | rfl | rfl | rfl | rfl | rfl | rfl
    · simp [ht]
    · simp
      omega
    · cases hr : isRoot
      · have := hnr hr
        simp
        omega
      · simp
    · simp [hl]
    · simp [hc]
    · simp
    · simp [hl]
    · simp [hl]
  | h + 1, m, n, isRoot, lo, hi, depth, hS, hnr, hroot => by
    obtain ⟨hl, ht, _, hmax, hclen, hall⟩ := hS
    intro v hv
    rw [visits_eq] at hv
    rcases List.mem_cons.1 hv with rfl | hv
    · rw [firstFailure_eq_none]
      intro c hcm
      simp only [frontChecks, List.mem_cons, List.mem_singleton, List.not_mem_nil,
        or_false] at hcm
      rcases hcm with rfl | rfl | rfl | rfl | rfl | rfl | rfl | rfl
      · simp [ht]
      · simp
        omega
      · cases hr : isRoot
        · have := hnr hr
          simp
          omega
        · simp
      · cases hr : isRoot
        · simp
        · have := hroot hr (Nat.succ_ne_zero h)
          simp [hl]
          intro h0
          simp [h0] at this
      · simp [hl]
      · simp [hl]
      · simp [hl, hclen]
      · simp only [hl, Bool.not_false, Bool.true_and]
        rw [List.any_eq_false]
        intro d hd
        obtain ⟨c1, rfl, _⟩ := hall d hd
        simp
    · obtain ⟨c, a, b, hc, hvc⟩ := mem_visitsList _ _ hv
      obtain ⟨c1, hc1, hS1⟩ := hall _ hc
      have e : c1 = c := (Option.some.inj hc1).symm
      subst e
      have := Str_frontChecks h (t - 1) c1 false a b (depth + 1) hS1
        (fun _ => (Str_len hS1).2.1) (fun hf => by simp at hf) v hvc
      have e2 : depth + 1 + (h : Int) = depth + ((h + 1 : Nat) : Int) := by
        push_cast
        omega
      rw [e2] at this
      exact this

theorem Str_hasLeaf {t : Int} :
    ∀ (h : Nat) (m : Int) (n : BTreeNode) (isRoot : Bool) (lo hi depth : Int),
      Str t h m n → hasLeaf (visits n isRoot lo hi depth) = true
  | 0, m, n, isRoot, lo, hi, depth, hS => by
    rw [visits_eq]
    simp [hasLeaf, hS.1]
  | h + 1, m, n, isRoot, lo, hi, depth, hS => by
    obtain ⟨_, _, _, _, hclen, hall⟩ := hS
    rw [visits_eq]
    match hcs : n.children, hclen, hall with
    | [], hclen, _ => simp at hclen
    | c :: cs, _, hall =>
      obtain ⟨c1, rfl, hS1⟩ := hall c (List.mem_cons_self _ _)
      have := Str_hasLeaf h _ c1 false (childLo lo n.keys 0) (childHi hi n.keys 0)
        (depth + 1) hS1
      simp only [hasLeaf, List.any_cons, visitsList, List.any_append, Bool.or_eq_true] at this ⊢
      exact Or.inr (Or.inl this)

theorem firstFailure_mem_true {cs : List (Bool × String)} {e : String}
    (h : firstFailure cs = some e) : ∃ c ∈ cs, c.1 = true ∧ c.2 = e := by
  unfold firstFailure at h
  cases hf : cs.find? (fun c => c.1) with
  | none => simp [hf] at h
  | some c =>
    rw [hf] at h
    exact ⟨c, List.mem_of_find?_eq_some hf, by simpa using List.find?_some hf, by simpa using h⟩

theorem descentFailure_keys {t D : Int} {vs : List Visit}
    (hfront : ∀ v ∈ vs, firstFailure (frontChecks t D v) = none) {e : String}
    (h : descentFailure t D vs = some e) :
    e = "INVALID: keys not strictly increasing" ∨
      e = "INVALID: key violates parent interval constraint" := by
  obtain ⟨c, hc, hct, rfl⟩ := firstFailure_mem_true h
  rw [List.mem_flatMap] at hc
  obtain ⟨v, hv, hcv⟩ := hc
  rw [nodeChecks, List.mem_append] at hcv
  rcases hcv with hcv | hcv
  · have := (firstFailure_eq_none.1 (hfront v hv)) c hcv
    rw [hct] at this
    cases this
  · simp only [keyChecks, List.mem_flatMap, List.mem_cons, List.mem_singleton,
      List.not_mem_nil, or_false] at hcv
    obtain ⟨i, _, rfl | rfl⟩ := hcv
    · exact Or.inl rfl
    · exact Or.inr rfl

theorem TreeRep_count_le {tr : BTree} {l : List Int} (hT : TreeRep tr l) (x : Int) :
    tr.allKeys.count x ≤ 1 := by
  have hs := TreeRep_sorted hT
  have hnd : l.Nodup := hs.imp (fun hxy => ne_of_lt hxy)
  obtain ⟨_, h⟩ := hT
  cases hr : tr.root with
  | none => simp [BTree.allKeys, hr, allKeysOpt]
  | some r =>
    rw [hr] at h
    obtain ⟨h1, hR, _⟩ := h
    have := Rep_allKeys_count _ _ _ _ _ _ hR x
    simp only [BTree.allKeys, hr, allKeysOpt]
    rw [this]
    exact List.nodup_iff_count_le_one.1 hnd x

/-- Inserting a key that a valid tree already stores returns a tree on which the
validator reports one of the two violations of the key order. -/
theorem duplicate_insert {tr : BTree} {l : List Int} (hT : TreeRep tr l)
    (h30 : tr.t < 1073741824) {k : Int} (hk : k ∈ tr.allKeys) :
    ∃ tr1, tr.insert k = some tr1 ∧
      (validateBTree tr1 = some "INVALID: keys not strictly increasing" ∨
        validateBTree tr1 = some "INVALID: key violates parent interval constraint") := by
  obtain ⟨tr1, h, hins, ⟨ht, r, hr, hS, hroot⟩, ht1, hcnt⟩ := insert_Str hT h30 k
  have ht30 : tr1.t ≤ 1073741824 := by
    rw [ht1]
    exact le_of_lt h30
  refine ⟨tr1, hins, ?_⟩
  have hnv : validateBTree tr1 ≠ some "VALID" := by
    intro hv
    obtain ⟨l1, hT1⟩ := validateBTree_sound tr1 hv
    have h1 := TreeRep_count_le hT1 k
    have h2 := hcnt k
    have h3 : 0 < tr.allKeys.count k := List.count_pos_iff.2 hk
    simp only [List.count_cons_self, List.count_nil] at h2
    omega
  have hfront := Str_frontChecks h 0 r true LLONG_MIN LLONG_MAX 0 hS (fun hf => by simp at hf)
    (fun _ => hroot)
  have hleaf := Str_hasLeaf h 0 r true LLONG_MIN LLONG_MAX 0 hS
  have hD : firstLeafDepth (visits r true LLONG_MIN LLONG_MAX 0) = 0 + (h : Int) := by
    unfold firstLeafDepth
    cases hf : (visits r true LLONG_MIN LLONG_MAX 0).find? (fun v => v.node.leaf) with
    | none =>
      rw [← hasLeaf_false_iff, hleaf] at hf
      cases hf
    | some v =>
      have hv := List.mem_of_find?_eq_some hf
      have hvl : v.node.leaf = true := by simpa using List.find?_some hf
      exact ((frontChecks_none (hfront v hv)).2.2.1 hvl).2
  have hspec := validateBTree_eq_spec tr1 ht30
  have hnt : ¬ tr1.t < 2 := by omega
  rw [hspec] at hnv ⊢
  unfold specValidate at hnv ⊢
  rw [if_neg hnt] at hnv ⊢
  rw [hr] at hnv ⊢
  dsimp only at hnv ⊢
  rw [hD] at hnv ⊢
  cases hf : descentFailure tr1.t (0 + (h : Int)) (visits r true LLONG_MIN LLONG_MAX 0) with
  | none =>
    rw [hf] at hnv
    exact absurd rfl hnv
  | some e =>
    rcases descentFailure_keys hfront hf with rfl | rfl
    · exact Or.inl rfl
    · exact Or.inr rfl

/-- Counterexample to C13: the demo tree is valid and stores 10 in its root, an
internal node; after `insert(10)` the validator reports the interval violation,
not the strict-increase violation. The same happens for a key stored in a leaf:
in the full leaf root `1 2 3` (`t = 2`) the root is split first, 2 moves up, and
the second 2 lands in the leaf below it (while `insert(1)` gives the
strict-increase violation). And in the tree of degree `2^30` whose root is a full
leaf, `insert(0)` of the stored key 0 does not return at all: the constructor of
the new root throws. -/
theorem duplicate_insert_interval :
    validateBTree demoTree = some "VALID" ∧ (10 : Int) ∈ demoTree.allKeys ∧
      (demoTree.insert 10).bind validateBTree =
        some "INVALID: key violates parent interval constraint" ∧
      validateBTree mergedTree = some "VALID" ∧ (2 : Int) ∈ mergedTree.allKeys ∧
      (mergedTree.insert 2).bind validateBTree =
        some "INVALID: key violates parent interval constraint" ∧
      (mergedTree.insert 1).bind validateBTree =
        some "INVALID: keys not strictly increasing" ∧
      validateBTree giantTree = some "VALID" ∧ (0 : Int) ∈ giantTree.allKeys ∧
      giantTree.insert 0 = none :=
  ⟨by decide, by decide, by decide, by decide, by decide, by decide, by decide,
    giantTree_valid, (giantTree_allKeys 0).2 (by decide), giantTree_insert 0⟩

/-- C13 as amended: for every valid tree of degree `t < 2^30` that already stores
`k`, `insert(k)` returns and the validator then reports a violation of the key
order: either "INVALID: keys not strictly increasing" or "INVALID: key violates
parent interval constraint". -/
theorem duplicate_insert_diagnostic (tr : BTree) (k : Int)
    (hv : validateBTree tr = some "VALID") (h30 : tr.t < 1073741824)
    (hk : k ∈ tr.allKeys) :
    ∃ tr1, tr.insert k = some tr1 ∧
      (validateBTree tr1 = some "INVALID: keys not strictly increasing" ∨
        validateBTree tr1 = some "INVALID: key violates parent interval constraint") := by
  obtain ⟨l, hT⟩ := validateBTree_sound tr hv
  exact duplicate_insert hT h30 hk

/-- Witness of the amended C13: inserting 6, stored in a leaf of the demo tree;
the validator reports the strict-increase violation. -/
theorem duplicate_insert_diagnostic_witness :
    (∃ tr1, demoTree.insert 6 = some tr1 ∧
      (validateBTree tr1 = some "INVALID: keys not strictly increasing" ∨
        validateBTree tr1 = some "INVALID: key violates parent interval constraint")) ∧
    (demoTree.insert 6).bind validateBTree = some "INVALID: keys not strictly increasing" :=
  ⟨duplicate_insert_diagnostic demoTree 6 (by decide) (by decide) (by decide), by decide⟩

/-- Counterexample to C14: for `n = 536870912` the product `4 * n` of
`int poolSize = std::max(1, 4 * n)` is past `INT_MAX`, and the run of
`runBTreeGeneratedTest(2, n, 0)` is not defined; for `t = 2^30` and `n = 1` the
first `tree.insert` does not return, because the constructor of the root throws
(`2 * t` is past `INT_MAX`), and the test does not return "PASS". -/
theorem generated_test_overflow :
    runBTreeGeneratedTest (fun _ => ()) (fun l (g : Unit) => (l.reverse, g)) 2 536870912 0 =
      none ∧
    runBTreeGeneratedTest (fun _ => ()) (fun l (g : Unit) => (l.reverse, g)) 1073741824 1 0 =
      none :=
  ⟨by decide, by decide⟩

/-- C14 as amended: for every `2 ≤ t < 2^30`, every `n ≥ 0` with `4n` an `int`, every
seed and whatever permutations the shuffles produce,
`runBTreeGeneratedTest(t, n, seed)` returns "PASS", which it does only when
`validateBTree` returned "VALID" after each insert and each remove. -/
theorem generated_test_passes {G : Type} (mkRng : Nat → G)
    (shuffle : List Int → G → List Int × G) (t n : Int) (seed : Nat) (ht : 2 ≤ t)
    (h30 : t < 1073741824) (hn : 0 ≤ n) (hmax : 4 * n ≤ 2147483647)
    (hperm : ∀ l g, (shuffle l g).1.Perm l) :
    runBTreeGeneratedTest mkRng shuffle t n seed = some "PASS" :=
  runBTreeGeneratedTest_pass mkRng shuffle t n seed ht h30 hn hmax hperm

/-- Witness of the amended C14: `t = 4`, `n = 200`, `seed = 123456789`, with a shuffle that
reverses the vector. -/
theorem generated_test_passes_witness :
    runBTreeGeneratedTest (fun _ => ()) (fun l (g : Unit) => (l.reverse, g)) 4 200 123456789 =
      some "PASS" :=
  generated_test_passes (fun _ => ()) (fun l (g : Unit) => (l.reverse, g)) 4 200 123456789
    (by decide) (by decide) (by decide) (by decide) (fun l _ => List.reverse_perm l)

/-! ## The traversal after an insert or a remove, and runs of operations -/

theorem remove_traverse {tr : BTree} {l : List Int} (hT : TreeRep tr l) (k : Int) :
    ∃ tr1, tr.remove k = some tr1 ∧ TreeRep tr1 (l.erase k) ∧
      (∀ r, tr1.root = some r → r.keys.length ≠ 0) ∧ tr1.t = tr.t ∧
      tr1.height ≤ tr.height := by
  obtain ⟨tr1, l1, hrem, hT1, hmem, ht1, hroot, hle, _⟩ := remove_TreeRep hT k
  have hs := TreeRep_sorted hT
  have hnd : l.Nodup := hs.imp (fun hxy => ne_of_lt hxy)
  have hl : l1 = l.erase k := by
    refine sorted_ext (TreeRep_sorted hT1) (hs.sublist (List.erase_sublist k l)) (fun x => ?_)
    rw [hmem, hnd.mem_erase_iff]
    exact ⟨fun h => ⟨h.2, h.1⟩, fun h => ⟨h.2, h.1⟩⟩
  rw [hl] at hT1
  exact ⟨tr1, hrem, hT1, hroot, ht1, hle⟩

theorem insert_traverse {tr : BTree} {l : List Int} (hT : TreeRep tr l)
    (h30 : tr.t < 1073741824) {k : Int} (hk : IsInt k) (hnot : k ∉ l) :
    ∃ tr1, tr.insert k = some tr1 ∧ TreeRep tr1 (l.orderedInsert (fun a b => a ≤ b) k) ∧
      (∀ r, tr1.root = some r → r.keys.length ≠ 0) ∧ tr1.t = tr.t := by
  obtain ⟨tr1, l1, hins, hT1, hmem, ht1, hroot, _⟩ :=
    insert_TreeRep hT h30 (IsInt_bounds hk) hnot
  have hs := TreeRep_sorted hT
  have hs1 := TreeRep_sorted hT1
  have hnd : l.Nodup := hs.imp (fun hxy => ne_of_lt hxy)
  have hnd1 : l1.Nodup := hs1.imp (fun hxy => ne_of_lt hxy)
  have hperm : l1.Perm (l.orderedInsert (fun a b => a ≤ b) k) := by
    refine List.Perm.trans ?_ (List.perm_orderedInsert _ k l).symm
    refine (List.perm_ext_iff_of_nodup hnd1 (List.nodup_cons.2 ⟨hnot, hnd⟩)).2 (fun x => ?_)
    rw [hmem, List.mem_cons]
  have hle : l.Sorted (fun a b => a ≤ b) := hs.imp (fun hxy => le_of_lt hxy)
  have hle1 : l1.Sorted (fun a b => a ≤ b) := hs1.imp (fun hxy => le_of_lt hxy)
  have hl : l1 = l.orderedInsert (fun a b => a ≤ b) k :=
    List.eq_of_perm_of_sorted hperm hle1 (hle.orderedInsert k l)
  rw [hl] at hT1
  exact ⟨tr1, hins, hT1, hroot, ht1⟩

theorem noDuplicateInsert_congr :
    ∀ (ops : List TreeOp) (s1 s2 : List Int), (∀ x, x ∈ s1 ↔ x ∈ s2) →
      noDuplicateInsert s1 ops = noDuplicateInsert s2 ops
  | [], _, _, _ => rfl
  | .insert k :: ops, s1, s2, h => by
    have hc : s1.contains k = s2.contains k := by
      rw [Bool.eq_iff_iff]
      simp [h]
    simp only [noDuplicateInsert, hc]
    rw [noDuplicateInsert_congr ops (k :: s1) (k :: s2) (fun x => by
      simp only [List.mem_cons, h])]
  | .remove k :: ops, s1, s2, h => by
    simp only [noDuplicateInsert]
    exact noDuplicateInsert_congr ops _ _ (fun x => by
      simp only [List.mem_filter, h])

theorem noDuplicateInsert_take :
    ∀ (ops : List TreeOp) (s : List Int) (n : Nat), noDuplicateInsert s ops = true →
      noDuplicateInsert s (ops.take n) = true
  | _, _, 0, _ => by simp [noDuplicateInsert]
  | [], _, _ + 1, _ => by simp [noDuplicateInsert]
  | .insert k :: ops, s, n + 1, h => by
    simp only [noDuplicateInsert, Bool.and_eq_true, List.take_succ_cons] at h ⊢
    exact ⟨h.1, noDuplicateInsert_take ops _ n h.2⟩
  | .remove k :: ops, s, n + 1, h => by
    simp only [noDuplicateInsert, List.take_succ_cons] at h ⊢
    exact noDuplicateInsert_take ops _ n h

theorem insertKeys_take :
    ∀ (ops : List TreeOp) (n : Nat), ∀ k ∈ insertKeys (ops.take n), k ∈ insertKeys ops
  | _, 0, k, h => by simp [insertKeys] at h
  | [], _ + 1, k, h => by simp [insertKeys] at h
  | .insert k1 :: ops, n + 1, k, h => by
    simp only [insertKeys, List.take_succ_cons, List.mem_cons] at h ⊢
    rcases h with h | h
    · exact Or.inl h
    · exact Or.inr (insertKeys_take ops n k h)
  | .remove k1 :: ops, n + 1, k, h => by
    simp only [insertKeys, List.take_succ_cons] at h ⊢
    exact insertKeys_take ops n k h

theorem run_TreeRep :
    ∀ (ops : List TreeOp) (tr : BTree) (l : List Int), TreeRep tr l →
      tr.t < 1073741824 →
      (∀ r, tr.root = some r → r.keys.length ≠ 0) →
      (∀ k ∈ insertKeys ops, IsInt k) → noDuplicateInsert l ops = true →
      ∃ tr1 l1, tr.run ops = some tr1 ∧ TreeRep tr1 l1 ∧
        (∀ r, tr1.root = some r → r.keys.length ≠ 0) ∧ tr1.t = tr.t
  | [], tr, l, hT, _, hroot, _, _ => ⟨tr, l, rfl, hT, hroot, rfl⟩
  | .insert k :: ops, tr, l, hT, h30, _, hint, hnd => by
    simp only [insertKeys, List.mem_cons, forall_eq_or_imp] at hint
    simp only [noDuplicateInsert, Bool.and_eq_true] at hnd
    have hnot : k ∉ l := by
      intro hmem
      have := hnd.1
      simp [hmem] at this
    obtain ⟨tr1, l1, hins, hT1, hmem, ht1, hroot1, _⟩ :=
      insert_TreeRep hT h30 (IsInt_bounds hint.1) hnot
    obtain ⟨tr2, l2, hrun, hT2, hroot2, ht2⟩ := run_TreeRep ops tr1 l1 hT1
      (by rw [ht1]; exact h30) hroot1 hint.2
      ((noDuplicateInsert_congr ops l1 (k :: l) (fun x => by
        rw [hmem, List.mem_cons])).trans hnd.2)
    exact ⟨tr2, l2, by simp only [BTree.run, hins, Option.bind]; exact hrun, hT2, hroot2,
      ht2.trans ht1⟩
  | .remove k :: ops, tr, l, hT, h30, _, hint, hnd => by
    simp only [insertKeys] at hint
    simp only [noDuplicateInsert] at hnd
    obtain ⟨tr1, l1, hrem, hT1, hmem, ht1, hroot1, _⟩ := remove_TreeRep hT k
    obtain ⟨tr2, l2, hrun, hT2, hroot2, ht2⟩ := run_TreeRep ops tr1 l1 hT1
      (by rw [ht1]; exact h30) hroot1 hint
      ((noDuplicateInsert_congr ops l1 _ (fun x => by
        rw [hmem, List.mem_filter]
        simp)).trans hnd)
    exact ⟨tr2, l2, by simp only [BTree.run, hrem, Option.bind]; exact hrun, hT2, hroot2,
      ht2.trans ht1⟩

theorem root_none_iff {tr : BTree} {l : List Int} (hT : TreeRep tr l)
    (hroot : ∀ r, tr.root = some r → r.keys.length ≠ 0) :
    tr.root = none ↔ tr.allKeys = [] := by
  constructor
  · intro h
    simp [BTree.allKeys, h, allKeysOpt]
  · intro h
    have hl : l = [] := by
      cases l with
      | nil => rfl
      | cons x xs =>
        have := (TreeRep_allKeys hT x).2 (List.mem_cons_self _ _)
        rw [h] at this
        cases this
    subst hl
    exact TreeRep_nil_root hT hroot

/-! ## Every call of `remove` below the root is on a node with at least `t` keys -/

theorem removeChecked_eq_descend {t : Int} {n c n1 c1 : BTreeNode} {k : Int} {fuel j : Nat}
    (hnf : n.keys[n.findKey k]? ≠ some k) (hl : n.leaf = false)
    (hc : n.children[n.findKey k]? = some (some c))
    (hfill : (if (c.keys.length : Int) < n.t then n.fill (n.findKey k) else some n) = some n1)
    (hj : (if decide (n.findKey k = n.keys.length) = true ∧ n.findKey k > n1.keys.length
      then n.findKey k - 1 else n.findKey k) = j)
    (hc1 : n1.children[j]? = some (some c1)) :
    n.removeChecked t (fuel + 1) k =
      (onChild t fuel c1 k).map (fun c2 => { n1 with children := n1.children.set j (some c2) }) := by
  simp only [BTreeNode.removeChecked, onChild, hnf, if_false, hl, hc, hfill, hj, hc1,
    Bool.false_eq_true]

theorem removeChecked_eq_here {t : Int} {n : BTreeNode} {k : Int} {fuel : Nat}
    (hf : n.keys[n.findKey k]? = some k) (hl : n.leaf = false) :
    n.removeChecked t (fuel + 1) k =
      n.removeFromNonLeaf (onChild t fuel) fuel (n.findKey k) := by
  simp only [BTreeNode.removeChecked, hf, if_true, hl, Bool.false_eq_true, if_false]
  rfl

theorem child_Rep {T : Nat} {h : Nat} {m lo hi : Int} {n : BTreeNode} {l : List Int}
    (hR : Rep (T : Int) (h + 1) m lo hi n l) {i : Nat} {c : BTreeNode}
    (hc : n.children[i]? = some (some c)) :
    ∃ a b lc, Rep (T : Int) h ((T : Int) - 1) a b c lc := by
  obtain ⟨c1, a, b, lc, e, hP⟩ := Alt_forall _ _ _ _ _ hR.2.2.2.2 (some c) (List.getElem?_mem hc)
  cases e
  exact ⟨a, b, lc, hP⟩

theorem onChild_eq {T : Nat} {h fuel : Nat} (IH : CheckedOK T h fuel) {a b m : Int}
    {c : BTreeNode} {lc : List Int} (hR : Rep (T : Int) h m a b c lc) (hT : 2 ≤ T)
    (hcl : T ≤ c.keys.length) (k : Int) :
    onChild (T : Int) fuel c k = c.remove fuel k := by
  unfold onChild
  rw [if_neg (by omega)]
  exact IH k _ _ _ _ _ hR (Or.inr (by omega))

theorem removeChecked_eq {T : Nat} (hT : 2 ≤ T) :
    ∀ (h fuel : Nat), h < fuel → CheckedOK T h fuel
  | _, 0, hf => by omega
  | 0, fuel + 1, _ => by
    intro k m lo hi n l hR _
    have hl : n.leaf = true := hR.1
    simp only [BTreeNode.removeChecked, BTreeNode.remove, hl, if_true]
  | h + 1, fuel + 1, hf => by
    have IH := removeChecked_eq hT h fuel (by omega)
    intro k m lo hi n l hR hk1
    have hk1 : 1 ≤ n.keys.length := by
      rcases hk1 with h0 | h1
      · omega
      · exact h1
    have ht : n.t = (T : Int) := hR.2.1
    have hl : n.leaf = false := hR.1
    by_cases hfound : n.keys[n.findKey k]? = some k
    · have hi1 : n.findKey k < n.keys.length := (List.getElem?_eq_some.1 hfound).1
      obtain ⟨c, hc, hcmin⟩ := Rep_child_at hR (le_of_lt hi1)
      obtain ⟨d, hd, hdmin⟩ := Rep_child_at hR (i := n.findKey k + 1) (by omega)
      obtain ⟨ac, bc, lc, hRc⟩ := child_Rep hR hc
      obtain ⟨ad, bd, ld, hRd⟩ := child_Rep hR hd
      rw [removeChecked_eq_here hfound hl, remove_eq_here hfound hl]
      by_cases hcl : T ≤ c.keys.length
      · obtain ⟨pred, hlast, _⟩ := Rep_lastKey hT h fuel _ _ _ _ _ hRc (by omega) (by omega)
        rw [rfnl_2A _ hfound hc (by rw [ht]; omega) hlast,
          rfnl_2A _ hfound hc (by rw [ht]; omega) hlast, onChild_eq IH hRc hT hcl]
      · by_cases hdl : T ≤ d.keys.length
        · obtain ⟨succ, hfirst, _⟩ := Rep_firstKey hT h fuel _ _ _ _ _ hRd (by omega) (by omega)
          rw [rfnl_2B _ hfound hc (by rw [ht]; omega) hd (by rw [ht]; omega) hfirst,
            rfnl_2B _ hfound hc (by rw [ht]; omega) hd (by rw [ht]; omega) hfirst,
            onChild_eq IH hRd hT hdl]
        · obtain ⟨ks1, sep, ks2, cs1, cs2, L, lc1, ld1, R, a, b, hks, h1, h2, hmg, _, _, hRm, _, _,
            hmlen⟩ := Rep_mergeAt hT hR hi1 hc hd (by omega) (by omega)
          have hmgc : (cs1 ++ some (mergeNode c sep d) :: cs2)[n.findKey k]? =
              some (some (mergeNode c sep d)) := getElem?_mid_of_length h2
          rw [rfnl_2C _ hfound hc (by rw [ht]; omega) hd (by rw [ht]; omega) hmg hmgc,
            rfnl_2C _ hfound hc (by rw [ht]; omega) hd (by rw [ht]; omega) hmg hmgc,
            onChild_eq IH hRm hT (by omega)]
    · have hle : n.findKey k ≤ n.keys.length := countWhile_le _ _
      obtain ⟨c, hc, hcmin⟩ := Rep_child_at hR hle
      by_cases hlt : c.keys.length < T
      · obtain ⟨n1, hfill, hR1, hnf1, hj, c1, hc1, hc1len⟩ := Rep_fill hT hR hk1 k hfound hc hlt
        obtain ⟨a1, b1, l1, hRc1⟩ := child_Rep hR1 hc1
        have hfill1 : (if (c.keys.length : Int) < n.t then n.fill (n.findKey k) else some n) =
            some n1 := by
          rw [if_pos (by rw [ht]; omega)]
          exact hfill
        rw [removeChecked_eq_descend hfound hl hc hfill1 hj hc1,
          remove_eq_descend hfound hl hc hfill1 hj hc1, onChild_eq IH hRc1 hT hc1len]
      · obtain ⟨a1, b1, l1, hRc⟩ := child_Rep hR hc
        have hj : (if decide (n.findKey k = n.keys.length) = true ∧ n.findKey k > n.keys.length
            then n.findKey k - 1 else n.findKey k) = n.findKey k := by
          rw [if_neg]
          intro hcontra
          omega
        have hfill1 : (if (c.keys.length : Int) < n.t then n.fill (n.findKey k) else some n) =
            some n := by
          rw [if_neg (by rw [ht]; omega)]
        rw [removeChecked_eq_descend hfound hl hc hfill1 hj hc,
          remove_eq_descend hfound hl hc hfill1 hj hc, onChild_eq IH hRc hT (by omega)]

theorem removeChecked_tree {tr : BTree} {l : List Int} (hT : TreeRep tr l) (k : Int) :
    tr.removeChecked k = tr.remove k := by
  obtain ⟨ht, h⟩ := hT
  obtain ⟨T, hT1, hT2⟩ := nat_of_two_le ht
  unfold BTree.removeChecked BTree.remove
  cases hr : tr.root with
  | none => rfl
  | some r =>
    rw [hr] at h
    obtain ⟨h0, hR, hne⟩ := h
    have hd := Rep_depth _ _ _ _ _ _ hR
    have := removeChecked_eq hT2 h0 r.depth (by omega) k _ _ _ _ _ (hT1 ▸ hR) (by
      rcases Nat.eq_zero_or_pos h0 with e | e
      · exact Or.inl e
      · exact Or.inr (Nat.one_le_iff_ne_zero.2 (hne (by omega))))
    simp only
    rw [hT1, this]
    try rfl

/-! ## `splitChild` on a full child, and the root after a remove -/

theorem set_insertIdx {α : Type} :
    ∀ (l : List α) (i : Nat) (a b : α), i < l.length →
      (l.set i a).insertIdx (i + 1) b = l.take i ++ a :: b :: l.drop (i + 1)
  | [], _, _, _, h => by simp at h
  | _ :: _, 0, _, _, _ => rfl
  | c :: l, i + 1, a, b, h => by
    simp only [List.set_cons_succ, List.insertIdx_succ_cons, List.take_succ_cons,
      List.drop_succ_cons, List.cons_append, List.cons.injEq, true_and]
    exact set_insertIdx l i a b (by simpa using h)

theorem remove_root_emptied {tr : BTree} {r r1 : BTreeNode} {k : Int}
    (hr : tr.root = some r) (hrem : r.remove r.depth k = some r1)
    (h0 : r1.keys.length = 0) :
    tr.remove k =
      if r1.leaf then some { tr with root := none }
      else (r1.children[0]?).map (fun c => { tr with root := c }) := by
  simp only [BTree.remove, hr, hrem, h0, if_true]
  cases r1.leaf with
  | true => rfl
  | false =>
    simp only [Bool.false_eq_true, if_false]
    cases r1.children[0]? with
    | none => rfl
    | some c => rfl

theorem run_fresh {t : Int} (ht : 2 ≤ t) (h30 : t < 1073741824) (ops : List TreeOp)
    (hint : ∀ k ∈ insertKeys ops, IsInt k) (hnd : noDuplicateInsert [] ops = true)
    (n : Nat) :
    ∃ tr1, (BTree.fresh t).run (ops.take n) = some tr1 ∧
      (∀ r, tr1.root = some r → r.keys.length ≠ 0) ∧
      (tr1.root = none ↔ tr1.allKeys = []) ∧ validateBTree tr1 = some "VALID" := by
  obtain ⟨tr1, l1, hrun, hT1, hroot, ht1⟩ := run_TreeRep (ops.take n) (BTree.fresh t) []
    (fresh_TreeRep ht) h30 (fun r hr => by cases hr)
    (fun k hk => hint k (insertKeys_take ops n k hk)) (noDuplicateInsert_take ops [] n hnd)
  have h31 : tr1.t ≤ 1073741824 := by
    rw [ht1]
    exact le_of_lt h30
  exact ⟨tr1, hrun, hroot, root_none_iff hT1 hroot, (validateBTree_iff tr1 h31).2 ⟨l1, hT1⟩⟩

/-! ## Traversal after single calls, the keys of visited nodes, and the root -/

/-- C26: on a tree the validator accepts, `BTree::remove(k)` of a stored key `k`
returns, and the traversal afterwards is the traversal before with the one entry
`k` erased (the traversal before holds `k` and has no repetition); the result is
again accepted by the validator. -/
theorem remove_erases_key (tr : BTree) (k : Int) (hv : validateBTree tr = some "VALID")
    (hk : k ∈ tr.allKeys) :
    ∃ out tr1, tr.traverse = some out ∧ k ∈ out ∧ out.Nodup ∧ tr.remove k = some tr1 ∧
      tr1.traverse = some (out.erase k) ∧ validateBTree tr1 = some "VALID" := by
  obtain ⟨l, hT⟩ := validateBTree_sound tr hv
  obtain ⟨tr1, hrem, hT1, _, ht1, hle⟩ := remove_traverse hT k
  exact ⟨l, tr1, TreeRep_traverse hT, (TreeRep_allKeys hT k).1 hk,
    (TreeRep_sorted hT).imp (fun hxy => ne_of_lt hxy), hrem, TreeRep_traverse hT1,
    remove_valid hv hT hT1 ht1 hle (fun x hx => List.mem_of_mem_erase hx)⟩

/-- Instance of C26: removing the root key `10` of the demo tree. -/
theorem remove_erases_key_witness :
    validateBTree demoTree = some "VALID" ∧ (10 : Int) ∈ demoTree.allKeys ∧
      ∃ out tr1, demoTree.traverse = some out ∧ (10 : Int) ∈ out ∧ out.Nodup ∧
        demoTree.remove 10 = some tr1 ∧ tr1.traverse = some (out.erase 10) ∧
        validateBTree tr1 = some "VALID" :=
  ⟨by decide, by decide, remove_erases_key demoTree 10 (by decide) (by decide)⟩

/-- Counterexample to C27: the empty tree of degree `2^30` is valid, its traversal
is empty and 9 is not stored in it, but `insert(9)` does not return (the
constructor of the root throws: `2 * t` is past `INT_MAX`), so no traversal with
9 added follows. -/
theorem insert_traverse_big_degree :
    validateBTree (BTree.fresh bigDegree) = some "VALID" ∧
      (BTree.fresh bigDegree).traverse = some [] ∧ IsInt 9 ∧
      (9 : Int) ∉ (BTree.fresh bigDegree).allKeys ∧
      (BTree.fresh bigDegree).insert 9 = none ∧
      ((BTree.fresh bigDegree).insert 9).bind BTree.traverse = none :=
  ⟨by decide, by decide, by decide, by decide, rfl, rfl⟩

/-- C27 as amended: on a tree of degree `t < 2^30` the validator accepts,
`BTree::insert(k)` of an `int` key `k` that is not stored returns, and the
traversal afterwards is the traversal before (which is strictly increasing) with
`k` inserted at its sorted position; the result is again accepted by the
validator. -/
theorem insert_adds_key_sorted (tr : BTree) (k : Int)
    (hv : validateBTree tr = some "VALID") (h30 : tr.t < 1073741824) (hk : IsInt k)
    (hnot : k ∉ tr.allKeys) :
    ∃ out tr1, tr.traverse = some out ∧ out.Pairwise (fun a b => a < b) ∧
      tr.insert k = some tr1 ∧
      tr1.traverse = some (out.orderedInsert (fun a b => a ≤ b) k) ∧
      (out.orderedInsert (fun a b => a ≤ b) k).Perm (k :: out) ∧
      validateBTree tr1 = some "VALID" := by
  obtain ⟨l, hT⟩ := validateBTree_sound tr hv
  obtain ⟨tr1, hins, hT1, _, ht1⟩ := insert_traverse hT h30 hk
    (fun h => hnot ((TreeRep_allKeys hT k).2 h))
  exact ⟨l, tr1, TreeRep_traverse hT, TreeRep_sorted hT, hins, TreeRep_traverse hT1,
    List.perm_orderedInsert _ k l, (validateBTree_iff tr1 (by omega)).2 ⟨_, hT1⟩⟩

/-- Instance of the amended C27: inserting `0` into a tree that an earlier remove
has shaped. -/
theorem insert_adds_key_sorted_witness :
    validateBTree minimalTree = some "VALID" ∧ IsInt 0 ∧ (0 : Int) ∉ minimalTree.allKeys ∧
      ∃ out tr1, minimalTree.traverse = some out ∧ out.Pairwise (fun a b => a < b) ∧
        minimalTree.insert 0 = some tr1 ∧
        tr1.traverse = some (out.orderedInsert (fun a b => a ≤ b) 0) ∧
        (out.orderedInsert (fun a b => a ≤ b) 0).Perm (0 :: out) ∧
        validateBTree tr1 = some "VALID" :=
  ⟨by decide, by decide, by decide,
    insert_adds_key_sorted minimalTree 0 (by decide) (by decide) (by decide) (by decide)⟩

/-- C28: on a tree the validator accepts, `BTree::remove(k)` never invokes
`BTreeNode::remove` on a node other than the root that holds fewer than `t` keys:
the run that is abandoned at such a call returns, with the result of `BTree::remove`,
and that result is accepted by the validator, so no node other than the root is
left with fewer than `t - 1` keys. -/
theorem remove_visits_nodes_with_t_keys (tr : BTree) (k : Int)
    (hv : validateBTree tr = some "VALID") :
    ∃ tr1, tr.removeChecked k = some tr1 ∧ tr.remove k = some tr1 ∧
      validateBTree tr1 = some "VALID" := by
  obtain ⟨l, hT⟩ := validateBTree_sound tr hv
  obtain ⟨tr1, hrem, hT1, _, ht1, hle⟩ := remove_traverse hT k
  exact ⟨tr1, (removeChecked_tree hT k).trans hrem, hrem,
    remove_valid hv hT hT1 ht1 hle (fun x hx => List.mem_of_mem_erase hx)⟩

/-- Instance of C28: removing `1` from a tree whose leaves hold `t - 1` keys. -/
theorem remove_visits_nodes_with_t_keys_witness :
    validateBTree minimalTree = some "VALID" ∧
      ∃ tr1, minimalTree.removeChecked 1 = some tr1 ∧ minimalTree.remove 1 = some tr1 ∧
        validateBTree tr1 = some "VALID" :=
  ⟨by decide, remove_visits_nodes_with_t_keys minimalTree 1 (by decide)⟩

/-- Counterexample to C30: on a fresh tree of degree `2^30` the sequence that
consists of the one call `insert(5)` has no state after its first call: the call
does not return, because the constructor of the root throws (`2 * t` is past
`INT_MAX`). -/
theorem run_big_degree_throws :
    2 ≤ bigDegree ∧ (∀ k ∈ insertKeys [TreeOp.insert 5], IsInt k) ∧
      noDuplicateInsert [] [TreeOp.insert 5] = true ∧
      (BTree.fresh bigDegree).run ([TreeOp.insert 5].take 1) = none :=
  ⟨by decide, by decide, by decide, rfl⟩

/-- C30 as amended: in a sequence of `BTree::insert` and `BTree::remove` calls on a
fresh tree of degree `2 ≤ t < 2^30`, with `int` keys and no insert of a key that is
stored at that moment, every call returns, and after every call the root is absent
or holds at least one key, the root is absent exactly when no key is stored, and
the validator accepts the tree. Further, whenever `BTreeNode::remove` leaves the
root with zero keys, `BTree::remove` makes the root absent if it was a leaf and
replaces it by its first child otherwise. -/
theorem root_never_empty (t : Int) (ht : 2 ≤ t) (h30 : t < 1073741824) (ops : List TreeOp)
    (hint : ∀ k ∈ insertKeys ops, IsInt k) (hnd : noDuplicateInsert [] ops = true) :
    (∀ n : Nat, ∃ tr1, (BTree.fresh t).run (ops.take n) = some tr1 ∧
      (∀ r, tr1.root = some r → r.keys.length ≠ 0) ∧
      (tr1.root = none ↔ tr1.allKeys = []) ∧ validateBTree tr1 = some "VALID") ∧
    (∀ (tr : BTree) (r r1 : BTreeNode) (k : Int), tr.root = some r →
      r.remove r.depth k = some r1 → r1.keys.length = 0 →
      tr.remove k =
        if r1.leaf then some { tr with root := none }
        else (r1.children[0]?).map (fun c => { tr with root := c })) :=
  ⟨fun n => run_fresh ht h30 ops hint hnd n,
    fun _ _ _ _ hr hrem h0 => remove_root_emptied hr hrem h0⟩

/-- Instance of the amended C30: a run that empties the tree and inserts again. -/
theorem root_never_empty_witness :
    (2 : Int) ≤ 2 ∧ (∀ k ∈ insertKeys exampleOps, IsInt k) ∧
      noDuplicateInsert [] exampleOps = true ∧
      (∀ n : Nat, ∃ tr1, (BTree.fresh 2).run (exampleOps.take n) = some tr1 ∧
        (∀ r, tr1.root = some r → r.keys.length ≠ 0) ∧
        (tr1.root = none ↔ tr1.allKeys = []) ∧ validateBTree tr1 = some "VALID") :=
  ⟨by decide, by decide, by decide, (root_never_empty 2 (by decide) (by decide) exampleOps
    (by decide) (by decide)).1⟩

/-! ## The height after an insert or a split -/

theorem depthList_const {d : Nat} :
    ∀ (cs : List (Option BTreeNode)), cs ≠ [] → (∀ c ∈ cs, depthOpt c = d) → depthList cs = d
  | [], h, _ => absurd rfl h
  | [c], _, h => by
    simp [depthList, h c (List.mem_singleton_self c)]
  | c :: c1 :: cs, _, h => by
    have ih := depthList_const (c1 :: cs) (List.cons_ne_nil _ _)
      (fun x hx => h x (List.mem_cons_of_mem _ hx))
    rw [depthList, ih, h c (List.mem_cons_self _ _)]
    exact max_self d

theorem insert_height {tr : BTree} {l : List Int} (h : TreeRep tr l)
    (h30 : tr.t < 1073741824) {r : BTreeNode} (hr : tr.root = some r) {k : Int} (hk : LLONG_MIN < k ∧ k < LLONG_MAX) (hnot : k ∉ l) :
    ∃ tr1, tr.insert k = some tr1 ∧
      ((r.keys.length : Int) ≠ 2 * tr.t - 1 → tr1.height = tr.height) ∧
      ((r.keys.length : Int) = 2 * tr.t - 1 → tr1.height = tr.height + 1) := by
  obtain ⟨ht, h⟩ := h
  obtain ⟨T, hT, hT2⟩ := nat_of_two_le ht
  have hT30 : T < 1073741824 := by omega
  have hW : maxKeys tr.t = 2 * tr.t - 1 := maxKeys_eq (by omega) (by omega)
  have hnew : ∀ b, newBTreeNode tr.t b = some ⟨b, tr.t, [], []⟩ :=
    fun b => newBTreeNode_eq (by omega) h30 b
  rw [hr] at h
  obtain ⟨h1, hR, hroot⟩ := h
  rw [hT] at hR
  have hdepth := Rep_depth _ _ _ _ _ _ hR
  by_cases hfull : (r.keys.length : Int) = 2 * tr.t - 1
  · have hfull1 : r.keys.length = 2 * T - 1 := by omega
    obtain ⟨mid, l1, l2, hmid, rfl, hamid, hmidb, hy1, hz, hch⟩ :=
      Rep_split hT2 h1 LLONG_MIN LLONG_MAX r l (Rep_setmin hR (by omega)) hfull1
    have hsp := splitChild_eq
      (p := { leaf := false, t := tr.t, keys := [], children := [some r] })
      (i := 0) hT hT2 hT30 (Rep_len hR).1 (by simp) hmid hfull1 hch (by simp)
    simp only [List.set_cons_zero, List.insertIdx_zero] at hsp
    have hins1 : ([some (splitLeft T r)] : List (Option BTreeNode)).insertIdx (0 + 1)
        (some (splitRight T r)) = [some (splitLeft T r), some (splitRight T r)] := by
      simp [List.insertIdx_succ_cons, List.insertIdx_zero]
    rw [hins1] at hsp
    by_cases hlt : mid < k
    · have hzlen : (splitRight T r).keys.length < 2 * T - 1 := by
        have : (splitRight T r).keys.length ≤ T - 1 := by simp [splitRight]
        omega
      obtain ⟨z1, lz, hins, hRz, _, hmemz⟩ :=
        Rep_insertNonFull hT2 hT30 k h1 r.depth _ mid LLONG_MAX (splitRight T r) l2 hz hzlen hlt hk.2
          (fun hmem => hnot (by simp [hmem])) (by omega)
      refine ⟨⟨some ⟨false, tr.t, [mid], [some (splitLeft T r), some z1]⟩, tr.t⟩, ?_,
        fun hne => absurd hfull hne, fun _ => ?_⟩
      · simp only [BTree.insert, hr, hW, hfull, if_true, hnew, List.nil_append, hsp]
        simp [hlt, hins]
      · have hd1 := Rep_depth _ _ _ _ _ _ hRz
        have hd2 := Rep_depth _ _ _ _ _ _ hy1
        simp [BTree.height, hr, depthOpt, depth_mk, depthList, hd1, hd2, hdepth]
    · have hkmid : k ≠ mid := fun e => hnot (by simp [e])
      have hkm : k < mid := by omega
      have hylen : (splitLeft T r).keys.length < 2 * T - 1 := by
        have : (splitLeft T r).keys.length ≤ T - 1 := by simp [splitLeft, resize]; omega
        omega
      obtain ⟨y2, ly, hins, hRy, _, hmemy⟩ :=
        Rep_insertNonFull hT2 hT30 k h1 r.depth _ LLONG_MIN mid (splitLeft T r) l1 hy1 hylen hk.1 hkm
          (fun hmem => hnot (by simp [hmem])) (by omega)
      refine ⟨⟨some ⟨false, tr.t, [mid], [some y2, some (splitRight T r)]⟩, tr.t⟩, ?_,
        fun hne => absurd hfull hne, fun _ => ?_⟩
      · simp only [BTree.insert, hr, hW, hfull, if_true, hnew, List.nil_append, hsp]
        simp [hlt, hins]
      · have hd1 := Rep_depth _ _ _ _ _ _ hRy
        have hd2 := Rep_depth _ _ _ _ _ _ hz
        simp [BTree.height, hr, depthOpt, depth_mk, depthList, hd1, hd2, hdepth]
  · have hlen : r.keys.length < 2 * T - 1 := by
      have := (Rep_len hR).2.2
      omega
    obtain ⟨r2, l2, hins, hR2, hle, hmem⟩ :=
      Rep_insertNonFull hT2 hT30 k h1 r.depth 0 LLONG_MIN LLONG_MAX r l hR hlen hk.1 hk.2 hnot
        (by omega)
    refine ⟨⟨some r2, tr.t⟩, ?_, fun _ => ?_, fun he => absurd he hfull⟩
    · simp only [BTree.insert, hr, hW, hfull, if_false, hins]
      rfl
    · simp [BTree.height, hr, depthOpt, hdepth, Rep_depth _ _ _ _ _ _ hR2]

theorem splitChild_depth {T : Nat} (hT : 2 ≤ T) (hT30 : T < 1073741824) {h : Nat} {m lo hi : Int} {p : BTreeNode}
    {l : List Int} (hR : Rep (T : Int) (h + 1) m lo hi p l) {i : Nat} {y : BTreeNode}
    (hc : p.children[i]? = some (some y)) (hfull : y.keys.length = 2 * T - 1) :
    ∃ p1, p.splitChild i = some p1 ∧ p1.depth = p.depth ∧
      p1.keys.length = p.keys.length + 1 := by
  have hlen := Alt_length _ _ _ _ _ hR.2.2.2.2
  have hcl : i < p.children.length := by
    rcases Nat.lt_or_ge i p.children.length with h1 | h1
    · exact h1
    · rw [List.getElem?_eq_none h1] at hc
      cases hc
  have hi1 : i ≤ p.keys.length := by omega
  obtain ⟨a, b, lc, hRy⟩ := child_Rep hR hc
  obtain ⟨mid, l1, l2, hmid, _, _, _, hy1, hz, hch⟩ := Rep_split hT h a b y lc hRy hfull
  have hsp := splitChild_eq hR.2.1 hT hT30 (Rep_len hRy).1 hc hmid hfull hch hi1
  refine ⟨_, hsp, ?_, ?_⟩
  · rw [Rep_depth _ _ _ _ _ _ hR]
    cases p with
    | mk pl pt pk pc =>
      simp only [depth_mk, Nat.add_right_cancel_iff]
      simp only at hcl hc hR
      rw [set_insertIdx _ _ _ _ hcl]
      refine depthList_const _ (by simp) (fun c hc1 => ?_)
      simp only [List.mem_append, List.mem_cons] at hc1
      have hold : ∀ c ∈ pc, depthOpt c = h + 1 := by
        intro c hcm
        obtain ⟨c1, a1, b1, lc1, e, hP⟩ := Alt_forall _ _ _ _ _ hR.2.2.2.2 c hcm
        subst e
        exact Rep_depth _ _ _ _ _ _ hP
      rcases hc1 with h1 | h1 | h1 | h1
      · exact hold c (List.mem_of_mem_take h1)
      · subst h1
        exact Rep_depth _ _ _ _ _ _ hy1
      · subst h1
        exact Rep_depth _ _ _ _ _ _ hz
      · exact hold c (List.mem_of_mem_drop h1)
  · simp [List.length_insertIdx, hi1]

/-! ## Reads of the validator and of the demo `splitChild` -/

theorem resize_length {α : Type} (l : List α) (n : Nat) (pad : α) :
    (resize l n pad).length = n := by
  unfold resize
  simp only [List.length_append, List.length_take, List.length_replicate]
  omega

theorem splitChildDemo_none (p : BTreeNode) (i : Nat) : p.splitChildDemo i = none := by
  unfold BTreeNode.splitChildDemo
  cases hc : p.children[i]? with
  | none => rfl
  | some oy =>
    cases oy with
    | none => rfl
    | some y =>
      simp only
      cases newBTreeNode y.t y.leaf with
      | none => rfl
      | some z0 =>
      simp only
      have hnone : (resize y.keys (p.t.toNat - 1) 0)[p.t.toNat - 1]? = none :=
        List.getElem?_eq_none (by rw [resize_length])
      simp only [hnone]
      split_ifs <;> rfl

/-! ## Height after an insert, reads of the validator, and the demo `splitChild` -/

/-- Counterexample to C31: the tree of degree `t = 2^30` whose root is a leaf
holding the `2^31 - 1` keys `0, ..., 2^31 - 2` is accepted by the validator, its
root holds `2t - 1` keys and -1 is not stored in it, but `insert(-1)` does not
return: the new root is built by `new BTreeNode(t, false)`, whose
`children.reserve(2 * t)` gets the wrapped product `-2^31` and throws. The height
stays 1 and is not increased. -/
theorem insert_height_big_degree :
    validateBTree giantTree = some "VALID" ∧ giantTree.root = some giantLeaf ∧
      (giantLeaf.keys.length : Int) = 2 * giantTree.t - 1 ∧ IsInt (-1) ∧
      (-1 : Int) ∉ giantTree.allKeys ∧ newBTreeNode giantTree.t false = none ∧
      giantTree.insert (-1) = none ∧ giantTree.height = 1 := by
  refine ⟨giantTree_valid, rfl, ?_, by decide, ?_, rfl, giantTree_insert (-1), rfl⟩
  · show ((giantKeys.length : Nat) : Int) = 2 * 1073741824 - 1
    rw [giantKeys_length]
    decide
  · intro h
    have := (giantTree_allKeys (-1)).1 h
    omega

/-- C31 as amended: on a tree of degree `t < 2^30` the validator accepts, with root
`r`, `BTree::insert(k)` of an `int` key that is not stored returns; the height is
unchanged when the root holds fewer than `2t - 1` keys and is greater by exactly
one when the root holds `2t - 1` keys. A split of a full child `y` of a node `p`
that is not the split of the root (`p` being any internal node of a tree the
validator accepts, taken as a root) returns and leaves the depth of `p`
unchanged. -/
theorem insert_height_rule (tr : BTree) (r : BTreeNode) (k : Int)
    (hv : validateBTree tr = some "VALID") (h30 : tr.t < 1073741824)
    (hr : tr.root = some r) (hk : IsInt k) (hnot : k ∉ tr.allKeys) :
    (∃ tr1, tr.insert k = some tr1 ∧
      ((r.keys.length : Int) < 2 * tr.t - 1 → tr1.height = tr.height) ∧
      ((r.keys.length : Int) = 2 * tr.t - 1 → tr1.height = tr.height + 1)) ∧
    (r.keys.length : Int) ≤ 2 * tr.t - 1 ∧
    (∀ (p y : BTreeNode) (i : Nat), validateBTree ⟨some p, tr.t⟩ = some "VALID" →
      p.children[i]? = some (some y) → (y.keys.length : Int) = 2 * tr.t - 1 →
      ∃ p1, p.splitChild i = some p1 ∧ p1.depth = p.depth) := by
  obtain ⟨l, hT⟩ := validateBTree_sound tr hv
  obtain ⟨tr1, hins, h1, h2⟩ := insert_height hT h30 hr (IsInt_bounds hk)
    (fun h => hnot ((TreeRep_allKeys hT k).2 h))
  refine ⟨⟨tr1, hins, fun hlt => h1 (by omega), h2⟩, ?_, ?_⟩
  · obtain ⟨_, h⟩ := hT
    rw [hr] at h
    obtain ⟨h0, hR, _⟩ := h
    exact (Rep_len hR).2.2
  · intro p y i hvp hc hfull
    obtain ⟨lp, htp, hp⟩ := validateBTree_sound _ hvp
    obtain ⟨T, hT1, hT2⟩ := nat_of_two_le htp
    simp only at hT1 hp
    obtain ⟨h0, hR, _⟩ := hp
    cases h0 with
    | zero =>
      have : p.children = [] := hR.2.2.2.2.1
      rw [this] at hc
      simp at hc
    | succ h0 =>
      rw [hT1] at hR hfull
      obtain ⟨p1, hsp, hd, _⟩ := splitChild_depth hT2 (by omega) hR hc (by omega)
      exact ⟨p1, hsp, hd⟩

/-- Instance of the amended C31: the root of `fullLeafTree` holds `2t - 1 = 5` keys,
and the insert of 1 makes the height 2. -/
theorem insert_height_rule_witness :
    validateBTree fullLeafTree = some "VALID" ∧
      fullLeafTree.root = some ⟨true, 3, [5, 6, 10, 12, 20], []⟩ ∧ IsInt 1 ∧
      (1 : Int) ∉ fullLeafTree.allKeys ∧
      (∃ tr1, fullLeafTree.insert 1 = some tr1 ∧ tr1.height = fullLeafTree.height + 1) ∧
      fullLeafTree.height = 1 := by
  obtain ⟨⟨tr1, hins, _, h2⟩, _⟩ := insert_height_rule fullLeafTree
    ⟨true, 3, [5, 6, 10, 12, 20], []⟩ 1 (by decide) (by decide) rfl (by decide) (by decide)
  exact ⟨by decide, rfl, by decide, by decide, ⟨tr1, hins, h2 (by decide)⟩, by decide⟩

/-- C34, evaluation at the failing input: in the demo `splitChild` the child
`[10, 20, 30]` of a parent of degree 2 has been resized to one key when the
median is read at index 1, so the read is outside the vector and the call is
not defined, while the unit-tested `splitChild` returns the parent with the keys
`[20, 40]`; the demo `BTree::insert` on the full root `[1, 2, 3]` reaches the same
read. The read is outside the vector for every parent and index. -/
theorem splitChildDemo_median_out_of_range :
    (resize ([10, 20, 30] : List Int) (2 - 1) 0).length = 1 ∧
      (resize ([10, 20, 30] : List Int) (2 - 1) 0)[2 - 1]? = none ∧
      splitParent.splitChildDemo 0 = none ∧
      (splitParent.splitChild 0).map (fun p => p.keys) = some [20, 40] ∧
      mergedTree.splitRootDemo = none ∧
      ∀ (p : BTreeNode) (i : Nat), p.splitChildDemo i = none :=
  ⟨by decide, by decide, rfl, by decide, rfl, splitChildDemo_none⟩

end BTreeModel

/-! # Theorems: red-black tree -/

namespace RBTreeModel

/-! ## Paths in a tree and trees seen from a subtree -/

theorem ptr_fill (f : Frame) (t : RBT) : (f.fill t).ptr = some f.a := by
  unfold Frame.fill
  split <;> rfl

theorem ptr_plug (ctx : List Frame) (t : RBT) : (plug ctx t).ptr = rootPtr ctx t.ptr := by
  induction ctx generalizing t with
  | nil => rfl
  | cons f fs ih => rw [plug, ih, ptr_fill, rootPtr]

theorem addrs_fill (f : Frame) (t : RBT) :
    (f.fill t).addrs.Perm (t.addrs ++ (f.a :: f.sib.addrs)) := by
  unfold Frame.fill
  split
  · simp only [RBT.addrs]
    exact List.perm_middle.symm
  · simp only [RBT.addrs]
    refine List.Perm.trans ?_ List.perm_middle.symm
    exact List.Perm.cons _ List.perm_append_comm

theorem addrs_plug (ctx : List Frame) (t : RBT) :
    (plug ctx t).addrs.Perm (t.addrs ++ ctxAddrs ctx) := by
  induction ctx generalizing t with
  | nil => simp [plug, ctxAddrs]
  | cons f fs ih =>
    rw [plug]
    refine (ih (f.fill t)).trans ?_
    refine ((addrs_fill f t).append_right _).trans ?_
    simp [ctxAddrs]

theorem Shape_fill (m : Nat → Option RBNode) (par : Option Nat) (f : Frame) (t : RBT) :
    Shape m par (f.fill t) ↔
      m f.a = some (f.cell par t.ptr) ∧ Shape m (some f.a) f.sib ∧ Shape m (some f.a) t := by
  unfold Frame.fill Frame.cell
  split
  · rename_i h
    simp only [Shape, h, if_true]
    tauto
  · rename_i h
    simp only [Shape, h]

theorem Shape_plug (m : Nat → Option RBNode) (ctx : List Frame) (t : RBT) :
    Shape m none (plug ctx t) ↔ ShapeCtx m ctx t.ptr ∧ Shape m (ctxPar ctx) t := by
  induction ctx generalizing t with
  | nil => simp [plug, ShapeCtx, ctxPar]
  | cons f fs ih =>
    rw [plug, ih, Shape_fill, ptr_fill]
    simp only [ShapeCtx, ctxPar]
    tauto

theorem WF_plug (s : RBState) (ctx : List Frame) (t : RBT) :
    WF s (plug ctx t) ↔ Foc s ctx t := by
  have hp := addrs_plug ctx t
  constructor
  · intro h
    refine ⟨?_, ?_, ?_, ?_, ?_⟩
    · rw [h.root, ptr_plug]
    · exact ((Shape_plug _ _ _).1 h.shape).2
    · exact ((Shape_plug _ _ _).1 h.shape).1
    · exact hp.nodup_iff.1 h.nodup
    · intro a ha
      exact h.bound a (hp.mem_iff.2 ha)
  · intro h
    refine ⟨?_, ?_, ?_, ?_⟩
    · rw [h.root, ptr_plug]
    · exact (Shape_plug _ _ _).2 ⟨h.shapeCtx, h.shape⟩
    · exact hp.nodup_iff.2 h.nodup
    · intro a ha
      exact h.bound a (hp.mem_iff.1 ha)

theorem Foc_nil (s : RBState) (t : RBT) : Foc s [] t ↔ WF s t :=
  (WF_plug s [] t).symm

theorem Foc_up (s : RBState) (f : Frame) (fs : List Frame) (t : RBT) :
    Foc s (f :: fs) t ↔ Foc s fs (f.fill t) := by
  rw [← WF_plug, ← WF_plug]
  rfl

theorem fill_flip (f : Frame) (t : RBT) : (f.flip t).fill f.sib = f.fill t := by
  unfold Frame.fill Frame.flip
  cases f.isLeft <;> simp

theorem Foc_flip (s : RBState) (f : Frame) (fs : List Frame) (t : RBT) :
    Foc s (f :: fs) t ↔ Foc s (f.flip t :: fs) f.sib := by
  rw [Foc_up, Foc_up, fill_flip]

theorem inorder_plug_congr (ctx : List Frame) (t u : RBT) (h : t.inorder = u.inorder) :
    (plug ctx t).inorder = (plug ctx u).inorder := by
  induction ctx generalizing t u with
  | nil => exact h
  | cons f fs ih =>
    rw [plug, plug]
    apply ih
    unfold Frame.fill
    split <;> simp [RBT.inorder, h]

theorem ptr_mem (t : RBT) (a : Nat) (h : t.ptr = some a) : a ∈ t.addrs := by
  cases t with
  | nil => simp [RBT.ptr] at h
  | node b c d l r =>
    simp only [RBT.ptr, Option.some.injEq] at h
    simp [RBT.addrs, h]

theorem length_le_ctxAddrs (ctx : List Frame) : ctx.length ≤ (ctxAddrs ctx).length := by
  induction ctx with
  | nil => simp
  | cons f fs ih =>
    simp only [ctxAddrs, List.length_cons, List.length_append]
    omega

theorem nodup_bound_length (l : List Nat) (n : Nat) (hn : l.Nodup) (hb : ∀ a ∈ l, a < n) :
    l.length ≤ n := by
  have h1 : l.toFinset ⊆ Finset.range n := by
    intro a ha
    rw [List.mem_toFinset] at ha
    exact Finset.mem_range.2 (hb a ha)
  have h2 := Finset.card_le_card h1
  rw [List.toFinset_card_of_nodup hn, Finset.card_range] at h2
  exact h2

theorem Foc_length (s : RBState) (ctx : List Frame) (t : RBT) (h : Foc s ctx t) :
    t.addrs.length + ctx.length ≤ s.next := by
  have h1 := nodup_bound_length _ _ h.nodup h.bound
  have h2 := length_le_ctxAddrs ctx
  rw [List.length_append] at h1
  omega

/-! ## Memory updates and the rotations on the memory -/

theorem upd_same (m : Nat → Option RBNode) (a : Nat) (v : RBNode) : upd m a v a = some v := by
  simp [upd]

theorem upd_ne (m : Nat → Option RBNode) (a : Nat) (v : RBNode) (b : Nat) (h : b ≠ a) :
    upd m a v b = m b := by
  simp [upd, h]

theorem write_eq (s : RBState) (a : Nat) (f : RBNode → RBNode) (n : RBNode)
    (h : s.nodes a = some n) :
    s.write a f = some { s with nodes := upd s.nodes a (f n) } := by
  simp [RBState.write, h]

theorem Shape_congr (m m1 : Nat → Option RBNode) (par : Option Nat) (t : RBT)
    (h : ∀ a ∈ t.addrs, m1 a = m a) (hs : Shape m par t) : Shape m1 par t := by
  induction t generalizing par with
  | nil => trivial
  | node a c d l r ihl ihr =>
    obtain ⟨h1, h2, h3⟩ := hs
    refine ⟨?_, ihl _ ?_ h2, ihr _ ?_ h3⟩
    · rw [h a (by simp [RBT.addrs]), h1]
    · intro b hb
      exact h b (by simp [RBT.addrs, hb])
    · intro b hb
      exact h b (by simp [RBT.addrs, hb])

theorem ShapeCtx_congr (m m1 : Nat → Option RBNode) (ctx : List Frame) (q : Option Nat)
    (h : ∀ a ∈ ctxAddrs ctx, m1 a = m a) (hs : ShapeCtx m ctx q) : ShapeCtx m1 ctx q := by
  induction ctx generalizing q with
  | nil => trivial
  | cons f fs ih =>
    obtain ⟨h1, h2, h3⟩ := hs
    refine ⟨?_, Shape_congr m m1 _ _ ?_ h2, ih _ ?_ h3⟩
    · rw [h f.a (by simp [ctxAddrs]), h1]
    · intro b hb
      exact h b (by simp [ctxAddrs, hb])
    · intro b hb
      exact h b (by simp [ctxAddrs, hb])

theorem rotate_left_spec (s : RBState) (x y : Nat) (dx : Nat) (px lx : Option Nat) (cx : Int)
    (dy : Nat) (py ly ry : Option Nat) (cy : Int)
    (hx : s.nodes x = some ⟨dx, px, lx, some y, cx⟩)
    (hy : s.nodes y = some ⟨dy, py, ly, ry, cy⟩)
    (hxy : x ≠ y)
    (hb : ∀ b, ly = some b → b ≠ x ∧ b ≠ y ∧ ∃ nb, s.nodes b = some nb)
    (hp : ∀ p, px = some p → p ≠ x ∧ p ≠ y ∧ ly ≠ some p ∧ ∃ np, s.nodes p = some np) :
    ∃ s1, rotate_left s x = some s1 ∧ s1.next = s.next ∧
      s1.root = (if px = none then some y else s.root) ∧
      s1.nodes x = some ⟨dx, some y, lx, ly, cx⟩ ∧
      s1.nodes y = some ⟨dy, px, some x, ry, cy⟩ ∧
      (∀ b nb, ly = some b → s.nodes b = some nb →
        s1.nodes b = some { nb with parent := some x }) ∧
      (∀ p np, px = some p → s.nodes p = some np →
        s1.nodes p = some (if np.left = some x then { np with left := some y }
          else { np with right := some y })) ∧
      (∀ a, a ≠ x → a ≠ y → ly ≠ some a → px ≠ some a → s1.nodes a = s.nodes a) := by
  have hyx := hxy.symm
  cases ly with
  | none =>
    cases px with
    | none =>
      simp only [rotate_left, RBState.setRight, RBState.setLeft, RBState.setParent,
        RBState.write, upd, hx, hy, Option.bind_eq_bind, Option.some_bind, bind, Option.bind,
        hxy, hyx, if_true, if_false]
      refine ⟨_, rfl, rfl, rfl, ?_, ?_, ?_, ?_, ?_⟩
      · simp only [upd, if_true]
      · simp only [upd, hyx, if_true, if_false]
      · intro b nb h
        cases h
      · intro p np h
        cases h
      · intro a h1 h2 _ _
        simp only [upd, h1, h2, if_false]
    | some p =>
      obtain ⟨hpx, hpy, -, np, hnp⟩ := hp p rfl
      obtain ⟨dp, pp, lp, rp, cp⟩ := np
      have hxp := hpx.symm
      have hyp := hpy.symm
      by_cases hl : lp = some x
      · simp only [rotate_left, RBState.setRight, RBState.setLeft, RBState.setParent,
          RBState.write, upd, hx, hy, hnp, Option.bind_eq_bind, Option.some_bind, bind,
          Option.bind, hxy, hyx, hpx, hpy, hxp, hyp, hl, if_true, if_false]
        refine ⟨_, rfl, rfl, ?_, ?_, ?_, ?_, ?_, ?_⟩
        · rw [if_neg (Option.some_ne_none p)]
        · simp only [upd, if_true]
        · simp only [upd, hyx, if_true, if_false]
        · intro b nb h
          cases h
        · intro p1 np1 e h
          cases e
          rw [hnp] at h
          cases h
          simp only [upd, hpx, hpy, hl, if_true, if_false]
        · intro a h1 h2 _ h3
          have h4 : a ≠ p := fun e => h3 (by rw [e])
          simp only [upd, h1, h2, h4, if_false]
      · simp only [rotate_left, RBState.setRight, RBState.setLeft, RBState.setParent,
          RBState.write, upd, hx, hy, hnp, Option.bind_eq_bind, Option.some_bind, bind,
          Option.bind, hxy, hyx, hpx, hpy, hxp, hyp, hl, if_true, if_false]
        refine ⟨_, rfl, rfl, ?_, ?_, ?_, ?_, ?_, ?_⟩
        · rw [if_neg (Option.some_ne_none p)]
        · simp only [upd, if_true]
        · simp only [upd, hyx, if_true, if_false]
        · intro b nb h
          cases h
        · intro p1 np1 e h
          cases e
          rw [hnp] at h
          cases h
          simp only [upd, hpx, hpy, hl, if_true, if_false]
        · intro a h1 h2 _ h3
          have h4 : a ≠ p := fun e => h3 (by rw [e])
          simp only [upd, h1, h2, h4, if_false]
  | some b =>
    obtain ⟨hbx, hby, nb, hnb⟩ := hb b rfl
    have hxb := hbx.symm
    have hyb := hby.symm
    cases px with
    | none =>
      simp only [rotate_left, RBState.setRight, RBState.setLeft, RBState.setParent,
        RBState.write, upd, hx, hy, hnb, Option.bind_eq_bind, Option.some_bind, bind,
        Option.bind, hxy, hyx, hbx, hby, hxb, hyb, if_true, if_false]
      refine ⟨_, rfl, rfl, rfl, ?_, ?_, ?_, ?_, ?_⟩
      · simp only [upd, if_true]
      · simp only [upd, hyx, if_true, if_false]
      · intro b1 nb1 e h
        cases e
        rw [hnb] at h
        cases h
        simp only [upd, hbx, hby, if_true, if_false]
      · intro p np h
        cases h
      · intro a h1 h2 h3 _
        have h4 : a ≠ b := fun e => h3 (by rw [e])
        simp only [upd, h1, h2, h4, if_false]
    | some p =>
      obtain ⟨hpx, hpy, hpb, np, hnp⟩ := hp p rfl
      obtain ⟨dp, pp, lp, rp, cp⟩ := np
      have hxp := hpx.symm
      have hyp := hpy.symm
      have hbp : b ≠ p := fun e => hpb (by rw [e])
      have hpb1 := hbp.symm
      by_cases hl : lp = some x
      · simp only [rotate_left, RBState.setRight, RBState.setLeft, RBState.setParent,
          RBState.write, upd, hx, hy, hnp, hnb, Option.bind_eq_bind, Option.some_bind, bind,
          Option.bind, hxy, hyx, hpx, hpy, hxp, hyp, hbx, hby, hxb, hyb, hbp, hpb1, hl,
          if_true, if_false]
        refine ⟨_, rfl, rfl, ?_, ?_, ?_, ?_, ?_, ?_⟩
        · rw [if_neg (Option.some_ne_none p)]
        · simp only [upd, if_true]
        · simp only [upd, hyx, if_true, if_false]
        · intro b1 nb1 e h
          cases e
          rw [hnb] at h
          cases h
          simp only [upd, hbx, hby, hbp, if_true, if_false]
        · intro p1 np1 e h
          cases e
          rw [hnp] at h
          cases h
          simp only [upd, hpx, hpy, hl, if_true, if_false]
        · intro a h1 h2 h3 h5
          have h4 : a ≠ p := fun e => h5 (by rw [e])
          have h6 : a ≠ b := fun e => h3 (by rw [e])
          simp only [upd, h1, h2, h4, h6, if_false]
      · simp only [rotate_left, RBState.setRight, RBState.setLeft, RBState.setParent,
          RBState.write, upd, hx, hy, hnp, hnb, Option.bind_eq_bind, Option.some_bind, bind,
          Option.bind, hxy, hyx, hpx, hpy, hxp, hyp, hbx, hby, hxb, hyb, hbp, hpb1, hl,
          if_true, if_false]
        refine ⟨_, rfl, rfl, ?_, ?_, ?_, ?_, ?_, ?_⟩
        · rw [if_neg (Option.some_ne_none p)]
        · simp only [upd, if_true]
        · simp only [upd, hyx, if_true, if_false]
        · intro b1 nb1 e h
          cases e
          rw [hnb] at h
          cases h
          simp only [upd, hbx, hby, hbp, if_true, if_false]
        · intro p1 np1 e h
          cases e
          rw [hnp] at h
          cases h
          simp only [upd, hpx, hpy, hl, if_true, if_false]
        · intro a h1 h2 h3 h5
          have h4 : a ≠ p := fun e => h5 (by rw [e])
          have h6 : a ≠ b := fun e => h3 (by rw [e])
          simp only [upd, h1, h2, h4, h6, if_false]

theorem rotate_right_spec (s : RBState) (x y : Nat) (dx : Nat) (px rx : Option Nat) (cx : Int)
    (dy : Nat) (py ry ly : Option Nat) (cy : Int)
    (hx : s.nodes x = some ⟨dx, px, some y, rx, cx⟩)
    (hy : s.nodes y = some ⟨dy, py, ly, ry, cy⟩)
    (hxy : x ≠ y)
    (hb : ∀ b, ry = some b → b ≠ x ∧ b ≠ y ∧ ∃ nb, s.nodes b = some nb)
    (hp : ∀ p, px = some p → p ≠ x ∧ p ≠ y ∧ ry ≠ some p ∧ ∃ np, s.nodes p = some np) :
    ∃ s1, rotate_right s x = some s1 ∧ s1.next = s.next ∧
      s1.root = (if px = none then some y else s.root) ∧
      s1.nodes x = some ⟨dx, some y, ry, rx, cx⟩ ∧
      s1.nodes y = some ⟨dy, px, ly, some x, cy⟩ ∧
      (∀ b nb, ry = some b → s.nodes b = some nb →
        s1.nodes b = some { nb with parent := some x }) ∧
      (∀ p np, px = some p → s.nodes p = some np →
        s1.nodes p = some (if np.right = some x then { np with right := some y }
          else { np with left := some y })) ∧
      (∀ a, a ≠ x → a ≠ y → ry ≠ some a → px ≠ some a → s1.nodes a = s.nodes a) := by
  have hyx := hxy.symm
  cases ry with
  | none =>
    cases px with
    | none =>
      simp only [rotate_right, RBState.setLeft, RBState.setRight, RBState.setParent,
        RBState.write, upd, hx, hy, Option.bind_eq_bind, Option.some_bind, bind, Option.bind,
        hxy, hyx, if_true, if_false]
      refine ⟨_, rfl, rfl, rfl, ?_, ?_, ?_, ?_, ?_⟩
      · simp only [upd, if_true]
      · simp only [upd, hyx, if_true, if_false]
      · intro b nb h
        cases h
      · intro p np h
        cases h
      · intro a h1 h2 _ _
        simp only [upd, h1, h2, if_false]
    | some p =>
      obtain ⟨hpx, hpy, -, np, hnp⟩ := hp p rfl
      obtain ⟨dp, pp, lp, rp, cp⟩ := np
      have hxp := hpx.symm
      have hyp := hpy.symm
      by_cases hl : rp = some x
      · simp only [rotate_right, RBState.setLeft, RBState.setRight, RBState.setParent,
          RBState.write, upd, hx, hy, hnp, Option.bind_eq_bind, Option.some_bind, bind,
          Option.bind, hxy, hyx, hpx, hpy, hxp, hyp, hl, if_true, if_false]
        refine ⟨_, rfl, rfl, ?_, ?_, ?_, ?_, ?_, ?_⟩
        · rw [if_neg (Option.some_ne_none p)]
        · simp only [upd, if_true]
        · simp only [upd, hyx, if_true, if_false]
        · intro b nb h
          cases h
        · intro p1 np1 e h
          cases e
          rw [hnp] at h
          cases h
          simp only [upd, hpx, hpy, hl, if_true, if_false]
        · intro a h1 h2 _ h3
          have h4 : a ≠ p := fun e => h3 (by rw [e])
          simp only [upd, h1, h2, h4, if_false]
      · simp only [rotate_right, RBState.setLeft, RBState.setRight, RBState.setParent,
          RBState.write, upd, hx, hy, hnp, Option.bind_eq_bind, Option.some_bind, bind,
          Option.bind, hxy, hyx, hpx, hpy, hxp, hyp, hl, if_true, if_false]
        refine ⟨_, rfl, rfl, ?_, ?_, ?_, ?_, ?_, ?_⟩
        · rw [if_neg (Option.some_ne_none p)]
        · simp only [upd, if_true]
        · simp only [upd, hyx, if_true, if_false]
        · intro b nb h
          cases h
        · intro p1 np1 e h
          cases e
          rw [hnp] at h
          cases h
          simp only [upd, hpx, hpy, hl, if_true, if_false]
        · intro a h1 h2 _ h3
          have h4 : a ≠ p := fun e => h3 (by rw [e])
          simp only [upd, h1, h2, h4, if_false]
  | some b =>
    obtain ⟨hbx, hby, nb, hnb⟩ := hb b rfl
    have hxb := hbx.symm
    have hyb := hby.symm
    cases px with
    | none =>
      simp only [rotate_right, RBState.setLeft, RBState.setRight, RBState.setParent,
        RBState.write, upd, hx, hy, hnb, Option.bind_eq_bind, Option.some_bind, bind,
        Option.bind, hxy, hyx, hbx, hby, hxb, hyb, if_true, if_false]
      refine ⟨_, rfl, rfl, rfl, ?_, ?_, ?_, ?_, ?_⟩
      · simp only [upd, if_true]
      · simp only [upd, hyx, if_true, if_false]
      · intro b1 nb1 e h
        cases e
        rw [hnb] at h
        cases h
        simp only [upd, hbx, hby, if_true, if_false]
      · intro p np h
        cases h
      · intro a h1 h2 h3 _
        have h4 : a ≠ b := fun e => h3 (by rw [e])
        simp only [upd, h1, h2, h4, if_false]
    | some p =>
      obtain ⟨hpx, hpy, hpb, np, hnp⟩ := hp p rfl
      obtain ⟨dp, pp, lp, rp, cp⟩ := np
      have hxp := hpx.symm
      have hyp := hpy.symm
      have hbp : b ≠ p := fun e => hpb (by rw [e])
      have hpb1 := hbp.symm
      by_cases hl : rp = some x
      · simp only [rotate_right, RBState.setLeft, RBState.setRight, RBState.setParent,
          RBState.write, upd, hx, hy, hnp, hnb, Option.bind_eq_bind, Option.some_bind, bind,
          Option.bind, hxy, hyx, hpx, hpy, hxp, hyp, hbx, hby, hxb, hyb, hbp, hpb1, hl,
          if_true, if_false]
        refine ⟨_, rfl, rfl, ?_, ?_, ?_, ?_, ?_, ?_⟩
        · rw [if_neg (Option.some_ne_none p)]
        · simp only [upd, if_true]
        · simp only [upd, hyx, if_true, if_false]
        · intro b1 nb1 e h
          cases e
          rw [hnb] at h
          cases h
          simp only [upd, hbx, hby, hbp, if_true, if_false]
        · intro p1 np1 e h
          cases e
          rw [hnp] at h
          cases h
          simp only [upd, hpx, hpy, hl, if_true, if_false]
        · intro a h1 h2 h3 h5
          have h4 : a ≠ p := fun e => h5 (by rw [e])
          have h6 : a ≠ b := fun e => h3 (by rw [e])
          simp only [upd, h1, h2, h4, h6, if_false]
      · simp only [rotate_right, RBState.setLeft, RBState.setRight, RBState.setParent,
          RBState.write, upd, hx, hy, hnp, hnb, Option.bind_eq_bind, Option.some_bind, bind,
          Option.bind, hxy, hyx, hpx, hpy, hxp, hyp, hbx, hby, hxb, hyb, hbp, hpb1, hl,
          if_true, if_false]
        refine ⟨_, rfl, rfl, ?_, ?_, ?_, ?_, ?_, ?_⟩
        · rw [if_neg (Option.some_ne_none p)]
        · simp only [upd, if_true]
        · simp only [upd, hyx, if_true, if_false]
        · intro b1 nb1 e h
          cases e
          rw [hnb] at h
          cases h
          simp only [upd, hbx, hby, hbp, if_true, if_false]
        · intro p1 np1 e h
          cases e
          rw [hnp] at h
          cases h
          simp only [upd, hpx, hpy, hl, if_true, if_false]
        · intro a h1 h2 h3 h5
          have h4 : a ≠ p := fun e => h5 (by rw [e])
          have h6 : a ≠ b := fun e => h3 (by rw [e])
          simp only [upd, h1, h2, h4, h6, if_false]

/-! ## Rotations and recolouring at a subtree -/

theorem ptr_ne (t : RBT) (a : Nat) (h : a ∉ t.addrs) : t.ptr ≠ some a :=
  fun e => h (ptr_mem t a e)

theorem ctxPar_mem (ctx : List Frame) (a : Nat) (h : ctxPar ctx = some a) : a ∈ ctxAddrs ctx := by
  cases ctx with
  | nil => simp [ctxPar] at h
  | cons f fs =>
    simp only [ctxPar, Option.some.injEq] at h
    simp [ctxAddrs, h]

theorem Foc_read (s : RBState) (ctx : List Frame) (a : Nat) (c : Int) (d : Nat) (l r : RBT)
    (h : Foc s ctx (.node a c d l r)) :
    s.nodes a = some ⟨d, ctxPar ctx, l.ptr, r.ptr, c⟩ :=
  h.shape.1

theorem ptr_node (a : Nat) (c : Int) (d : Nat) (l r : RBT) : (RBT.node a c d l r).ptr = some a :=
  rfl

theorem rotate_left_focus (s : RBState) (ctx : List Frame) (x : Nat) (cx : Int) (dx : Nat)
    (A : RBT) (y : Nat) (cy : Int) (dy : Nat) (B C : RBT)
    (h : Foc s ctx (.node x cx dx A (.node y cy dy B C))) :
    ∃ s1, rotate_left s x = some s1 ∧ s1.next = s.next ∧
      Foc s1 ctx (.node y cy dy (.node x cx dx A B) C) := by
  obtain ⟨hroot, hshape, hctx, hnd, hbd⟩ := h
  simp only [Shape, ptr_node] at hshape hroot hctx
  obtain ⟨hx, hA, hy, hB, hC⟩ := hshape
  have hperm : ((RBT.node y cy dy (.node x cx dx A B) C).addrs ++ ctxAddrs ctx).Perm
      ((RBT.node x cx dx A (.node y cy dy B C)).addrs ++ ctxAddrs ctx) := by
    rw [List.perm_iff_count]
    intro a
    simp only [RBT.addrs, List.count_append, List.count_cons]
    omega
  have hnd0 := hnd
  simp only [RBT.addrs, List.cons_append, List.append_assoc, List.nodup_cons, List.nodup_append,
    List.mem_append, List.mem_cons, not_or, List.Disjoint] at hnd
  obtain ⟨⟨hxA, hxy, hxB, hxC, hxK⟩, hndA, ⟨⟨hyB, hyC, hyK⟩, hndB, ⟨hndC, hndK, hCK⟩, hBCK⟩,
    hAall⟩ := hnd
  have hb : ∀ b, B.ptr = some b → b ≠ x ∧ b ≠ y ∧ ∃ nb, s.nodes b = some nb := by
    intro b hb
    cases B with
    | nil => cases hb
    | node b1 cb db Bl Br =>
      cases hb
      refine ⟨fun e => hxB (by rw [← e]; simp [RBT.addrs]),
        fun e => hyB (by rw [← e]; simp [RBT.addrs]), _, hB.1⟩
  have hp : ∀ p, ctxPar ctx = some p →
      p ≠ x ∧ p ≠ y ∧ B.ptr ≠ some p ∧ ∃ np, s.nodes p = some np := by
    intro p hp
    have hm := ctxPar_mem ctx p hp
    refine ⟨fun e => hxK (e ▸ hm), fun e => hyK (e ▸ hm),
      fun e => hBCK (ptr_mem B p e) (Or.inr hm), ?_⟩
    cases ctx with
    | nil => cases hp
    | cons f fs =>
      cases hp
      exact ⟨_, hctx.1⟩
  obtain ⟨s1, hrot, hnext, hr1, hx1, hy1, hb1, hp1, hfr⟩ :=
    rotate_left_spec s x y dx (ctxPar ctx) A.ptr cx dy (some x) B.ptr C.ptr cy hx hy hxy hb hp
  have hfrA : ∀ a ∈ A.addrs, s1.nodes a = s.nodes a := fun a ha =>
    hfr a (fun e => hxA (e ▸ ha)) (fun e => hAall ha (Or.inl e))
      (fun e => hAall ha (Or.inr (Or.inl (ptr_mem B a e))))
      (fun e => hAall ha (Or.inr (Or.inr (Or.inr (ctxPar_mem ctx a e)))))
  have hfrC : ∀ a ∈ C.addrs, s1.nodes a = s.nodes a := fun a ha =>
    hfr a (fun e => hxC (e ▸ ha)) (fun e => hyC (e ▸ ha))
      (fun e => hBCK (ptr_mem B a e) (Or.inl ha))
      (fun e => hCK ha (ctxPar_mem ctx a e))
  refine ⟨s1, hrot, hnext, ?_, ?_, ?_, ?_, ?_⟩
  · -- root
    rw [hr1, ptr_node]
    cases ctx with
    | nil => simp [ctxPar, rootPtr]
    | cons f fs => simpa [ctxPar, rootPtr] using hroot
  · -- shape
    simp only [Shape, ptr_node]
    refine ⟨hy1, ⟨hx1, Shape_congr _ _ _ _ hfrA hA, ?_⟩, Shape_congr _ _ _ _ hfrC hC⟩
    cases B with
    | nil => trivial
    | node b cb db Bl Br =>
      obtain ⟨hB1, hB2, hB3⟩ := hB
      have hbn := (List.nodup_cons.1 hndB).1
      have hsub : ∀ a ∈ Bl.addrs ++ Br.addrs, s1.nodes a = s.nodes a := by
        intro a ha
        have haB : a ∈ (RBT.node b cb db Bl Br).addrs := List.mem_cons_of_mem _ ha
        refine hfr a (fun e => hxB (e ▸ haB)) (fun e => hyB (e ▸ haB)) ?_ ?_
        · rw [ptr_node]
          intro e
          cases e
          exact hbn ha
        · intro e
          exact hBCK haB (Or.inr (ctxPar_mem ctx a e))
      refine ⟨?_, Shape_congr _ _ _ _ (fun a ha => hsub a (by simp [ha])) hB2,
        Shape_congr _ _ _ _ (fun a ha => hsub a (by simp [ha])) hB3⟩
      rw [hb1 b _ rfl hB1]
  · -- context
    cases ctx with
    | nil => trivial
    | cons f fs =>
      obtain ⟨hc1, hc2, hc3⟩ := hctx
      have hfn := (List.nodup_cons.1 hndK).1
      have hsub : ∀ a ∈ f.sib.addrs ++ ctxAddrs fs, s1.nodes a = s.nodes a := by
        intro a ha
        have haK : a ∈ ctxAddrs (f :: fs) := List.mem_cons_of_mem _ ha
        refine hfr a (fun e => hxK (e ▸ haK)) (fun e => hyK (e ▸ haK)) ?_ ?_
        · intro e
          exact hBCK (ptr_mem B a e) (Or.inr haK)
        · intro e
          cases e
          exact hfn ha
      refine ⟨?_, Shape_congr _ _ _ _ (fun a ha => hsub a (by simp [ha])) hc2,
        ShapeCtx_congr _ _ _ _ (fun a ha => hsub a (by simp [ha])) hc3⟩
      rw [hp1 f.a _ rfl hc1]
      unfold Frame.cell
      cases hf : f.isLeft
      · have : f.sib.ptr ≠ some x :=
          ptr_ne _ _ (fun e => hxK (List.mem_cons_of_mem _ (List.mem_append_left _ e)))
        simp [this, ptr_node]
      · simp [ptr_node]
  · exact hperm.nodup_iff.2 hnd0
  · intro a ha
    rw [hnext]
    exact hbd a (hperm.mem_iff.1 ha)

theorem rotate_right_focus (s : RBState) (ctx : List Frame) (x : Nat) (cx : Int) (dx : Nat)
    (A : RBT) (y : Nat) (cy : Int) (dy : Nat) (B C : RBT)
    (h : Foc s ctx (.node x cx dx (.node y cy dy C B) A)) :
    ∃ s1, rotate_right s x = some s1 ∧ s1.next = s.next ∧
      Foc s1 ctx (.node y cy dy C (.node x cx dx B A)) := by
  obtain ⟨hroot, hshape, hctx, hnd, hbd⟩ := h
  simp only [Shape, ptr_node] at hshape hroot hctx
  obtain ⟨hx, ⟨hy, hC, hB⟩, hA⟩ := hshape
  have hperm : ((RBT.node y cy dy C (.node x cx dx B A)).addrs ++ ctxAddrs ctx).Perm
      ((RBT.node x cx dx (.node y cy dy C B) A).addrs ++ ctxAddrs ctx) := by
    rw [List.perm_iff_count]
    intro a
    simp only [RBT.addrs, List.count_append, List.count_cons]
    omega
  have hnd0 := hnd
  have hnd : (x :: (A.addrs ++ (y :: (B.addrs ++ C.addrs))) ++ ctxAddrs ctx).Nodup := by
    refine (List.Perm.nodup_iff ?_).1 hnd0
    rw [List.perm_iff_count]
    intro a
    simp only [RBT.addrs, List.count_append, List.count_cons]
    omega
  simp only [RBT.addrs, List.cons_append, List.append_assoc, List.nodup_cons, List.nodup_append,
    List.mem_append, List.mem_cons, not_or, List.Disjoint] at hnd
  obtain ⟨⟨hxA, hxy, hxB, hxC, hxK⟩, hndA, ⟨⟨hyB, hyC, hyK⟩, hndB, ⟨hndC, hndK, hCK⟩, hBCK⟩,
    hAall⟩ := hnd
  have hb : ∀ b, B.ptr = some b → b ≠ x ∧ b ≠ y ∧ ∃ nb, s.nodes b = some nb := by
    intro b hb
    cases B with
    | nil => cases hb
    | node b1 cb db Bl Br =>
      cases hb
      refine ⟨fun e => hxB (by rw [← e]; simp [RBT.addrs]),
        fun e => hyB (by rw [← e]; simp [RBT.addrs]), _, hB.1⟩
  have hp : ∀ p, ctxPar ctx = some p →
      p ≠ x ∧ p ≠ y ∧ B.ptr ≠ some p ∧ ∃ np, s.nodes p = some np := by
    intro p hp
    have hm := ctxPar_mem ctx p hp
    refine ⟨fun e => hxK (e ▸ hm), fun e => hyK (e ▸ hm),
      fun e => hBCK (ptr_mem B p e) (Or.inr hm), ?_⟩
    cases ctx with
    | nil => cases hp
    | cons f fs =>
      cases hp
      exact ⟨_, hctx.1⟩
  obtain ⟨s1, hrot, hnext, hr1, hx1, hy1, hb1, hp1, hfr⟩ :=
    rotate_right_spec s x y dx (ctxPar ctx) A.ptr cx dy (some x) B.ptr C.ptr cy hx hy hxy hb hp
  have hfrA : ∀ a ∈ A.addrs, s1.nodes a = s.nodes a := fun a ha =>
    hfr a (fun e => hxA (e ▸ ha)) (fun e => hAall ha (Or.inl e))
      (fun e => hAall ha (Or.inr (Or.inl (ptr_mem B a e))))
      (fun e => hAall ha (Or.inr (Or.inr (Or.inr (ctxPar_mem ctx a e)))))
  have hfrC : ∀ a ∈ C.addrs, s1.nodes a = s.nodes a := fun a ha =>
    hfr a (fun e => hxC (e ▸ ha)) (fun e => hyC (e ▸ ha))
      (fun e => hBCK (ptr_mem B a e) (Or.inl ha))
      (fun e => hCK ha (ctxPar_mem ctx a e))
  refine ⟨s1, hrot, hnext, ?_, ?_, ?_, ?_, ?_⟩
  · -- root
    rw [hr1, ptr_node]
    cases ctx with
    | nil => simp [ctxPar, rootPtr]
    | cons f fs => simpa [ctxPar, rootPtr] using hroot
  · -- shape
    simp only [Shape, ptr_node]
    refine ⟨hy1, Shape_congr _ _ _ _ hfrC hC, ⟨hx1, ?_, Shape_congr _ _ _ _ hfrA hA⟩⟩
    cases B with
    | nil => trivial
    | node b cb db Bl Br =>
      obtain ⟨hB1, hB2, hB3⟩ := hB
      have hbn := (List.nodup_cons.1 hndB).1
      have hsub : ∀ a ∈ Bl.addrs ++ Br.addrs, s1.nodes a = s.nodes a := by
        intro a ha
        have haB : a ∈ (RBT.node b cb db Bl Br).addrs := List.mem_cons_of_mem _ ha
        refine hfr a (fun e => hxB (e ▸ haB)) (fun e => hyB (e ▸ haB)) ?_ ?_
        · rw [ptr_node]
          intro e
          cases e
          exact hbn ha
        · intro e
          exact hBCK haB (Or.inr (ctxPar_mem ctx a e))
      refine ⟨?_, Shape_congr _ _ _ _ (fun a ha => hsub a (by simp [ha])) hB2,
        Shape_congr _ _ _ _ (fun a ha => hsub a (by simp [ha])) hB3⟩
      rw [hb1 b _ rfl hB1]
  · -- context
    cases ctx with
    | nil => trivial
    | cons f fs =>
      obtain ⟨hc1, hc2, hc3⟩ := hctx
      have hfn := (List.nodup_cons.1 hndK).1
      have hsub : ∀ a ∈ f.sib.addrs ++ ctxAddrs fs, s1.nodes a = s.nodes a := by
        intro a ha
        have haK : a ∈ ctxAddrs (f :: fs) := List.mem_cons_of_mem _ ha
        refine hfr a (fun e => hxK (e ▸ haK)) (fun e => hyK (e ▸ haK)) ?_ ?_
        · intro e
          exact hBCK (ptr_mem B a e) (Or.inr haK)
        · intro e
          cases e
          exact hfn ha
      refine ⟨?_, Shape_congr _ _ _ _ (fun a ha => hsub a (by simp [ha])) hc2,
        ShapeCtx_congr _ _ _ _ (fun a ha => hsub a (by simp [ha])) hc3⟩
      rw [hp1 f.a _ rfl hc1]
      unfold Frame.cell
      cases hf : f.isLeft
      · simp [ptr_node]
      · have : f.sib.ptr ≠ some x :=
          ptr_ne _ _ (fun e => hxK (List.mem_cons_of_mem _ (List.mem_append_left _ e)))
        simp [this, ptr_node]
  · exact hperm.nodup_iff.2 hnd0
  · intro a ha
    rw [hnext]
    exact hbd a (hperm.mem_iff.1 ha)

theorem setColor_focus (s : RBState) (ctx : List Frame) (a : Nat) (c : Int) (d : Nat)
    (l r : RBT) (c1 : Int) (h : Foc s ctx (.node a c d l r)) :
    ∃ s1, s.setColor a c1 = some s1 ∧ s1.next = s.next ∧ Foc s1 ctx (.node a c1 d l r) := by
  obtain ⟨hroot, hshape, hctx, hnd, hbd⟩ := h
  obtain ⟨ha, hl, hr⟩ := hshape
  have hnd0 := hnd
  simp only [RBT.addrs, List.cons_append, List.nodup_cons, List.mem_append, not_or] at hnd
  obtain ⟨⟨⟨hal, har⟩, haK⟩, -⟩ := hnd
  refine ⟨_, write_eq s a _ _ ha, rfl, ?_, ?_, ?_, hnd0, hbd⟩
  · exact hroot
  · refine ⟨upd_same _ _ _, Shape_congr _ _ _ _ ?_ hl, Shape_congr _ _ _ _ ?_ hr⟩
    · intro b hb
      exact upd_ne _ _ _ _ (fun e => hal (e ▸ hb))
    · intro b hb
      exact upd_ne _ _ _ _ (fun e => har (e ▸ hb))
  · refine ShapeCtx_congr _ _ _ _ ?_ hctx
    intro b hb
    exact upd_ne _ _ _ _ (fun e => haK (e ▸ hb))

/-! ## The colour invariants -/

theorem RED_ne_BLACK : RED ≠ BLACK := by decide

theorem color_fill (f : Frame) (u : RBT) : (f.fill u).color = f.c := by
  unfold Frame.fill
  split <;> rfl

theorem IsRB_fill (f : Frame) (u : RBT) (n : Nat) :
    IsRB (f.fill u) n ↔
      (f.c = RED ∧ u.color = BLACK ∧ f.sib.color = BLACK ∧ IsRB u n ∧ IsRB f.sib n) ∨
        (f.c = BLACK ∧ ∃ m, n = m + 1 ∧ IsRB u m ∧ IsRB f.sib m) := by
  unfold Frame.fill
  split
  · simp only [IsRB]
  · simp only [IsRB]
    constructor
    · rintro (⟨h1, h2, h3, h4, h5⟩ | ⟨h1, m, h2, h3, h4⟩)
      · exact Or.inl ⟨h1, h3, h2, h5, h4⟩
      · exact Or.inr ⟨h1, m, h2, h4, h3⟩
    · rintro (⟨h1, h2, h3, h4, h5⟩ | ⟨h1, m, h2, h3, h4⟩)
      · exact Or.inl ⟨h1, h3, h2, h5, h4⟩
      · exact Or.inr ⟨h1, m, h2, h4, h3⟩

theorem plug_valid (ctx : List Frame) :
    ∀ (n : Nat) (u : RBT), CtxV ctx n → IsRB u n → (u.color = BLACK ∨ topBlack ctx) →
      Valid (plug ctx u) := by
  induction ctx with
  | nil =>
    intro n u _ hu hc
    rcases hc with hc | hc
    · exact ⟨hc, n, hu⟩
    · exact hc.elim
  | cons f fs ih =>
    intro n u hv hu hc
    obtain ⟨hs, hv⟩ := hv
    rw [plug]
    rcases hv with ⟨hf, hv⟩ | ⟨hf, hsc, htop, hv⟩
    · refine ih (n + 1) _ hv ?_ (Or.inl ?_)
      · rw [IsRB_fill]
        exact Or.inr ⟨hf, n, rfl, hu, hs⟩
      · rw [color_fill, hf]
    · have huc : u.color = BLACK := by
        rcases hc with hc | hc
        · exact hc
        · exact absurd (hf.symm.trans hc) RED_ne_BLACK
      refine ih n _ hv ?_ (Or.inr htop)
      rw [IsRB_fill]
      exact Or.inl ⟨hf, huc, hsc, hu, hs⟩

theorem valid_plug (ctx : List Frame) :
    ∀ (u : RBT), Valid (plug ctx u) →
      ∃ n, IsRB u n ∧ CtxV ctx n ∧ (u.color = RED → topBlack ctx) := by
  induction ctx with
  | nil =>
    intro u hv
    obtain ⟨hc, n, hn⟩ := hv
    refine ⟨n, hn, trivial, ?_⟩
    intro h
    exact absurd (h.symm.trans hc) RED_ne_BLACK
  | cons f fs ih =>
    intro u hv
    rw [plug] at hv
    obtain ⟨n, hn, hctx, htop⟩ := ih _ hv
    rw [IsRB_fill] at hn
    rw [color_fill] at htop
    rcases hn with ⟨h1, h2, h3, h4, h5⟩ | ⟨h1, m, h2, h3, h4⟩
    · refine ⟨n, h4, ⟨h5, Or.inr ⟨h1, h3, htop h1, hctx⟩⟩, ?_⟩
      intro h
      exact absurd (h.symm.trans h2) RED_ne_BLACK
    · subst h2
      exact ⟨m, h3, ⟨h4, Or.inl ⟨h1, hctx⟩⟩, fun _ => h1⟩

theorem Valid_NearRB (T : RBT) (h : Valid T) (hp : T.ptr ≠ none) : NearRB T := by
  cases T with
  | nil => exact absurd rfl hp
  | node a c d l r =>
    obtain ⟨hc, m, hm⟩ := h
    simp only [RBT.color] at hc
    subst hc
    exact ⟨m, hm⟩

theorem IsRB_counts (t : RBT) (n : Nat) (h : IsRB t n) : ∀ k ∈ t.blackCounts, k = n := by
  induction t generalizing n with
  | nil =>
    intro k hk
    simp only [RBT.blackCounts, List.mem_singleton] at hk
    simp only [IsRB] at h
    omega
  | node a c d l r ihl ihr =>
    intro k hk
    simp only [RBT.blackCounts, List.mem_map, List.mem_append] at hk
    obtain ⟨j, hj, rfl⟩ := hk
    rcases h with ⟨h1, -, -, h4, h5⟩ | ⟨h1, m, h2, h3, h4⟩
    · rw [if_neg (by rw [h1]; exact RED_ne_BLACK)]
      rcases hj with hj | hj
      · exact ihl n h4 j hj
      · exact ihr n h5 j hj
    · rw [if_pos h1, h2]
      rcases hj with hj | hj
      · rw [ihl m h3 j hj]
      · rw [ihr m h4 j hj]

theorem blackCounts_ne_nil (t : RBT) : t.blackCounts ≠ [] := by
  induction t with
  | nil => simp [RBT.blackCounts]
  | node a c d l r ihl _ => simp [RBT.blackCounts, ihl]

theorem color_cases (t : RBT) (h : t.coloured) : t.color = RED ∨ t.color = BLACK := by
  cases t with
  | nil => exact Or.inr rfl
  | node a c d l r => exact h.1

theorem counts_IsRB (t : RBT) (n : Nat) (hc : t.coloured) (hr : t.noRedRed)
    (h : ∀ k ∈ t.blackCounts, k = n) : IsRB t n := by
  induction t generalizing n with
  | nil =>
    simp only [IsRB]
    exact (h 0 (by simp [RBT.blackCounts])).symm
  | node a c d l r ihl ihr =>
    obtain ⟨hc1, hcl, hcr⟩ := hc
    obtain ⟨hr1, hrl, hrr⟩ := hr
    simp only [RBT.blackCounts, List.mem_map, List.mem_append] at h
    rcases hc1 with hc1 | hc1
    · have hne : ¬ c = BLACK := by rw [hc1]; exact RED_ne_BLACK
      simp only [hne, if_false] at h
      refine Or.inl ⟨hc1, ?_, ?_, ihl n hcl hrl ?_, ihr n hcr hrr ?_⟩
      · rcases color_cases l hcl with e | e
        · exact absurd e (hr1 hc1).1
        · exact e
      · rcases color_cases r hcr with e | e
        · exact absurd e (hr1 hc1).2
        · exact e
      · intro k hk
        exact h k ⟨k, Or.inl hk, rfl⟩
      · intro k hk
        exact h k ⟨k, Or.inr hk, rfl⟩
    · simp only [hc1, if_true] at h
      obtain ⟨j, hj⟩ := List.exists_mem_of_ne_nil _ (blackCounts_ne_nil l)
      have hn := h (j + 1) ⟨j, Or.inl hj, rfl⟩
      refine Or.inr ⟨hc1, j, hn.symm, ihl j hcl hrl ?_, ihr j hcr hrr ?_⟩
      · intro k hk
        have := h (k + 1) ⟨k, Or.inl hk, rfl⟩
        omega
      · intro k hk
        have := h (k + 1) ⟨k, Or.inr hk, rfl⟩
        omega

theorem IsRB_coloured (t : RBT) (n : Nat) (h : IsRB t n) : t.coloured ∧ t.noRedRed := by
  induction t generalizing n with
  | nil => exact ⟨trivial, trivial⟩
  | node a c d l r ihl ihr =>
    rcases h with ⟨h1, h2, h3, h4, h5⟩ | ⟨h1, m, -, h3, h4⟩
    · refine ⟨⟨Or.inl h1, (ihl n h4).1, (ihr n h5).1⟩, ⟨fun _ => ⟨?_, ?_⟩, (ihl n h4).2, (ihr n h5).2⟩⟩
      · rw [h2]
        exact fun e => RED_ne_BLACK e.symm
      · rw [h3]
        exact fun e => RED_ne_BLACK e.symm
    · refine ⟨⟨Or.inr h1, (ihl m h3).1, (ihr m h4).1⟩, ⟨fun e => ?_, (ihl m h3).2, (ihr m h4).2⟩⟩
      exact absurd (e.symm.trans h1) RED_ne_BLACK

/-- The colour invariants, stated on the lists of BLACK counts, are those of
`Valid`. -/
theorem Valid_iff (T : RBT) :
    Valid T ↔ T.coloured ∧ T.rootBlack ∧ T.noRedRed ∧ T.balanced := by
  constructor
  · rintro ⟨hc, n, hn⟩
    have h1 := IsRB_coloured T n hn
    refine ⟨h1.1, hc, h1.2, ?_⟩
    intro k hk j hj
    rw [IsRB_counts T n hn k hk, IsRB_counts T n hn j hj]
  · rintro ⟨hc, hb, hr, hbal⟩
    obtain ⟨j, hj⟩ := List.exists_mem_of_ne_nil _ (blackCounts_ne_nil T)
    exact ⟨hb, j, counts_IsRB T j hc hr (fun k hk => hbal k hk j hj)⟩

/-! ## The cases of the loop body of `fix_insert` -/

theorem read_frame (s : RBState) (f : Frame) (fs : List Frame) (t : RBT)
    (h : Foc s (f :: fs) t) : s.nodes f.a = some (f.cell (ctxPar fs) t.ptr) :=
  h.shapeCtx.1

theorem setColor_frame (s : RBState) (b : Bool) (a : Nat) (c : Int) (d : Nat) (sib : RBT)
    (fs : List Frame) (t : RBT) (c1 : Int) (h : Foc s (⟨b, a, c, d, sib⟩ :: fs) t) :
    ∃ s1, s.setColor a c1 = some s1 ∧ s1.next = s.next ∧
      Foc s1 (⟨b, a, c1, d, sib⟩ :: fs) t := by
  rw [Foc_up] at h
  cases b with
  | false =>
    obtain ⟨s1, h1, h2, h3⟩ := setColor_focus s fs a c d sib t c1 h
    exact ⟨s1, h1, h2, (Foc_up _ _ _ _).2 h3⟩
  | true =>
    obtain ⟨s1, h1, h2, h3⟩ := setColor_focus s fs a c d t sib c1 h
    exact ⟨s1, h1, h2, (Foc_up _ _ _ _).2 h3⟩

theorem setColor_sib (s : RBState) (b : Bool) (a : Nat) (c : Int) (d : Nat)
    (ya : Nat) (cy : Int) (dy : Nat) (yl yr : RBT) (fs : List Frame) (t : RBT) (c1 : Int)
    (h : Foc s (⟨b, a, c, d, .node ya cy dy yl yr⟩ :: fs) t) :
    ∃ s1, s.setColor ya c1 = some s1 ∧ s1.next = s.next ∧
      Foc s1 (⟨b, a, c, d, .node ya c1 dy yl yr⟩ :: fs) t := by
  rw [Foc_flip] at h
  obtain ⟨s1, h1, h2, h3⟩ := setColor_focus s _ ya cy dy yl yr c1 h
  refine ⟨s1, h1, h2, ?_⟩
  rw [Foc_flip]
  exact h3

theorem cell_true (a : Nat) (c : Int) (d : Nat) (sib : RBT) (par q : Option Nat) :
    (⟨true, a, c, d, sib⟩ : Frame).cell par q = ⟨d, par, q, sib.ptr, c⟩ :=
  rfl

theorem cell_false (a : Nat) (c : Int) (d : Nat) (sib : RBT) (par q : Option Nat) :
    (⟨false, a, c, d, sib⟩ : Frame).cell par q = ⟨d, par, sib.ptr, q, c⟩ :=
  rfl

theorem fill_true (a : Nat) (c : Int) (d : Nat) (sib t : RBT) :
    (⟨true, a, c, d, sib⟩ : Frame).fill t = .node a c d t sib :=
  rfl

theorem fill_false (a : Nat) (c : Int) (d : Nat) (sib t : RBT) :
    (⟨false, a, c, d, sib⟩ : Frame).fill t = .node a c d sib t :=
  rfl

theorem ctxPar_cons (f : Frame) (fs : List Frame) : ctxPar (f :: fs) = some f.a :=
  rfl

theorem isRed_shape (m : RBState) (par : Option Nat) (t : RBT) (h : Shape m.nodes par t) :
    isRed m t.ptr = some (decide (t.color = RED)) := by
  cases t with
  | nil =>
    have : ¬ (BLACK = RED) := fun e => RED_ne_BLACK e.symm
    simp [isRed, RBT.ptr, RBT.color, this]
  | node a c d l r =>
    simp [isRed, RBT.ptr, RBT.color, h.1]

theorem fix_insert_left_red (s : RBState) (t : RBT) (z : Nat) (fl : Bool) (p : Nat) (cp : Int)
    (dp : Nat) (A : RBT) (g : Nat) (cg : Int) (dg : Nat) (ya : Nat) (dy : Nat) (yl yr : RBT)
    (gs : List Frame)
    (h : Foc s (⟨fl, p, cp, dp, A⟩ :: ⟨true, g, cg, dg, .node ya RED dy yl yr⟩ :: gs) t) :
    ∃ s1, fix_insert_left s z p g = some (s1, g) ∧ s1.next = s.next ∧
      Foc s1 (⟨fl, p, BLACK, dp, A⟩ :: ⟨true, g, RED, dg, .node ya BLACK dy yl yr⟩ :: gs) t := by
  have hup := (Foc_up _ _ _ _).1 h
  have hng := read_frame _ _ _ _ hup
  have hy := isRed_shape s _ _ hup.shapeCtx.2.1
  obtain ⟨s1, e1, n1, h1⟩ := setColor_frame _ _ _ _ _ _ _ _ BLACK h
  rw [Foc_up] at h1
  obtain ⟨s2, e2, n2, h2⟩ := setColor_sib _ _ _ _ _ _ _ _ _ _ _ _ BLACK h1
  obtain ⟨s3, e3, n3, h3⟩ := setColor_frame _ _ _ _ _ _ _ _ RED h2
  rw [← Foc_up] at h3
  refine ⟨s3, ?_, by rw [n3, n2, n1], h3⟩
  simp only [cell_true, cell_false, ptr_node, ptr_fill, RBT.color, decide_True] at hng hy
  simp only [fix_insert_left, hng, hy, e1, e2, e3, Option.bind_eq_bind, Option.some_bind, bind,
    Option.bind, if_true]

theorem fix_insert_left_outer (s : RBState) (z : Nat) (cz : Int) (d : Nat) (l r : RBT) (p : Nat)
    (cp : Int) (dp : Nat) (A : RBT) (g : Nat) (cg : Int) (dg : Nat) (U : RBT) (gs : List Frame)
    (hU : U.color ≠ RED)
    (h : Foc s (⟨true, p, cp, dp, A⟩ :: ⟨true, g, cg, dg, U⟩ :: gs) (.node z cz d l r)) :
    ∃ s1, fix_insert_left s z p g = some (s1, z) ∧ s1.next = s.next ∧
      Foc s1 (⟨true, p, BLACK, dp, .node g RED dg A U⟩ :: gs) (.node z cz d l r) := by
  have hup := (Foc_up _ _ _ _).1 h
  have hng := read_frame _ _ _ _ hup
  have hy := isRed_shape s _ _ hup.shapeCtx.2.1
  have hnp := read_frame _ _ _ _ h
  have hnz := Foc_read _ _ _ _ _ _ _ h
  have hAz : A.ptr ≠ some z := by
    refine ptr_ne _ _ (fun e => ?_)
    have hn := h.nodup
    simp only [RBT.addrs, ctxAddrs, List.cons_append, List.nodup_cons, List.mem_append,
      List.mem_cons, not_or] at hn
    exact hn.1.2.2.1 e
  obtain ⟨s1, e1, n1, h1⟩ := setColor_frame _ _ _ _ _ _ _ _ BLACK h
  rw [Foc_up] at h1
  obtain ⟨s2, e2, n2, h2⟩ := setColor_frame _ _ _ _ _ _ _ _ RED h1
  rw [Foc_up] at h2
  obtain ⟨s3, e3, n3, h3⟩ := rotate_right_focus _ _ _ _ _ _ _ _ _ _ _ h2
  have h4 := (Foc_up s3 ⟨true, p, BLACK, dp, .node g RED dg A U⟩ gs (.node z cz d l r)).2 h3
  refine ⟨s3, ?_, by rw [n3, n2, n1], h4⟩
  simp only [cell_true, cell_false, fill_true, fill_false, ptr_node, ctxPar_cons] at hng hnp hnz e3
  simp only [fix_insert_left, hng, hy, hnp, hnz, hAz, hU, e1, e2, e3, Option.bind_eq_bind,
    Option.some_bind, bind, Option.bind, if_true, if_false, decide_False, Option.map,
    Bool.false_eq_true]

theorem fix_insert_left_inner (s : RBState) (z : Nat) (cz : Int) (d : Nat) (l r : RBT) (p : Nat)
    (cp : Int) (dp : Nat) (A : RBT) (g : Nat) (cg : Int) (dg : Nat) (U : RBT) (gs : List Frame)
    (hU : U.color ≠ RED)
    (h : Foc s (⟨false, p, cp, dp, A⟩ :: ⟨true, g, cg, dg, U⟩ :: gs) (.node z cz d l r)) :
    ∃ s1, fix_insert_left s z p g = some (s1, p) ∧ s1.next = s.next ∧
      Foc s1 (⟨true, z, BLACK, d, .node g RED dg r U⟩ :: gs) (.node p cp dp A l) := by
  have hup := (Foc_up _ _ _ _).1 h
  have hng := read_frame _ _ _ _ hup
  have hy := isRed_shape s _ _ hup.shapeCtx.2.1
  have hnp := read_frame _ _ _ _ h
  rw [fill_false] at hup
  obtain ⟨s1, e1, n1, h1⟩ := rotate_left_focus _ _ _ _ _ _ _ _ _ _ _ hup
  have h1a := (Foc_up s1 ⟨true, z, cz, d, r⟩ _ (.node p cp dp A l)).2 h1
  have hnz := Foc_read _ _ _ _ _ _ _ h1a
  obtain ⟨s2, e2, n2, h2⟩ := setColor_frame _ _ _ _ _ _ _ _ BLACK h1a
  rw [Foc_up] at h2
  obtain ⟨s3, e3, n3, h3⟩ := setColor_frame _ _ _ _ _ _ _ _ RED h2
  rw [Foc_up] at h3
  obtain ⟨s4, e4, n4, h4⟩ := rotate_right_focus _ _ _ _ _ _ _ _ _ _ _ h3
  have h5 := (Foc_up s4 ⟨true, z, BLACK, d, .node g RED dg r U⟩ gs (.node p cp dp A l)).2 h4
  refine ⟨s4, ?_, by rw [n4, n3, n2, n1], h5⟩
  simp only [cell_true, cell_false, fill_true, fill_false, ptr_node, ctxPar_cons] at hng hnp hnz e4
  simp only [fix_insert_left, hng, hy, hnp, hnz, hU, e1, e2, e3, e4, Option.bind_eq_bind,
    Option.some_bind, bind, Option.bind, if_true, if_false, decide_False, Option.map,
    Bool.false_eq_true]

theorem fix_insert_right_red (s : RBState) (t : RBT) (z : Nat) (fl : Bool) (p : Nat) (cp : Int)
    (dp : Nat) (A : RBT) (g : Nat) (cg : Int) (dg : Nat) (ya : Nat) (dy : Nat) (yl yr : RBT)
    (gs : List Frame)
    (h : Foc s (⟨fl, p, cp, dp, A⟩ :: ⟨false, g, cg, dg, .node ya RED dy yr yl⟩ :: gs) t) :
    ∃ s1, fix_insert_right s z p g = some (s1, g) ∧ s1.next = s.next ∧
      Foc s1 (⟨fl, p, BLACK, dp, A⟩ :: ⟨false, g, RED, dg, .node ya BLACK dy yr yl⟩ :: gs) t := by
  have hup := (Foc_up _ _ _ _).1 h
  have hng := read_frame _ _ _ _ hup
  have hy := isRed_shape s _ _ hup.shapeCtx.2.1
  obtain ⟨s1, e1, n1, h1⟩ := setColor_frame _ _ _ _ _ _ _ _ BLACK h
  rw [Foc_up] at h1
  obtain ⟨s2, e2, n2, h2⟩ := setColor_sib _ _ _ _ _ _ _ _ _ _ _ _ BLACK h1
  obtain ⟨s3, e3, n3, h3⟩ := setColor_frame _ _ _ _ _ _ _ _ RED h2
  rw [← Foc_up] at h3
  refine ⟨s3, ?_, by rw [n3, n2, n1], h3⟩
  simp only [cell_false, cell_true, ptr_node, ptr_fill, RBT.color, decide_True] at hng hy
  simp only [fix_insert_right, hng, hy, e1, e2, e3, Option.bind_eq_bind, Option.some_bind, bind,
    Option.bind, if_true]

theorem fix_insert_right_outer (s : RBState) (z : Nat) (cz : Int) (d : Nat) (l r : RBT) (p : Nat)
    (cp : Int) (dp : Nat) (A : RBT) (g : Nat) (cg : Int) (dg : Nat) (U : RBT) (gs : List Frame)
    (hU : U.color ≠ RED)
    (h : Foc s (⟨false, p, cp, dp, A⟩ :: ⟨false, g, cg, dg, U⟩ :: gs) (.node z cz d r l)) :
    ∃ s1, fix_insert_right s z p g = some (s1, z) ∧ s1.next = s.next ∧
      Foc s1 (⟨false, p, BLACK, dp, .node g RED dg U A⟩ :: gs) (.node z cz d r l) := by
  have hup := (Foc_up _ _ _ _).1 h
  have hng := read_frame _ _ _ _ hup
  have hy := isRed_shape s _ _ hup.shapeCtx.2.1
  have hnp := read_frame _ _ _ _ h
  have hnz := Foc_read _ _ _ _ _ _ _ h
  have hAz : A.ptr ≠ some z := by
    refine ptr_ne _ _ (fun e => ?_)
    have hn := h.nodup
    simp only [RBT.addrs, ctxAddrs, List.cons_append, List.nodup_cons, List.mem_append,
      List.mem_cons, not_or] at hn
    exact hn.1.2.2.1 e
  obtain ⟨s1, e1, n1, h1⟩ := setColor_frame _ _ _ _ _ _ _ _ BLACK h
  rw [Foc_up] at h1
  obtain ⟨s2, e2, n2, h2⟩ := setColor_frame _ _ _ _ _ _ _ _ RED h1
  rw [Foc_up] at h2
  obtain ⟨s3, e3, n3, h3⟩ := rotate_left_focus _ _ _ _ _ _ _ _ _ _ _ h2
  have h4 := (Foc_up s3 ⟨false, p, BLACK, dp, .node g RED dg U A⟩ gs (.node z cz d r l)).2 h3
  refine ⟨s3, ?_, by rw [n3, n2, n1], h4⟩
  simp only [cell_false, cell_true, fill_false, fill_true, ptr_node, ctxPar_cons] at hng hnp hnz e3
  simp only [fix_insert_right, hng, hy, hnp, hnz, hAz, hU, e1, e2, e3, Option.bind_eq_bind,
    Option.some_bind, bind, Option.bind, if_true, if_false, decide_False, Option.map,
    Bool.false_eq_true]

theorem fix_insert_right_inner (s : RBState) (z : Nat) (cz : Int) (d : Nat) (l r : RBT) (p : Nat)
    (cp : Int) (dp : Nat) (A : RBT) (g : Nat) (cg : Int) (dg : Nat) (U : RBT) (gs : List Frame)
    (hU : U.color ≠ RED)
    (h : Foc s (⟨true, p, cp, dp, A⟩ :: ⟨false, g, cg, dg, U⟩ :: gs) (.node z cz d r l)) :
    ∃ s1, fix_insert_right s z p g = some (s1, p) ∧ s1.next = s.next ∧
      Foc s1 (⟨false, z, BLACK, d, .node g RED dg U r⟩ :: gs) (.node p cp dp l A) := by
  have hup := (Foc_up _ _ _ _).1 h
  have hng := read_frame _ _ _ _ hup
  have hy := isRed_shape s _ _ hup.shapeCtx.2.1
  have hnp := read_frame _ _ _ _ h
  rw [fill_true] at hup
  obtain ⟨s1, e1, n1, h1⟩ := rotate_right_focus _ _ _ _ _ _ _ _ _ _ _ hup
  have h1a := (Foc_up s1 ⟨false, z, cz, d, r⟩ _ (.node p cp dp l A)).2 h1
  have hnz := Foc_read _ _ _ _ _ _ _ h1a
  obtain ⟨s2, e2, n2, h2⟩ := setColor_frame _ _ _ _ _ _ _ _ BLACK h1a
  rw [Foc_up] at h2
  obtain ⟨s3, e3, n3, h3⟩ := setColor_frame _ _ _ _ _ _ _ _ RED h2
  rw [Foc_up] at h3
  obtain ⟨s4, e4, n4, h4⟩ := rotate_left_focus _ _ _ _ _ _ _ _ _ _ _ h3
  have h5 := (Foc_up s4 ⟨false, z, BLACK, d, .node g RED dg U r⟩ gs (.node p cp dp l A)).2 h4
  refine ⟨s4, ?_, by rw [n4, n3, n2, n1], h5⟩
  simp only [cell_false, cell_true, fill_false, fill_true, ptr_node, ctxPar_cons] at hng hnp hnz e4
  simp only [fix_insert_right, hng, hy, hnp, hnz, hU, e1, e2, e3, e4, Option.bind_eq_bind,
    Option.some_bind, bind, Option.bind, if_true, if_false, decide_False, Option.map,
    Bool.false_eq_true]

/-! ## The loop of `fix_insert` -/

theorem loop_exit_root (fuel : Nat) (s : RBState) (z : Nat) (nz : RBNode)
    (hnz : s.nodes z = some nz) (hp : nz.parent = none) :
    fix_insert_loop (fuel + 1) s z = some s := by
  simp only [fix_insert_loop, hnz, hp, Option.bind_eq_bind, Option.some_bind, bind, Option.bind]

theorem loop_exit_black (fuel : Nat) (s : RBState) (z : Nat) (nz : RBNode) (p : Nat)
    (np : RBNode) (hnz : s.nodes z = some nz) (hp : nz.parent = some p)
    (hnp : s.nodes p = some np) (hc : np.color ≠ RED) :
    fix_insert_loop (fuel + 1) s z = some s := by
  simp only [fix_insert_loop, hnz, hp, hnp, hc, Option.bind_eq_bind, Option.some_bind, bind,
    Option.bind, ne_eq, not_false_eq_true, if_true]

theorem loop_step_left (fuel : Nat) (s : RBState) (z : Nat) (nz : RBNode) (p : Nat)
    (np : RBNode) (g : Nat) (ng : RBNode) (s1 : RBState) (z1 : Nat)
    (hnz : s.nodes z = some nz) (hp : nz.parent = some p)
    (hnp : s.nodes p = some np) (hc : np.color = RED) (hg : np.parent = some g)
    (hng : s.nodes g = some ng) (hl : ng.left = some p)
    (hfix : fix_insert_left s z p g = some (s1, z1)) :
    fix_insert_loop (fuel + 1) s z = fix_insert_loop fuel s1 z1 := by
  simp only [fix_insert_loop, hnz, hp, hnp, hc, hg, hng, hl, hfix, Option.bind_eq_bind,
    Option.some_bind, bind, Option.bind, ne_eq, not_true_eq_false, if_true, if_false]

theorem loop_step_right (fuel : Nat) (s : RBState) (z : Nat) (nz : RBNode) (p : Nat)
    (np : RBNode) (g : Nat) (ng : RBNode) (s1 : RBState) (z1 : Nat)
    (hnz : s.nodes z = some nz) (hp : nz.parent = some p)
    (hnp : s.nodes p = some np) (hc : np.color = RED) (hg : np.parent = some g)
    (hng : s.nodes g = some ng) (hl : ng.left ≠ some p)
    (hfix : fix_insert_right s z p g = some (s1, z1)) :
    fix_insert_loop (fuel + 1) s z = fix_insert_loop fuel s1 z1 := by
  simp only [fix_insert_loop, hnz, hp, hnp, hc, hg, hng, hl, hfix, Option.bind_eq_bind,
    Option.some_bind, bind, Option.bind, ne_eq, not_true_eq_false, if_true, if_false]

theorem IsRB_color (t : RBT) (n : Nat) (h : IsRB t n) (hc : t.color ≠ RED) : t.color = BLACK := by
  cases t with
  | nil => rfl
  | node a c d l r =>
    rcases h with h | h
    · exact absurd h.1 hc
    · exact h.1

theorem IsRB_red (a : Nat) (d : Nat) (l r : RBT) (n : Nat) (h : IsRB (.node a RED d l r) n) :
    l.color = BLACK ∧ r.color = BLACK ∧ IsRB l n ∧ IsRB r n := by
  rcases h with h | h
  · exact h.2
  · exact absurd h.1 RED_ne_BLACK

theorem ptr_plug_ne (ctx : List Frame) (t : RBT) (h : t.ptr ≠ none) : (plug ctx t).ptr ≠ none := by
  induction ctx generalizing t with
  | nil => exact h
  | cons f fs ih =>
    rw [plug]
    apply ih
    rw [ptr_fill]
    exact Option.some_ne_none _

theorem fix_left_ok (fuel : Nat)
    (IH : ∀ (s : RBState) (ctx : List Frame) (t : RBT) (z : Nat) (n : Nat),
      ctx.length < fuel → t.ptr = some z → t.color = RED → Foc s ctx t → IsRB t n →
      CtxV ctx n → LoopEnds fuel s z (plug ctx t).inorder)
    (s : RBState) (z : Nat) (d : Nat) (l r : RBT) (n : Nat) (fl : Bool) (p : Nat) (dp : Nat)
    (A : RBT) (g : Nat) (dg : Nat) (U : RBT) (gs : List Frame)
    (hlen : gs.length + 1 < fuel)
    (h : Foc s (⟨fl, p, RED, dp, A⟩ :: ⟨true, g, BLACK, dg, U⟩ :: gs) (.node z RED d l r))
    (ht : IsRB (.node z RED d l r) n) (hA : IsRB A n) (hAc : A.color = BLACK)
    (hU : IsRB U n) (hgs : CtxV gs (n + 1)) :
    ∃ s1 z1, fix_insert_left s z p g = some (s1, z1) ∧ s1.next = s.next ∧
      LoopEnds fuel s1 z1
        (plug (⟨fl, p, RED, dp, A⟩ :: ⟨true, g, BLACK, dg, U⟩ :: gs) (.node z RED d l r)).inorder := by
  by_cases hUr : U.color = RED
  · cases U with
    | nil => exact absurd hUr.symm RED_ne_BLACK
    | node ya cy dy yl yr =>
      simp only [RBT.color] at hUr
      subst hUr
      obtain ⟨s1, e1, n1, h1⟩ := fix_insert_left_red s _ z _ _ _ _ _ _ _ _ _ _ _ _ _ h
      rw [Foc_up, Foc_up] at h1
      obtain ⟨-, -, hyl, hyr⟩ := IsRB_red _ _ _ _ _ hU
      have hY : IsRB (.node ya BLACK dy yl yr) (n + 1) := Or.inr ⟨rfl, n, rfl, hyl, hyr⟩
      have hI := IH s1 gs _ g (n + 1) (by omega) (ptr_fill _ _) (color_fill _ _) h1
        ((IsRB_fill _ _ _).2 (Or.inl ⟨rfl, color_fill _ _, rfl,
          (IsRB_fill _ _ _).2 (Or.inr ⟨rfl, n, rfl, ht, hA⟩), hY⟩)) hgs
      refine ⟨s1, g, e1, n1, ?_⟩
      have e : (plug gs ((⟨true, g, RED, dg, .node ya BLACK dy yl yr⟩ : Frame).fill
          ((⟨fl, p, BLACK, dp, A⟩ : Frame).fill (.node z RED d l r)))).inorder =
          (plug (⟨fl, p, RED, dp, A⟩ :: ⟨true, g, BLACK, dg, .node ya RED dy yl yr⟩ :: gs)
            (.node z RED d l r)).inorder := by
        simp only [plug]
        apply inorder_plug_congr
        cases fl <;> simp [Frame.fill, RBT.inorder]
      rw [← e]
      exact hI
  · have hUc := IsRB_color U n hU hUr
    rcases (IsRB_fill ⟨true, z, RED, d, r⟩ l n).1 ht with ⟨-, hlc, hrc, hl, hr⟩ | ⟨e, -⟩
    swap
    · exact absurd e RED_ne_BLACK
    cases fl with
    | true =>
      obtain ⟨s1, e1, n1, h1⟩ := fix_insert_left_outer s z RED d l r p RED dp A g BLACK dg U gs hUr h
      have hI := IH s1 (⟨true, p, BLACK, dp, .node g RED dg A U⟩ :: gs) (.node z RED d l r) z n
        (by simp only [List.length_cons]; omega) rfl rfl h1 ht
        ⟨(IsRB_fill ⟨true, g, RED, dg, U⟩ A n).2 (Or.inl ⟨rfl, hAc, hUc, hA, hU⟩),
          Or.inl ⟨rfl, hgs⟩⟩
      refine ⟨s1, z, e1, n1, ?_⟩
      have e : (plug (⟨true, p, BLACK, dp, .node g RED dg A U⟩ :: gs)
          (.node z RED d l r)).inorder =
          (plug (⟨true, p, RED, dp, A⟩ :: ⟨true, g, BLACK, dg, U⟩ :: gs)
            (.node z RED d l r)).inorder := by
        simp only [plug]
        apply inorder_plug_congr
        simp [Frame.fill, RBT.inorder]
      rw [← e]
      exact hI
    | false =>
      obtain ⟨s1, e1, n1, h1⟩ := fix_insert_left_inner s z RED d l r p RED dp A g BLACK dg U gs hUr h
      have hI := IH s1 (⟨true, z, BLACK, d, .node g RED dg r U⟩ :: gs) (.node p RED dp A l) p n
        (by simp only [List.length_cons]; omega) rfl rfl h1
        ((IsRB_fill ⟨false, p, RED, dp, A⟩ l n).2 (Or.inl ⟨rfl, hlc, hAc, hl, hA⟩))
        ⟨(IsRB_fill ⟨true, g, RED, dg, U⟩ r n).2 (Or.inl ⟨rfl, hrc, hUc, hr, hU⟩),
          Or.inl ⟨rfl, hgs⟩⟩
      refine ⟨s1, p, e1, n1, ?_⟩
      have e : (plug (⟨true, z, BLACK, d, .node g RED dg r U⟩ :: gs)
          (.node p RED dp A l)).inorder =
          (plug (⟨false, p, RED, dp, A⟩ :: ⟨true, g, BLACK, dg, U⟩ :: gs)
            (.node z RED d l r)).inorder := by
        simp only [plug]
        apply inorder_plug_congr
        simp [Frame.fill, RBT.inorder]
      rw [← e]
      exact hI

theorem fix_right_ok (fuel : Nat)
    (IH : ∀ (s : RBState) (ctx : List Frame) (t : RBT) (z : Nat) (n : Nat),
      ctx.length < fuel → t.ptr = some z → t.color = RED → Foc s ctx t → IsRB t n →
      CtxV ctx n → LoopEnds fuel s z (plug ctx t).inorder)
    (s : RBState) (z : Nat) (d : Nat) (l r : RBT) (n : Nat) (fl : Bool) (p : Nat) (dp : Nat)
    (A : RBT) (g : Nat) (dg : Nat) (U : RBT) (gs : List Frame)
    (hlen : gs.length + 1 < fuel)
    (h : Foc s (⟨fl, p, RED, dp, A⟩ :: ⟨false, g, BLACK, dg, U⟩ :: gs) (.node z RED d r l))
    (ht : IsRB (.node z RED d r l) n) (hA : IsRB A n) (hAc : A.color = BLACK)
    (hU : IsRB U n) (hgs : CtxV gs (n + 1)) :
    ∃ s1 z1, fix_insert_right s z p g = some (s1, z1) ∧ s1.next = s.next ∧
      LoopEnds fuel s1 z1
        (plug (⟨fl, p, RED, dp, A⟩ :: ⟨false, g, BLACK, dg, U⟩ :: gs) (.node z RED d r l)).inorder := by
  by_cases hUr : U.color = RED
  · cases U with
    | nil => exact absurd hUr.symm RED_ne_BLACK
    | node ya cy dy yr yl =>
      simp only [RBT.color] at hUr
      subst hUr
      obtain ⟨s1, e1, n1, h1⟩ := fix_insert_right_red s _ z _ _ _ _ _ _ _ _ _ _ _ _ _ h
      rw [Foc_up, Foc_up] at h1
      obtain ⟨-, -, hyl, hyr⟩ := IsRB_red _ _ _ _ _ hU
      have hY : IsRB (.node ya BLACK dy yr yl) (n + 1) := Or.inr ⟨rfl, n, rfl, hyl, hyr⟩
      have hI := IH s1 gs _ g (n + 1) (by omega) (ptr_fill _ _) (color_fill _ _) h1
        ((IsRB_fill _ _ _).2 (Or.inl ⟨rfl, color_fill _ _, rfl,
          (IsRB_fill _ _ _).2 (Or.inr ⟨rfl, n, rfl, ht, hA⟩), hY⟩)) hgs
      refine ⟨s1, g, e1, n1, ?_⟩
      have e : (plug gs ((⟨false, g, RED, dg, .node ya BLACK dy yr yl⟩ : Frame).fill
          ((⟨fl, p, BLACK, dp, A⟩ : Frame).fill (.node z RED d r l)))).inorder =
          (plug (⟨fl, p, RED, dp, A⟩ :: ⟨false, g, BLACK, dg, .node ya RED dy yr yl⟩ :: gs)
            (.node z RED d r l)).inorder := by
        simp only [plug]
        apply inorder_plug_congr
        cases fl <;> simp [Frame.fill, RBT.inorder]
      rw [← e]
      exact hI
  · have hUc := IsRB_color U n hU hUr
    rcases (IsRB_fill ⟨false, z, RED, d, r⟩ l n).1 ht with ⟨-, hlc, hrc, hl, hr⟩ | ⟨e, -⟩
    swap
    · exact absurd e RED_ne_BLACK
    cases fl with
    | false =>
      obtain ⟨s1, e1, n1, h1⟩ := fix_insert_right_outer s z RED d l r p RED dp A g BLACK dg U gs hUr h
      have hI := IH s1 (⟨false, p, BLACK, dp, .node g RED dg U A⟩ :: gs) (.node z RED d r l) z n
        (by simp only [List.length_cons]; omega) rfl rfl h1 ht
        ⟨(IsRB_fill ⟨false, g, RED, dg, U⟩ A n).2 (Or.inl ⟨rfl, hAc, hUc, hA, hU⟩),
          Or.inl ⟨rfl, hgs⟩⟩
      refine ⟨s1, z, e1, n1, ?_⟩
      have e : (plug (⟨false, p, BLACK, dp, .node g RED dg U A⟩ :: gs)
          (.node z RED d r l)).inorder =
          (plug (⟨false, p, RED, dp, A⟩ :: ⟨false, g, BLACK, dg, U⟩ :: gs)
            (.node z RED d r l)).inorder := by
        simp only [plug]
        apply inorder_plug_congr
        simp [Frame.fill, RBT.inorder]
      rw [← e]
      exact hI
    | true =>
      obtain ⟨s1, e1, n1, h1⟩ := fix_insert_right_inner s z RED d l r p RED dp A g BLACK dg U gs hUr h
      have hI := IH s1 (⟨false, z, BLACK, d, .node g RED dg U r⟩ :: gs) (.node p RED dp l A) p n
        (by simp only [List.length_cons]; omega) rfl rfl h1
        ((IsRB_fill ⟨true, p, RED, dp, A⟩ l n).2 (Or.inl ⟨rfl, hlc, hAc, hl, hA⟩))
        ⟨(IsRB_fill ⟨false, g, RED, dg, U⟩ r n).2 (Or.inl ⟨rfl, hrc, hUc, hr, hU⟩),
          Or.inl ⟨rfl, hgs⟩⟩
      refine ⟨s1, p, e1, n1, ?_⟩
      have e : (plug (⟨false, z, BLACK, d, .node g RED dg U r⟩ :: gs)
          (.node p RED dp l A)).inorder =
          (plug (⟨true, p, RED, dp, A⟩ :: ⟨false, g, BLACK, dg, U⟩ :: gs)
            (.node z RED d r l)).inorder := by
        simp only [plug]
        apply inorder_plug_congr
        simp [Frame.fill, RBT.inorder]
      rw [← e]
      exact hI

theorem LoopEnds_step (fuel : Nat) (s s1 : RBState) (z z1 : Nat) (w : List Nat)
    (e : fix_insert_loop (fuel + 1) s z = fix_insert_loop fuel s1 z1) (hn : s1.next = s.next)
    (h : LoopEnds fuel s1 z1 w) : LoopEnds (fuel + 1) s z w := by
  obtain ⟨s2, T, e2, n2, rest⟩ := h
  exact ⟨s2, T, by rw [e, e2], by rw [n2, hn], rest⟩

theorem fix_insert_loop_ok (fuel : Nat) :
    ∀ (s : RBState) (ctx : List Frame) (t : RBT) (z : Nat) (n : Nat),
      ctx.length < fuel → t.ptr = some z → t.color = RED → Foc s ctx t → IsRB t n →
      CtxV ctx n → LoopEnds fuel s z (plug ctx t).inorder := by
  induction fuel with
  | zero =>
    intro s ctx t z n hlen
    omega
  | succ fuel ih =>
    intro s ctx t z n hlen hz hc h ht hv
    cases t with
    | nil => cases hz
    | node z1 c d l r =>
      simp only [RBT.ptr, Option.some.injEq, RBT.color] at hz hc
      subst hz hc
      have hnz := Foc_read _ _ _ _ _ _ _ h
      cases ctx with
      | nil =>
        obtain ⟨-, -, hl, hr⟩ := IsRB_red _ _ _ _ _ ht
        exact ⟨s, _, loop_exit_root fuel s z1 _ hnz rfl, rfl, (Foc_nil _ _).1 h,
          ⟨n + 1, Or.inr ⟨rfl, n, rfl, hl, hr⟩⟩, rfl⟩
      | cons f fs =>
        obtain ⟨fl, p, cp, dp, A⟩ := f
        have hnp := read_frame _ _ _ _ h
        by_cases hcp : cp = RED
        · subst hcp
          obtain ⟨hA, ⟨e, -⟩ | ⟨-, hAc, htop, hfs⟩⟩ := hv
          · exact absurd e RED_ne_BLACK
          cases fs with
          | nil => exact htop.elim
          | cons g gs =>
            obtain ⟨gl, g, cg, dg, U⟩ := g
            simp only [topBlack] at htop
            subst htop
            obtain ⟨hU, ⟨-, hgs⟩ | ⟨e, -⟩⟩ := hfs
            swap
            · exact absurd e.symm RED_ne_BLACK
            have hup := (Foc_up _ _ _ _).1 h
            have hng := read_frame _ _ _ _ hup
            simp only [List.length_cons] at hlen
            cases gl with
            | true =>
              obtain ⟨s1, z2, e1, n1, hL⟩ :=
                fix_left_ok fuel ih s z1 d l r n fl p dp A g dg U gs (by omega) h ht hA hAc hU hgs
              refine LoopEnds_step fuel s s1 z1 z2 _ ?_ n1 hL
              exact loop_step_left fuel s z1 _ p _ g _ s1 z2 hnz rfl hnp rfl rfl hng
                (by rw [cell_true, ptr_fill]) e1
            | false =>
              obtain ⟨s1, z2, e1, n1, hL⟩ :=
                fix_right_ok fuel ih s z1 d r l n fl p dp A g dg U gs (by omega) h ht hA hAc hU hgs
              refine LoopEnds_step fuel s s1 z1 z2 _ ?_ n1 hL
              refine loop_step_right fuel s z1 _ p _ g _ s1 z2 hnz rfl hnp rfl rfl hng ?_ e1
              rw [cell_false]
              refine ptr_ne _ _ (fun e => ?_)
              have hn := h.nodup
              simp only [RBT.addrs, ctxAddrs, List.cons_append, List.nodup_cons, List.mem_append,
                List.mem_cons, not_or, List.nodup_append] at hn
              exact hn.2.2.1.1.2.2.1 e
        · have hb : cp = BLACK := by
            obtain ⟨-, ⟨e, -⟩ | ⟨e, -⟩⟩ := hv
            · exact e
            · exact absurd e hcp
          refine ⟨s, _, loop_exit_black fuel s z1 _ p _ hnz rfl hnp hcp, rfl, (WF_plug _ _ _).2 h,
            ?_, rfl⟩
          refine Valid_NearRB _ (plug_valid _ n _ hv ht (Or.inr hb)) (ptr_plug_ne _ _ ?_)
          exact Option.some_ne_none _

/-! ## `rbtree_insert` -/

theorem size_eq_length (t : RBT) : t.size = t.addrs.length := by
  induction t with
  | nil => rfl
  | node a c d l r ihl ihr =>
    simp only [RBT.size, RBT.addrs, List.length_cons, List.length_append, ihl, ihr]
    omega

theorem readTree_shape (m : Nat → Option RBNode) (t : RBT) :
    ∀ (par : Option Nat) (fuel : Nat), Shape m par t → t.size < fuel →
      readTree m fuel t.ptr = some t := by
  induction t with
  | nil =>
    intro par fuel _ hf
    cases fuel with
    | zero => omega
    | succ k => rfl
  | node a c d l r ihl ihr =>
    intro par fuel h hf
    cases fuel with
    | zero => omega
    | succ k =>
      simp only [RBT.size] at hf
      obtain ⟨h1, h2, h3⟩ := h
      simp only [ptr_node, readTree, h1, ihl _ k h2 (by omega), ihr _ k h3 (by omega),
        Option.bind_eq_bind, Option.some_bind, bind, Option.bind]

theorem WF_tree (s : RBState) (T : RBT) (h : WF s T) : s.tree = some T := by
  unfold RBState.tree
  rw [h.root]
  refine readTree_shape _ _ _ _ h.shape ?_
  have := nodup_bound_length _ _ h.nodup h.bound
  rw [size_eq_length]
  omega

theorem insert_descend_ok (cmp : Nat → Nat → Int) (data : Nat) (s : RBState) (t : RBT) :
    ∀ (fuel : Nat) (ctx : List Frame), t.size < fuel → Foc s ctx t →
      (∀ f ∈ ctx, f.isLeft = decide (cmp data f.d < 0)) →
      ∃ ctx1, insert_descend cmp data fuel s (ctxPar ctx) t.ptr = some (ctxPar ctx1) ∧
        Foc s ctx1 .nil ∧ plug ctx1 .nil = plug ctx t ∧
        (∀ f ∈ ctx1, f.isLeft = decide (cmp data f.d < 0)) := by
  induction t with
  | nil =>
    intro fuel ctx hf h hd
    cases fuel with
    | zero => omega
    | succ k => exact ⟨ctx, rfl, h, rfl, hd⟩
  | node a c d l r ihl ihr =>
    intro fuel ctx hf h hd
    cases fuel with
    | zero => omega
    | succ k =>
      simp only [RBT.size] at hf
      have hn := Foc_read _ _ _ _ _ _ _ h
      by_cases hc : cmp data d < 0
      · have h1 : Foc s (⟨true, a, c, d, r⟩ :: ctx) l := (Foc_up _ _ _ _).2 h
        obtain ⟨ctx1, e1, f1, p1, d1⟩ := ihl k _ (by omega) h1 (by
          intro f hf
          rcases List.mem_cons.1 hf with e | e
          · subst e
            simp [hc]
          · exact hd f e)
        refine ⟨ctx1, ?_, f1, p1, d1⟩
        simp only [ptr_node, insert_descend, hn, hc, Option.bind_eq_bind, Option.some_bind, bind,
          Option.bind, if_true]
        exact e1
      · have h1 : Foc s (⟨false, a, c, d, l⟩ :: ctx) r := (Foc_up _ _ _ _).2 h
        obtain ⟨ctx1, e1, f1, p1, d1⟩ := ihr k _ (by omega) h1 (by
          intro f hf
          rcases List.mem_cons.1 hf with e | e
          · subst e
            simp [hc]
          · exact hd f e)
        refine ⟨ctx1, ?_, f1, p1, d1⟩
        simp only [ptr_node, insert_descend, hn, hc, Option.bind_eq_bind, Option.some_bind, bind,
          Option.bind, if_false]
        exact e1

theorem linked_next (s : RBState) (data : Nat) (ctx : List Frame) :
    (linked s data ctx).next = s.next + 1 := by
  cases ctx <;> rfl

theorem linked_Foc (s : RBState) (data : Nat) (ctx : List Frame) (h : Foc s ctx .nil) :
    Foc (linked s data ctx) ctx (.node s.next RED data .nil .nil) := by
  obtain ⟨hroot, -, hctx, hnd, hbd⟩ := h
  simp only [RBT.addrs, List.nil_append] at hnd hbd
  have hz : s.next ∉ ctxAddrs ctx := fun e => Nat.lt_irrefl _ (hbd _ e)
  have hnd1 : ((RBT.node s.next RED data .nil .nil).addrs ++ ctxAddrs ctx).Nodup := by
    simp only [RBT.addrs, List.nil_append, List.cons_append, List.nodup_cons]
    exact ⟨hz, hnd⟩
  have hbd1 : ∀ a ∈ (RBT.node s.next RED data .nil .nil).addrs ++ ctxAddrs ctx,
      a < s.next + 1 := by
    intro a ha
    simp only [RBT.addrs, List.nil_append, List.cons_append, List.mem_cons] at ha
    rcases ha with e | e
    · omega
    · exact Nat.lt_succ_of_lt (hbd a e)
  cases ctx with
  | nil =>
    refine ⟨rfl, ⟨upd_same _ _ _, trivial, trivial⟩, trivial, hnd1, hbd1⟩
  | cons f fs =>
    obtain ⟨hc1, hc2, hc3⟩ := hctx
    have hfa : f.a ≠ s.next := fun e => hz (by rw [← e]; simp [ctxAddrs])
    have hfn := (List.nodup_cons.1 hnd).1
    have hsub : ∀ a ∈ f.sib.addrs ++ ctxAddrs fs, (linked s data (f :: fs)).nodes a = s.nodes a := by
      intro a ha
      have h1 : a ≠ f.a := fun e => hfn (e ▸ ha)
      have h2 : a ≠ s.next := fun e => hz (by rw [← e]; exact List.mem_cons_of_mem _ ha)
      simp only [linked]
      rw [upd_ne _ _ _ _ h1, upd_ne _ _ _ _ h2]
    refine ⟨hroot, ⟨?_, trivial, trivial⟩, ⟨upd_same _ _ _, ?_, ?_⟩, hnd1, hbd1⟩
    · simp only [linked]
      rw [upd_ne _ _ _ _ (fun e => hfa e.symm), upd_same]
      rfl
    · exact Shape_congr _ _ _ _ (fun a ha => hsub a (List.mem_append_left _ ha)) hc2
    · exact ShapeCtx_congr _ _ _ _ (fun a ha => hsub a (List.mem_append_right _ ha)) hc3

theorem rbtree_insert_eq (cmp : Nat → Nat → Int) (s : RBState) (data : Nat) (ctx : List Frame)
    (hy : insert_descend cmp data (s.next + 1) s none s.root = some (ctxPar ctx))
    (h : Foc s ctx .nil) (hd : ∀ f ∈ ctx, f.isLeft = decide (cmp data f.d < 0)) :
    rbtree_insert cmp s data = fix_insert (s.next + 2) (linked s data ctx) s.next := by
  cases ctx with
  | nil =>
    simp only [rbtree_insert, hy, new_node, ctxPar, linked, Option.bind_eq_bind,
      Option.some_bind, bind, Option.bind]
  | cons f fs =>
    obtain ⟨fl, p, cp, dp, A⟩ := f
    have hnp := read_frame _ _ _ _ h
    have hz : p ≠ s.next := by
      intro e
      have := h.bound p (by simp [ctxAddrs])
      omega
    have hdir := hd _ (List.mem_cons_self _ _)
    simp only at hdir
    cases fl with
    | true =>
      have hc : cmp data dp < 0 := by simpa using hdir.symm
      simp only [rbtree_insert, hy, new_node, ctxPar, linked, Option.bind_eq_bind,
        Option.some_bind, bind, Option.bind, upd, hz, if_false, hnp, cell_true, hc, if_true,
        RBState.setLeft, RBState.write, RBT.ptr]
    | false =>
      have hc : ¬ cmp data dp < 0 := by simpa using hdir.symm
      simp only [rbtree_insert, hy, new_node, ctxPar, linked, Option.bind_eq_bind,
        Option.some_bind, bind, Option.bind, upd, hz, if_false, hnp, cell_false, hc,
        RBState.setRight, RBState.write, RBT.ptr]

theorem fix_insert_ok (fuel : Nat) (s : RBState) (ctx : List Frame) (t : RBT) (z : Nat) (n : Nat)
    (hlen : ctx.length < fuel) (hz : t.ptr = some z) (hc : t.color = RED) (h : Foc s ctx t)
    (ht : IsRB t n) (hv : CtxV ctx n) :
    ∃ s2 T, fix_insert fuel s z = some s2 ∧ s2.next = s.next ∧ WF s2 T ∧ Valid T ∧
      T.inorder = (plug ctx t).inorder := by
  obtain ⟨s1, T, e1, n1, hwf, hnear, hin⟩ := fix_insert_loop_ok fuel s ctx t z n hlen hz hc h ht hv
  cases T with
  | nil => exact hnear.elim
  | node a c d l r =>
    obtain ⟨m, hm⟩ := hnear
    have hroot := hwf.root
    obtain ⟨s2, e2, n2, h2⟩ := setColor_focus s1 [] a c d l r BLACK ((Foc_nil _ _).2 hwf)
    refine ⟨s2, .node a BLACK d l r, ?_, by rw [n2, n1], (Foc_nil _ _).1 h2, ⟨rfl, m, hm⟩, ?_⟩
    · simp only [fix_insert, e1, hroot, ptr_node, e2, Option.bind_eq_bind, Option.some_bind, bind,
        Option.bind]
    · rw [← hin]
      rfl

/-- The effect of `rbtree_insert` on a state that holds a red-black tree `T`: the
call returns, and the new state holds a red-black tree whose in-order payloads
are those of `T` with the new payload placed at the end of the search path. -/
theorem rbtree_insert_ok (cmp : Nat → Nat → Int) (s : RBState) (T : RBT) (data : Nat)
    (hwf : WF s T) (hv : Valid T) :
    ∃ s1 T1, rbtree_insert cmp s data = some s1 ∧ s1.next = s.next + 1 ∧ WF s1 T1 ∧ Valid T1 ∧
      ∃ ctx, plug ctx .nil = T ∧ (∀ f ∈ ctx, f.isLeft = decide (cmp data f.d < 0)) ∧
        T1.inorder = (plug ctx (.node s.next RED data .nil .nil)).inorder := by
  have hF : Foc s [] T := (Foc_nil _ _).2 hwf
  have hsz : T.size < s.next + 1 := by
    have := Foc_length _ _ _ hF
    rw [size_eq_length]
    simp only [List.length_nil] at this
    omega
  obtain ⟨ctx, e1, f1, p1, d1⟩ := insert_descend_ok cmp data s T (s.next + 1) [] hsz hF
    (fun f hf => absurd hf (List.not_mem_nil f))
  rw [← hwf.root] at e1
  have hL := linked_Foc s data ctx f1
  have hlen : ctx.length < s.next + 2 := by
    have := Foc_length _ _ _ hL
    rw [linked_next] at this
    omega
  have hv1 : Valid (plug ctx .nil) := by
    rw [p1]
    exact hv
  obtain ⟨n, hn, hctx, -⟩ := valid_plug ctx .nil hv1
  simp only [IsRB] at hn
  subst hn
  obtain ⟨s2, T1, e2, n2, hwf2, hv2, hin⟩ := fix_insert_ok (s.next + 2) (linked s data ctx) ctx
    (.node s.next RED data .nil .nil) s.next 0 hlen rfl rfl hL
    (Or.inl ⟨rfl, rfl, rfl, rfl, rfl⟩) hctx
  refine ⟨s2, T1, ?_, by rw [n2, linked_next], hwf2, hv2, ctx, p1, d1, hin⟩
  rw [rbtree_insert_eq cmp s data ctx e1 f1 d1]
  exact e2

/-! ## The claims on the red-black tree -/

theorem fiveState_WF : WF fiveState fiveTree := by
  refine ⟨rfl, ?_, by decide, by decide⟩
  exact ⟨rfl, ⟨rfl, trivial, trivial⟩, ⟨rfl, ⟨rfl, trivial, trivial⟩, ⟨rfl, trivial, trivial⟩⟩⟩

/-- C15: a state that holds a red-black tree `T` (every node RED or BLACK, root
BLACK, no RED node with a RED child, the same number of BLACK nodes on every path
from the root to a null pointer) is taken by `rbtree_insert`, for every
comparator and every payload, to a state that holds a tree with the same
properties; the call returns. -/
theorem rbtree_insert_preserves_colours (cmp : Nat → Nat → Int) (s : RBState) (T : RBT)
    (data : Nat) (hwf : WF s T) (hc : T.coloured) (hroot : T.rootBlack) (hred : T.noRedRed)
    (hbal : T.balanced) :
    ∃ s1 T1, rbtree_insert cmp s data = some s1 ∧ s1.tree = some T1 ∧ WF s1 T1 ∧
      T1.coloured ∧ T1.rootBlack ∧ T1.noRedRed ∧ T1.balanced := by
  obtain ⟨s1, T1, e1, -, hwf1, hv1, -⟩ :=
    rbtree_insert_ok cmp s T data hwf ((Valid_iff T).2 ⟨hc, hroot, hred, hbal⟩)
  exact ⟨s1, T1, e1, WF_tree s1 T1 hwf1, hwf1, (Valid_iff T1).1 hv1⟩

/-- Witness of C15: the tree built by inserting 10, 20, 30, 40, 50 into an empty
tree is red-black, and inserting 25 into a state that holds it gives a red-black
tree; run from the empty tree, the six inserts give the tree `sixTree`, whose
in-order payloads are 10, 20, 25, 30, 40, 50. -/
theorem rbtree_insert_preserves_colours_witness :
    (runOps intCmp rbtree_create fiveInserts).bind RBState.tree = some fiveTree ∧
      WF fiveState fiveTree ∧ fiveTree.coloured ∧ fiveTree.rootBlack ∧ fiveTree.noRedRed ∧
      fiveTree.balanced ∧
      (∃ s1 T1, rbtree_insert intCmp fiveState 25 = some s1 ∧ s1.tree = some T1 ∧ WF s1 T1 ∧
        T1.coloured ∧ T1.rootBlack ∧ T1.noRedRed ∧ T1.balanced) ∧
      (rbtree_insert intCmp fiveState 25).bind RBState.tree = some sixTree ∧
      sixTree.inorder = [10, 20, 25, 30, 40, 50] :=
  ⟨by decide!, fiveState_WF, by decide, by decide, by decide, by decide,
    rbtree_insert_preserves_colours intCmp fiveState fiveTree 25 fiveState_WF (by decide)
      (by decide) (by decide) (by decide),
    by decide!, by decide⟩

/-- C16, evaluation at the failing input: the tree built by inserting 1, 2, 3, 4
is red-black and in ascending order, and `rbtree_delete` of the stored payload 1
(a BLACK node without children) returns a tree whose paths from the root to the
null pointers do not hold the same number of BLACK nodes. -/
theorem delete_black_leaf_unbalanced :
    (runOps intCmp rbtree_create fourInserts).bind RBState.tree = some fourTree ∧
      fourTree.coloured ∧ fourTree.rootBlack ∧ fourTree.noRedRed ∧ fourTree.balanced ∧
      fourTree.inorder = [1, 2, 3, 4] ∧
      (runOps intCmp rbtree_create fourInserts).bind
        (fun s => (rbtree_delete intCmp s 1).bind RBState.tree) = some fourTreeDeleted ∧
      ¬ fourTreeDeleted.balanced :=
  ⟨by decide!, by decide, by decide, by decide, by decide, by decide, by decide!, by decide⟩

/-- C17, evaluation at the failing input: the tree built by `chainOps` has a
BLACK root and no RED node with a RED child, it stores the payload 5, and
`rbtree_delete` of 5 is not defined on it (the sibling `w` is null when
`w->left` is read). -/
theorem delete_null_sibling :
    (runOps intCmp rbtree_create chainOps).bind RBState.tree = some chainTree ∧
      chainTree.rootBlack ∧ chainTree.noRedRed ∧ 5 ∈ chainTree.inorder ∧
      ((runOps intCmp rbtree_create chainOps).bind
        (fun s => rbtree_delete intCmp s 5)).isNone = true :=
  ⟨by decide!, by decide, by decide, by decide, by decide!⟩

/-- C18, evaluation at the failing input: the ten calls of `crashPrefix` on a
fresh tree return and leave `crashTree`, and the eleventh call, `rbtree_delete`
of the stored payload 5, is not defined, so that the sequence has no resulting
tree. -/
theorem run_undefined :
    (runOps intCmp rbtree_create crashPrefix).bind RBState.tree = some crashTree ∧
      crashTree.inorder = [1, 2, 5, 7] ∧
      (runOps intCmp rbtree_create (crashPrefix ++ [.delete 5])).isNone = true :=
  ⟨by decide!, by decide, by decide!⟩

/-- C19, evaluation at the failing input: the tree built by `sortedOps` is in
ascending order of the payloads, which `intCmp` never compares equal unless they
are the same, it stores 4, and `rbtree_delete` of 4 is not defined on it, so
that there is no tree afterwards. -/
theorem delete_stored_undefined :
    (runOps intCmp rbtree_create sortedOps).bind RBState.tree = some sortedTree ∧
      sortedTree.inorder = [3, 4, 10] ∧
      sortedTree.inorder.Pairwise (fun a b => intCmp a b < 0) ∧
      (∀ a ∈ sortedTree.inorder, ∀ b ∈ sortedTree.inorder, intCmp a b = 0 → a = b) ∧
      ((runOps intCmp rbtree_create sortedOps).bind
        (fun s => rbtree_delete intCmp s 4)).isNone = true :=
  ⟨by decide!, by decide, by decide, by decide, by decide!⟩

/-- C20, evaluation at the failing input: under the comparator `tieCmp`, for
which all payloads compare equal, the three inserts of 1, 2, 3 build a tree that
stores 1 in the left child of the root, and `rbtree_delete` of 1 returns without
removing it: the tree is the same as before the call. -/
theorem delete_tie_not_found :
    (runOps tieCmp rbtree_create tieInserts).bind RBState.tree = some tieTree ∧
      tieTree.inorder = [1, 2, 3] ∧
      (runOps tieCmp rbtree_create tieInserts).bind
        (fun s => (rbtree_delete tieCmp s 1).bind RBState.tree) = some tieTree :=
  ⟨by decide!, by decide, by decide!⟩

/-! ## Lookup of an absent payload and the leftmost node -/

theorem delete_find_absent (cmp : Nat → Nat → Int) (data : Nat) (s : RBState) (t : RBT) :
    ∀ (par : Option Nat) (fuel : Nat), Shape s.nodes par t → t.size < fuel →
      data ∉ t.inorder → delete_find cmp data fuel s t.ptr = some none := by
  induction t with
  | nil =>
    intro par fuel _ hf _
    cases fuel with
    | zero => omega
    | succ k => rfl
  | node a c d l r ihl ihr =>
    intro par fuel h hf hn
    cases fuel with
    | zero => omega
    | succ k =>
      simp only [RBT.size] at hf
      simp only [RBT.inorder, List.mem_append, List.mem_cons, not_or] at hn
      obtain ⟨h1, h2, h3⟩ := h
      have hd : ¬ d = data := fun e => hn.2.1 e.symm
      by_cases hc : cmp data d < 0
      · simp only [ptr_node, delete_find, h1, hd, hc, Option.bind_eq_bind, Option.some_bind, bind,
          Option.bind, if_true, if_false]
        exact ihl _ k h2 (by omega) hn.1
      · simp only [ptr_node, delete_find, h1, hd, hc, Option.bind_eq_bind, Option.some_bind, bind,
          Option.bind, if_false]
        exact ihr _ k h3 (by omega) hn.2.2

theorem size_lt_next (s : RBState) (T : RBT) (h : WF s T) : T.size < s.next + 1 := by
  have := nodup_bound_length _ _ h.nodup h.bound
  rw [size_eq_length]
  omega

theorem rbtree_delete_absent (cmp : Nat → Nat → Int) (s : RBState) (T : RBT) (data : Nat)
    (hwf : WF s T) (h : data ∉ T.inorder) : rbtree_delete cmp s data = some s := by
  have hf := delete_find_absent cmp data s T none (s.next + 1) hwf.shape (size_lt_next s T hwf) h
  rw [← hwf.root] at hf
  simp only [rbtree_delete, hf, Option.bind_eq_bind, Option.some_bind, bind, Option.bind]

theorem leftmost_head (t : RBT) : t.leftmost = t.inorder.head? := by
  induction t with
  | nil => rfl
  | node a c d l r ihl _ =>
    cases l with
    | nil => rfl
    | node a1 c1 d1 l1 r1 =>
      rw [RBT.leftmost]
      · rw [ihl]
        simp only [RBT.inorder]
        cases l1.inorder <;> rfl
      · intro e
        cases e

theorem tree_min_shape (s : RBState) (t : RBT) :
    ∀ (par : Option Nat) (fuel : Nat), Shape s.nodes par t → t.size < fuel →
      (tree_min fuel s t.ptr).bind (fun m =>
        match m with
        | none => some none
        | some a => (s.nodes a).map (fun n => some n.data)) = some t.leftmost := by
  induction t with
  | nil =>
    intro par fuel _ hf
    cases fuel with
    | zero => omega
    | succ k => rfl
  | node a c d l r ihl _ =>
    intro par fuel h hf
    cases fuel with
    | zero => omega
    | succ k =>
      simp only [RBT.size] at hf
      obtain ⟨h1, h2, -⟩ := h
      cases l with
      | nil =>
        simp only [ptr_node, tree_min, h1, RBT.ptr, RBT.leftmost, Option.bind_eq_bind,
          Option.some_bind, bind, Option.bind, Option.map]
      | node a1 c1 d1 l1 r1 =>
        have := ihl _ k h2 (by omega)
        simp only [ptr_node] at this
        simp only [ptr_node, tree_min, h1, RBT.leftmost, Option.bind_eq_bind, Option.some_bind,
          bind, Option.bind]
        exact this

theorem rbtree_min_eq (s : RBState) (T : RBT) (hwf : WF s T) :
    rbtree_min s = some T.leftmost := by
  have h := tree_min_shape s T none (s.next + 1) hwf.shape (size_lt_next s T hwf)
  rw [← hwf.root] at h
  rw [← h]
  unfold rbtree_min
  cases tree_min (s.next + 1) s s.root <;> rfl

/-! ## The in-order walk after `rbtree_insert` -/

theorem inorder_plug (ctx : List Frame) (t : RBT) :
    (plug ctx t).inorder = ctxLeft ctx ++ t.inorder ++ ctxRight ctx := by
  induction ctx generalizing t with
  | nil => simp [plug, ctxLeft, ctxRight]
  | cons f fs ih =>
    rw [plug, ih]
    unfold Frame.fill
    cases hf : f.isLeft <;> simp [ctxLeft, ctxRight, hf, RBT.inorder]

theorem le_of_not_lt (cmp : Nat → Nat → Int) (hpre : IsPreorder cmp) (a b : Nat)
    (h : 0 ≤ cmp a b) : cmp b a ≤ 0 := by
  have := (hpre.1 a b).not
  have h2 := hpre.1 b a
  omega

theorem path_bounds (cmp : Nat → Nat → Int) (hpre : IsPreorder cmp) (data : Nat)
    (ctx : List Frame) :
    (ctxLeft ctx ++ ctxRight ctx).Pairwise (fun a b => cmp a b ≤ 0) →
      (∀ f ∈ ctx, f.isLeft = decide (cmp data f.d < 0)) →
      (∀ x ∈ ctxLeft ctx, 0 ≤ cmp data x) ∧ (∀ y ∈ ctxRight ctx, cmp data y < 0) := by
  induction ctx with
  | nil =>
    intro _ _
    simp [ctxLeft, ctxRight]
  | cons f fs ih =>
    intro hp hd
    have hdf := hd f (List.mem_cons_self _ _)
    have hd1 : ∀ g ∈ fs, g.isLeft = decide (cmp data g.d < 0) :=
      fun g hg => hd g (List.mem_cons_of_mem _ hg)
    cases hf : f.isLeft with
    | true =>
      rw [hf] at hdf
      have hlt : cmp data f.d < 0 := by simpa using hdf.symm
      simp only [ctxLeft, ctxRight, hf, if_true] at hp ⊢
      have hsub : (ctxLeft fs ++ ctxRight fs).Pairwise (fun a b => cmp a b ≤ 0) := by
        refine hp.sublist ?_
        refine List.Sublist.append (List.Sublist.refl _) ?_
        exact List.sublist_append_right _ _
      obtain ⟨h1, h2⟩ := ih hsub hd1
      refine ⟨h1, ?_⟩
      intro y hy
      rcases List.mem_append.1 hy with hy | hy
      · rcases List.mem_cons.1 hy with rfl | hy
        · exact hlt
        · have hle : cmp f.d y ≤ 0 := by
            have h3 := (List.pairwise_append.1 hp).2.1
            simp only [List.cons_append, List.pairwise_cons, List.mem_append] at h3
            exact h3.1 y (Or.inl hy)
          by_contra hc
          have h4 := le_of_not_lt cmp hpre data y (by omega)
          have h5 := hpre.2 _ _ _ hle h4
          have h6 := hpre.1 data f.d
          omega
      · exact h2 y hy
    | false =>
      rw [hf] at hdf
      have hge : ¬ cmp data f.d < 0 := by simpa using hdf.symm
      simp only [ctxLeft, ctxRight, hf] at hp ⊢
      have hsub : (ctxLeft fs ++ ctxRight fs).Pairwise (fun a b => cmp a b ≤ 0) := by
        refine hp.sublist ?_
        refine List.Sublist.append ?_ (List.Sublist.refl _)
        exact List.sublist_append_left _ _
      obtain ⟨h1, h2⟩ := ih hsub hd1
      refine ⟨?_, h2⟩
      intro x hx
      have hfd : cmp f.d data ≤ 0 := le_of_not_lt cmp hpre data f.d (by omega)
      rcases List.mem_append.1 hx with hx | hx
      · exact h1 x hx
      · rcases List.mem_append.1 hx with hx | hx
        · have hle : cmp x f.d ≤ 0 := by
            have h3 := (List.pairwise_append.1 hp).1
            have h4 := (List.pairwise_append.1 h3).2.1
            have h5 := (List.pairwise_append.1 h4).2.2
            exact h5 x hx f.d (by simp)
          have h5 := hpre.2 _ _ _ hle hfd
          have h6 := hpre.1 data x
          omega
        · simp only [List.mem_singleton] at hx
          subst hx
          omega

theorem pairwise_insert (cmp : Nat → Nat → Int) (hpre : IsPreorder cmp) (data : Nat)
    (L R : List Nat) (hp : (L ++ R).Pairwise (fun a b => cmp a b ≤ 0))
    (hL : ∀ x ∈ L, 0 ≤ cmp data x) (hR : ∀ y ∈ R, cmp data y < 0) :
    (L ++ data :: R).Pairwise (fun a b => cmp a b ≤ 0) := by
  obtain ⟨h1, h2, h3⟩ := List.pairwise_append.1 hp
  refine List.pairwise_append.2 ⟨h1, List.pairwise_cons.2 ⟨?_, h2⟩, ?_⟩
  · intro y hy
    exact le_of_lt (hR y hy)
  · intro x hx y hy
    rcases List.mem_cons.1 hy with rfl | hy
    · exact le_of_not_lt cmp hpre _ x (hL x hx)
    · exact h3 x hx y hy

/-- The effect of `rbtree_insert` on the in-order walk of a red-black tree that
is sorted under a total preorder: the new payload is placed after the payloads
it does not compare below and before those it compares below. -/
theorem rbtree_insert_sorted (cmp : Nat → Nat → Int) (hpre : IsPreorder cmp) (s : RBState)
    (T : RBT) (data : Nat) (hwf : WF s T) (hv : Valid T) (hs : T.sorted cmp) :
    ∃ s1 T1, rbtree_insert cmp s data = some s1 ∧ s1.next = s.next + 1 ∧ WF s1 T1 ∧ Valid T1 ∧
      T1.sorted cmp ∧
      ∃ L R, T.inorder = L ++ R ∧ T1.inorder = L ++ data :: R ∧
        (∀ x ∈ L, 0 ≤ cmp data x) ∧ (∀ y ∈ R, cmp data y < 0) := by
  obtain ⟨s1, T1, e1, n1, hwf1, hv1, ctx, hp, hd, hin⟩ := rbtree_insert_ok cmp s T data hwf hv
  have hT : T.inorder = ctxLeft ctx ++ ctxRight ctx := by
    rw [← hp, inorder_plug]
    simp [RBT.inorder]
  have hT1 : T1.inorder = ctxLeft ctx ++ data :: ctxRight ctx := by
    rw [hin, inorder_plug]
    simp [RBT.inorder]
  have hs1 : (ctxLeft ctx ++ ctxRight ctx).Pairwise (fun a b => cmp a b ≤ 0) := by
    rw [← hT]
    exact hs
  obtain ⟨hL, hR⟩ := path_bounds cmp hpre data ctx hs1 hd
  refine ⟨s1, T1, e1, n1, hwf1, hv1, ?_, ctxLeft ctx, ctxRight ctx, hT, hT1, hL, hR⟩
  unfold RBT.sorted
  rw [hT1]
  exact pairwise_insert cmp hpre data _ _ hs1 hL hR

theorem inserts_sorted (cmp : Nat → Nat → Int) (hpre : IsPreorder cmp) :
    ∀ (ds : List Nat) (s : RBState) (T : RBT), WF s T → Valid T → T.sorted cmp →
      ∃ s1 T1, runOps cmp s (inserts ds) = some s1 ∧ WF s1 T1 ∧ Valid T1 ∧ T1.sorted cmp ∧
        T1.inorder.Perm (ds ++ T.inorder)
  | [], s, T, hwf, hv, hs => ⟨s, T, rfl, hwf, hv, hs, List.Perm.refl _⟩
  | d :: ds, s, T, hwf, hv, hs => by
    obtain ⟨s1, T1, e1, -, hwf1, hv1, hs1, L, R, hT, hT1, -, -⟩ :=
      rbtree_insert_sorted cmp hpre s T d hwf hv hs
    obtain ⟨s2, T2, e2, hwf2, hv2, hs2, hperm⟩ := inserts_sorted cmp hpre ds s1 T1 hwf1 hv1 hs1
    refine ⟨s2, T2, ?_, hwf2, hv2, hs2, ?_⟩
    · simp only [inserts, List.map_cons, runOps, e1, Option.bind]
      exact e2
    · refine hperm.trans ?_
      rw [hT1, hT]
      refine List.Perm.trans (List.Perm.append_left ds List.perm_middle) ?_
      exact List.perm_middle

theorem sorted_ordered (cmp : Nat → Nat → Int) (hpre : IsPreorder cmp) (t : RBT)
    (h : t.sorted cmp) : t.ordered cmp := by
  induction t with
  | nil => trivial
  | node a c d l r ihl ihr =>
    unfold RBT.sorted at h ihl ihr
    simp only [RBT.inorder] at h
    obtain ⟨h1, h2, h3⟩ := List.pairwise_append.1 h
    obtain ⟨h4, h5⟩ := List.pairwise_cons.1 h2
    refine ⟨fun x hx => h3 x hx d (List.mem_cons_self _ _), fun x hx => ?_, ihl h1, ihr h5⟩
    have h6 := h4 x hx
    have h7 := hpre.1 x d
    omega

theorem create_WF : WF rbtree_create .nil :=
  ⟨rfl, trivial, List.nodup_nil, fun _ h => absurd h (List.not_mem_nil _)⟩

/-! ## The claims on lookup, minimum and order -/

theorem tieCmp_preorder : IsPreorder tieCmp :=
  ⟨fun _ _ => by simp [tieCmp], fun _ _ _ _ _ => by simp [tieCmp]⟩

/-- C21: on a state that holds a tree, `rbtree_delete` of a payload that no node
of the tree holds returns and leaves the state as it was: the same nodes, links,
colours and root. This holds for every comparator, whether or not the tree is in
comparator order. -/
theorem rbtree_delete_absent_noop (cmp : Nat → Nat → Int) (s : RBState) (T : RBT) (p : Nat)
    (hwf : WF s T) (hp : p ∉ T.inorder) : rbtree_delete cmp s p = some s :=
  rbtree_delete_absent cmp s T p hwf hp

/-- Witness of C21: 25 is not stored in the tree built from 10, 20, 30, 40, 50. -/
theorem rbtree_delete_absent_noop_witness :
    25 ∉ fiveTree.inorder ∧ rbtree_delete intCmp fiveState 25 = some fiveState :=
  ⟨by decide, rbtree_delete_absent_noop intCmp fiveState fiveTree 25 fiveState_WF (by decide)⟩

/-- C22: on a state that holds a tree whose in-order walk is non-decreasing under
the comparator, `rbtree_min` returns the payload of the leftmost node, which is
the first payload of the in-order walk and compares less than or equal to every
other stored payload; it returns the null sentinel exactly when the tree is
empty, which is exactly when `rbtree_empty` returns true. -/
theorem rbtree_min_leftmost (cmp : Nat → Nat → Int) (s : RBState) (T : RBT) (hwf : WF s T)
    (hs : T.sorted cmp) :
    rbtree_min s = some T.leftmost ∧ T.leftmost = T.inorder.head? ∧
      (∀ m, T.leftmost = some m → ∀ x ∈ T.inorder.tail, cmp m x ≤ 0) ∧
      (T.leftmost = none ↔ T = .nil) ∧
      (rbtree_min s = some none ↔ rbtree_empty s = true) := by
  have hmin := rbtree_min_eq s T hwf
  have hhead := leftmost_head T
  have hnil : T.leftmost = none ↔ T = .nil := by
    rw [hhead]
    cases T with
    | nil => simp [RBT.inorder]
    | node a c d l r => simp [RBT.inorder]
  refine ⟨hmin, hhead, ?_, hnil, ?_⟩
  · intro m hm x hx
    rw [hhead] at hm
    unfold RBT.sorted at hs
    cases hl : T.inorder with
    | nil =>
      rw [hl] at hx
      cases hx
    | cons y ys =>
      rw [hl] at hm hx hs
      simp only [List.head?_cons, Option.some.injEq] at hm
      subst hm
      exact (List.pairwise_cons.1 hs).1 x hx
  · rw [hmin]
    unfold rbtree_empty
    rw [hwf.root]
    simp only [Option.some.injEq, hnil]
    cases T with
    | nil => simp [RBT.ptr]
    | node a c d l r => simp [RBT.ptr]

/-- Witness of C22: the tree built from 10, 20, 30, 40, 50 under the comparator of
integers; `rbtree_min` returns 10. -/
theorem rbtree_min_leftmost_witness :
    (rbtree_min fiveState = some fiveTree.leftmost ∧ fiveTree.leftmost = fiveTree.inorder.head? ∧
      (∀ m, fiveTree.leftmost = some m → ∀ x ∈ fiveTree.inorder.tail, intCmp m x ≤ 0) ∧
      (fiveTree.leftmost = none ↔ fiveTree = .nil) ∧
      (rbtree_min fiveState = some none ↔ rbtree_empty fiveState = true)) ∧
    rbtree_min fiveState = some (some 10) ∧ rbtree_min rbtree_create = some none ∧
    rbtree_empty rbtree_create = true :=
  ⟨rbtree_min_leftmost intCmp fiveState fiveTree fiveState_WF (by unfold RBT.sorted; decide),
    by decide, by decide, by decide⟩

/-- C23, evaluation at the failing input: after the ten calls of `crashPrefix` on
a fresh tree, `rbtree_delete` of the stored payload 5 finds its node `z` at
address 4, BLACK with the left child `x` at address 0 only; after the transplant
`x` is BLACK, is the left child of the node `p` at address 6, and the right child
of `p`, the sibling `w`, is null; the loop body of `fix_delete` then reads
`w->left` and is not defined, and neither is the call. -/
theorem fix_delete_null_sibling :
    (runOps intCmp rbtree_create crashPrefix).bind
        (fun s => delete_find intCmp 5 (s.next + 1) s s.root) = some (some 4) ∧
      (runOps intCmp rbtree_create crashPrefix).bind
        (fun s => (s.nodes 4).map (fun n => (n.left, n.right, n.color))) =
          some (some 0, none, BLACK) ∧
      (runOps intCmp rbtree_create crashPrefix).bind
        (fun s => (transplant s 4 (some 0)).bind
          (fun s1 => (s1.nodes 0).map (fun n => (n.parent, n.color)))) =
          some (some 6, BLACK) ∧
      (runOps intCmp rbtree_create crashPrefix).bind
        (fun s => (transplant s 4 (some 0)).bind
          (fun s1 => (s1.nodes 6).map (fun n => (n.left, n.right)))) = some (some 0, none) ∧
      ((runOps intCmp rbtree_create crashPrefix).bind
        (fun s => (transplant s 4 (some 0)).bind (fun s1 => fix_delete_left s1 6))).isNone =
          true ∧
      ((runOps intCmp rbtree_create crashPrefix).bind
        (fun s => rbtree_delete intCmp s 5)).isNone = true :=
  ⟨by decide!, by decide!, by decide!, by decide!, by decide!, by decide!⟩

/-- Counterexample to C24: under the comparator for which all payloads compare
equal, the inserts of 1, 2, 3 build a tree whose root holds 2 and whose left
child holds 1, a payload that compares equal to that of the root, not strictly
less. -/
theorem insert_tie_left :
    (runOps tieCmp rbtree_create (inserts [1, 2, 3])).bind RBState.tree = some tieTree ∧
      ¬ tieTree.strictOrder tieCmp := by
  refine ⟨by decide!, ?_⟩
  intro h
  have h1 := h.1 1 (by decide)
  exact absurd h1 (by decide)

/-- C24 as amended: for every comparator that is a total preorder (ties allowed)
and every list of payloads, inserting them one after the other into a fresh tree
returns a state that holds a tree with these payloads in which, at every node,
the payloads of the left subtree compare less than or equal to the payload of
the node and those of the right subtree greater than or equal to it; the in-order
walk is non-decreasing. -/
theorem inserts_ordered (cmp : Nat → Nat → Int) (hpre : IsPreorder cmp) (ds : List Nat) :
    ∃ s T, runOps cmp rbtree_create (inserts ds) = some s ∧ s.tree = some T ∧ T.ordered cmp ∧
      T.sorted cmp ∧ T.inorder.Perm ds := by
  obtain ⟨s, T, e, hwf, -, hs, hperm⟩ := inserts_sorted cmp hpre ds rbtree_create .nil create_WF
    ⟨rfl, 0, rfl⟩ List.Pairwise.nil
  refine ⟨s, T, e, WF_tree s T hwf, sorted_ordered cmp hpre T hs, hs, ?_⟩
  simpa [RBT.inorder] using hperm

/-- Witness of the amended C24: the comparator for which all payloads compare
equal and the payloads 1, 2, 3. -/
theorem inserts_ordered_witness :
    IsPreorder tieCmp ∧
      ∃ s T, runOps tieCmp rbtree_create (inserts [1, 2, 3]) = some s ∧ s.tree = some T ∧
        T.ordered tieCmp ∧ T.sorted tieCmp ∧ T.inorder.Perm [1, 2, 3] :=
  ⟨tieCmp_preorder, inserts_ordered tieCmp tieCmp_preorder [1, 2, 3]⟩

/-! ## `rbtree_insert` on a tree with any colouring -/

theorem loop_exit_top (fuel : Nat) (s : RBState) (z : Nat) (nz : RBNode) (p : Nat)
    (np : RBNode) (hnz : s.nodes z = some nz) (hp : nz.parent = some p)
    (hnp : s.nodes p = some np) (hg : np.parent = none) :
    fix_insert_loop (fuel + 1) s z = some s := by
  by_cases hc : np.color ≠ RED
  · exact loop_exit_black fuel s z nz p np hnz hp hnp hc
  · simp only [fix_insert_loop, hnz, hp, hnp, hc, hg, Option.bind_eq_bind, Option.some_bind,
      bind, Option.bind, if_false]

theorem LoopEndsAny_step (fuel : Nat) (s s1 : RBState) (z z1 : Nat) (w : List Nat)
    (e : fix_insert_loop (fuel + 1) s z = fix_insert_loop fuel s1 z1) (hn : s1.next = s.next)
    (h : LoopEndsAny fuel s1 z1 w) : LoopEndsAny (fuel + 1) s z w := by
  obtain ⟨s2, T, e2, n2, rest⟩ := h
  exact ⟨s2, T, by rw [e, e2], by rw [n2, hn], rest⟩

theorem fix_left_any (fuel : Nat)
    (IH : ∀ (s : RBState) (ctx : List Frame) (t : RBT) (z : Nat),
      ctx.length < fuel → t.ptr = some z → Foc s ctx t →
      LoopEndsAny fuel s z (plug ctx t).inorder)
    (s : RBState) (z : Nat) (cz : Int) (d : Nat) (l r : RBT) (fl : Bool) (p : Nat) (cp : Int)
    (dp : Nat) (A : RBT) (g : Nat) (cg : Int) (dg : Nat) (U : RBT) (gs : List Frame)
    (hlen : gs.length + 1 < fuel)
    (h : Foc s (⟨fl, p, cp, dp, A⟩ :: ⟨true, g, cg, dg, U⟩ :: gs) (.node z cz d l r)) :
    ∃ s1 z1, fix_insert_left s z p g = some (s1, z1) ∧ s1.next = s.next ∧
      LoopEndsAny fuel s1 z1
        (plug (⟨fl, p, cp, dp, A⟩ :: ⟨true, g, cg, dg, U⟩ :: gs) (.node z cz d l r)).inorder := by
  by_cases hUr : U.color = RED
  · cases U with
    | nil => exact absurd hUr.symm RED_ne_BLACK
    | node ya cy dy yl yr =>
      simp only [RBT.color] at hUr
      subst hUr
      obtain ⟨s1, e1, n1, h1⟩ := fix_insert_left_red s _ z _ _ _ _ _ _ _ _ _ _ _ _ _ h
      rw [Foc_up, Foc_up] at h1
      have hI := IH s1 gs _ g (by omega) (ptr_fill _ _) h1
      refine ⟨s1, g, e1, n1, ?_⟩
      have e : (plug gs ((⟨true, g, RED, dg, .node ya BLACK dy yl yr⟩ : Frame).fill
          ((⟨fl, p, BLACK, dp, A⟩ : Frame).fill (.node z cz d l r)))).inorder =
          (plug (⟨fl, p, cp, dp, A⟩ :: ⟨true, g, cg, dg, .node ya RED dy yl yr⟩ :: gs)
            (.node z cz d l r)).inorder := by
        simp only [plug]
        apply inorder_plug_congr
        cases fl <;> simp [Frame.fill, RBT.inorder]
      rw [← e]
      exact hI
  · cases fl with
    | true =>
      obtain ⟨s1, e1, n1, h1⟩ := fix_insert_left_outer s z cz d l r p cp dp A g cg dg U gs hUr h
      have hI := IH s1 (⟨true, p, BLACK, dp, .node g RED dg A U⟩ :: gs) (.node z cz d l r) z
        (by simp only [List.length_cons]; omega) rfl h1
      refine ⟨s1, z, e1, n1, ?_⟩
      have e : (plug (⟨true, p, BLACK, dp, .node g RED dg A U⟩ :: gs)
          (.node z cz d l r)).inorder =
          (plug (⟨true, p, cp, dp, A⟩ :: ⟨true, g, cg, dg, U⟩ :: gs)
            (.node z cz d l r)).inorder := by
        simp only [plug]
        apply inorder_plug_congr
        simp [Frame.fill, RBT.inorder]
      rw [← e]
      exact hI
    | false =>
      obtain ⟨s1, e1, n1, h1⟩ := fix_insert_left_inner s z cz d l r p cp dp A g cg dg U gs hUr h
      have hI := IH s1 (⟨true, z, BLACK, d, .node g RED dg r U⟩ :: gs) (.node p cp dp A l) p
        (by simp only [List.length_cons]; omega) rfl h1
      refine ⟨s1, p, e1, n1, ?_⟩
      have e : (plug (⟨true, z, BLACK, d, .node g RED dg r U⟩ :: gs)
          (.node p cp dp A l)).inorder =
          (plug (⟨false, p, cp, dp, A⟩ :: ⟨true, g, cg, dg, U⟩ :: gs)
            (.node z cz d l r)).inorder := by
        simp only [plug]
        apply inorder_plug_congr
        simp [Frame.fill, RBT.inorder]
      rw [← e]
      exact hI

theorem fix_right_any (fuel : Nat)
    (IH : ∀ (s : RBState) (ctx : List Frame) (t : RBT) (z : Nat),
      ctx.length < fuel → t.ptr = some z → Foc s ctx t →
      LoopEndsAny fuel s z (plug ctx t).inorder)
    (s : RBState) (z : Nat) (cz : Int) (d : Nat) (l r : RBT) (fl : Bool) (p : Nat) (cp : Int)
    (dp : Nat) (A : RBT) (g : Nat) (cg : Int) (dg : Nat) (U : RBT) (gs : List Frame)
    (hlen : gs.length + 1 < fuel)
    (h : Foc s (⟨fl, p, cp, dp, A⟩ :: ⟨false, g, cg, dg, U⟩ :: gs) (.node z cz d r l)) :
    ∃ s1 z1, fix_insert_right s z p g = some (s1, z1) ∧ s1.next = s.next ∧
      LoopEndsAny fuel s1 z1
        (plug (⟨fl, p, cp, dp, A⟩ :: ⟨false, g, cg, dg, U⟩ :: gs) (.node z cz d r l)).inorder := by
  by_cases hUr : U.color = RED
  · cases U with
    | nil => exact absurd hUr.symm RED_ne_BLACK
    | node ya cy dy yr yl =>
      simp only [RBT.color] at hUr
      subst hUr
      obtain ⟨s1, e1, n1, h1⟩ := fix_insert_right_red s _ z _ _ _ _ _ _ _ _ _ _ _ _ _ h
      rw [Foc_up, Foc_up] at h1
      have hI := IH s1 gs _ g (by omega) (ptr_fill _ _) h1
      refine ⟨s1, g, e1, n1, ?_⟩
      have e : (plug gs ((⟨false, g, RED, dg, .node ya BLACK dy yr yl⟩ : Frame).fill
          ((⟨fl, p, BLACK, dp, A⟩ : Frame).fill (.node z cz d r l)))).inorder =
          (plug (⟨fl, p, cp, dp, A⟩ :: ⟨false, g, cg, dg, .node ya RED dy yr yl⟩ :: gs)
            (.node z cz d r l)).inorder := by
        simp only [plug]
        apply inorder_plug_congr
        cases fl <;> simp [Frame.fill, RBT.inorder]
      rw [← e]
      exact hI
  · cases fl with
    | false =>
      obtain ⟨s1, e1, n1, h1⟩ := fix_insert_right_outer s z cz d l r p cp dp A g cg dg U gs hUr h
      have hI := IH s1 (⟨false, p, BLACK, dp, .node g RED dg U A⟩ :: gs) (.node z cz d r l) z
        (by simp only [List.length_cons]; omega) rfl h1
      refine ⟨s1, z, e1, n1, ?_⟩
      have e : (plug (⟨false, p, BLACK, dp, .node g RED dg U A⟩ :: gs)
          (.node z cz d r l)).inorder =
          (plug (⟨false, p, cp, dp, A⟩ :: ⟨false, g, cg, dg, U⟩ :: gs)
            (.node z cz d r l)).inorder := by
        simp only [plug]
        apply inorder_plug_congr
        simp [Frame.fill, RBT.inorder]
      rw [← e]
      exact hI
    | true =>
      obtain ⟨s1, e1, n1, h1⟩ := fix_insert_right_inner s z cz d l r p cp dp A g cg dg U gs hUr h
      have hI := IH s1 (⟨false, z, BLACK, d, .node g RED dg U r⟩ :: gs) (.node p cp dp l A) p
        (by simp only [List.length_cons]; omega) rfl h1
      refine ⟨s1, p, e1, n1, ?_⟩
      have e : (plug (⟨false, z, BLACK, d, .node g RED dg U r⟩ :: gs)
          (.node p cp dp l A)).inorder =
          (plug (⟨true, p, cp, dp, A⟩ :: ⟨false, g, cg, dg, U⟩ :: gs)
            (.node z cz d r l)).inorder := by
        simp only [plug]
        apply inorder_plug_congr
        simp [Frame.fill, RBT.inorder]
      rw [← e]
      exact hI

theorem fix_insert_loop_any (fuel : Nat) :
    ∀ (s : RBState) (ctx : List Frame) (t : RBT) (z : Nat),
      ctx.length < fuel → t.ptr = some z → Foc s ctx t →
      LoopEndsAny fuel s z (plug ctx t).inorder := by
  induction fuel with
  | zero =>
    intro s ctx t z hlen
    omega
  | succ fuel ih =>
    intro s ctx t z hlen hz h
    cases t with
    | nil => cases hz
    | node z1 c d l r =>
      simp only [RBT.ptr, Option.some.injEq] at hz
      subst hz
      have hnz := Foc_read _ _ _ _ _ _ _ h
      have hne : (plug ctx (.node z1 c d l r)).ptr ≠ none :=
        ptr_plug_ne _ _ (Option.some_ne_none _)
      cases ctx with
      | nil =>
        exact ⟨s, _, loop_exit_root fuel s z1 _ hnz rfl, rfl, (Foc_nil _ _).1 h, hne, rfl⟩
      | cons f fs =>
        obtain ⟨fl, p, cp, dp, A⟩ := f
        have hnp := read_frame _ _ _ _ h
        by_cases hcp : cp = RED
        · cases fs with
          | nil =>
            exact ⟨s, _, loop_exit_top fuel s z1 _ p _ hnz rfl hnp rfl, rfl,
              (WF_plug _ _ _).2 h, hne, rfl⟩
          | cons g gs =>
            obtain ⟨gl, g, cg, dg, U⟩ := g
            have hup := (Foc_up _ _ _ _).1 h
            have hng := read_frame _ _ _ _ hup
            simp only [List.length_cons] at hlen
            cases gl with
            | true =>
              obtain ⟨s1, z2, e1, n1, hL⟩ :=
                fix_left_any fuel ih s z1 c d l r fl p cp dp A g cg dg U gs (by omega) h
              refine LoopEndsAny_step fuel s s1 z1 z2 _ ?_ n1 hL
              exact loop_step_left fuel s z1 _ p _ g _ s1 z2 hnz rfl hnp hcp rfl hng
                (by rw [cell_true, ptr_fill]) e1
            | false =>
              obtain ⟨s1, z2, e1, n1, hL⟩ :=
                fix_right_any fuel ih s z1 c d r l fl p cp dp A g cg dg U gs (by omega) h
              refine LoopEndsAny_step fuel s s1 z1 z2 _ ?_ n1 hL
              refine loop_step_right fuel s z1 _ p _ g _ s1 z2 hnz rfl hnp hcp rfl hng ?_ e1
              rw [cell_false]
              refine ptr_ne _ _ (fun e => ?_)
              have hn := h.nodup
              simp only [RBT.addrs, ctxAddrs, List.cons_append, List.nodup_cons, List.mem_append,
                List.mem_cons, not_or, List.nodup_append] at hn
              exact hn.2.2.1.1.2.2.1 e
        · exact ⟨s, _, loop_exit_black fuel s z1 _ p _ hnz rfl hnp hcp, rfl,
            (WF_plug _ _ _).2 h, hne, rfl⟩

theorem fix_insert_any (fuel : Nat) (s : RBState) (ctx : List Frame) (t : RBT) (z : Nat)
    (hlen : ctx.length < fuel) (hz : t.ptr = some z) (h : Foc s ctx t) :
    ∃ s2 T, fix_insert fuel s z = some s2 ∧ s2.next = s.next ∧ WF s2 T ∧ T.color = BLACK ∧
      T.inorder = (plug ctx t).inorder := by
  obtain ⟨s1, T, e1, n1, hwf, hne, hin⟩ := fix_insert_loop_any fuel s ctx t z hlen hz h
  cases T with
  | nil => exact absurd rfl hne
  | node a c d l r =>
    have hroot := hwf.root
    obtain ⟨s2, e2, n2, h2⟩ := setColor_focus s1 [] a c d l r BLACK ((Foc_nil _ _).2 hwf)
    refine ⟨s2, .node a BLACK d l r, ?_, by rw [n2, n1], (Foc_nil _ _).1 h2, rfl, ?_⟩
    · simp only [fix_insert, e1, hroot, ptr_node, e2, Option.bind_eq_bind, Option.some_bind, bind,
        Option.bind]
    · rw [← hin]
      rfl

/-- The effect of `rbtree_insert` on a state that holds a tree `T`, whatever its
colours: the call returns, and the new state holds a tree with a BLACK root whose
in-order payloads are those of `T` with the new payload placed at the end of the
search path. -/
theorem rbtree_insert_any (cmp : Nat → Nat → Int) (s : RBState) (T : RBT) (data : Nat)
    (hwf : WF s T) :
    ∃ s1 T1, rbtree_insert cmp s data = some s1 ∧ s1.next = s.next + 1 ∧ WF s1 T1 ∧
      T1.color = BLACK ∧
      ∃ ctx, plug ctx .nil = T ∧ (∀ f ∈ ctx, f.isLeft = decide (cmp data f.d < 0)) ∧
        T1.inorder = (plug ctx (.node s.next RED data .nil .nil)).inorder := by
  have hF : Foc s [] T := (Foc_nil _ _).2 hwf
  have hsz : T.size < s.next + 1 := by
    have := Foc_length _ _ _ hF
    rw [size_eq_length]
    simp only [List.length_nil] at this
    omega
  obtain ⟨ctx, e1, f1, p1, d1⟩ := insert_descend_ok cmp data s T (s.next + 1) [] hsz hF
    (fun f hf => absurd hf (List.not_mem_nil f))
  rw [← hwf.root] at e1
  have hL := linked_Foc s data ctx f1
  have hlen : ctx.length < s.next + 2 := by
    have := Foc_length _ _ _ hL
    rw [linked_next] at this
    omega
  obtain ⟨s2, T1, e2, n2, hwf2, hc2, hin⟩ := fix_insert_any (s.next + 2) (linked s data ctx) ctx
    (.node s.next RED data .nil .nil) s.next hlen rfl hL
  refine ⟨s2, T1, ?_, by rw [n2, linked_next], hwf2, hc2, ctx, p1, d1, hin⟩
  rw [rbtree_insert_eq cmp s data ctx e1 f1 d1]
  exact e2

/-- The effect of `rbtree_insert` on the in-order walk of a tree that is sorted
under a total preorder, whatever the colours of the tree: the new payload is
placed after the payloads it does not compare below and before those it compares
below. -/
theorem rbtree_insert_sorted_any (cmp : Nat → Nat → Int) (hpre : IsPreorder cmp) (s : RBState)
    (T : RBT) (data : Nat) (hwf : WF s T) (hs : T.sorted cmp) :
    ∃ s1 T1, rbtree_insert cmp s data = some s1 ∧ s1.next = s.next + 1 ∧ WF s1 T1 ∧
      T1.color = BLACK ∧ T1.sorted cmp ∧
      ∃ L R, T.inorder = L ++ R ∧ T1.inorder = L ++ data :: R ∧
        (∀ x ∈ L, 0 ≤ cmp data x) ∧ (∀ y ∈ R, cmp data y < 0) := by
  obtain ⟨s1, T1, e1, n1, hwf1, hc1, ctx, hp, hd, hin⟩ := rbtree_insert_any cmp s T data hwf
  have hT : T.inorder = ctxLeft ctx ++ ctxRight ctx := by
    rw [← hp, inorder_plug]
    simp [RBT.inorder]
  have hT1 : T1.inorder = ctxLeft ctx ++ data :: ctxRight ctx := by
    rw [hin, inorder_plug]
    simp [RBT.inorder]
  have hs1 : (ctxLeft ctx ++ ctxRight ctx).Pairwise (fun a b => cmp a b ≤ 0) := by
    rw [← hT]
    exact hs
  obtain ⟨hL, hR⟩ := path_bounds cmp hpre data ctx hs1 hd
  refine ⟨s1, T1, e1, n1, hwf1, hc1, ?_, ctxLeft ctx, ctxRight ctx, hT, hT1, hL, hR⟩
  unfold RBT.sorted
  rw [hT1]
  exact pairwise_insert cmp hpre data _ _ hs1 hL hR

/-! ## The claim on the position of an inserted payload -/

theorem placeAfterLast_split (cmp : Nat → Nat → Int) (p : Nat) (R : List Nat)
    (hR : ∀ y ∈ R, cmp p y < 0) :
    ∀ (L : List Nat), (∀ x ∈ L, 0 ≤ cmp p x) → placeAfterLast cmp p (L ++ R) = L ++ p :: R
  | [], _ => by
    cases R with
    | nil => rfl
    | cons q qs =>
      have hnone : (q :: qs).any (fun x => decide (0 ≤ cmp p x)) = false := by
        rw [List.any_eq_false]
        intro x hx
        have := hR x hx
        simp only [decide_eq_true_eq]
        omega
      simp only [List.nil_append, placeAfterLast, hnone, Bool.false_eq_true, if_false]
  | x :: L, hL => by
    have hany : ((x :: L) ++ R).any (fun y => decide (0 ≤ cmp p y)) = true := by
      rw [List.any_eq_true]
      exact ⟨x, by simp, by simpa using hL x (List.mem_cons_self _ _)⟩
    have ih := placeAfterLast_split cmp p R hR L (fun y hy => hL y (List.mem_cons_of_mem _ hy))
    simp only [List.cons_append] at hany ⊢
    simp only [placeAfterLast, hany, if_true, ih]

theorem intCmp_preorder : IsPreorder intCmp :=
  ⟨fun a b => by unfold intCmp; omega, fun a b c h1 h2 => by unfold intCmp at *; omega⟩

theorem fourDeletedState_WF : WF fourDeletedState fourTreeDeleted := by
  refine ⟨rfl, ?_, by decide, by decide⟩
  exact ⟨rfl, trivial, ⟨rfl, trivial, ⟨rfl, trivial, trivial⟩⟩⟩

/-- C32: for a comparator that is a total preorder, a state that holds a tree
whose in-order walk is non-decreasing under the comparator (whatever the colours
of its nodes, so also a tree that an earlier `rbtree_delete` has left unbalanced),
and every payload `p`, `rbtree_insert(p)` returns a state that holds a tree whose
in-order walk is the walk before with `p` placed immediately after the last
payload `q` with `cmp(p, q) >= 0` (at the front when there is none): the walk
splits as `L ++ R` into the payloads `p` does not compare below and those it
compares below, and becomes `L ++ p :: R`. One node is added, no payload is lost,
and the payloads that compare equal to `p` stay before it. -/
theorem rbtree_insert_position (cmp : Nat → Nat → Int) (hpre : IsPreorder cmp) (s : RBState)
    (T : RBT) (p : Nat) (hwf : WF s T) (hs : T.sorted cmp) :
    ∃ s1 T1, rbtree_insert cmp s p = some s1 ∧ s1.tree = some T1 ∧ WF s1 T1 ∧
      T1.inorder = placeAfterLast cmp p T.inorder ∧
      (∃ L R, T.inorder = L ++ R ∧ T1.inorder = L ++ p :: R ∧
        (∀ x ∈ L, 0 ≤ cmp p x) ∧ (∀ y ∈ R, cmp p y < 0)) ∧
      T1.inorder.length = T.inorder.length + 1 ∧ T1.inorder.Perm (p :: T.inorder) ∧
      T1.sorted cmp := by
  obtain ⟨s1, T1, e1, -, hwf1, -, hs1, L, R, hT, hT1, hL, hR⟩ :=
    rbtree_insert_sorted_any cmp hpre s T p hwf hs
  refine ⟨s1, T1, e1, WF_tree s1 T1 hwf1, hwf1, ?_, ⟨L, R, hT, hT1, hL, hR⟩, ?_, ?_, hs1⟩
  · rw [hT, hT1, placeAfterLast_split cmp p R hR L hL]
  · rw [hT, hT1]
    simp only [List.length_append, List.length_cons]
    omega
  · rw [hT, hT1]
    exact List.perm_middle

/-- Witness of C32: the tree that `rbtree_delete` of 1 leaves from the tree built
by inserting 1, 2, 3, 4 is not balanced; inserting 1 again places it at the front
of the walk 2, 3, 4. Inserting 25 into the tree built from 10, 20, 30, 40, 50
places it after 20. -/
theorem rbtree_insert_position_witness :
    IsPreorder intCmp ∧
      (runOps intCmp rbtree_create fourInserts).bind
        (fun s => (rbtree_delete intCmp s 1).bind RBState.tree) = some fourTreeDeleted ∧
      ¬ fourTreeDeleted.balanced ∧ fourTreeDeleted.sorted intCmp ∧
      placeAfterLast intCmp 1 fourTreeDeleted.inorder = [1, 2, 3, 4] ∧
      (∃ s1 T1, rbtree_insert intCmp fourDeletedState 1 = some s1 ∧ s1.tree = some T1 ∧
        WF s1 T1 ∧ T1.inorder = placeAfterLast intCmp 1 fourTreeDeleted.inorder ∧
        (∃ L R, fourTreeDeleted.inorder = L ++ R ∧ T1.inorder = L ++ 1 :: R ∧
          (∀ x ∈ L, 0 ≤ intCmp 1 x) ∧ (∀ y ∈ R, intCmp 1 y < 0)) ∧
        T1.inorder.length = fourTreeDeleted.inorder.length + 1 ∧
        T1.inorder.Perm (1 :: fourTreeDeleted.inorder) ∧ T1.sorted intCmp) ∧
      fiveTree.sorted intCmp ∧
      placeAfterLast intCmp 25 fiveTree.inorder = [10, 20, 25, 30, 40, 50] ∧
      ∃ s1 T1, rbtree_insert intCmp fiveState 25 = some s1 ∧ s1.tree = some T1 ∧ WF s1 T1 ∧
        T1.inorder = placeAfterLast intCmp 25 fiveTree.inorder ∧
        (∃ L R, fiveTree.inorder = L ++ R ∧ T1.inorder = L ++ 25 :: R ∧
          (∀ x ∈ L, 0 ≤ intCmp 25 x) ∧ (∀ y ∈ R, intCmp 25 y < 0)) ∧
        T1.inorder.length = fiveTree.inorder.length + 1 ∧
        T1.inorder.Perm (25 :: fiveTree.inorder) ∧ T1.sorted intCmp :=
  ⟨intCmp_preorder, by decide!, by decide, by unfold RBT.sorted; decide, by decide,
    rbtree_insert_position intCmp intCmp_preorder fourDeletedState fourTreeDeleted 1
      fourDeletedState_WF (by unfold RBT.sorted; decide),
    by unfold RBT.sorted; decide, by decide,
    rbtree_insert_position intCmp intCmp_preorder fiveState fiveTree 25 fiveState_WF
      (by unfold RBT.sorted; decide)⟩

end RBTreeModel

/-! # Theorems: string map -/

namespace HashMapModel

/-! ## Probe loops on a table with an empty slot -/

/-- C35, evaluation at the failing input: the keys "D" and "CA" start their probes
at slot 21 of the fresh table, so "CA" is stored in slot 22; after both are put,
`get("CA")` returns the value 2; after `delete("D")` has emptied slot 21, the entry
of "CA" is still in slot 22 but the probe of `get("CA")` stops at the empty slot 21
and returns null, while the finite map of the specification gives the value 2. -/
theorem delete_breaks_probe_chain :
    index_from_hash (hash_str (cstr "D")) DEFAULT_HASH_SET_CAPACITY = 21 ∧
      index_from_hash (hash_str (cstr "CA")) DEFAULT_HASH_SET_CAPACITY = 21 ∧
      (runMap init_hash_map (collisionOps.take 2)).bind
        (fun m => hash_map_get m (cstr "CA")) = some (some 2) ∧
      (runMap init_hash_map collisionOps).map
        (fun m => ((m.table 21).isNone, (m.table 22).map (fun e => (e.key, e.value)))) =
          some (true, some (cstr "CA", some 2)) ∧
      (runMap init_hash_map collisionOps).bind
        (fun m => hash_map_get m (cstr "CA")) = some none ∧
      specGet collisionOps (cstr "CA") = some 2 :=
  ⟨by decide!, by decide!, by decide!, by decide!, by decide!, by decide⟩

end HashMapModel

/-! # Theorems: patient dispatcher -/

namespace PatientModel

open RBTreeModel HashMapModel

/-- Counterexample to C25: on the example script, whose first line is the count 7,
the dispatcher does not print the three lines `C`, `A`, `A`. -/
theorem dispatcher_example_not_three_lines :
    main exampleScript ≠ some (unlines ["C", "A", "A"]) := by
  decide!

/-- C25, amended: the example script announces 7 commands and holds 8, so the
dispatcher stops before the last query and prints the two lines `C`, `A`; on the
same script with the count 8 it prints the three lines `C`, `A`, `A`. -/
theorem dispatcher_example_output :
    main exampleScript = some (unlines ["C", "A"]) ∧
      main exampleScript8 = some (unlines ["C", "A", "A"]) := by
  constructor
  · decide!
  · decide!

/-- When neither subtraction leaves the range of `int`, `compare_patients` is
negative exactly when `Patient::operator<` of the `std::set` version holds, and
zero exactly when severity and arrival are equal. -/
theorem compare_patients_in_range (a b : Patient)
    (h1 : -2147483648 ≤ b.severity - a.severity ∧ b.severity - a.severity ≤ 2147483647)
    (h2 : -2147483648 ≤ a.arrival - b.arrival ∧ a.arrival - b.arrival ≤ 2147483647) :
    (compare_patients a b < 0 ↔ a.lt b = true) ∧
      (compare_patients a b = 0 ↔ a.severity = b.severity ∧ a.arrival = b.arrival) := by
  unfold compare_patients Patient.lt wrapInt
  by_cases hs : a.severity = b.severity
  · simp only [hs, ne_eq, not_true_eq_false, if_false, decide_eq_true_eq, true_and]
    constructor <;> constructor <;> intro h <;> omega
  · simp only [ne_eq, hs, not_false_eq_true, if_true, decide_eq_true_eq, false_and, iff_false]
    constructor
    · constructor <;> intro h <;> omega
    · omega

/-- C39, evaluation at the failing input: for the patient `a` of severity
`-2147483648` and the patient `b` of severity 1, the subtraction
`b->severity - a->severity` leaves the range of `int`; taken modulo `2^32` it is
`-2147483647`, so `compare_patients(a, b)` is negative although `a` has the lower
severity, while `Patient::operator<` orders `b` before `a`. On the script in which
both arrive and the first patient is queried the dispatcher prints `A`. -/
theorem compare_patients_overflow :
    lowPatient.severity < highPatient.severity ∧
      compare_patients lowPatient highPatient = -2147483647 ∧
      lowPatient.lt highPatient = false ∧ highPatient.lt lowPatient = true ∧
      main overflowScript = some (unlines ["A"]) :=
  ⟨by decide, by decide, by decide, by decide, by decide!⟩

end PatientModel

/-! # Theorems: max-heap and powers-of-two programs -/

namespace HeapModel

/-! ## Cells and their multiset -/

theorem read_lt {h : Heap} {i : Nat} (hi : i < HEAP_CAPACITY) : h.read i = some (h.data i) := by
  unfold Heap.read
  rw [if_pos hi]

theorem write_lt {h : Heap} {i : Nat} (hi : i < HEAP_CAPACITY) (v : Int) :
    h.write i v = some { h with data := setCell h.data i v } := by
  unfold Heap.write
  rw [if_pos hi]
  rfl

theorem setCell_same (d : Nat → Int) (i : Nat) (v : Int) : setCell d i v i = v := by
  simp [setCell]

theorem setCell_ne (d : Nat → Int) {i j : Nat} (v : Int) (h : j ≠ i) : setCell d i v j = d j := by
  simp [setCell, h]

theorem swap_left (d : Nat → Int) (i j : Nat) : swapCells d i j i = d j := by
  unfold swapCells setCell
  by_cases h : i = j
  · simp [h]
  · simp [h]

theorem swap_right (d : Nat → Int) (i j : Nat) : swapCells d i j j = d i := by
  unfold swapCells setCell
  simp

theorem swap_other (d : Nat → Int) {i j x : Nat} (h1 : x ≠ i) (h2 : x ≠ j) :
    swapCells d i j x = d x := by
  unfold swapCells setCell
  simp [h1, h2]

theorem vals_succ (d : Nat → Int) (n : Nat) : vals d (n + 1) = d n ::ₘ vals d n := by
  unfold vals
  rw [Multiset.range_succ, Multiset.map_cons]

theorem vals_congr {d1 d2 : Nat → Int} :
    ∀ n, (∀ i, i < n → d1 i = d2 i) → vals d1 n = vals d2 n
  | 0, _ => rfl
  | n + 1, h => by
    rw [vals_succ, vals_succ, h n (by omega), vals_congr n (fun i hi => h i (by omega))]

theorem vals_upd_ge (d : Nat → Int) (i : Nat) (v : Int) (n : Nat) (h : n ≤ i) :
    vals (setCell d i v) n = vals d n :=
  vals_congr n (fun j hj => setCell_ne d v (by omega))

theorem vals_upd_lt (d : Nat → Int) (i : Nat) (v : Int) :
    ∀ n, i < n → d i ::ₘ vals (setCell d i v) n = v ::ₘ vals d n
  | 0, h => by omega
  | n + 1, h => by
    rw [vals_succ, vals_succ]
    by_cases hn : i = n
    · subst hn
      rw [setCell_same, vals_upd_ge d i v i (le_refl i)]
      exact Multiset.cons_swap _ _ _
    · rw [setCell_ne d v (Ne.symm hn), Multiset.cons_swap, vals_upd_lt d i v n (by omega),
        Multiset.cons_swap]

theorem vals_swap (d : Nat → Int) {i j n : Nat} (hi : i < n) (hj : j < n) :
    vals (swapCells d i j) n = vals d n := by
  have h1 := vals_upd_lt d i (d j) n hi
  have h2 := vals_upd_lt (setCell d i (d j)) j (d i) n hj
  have e : setCell d i (d j) j = d j := by
    by_cases h : j = i
    · rw [h, setCell_same]
    · exact setCell_ne d _ h
  rw [e] at h2
  exact (Multiset.cons_inj_right _).1 (h2.trans h1)

theorem values_coe (h : Heap) : (h.values : Multiset Int) = vals h.data h.size := rfl

/-! ## The root of a max-heap -/

theorem root_max {d : Nat → Int} {n : Nat} (h : HeapFrom d n 0) :
    ∀ i, i < n → d 0 ≥ d i := by
  intro i
  induction i using Nat.strong_induction_on with
  | _ i ih =>
    intro hi
    rcases Nat.eq_zero_or_pos i with h0 | h0
    · rw [h0]
    · have h1 := h i h0 hi (Nat.zero_le _)
      have h2 := ih ((i - 1) / 2) (by omega) (by omega)
      omega

theorem maxHeap_iff (h : Heap) : h.maxHeap ↔ HeapFrom h.data h.size 0 :=
  ⟨fun hm j h1 h2 _ => hm j h1 h2, fun hf j h1 h2 => hf j h1 h2 (Nat.zero_le _)⟩

/-! ## `heap_push` -/

theorem push_loop_zero (fuel : Nat) (h : Heap) : push_loop (fuel + 1) h 0 = some h := by
  simp only [push_loop, gt_iff_lt, lt_self_iff_false, if_false]
  rfl

theorem push_loop_step (fuel : Nat) (h : Heap) {i : Nat} (hi : 0 < i) (hc : i < HEAP_CAPACITY) :
    push_loop (fuel + 1) h i =
      if h.data ((i - 1) / 2) ≥ h.data i then some h
      else push_loop fuel { h with data := swapCells h.data ((i - 1) / 2) i } ((i - 1) / 2) := by
  have hp : (i - 1) / 2 < HEAP_CAPACITY := by omega
  simp only [push_loop, gt_iff_lt, hi, if_true, read_lt hp, read_lt hc, write_lt hp, write_lt hc,
    bind, Option.bind, pure]
  split_ifs
  · rfl
  · rfl

theorem UpInv_swap {d : Nat → Int} {n i : Nat} (hi : 0 < i) (hin : i < n) (hI : UpInv d n i)
    (hlt : ¬ d ((i - 1) / 2) ≥ d i) : UpInv (swapCells d ((i - 1) / 2) i) n ((i - 1) / 2) := by
  obtain ⟨h1, h2⟩ := hI
  have hpi : (i - 1) / 2 ≠ i := by omega
  constructor
  · intro j hj hjn hjp
    by_cases hji : j = i
    · subst hji
      rw [swap_left, swap_right]
      omega
    · rw [swap_other d hjp hji]
      by_cases hq1 : (j - 1) / 2 = i
      · rw [hq1, swap_right]
        exact h2 j hj hjn hq1 hi
      · by_cases hq2 : (j - 1) / 2 = (i - 1) / 2
        · rw [hq2, swap_left]
          have := h1 j hj hjn hji
          rw [hq2] at this
          omega
        · rw [swap_other d hq2 hq1]
          exact h1 j hj hjn hji
  · intro j hj hjn hjq hp
    have hpp1 : ((i - 1) / 2 - 1) / 2 ≠ (i - 1) / 2 := by omega
    have hpp2 : ((i - 1) / 2 - 1) / 2 ≠ i := by omega
    rw [swap_other d hpp1 hpp2]
    have hp1 := h1 ((i - 1) / 2) hp (by omega) hpi
    by_cases hji : j = i
    · subst hji
      rw [swap_right]
      exact hp1
    · rw [swap_other d (by omega) hji]
      have := h1 j hj hjn hji
      rw [hjq] at this
      omega

theorem push_loop_spec :
    ∀ (fuel : Nat) (h : Heap) (i : Nat), i < h.size → h.size ≤ HEAP_CAPACITY → i < fuel →
      UpInv h.data h.size i →
      ∃ h1, push_loop fuel h i = some h1 ∧ h1.size = h.size ∧ h1.maxHeap ∧
        vals h1.data h1.size = vals h.data h.size
  | 0, _, _, _, _, hf, _ => by omega
  | fuel + 1, h, i, hi, hc, hf, hI => by
    rcases Nat.eq_zero_or_pos i with h0 | h0
    · subst h0
      refine ⟨h, push_loop_zero fuel h, rfl, ?_, rfl⟩
      intro j hj hjn
      exact hI.1 j hj hjn (by omega)
    · rw [push_loop_step fuel h h0 (by omega)]
      by_cases hge : h.data ((i - 1) / 2) ≥ h.data i
      · rw [if_pos hge]
        refine ⟨h, rfl, rfl, ?_, rfl⟩
        intro j hj hjn
        by_cases hji : j = i
        · rw [hji]
          exact hge
        · exact hI.1 j hj hjn hji
      · rw [if_neg hge]
        obtain ⟨h1, e1, s1, m1, v1⟩ := push_loop_spec fuel
          { h with data := swapCells h.data ((i - 1) / 2) i } ((i - 1) / 2)
          (show (i - 1) / 2 < h.size by omega) hc (by omega) (UpInv_swap h0 hi hI hge)
        refine ⟨h1, e1, s1, m1, ?_⟩
        rw [v1]
        have hp : (i - 1) / 2 < h.size := by omega
        exact vals_swap h.data hp hi

/-- What `heap_push` does on a max-heap with a free cell. -/
theorem heap_push_spec {h : Heap} (hm : h.maxHeap) (hc : h.size < HEAP_CAPACITY) (v : Int) :
    ∃ h1, heap_push h v = some h1 ∧ h1.size = h.size + 1 ∧ h1.maxHeap ∧
      vals h1.data h1.size = v ::ₘ vals h.data h.size := by
  have hw := write_lt (h := { h with size := h.size + 1 }) hc v
  have hI : UpInv (setCell h.data h.size v) (h.size + 1) h.size := by
    constructor
    · intro j hj hjn hjs
      rw [setCell_ne _ _ hjs, setCell_ne _ _ (by omega)]
      exact hm j hj (by omega)
    · intro j hj hjn hjq _
      omega
  obtain ⟨h1, e1, s1, m1, v1⟩ := push_loop_spec (h.size + 1)
    { h with size := h.size + 1, data := setCell h.data h.size v } h.size
    (show h.size < h.size + 1 by omega) (show h.size + 1 ≤ HEAP_CAPACITY by omega) (by omega) hI
  refine ⟨h1, ?_, s1, m1, ?_⟩
  · unfold heap_push
    simp only [hw, bind, Option.bind]
    exact e1
  · rw [v1]
    simp only
    rw [vals_succ, setCell_same, vals_upd_ge _ _ _ _ (le_refl _)]

/-! ## `heapify` -/

theorem largestOf_cases (d : Nat → Int) (n i : Nat) :
    largestOf d n i = i ∨ (largestOf d n i = 2 * i + 1 ∧ 2 * i + 1 < n) ∨
      (largestOf d n i = 2 * i + 2 ∧ 2 * i + 2 < n) := by
  unfold largestOf
  simp only
  by_cases c1 : 2 * i + 1 < n ∧ d (2 * i + 1) > d i
  · simp only [if_pos c1]
    by_cases c2 : 2 * i + 2 < n ∧ d (2 * i + 2) > d (2 * i + 1)
    · rw [if_pos c2]
      exact Or.inr (Or.inr ⟨rfl, c2.1⟩)
    · rw [if_neg c2]
      exact Or.inr (Or.inl ⟨rfl, c1.1⟩)
  · simp only [if_neg c1]
    by_cases c2 : 2 * i + 2 < n ∧ d (2 * i + 2) > d i
    · rw [if_pos c2]
      exact Or.inr (Or.inr ⟨rfl, c2.1⟩)
    · rw [if_neg c2]
      exact Or.inl rfl

theorem largestOf_ge (d : Nat → Int) (n i : Nat) :
    d (largestOf d n i) ≥ d i ∧ (largestOf d n i ≠ i → d (largestOf d n i) > d i) ∧
      ∀ j, 0 < j → j < n → (j - 1) / 2 = i → d (largestOf d n i) ≥ d j := by
  have hch : ∀ j, 0 < j → (j - 1) / 2 = i → j = 2 * i + 1 ∨ j = 2 * i + 2 := by
    intro j hj hq
    omega
  unfold largestOf
  simp only
  by_cases c1 : 2 * i + 1 < n ∧ d (2 * i + 1) > d i
  · simp only [if_pos c1]
    by_cases c2 : 2 * i + 2 < n ∧ d (2 * i + 2) > d (2 * i + 1)
    · rw [if_pos c2]
      refine ⟨by omega, fun _ => by omega, fun j hj hjn hq => ?_⟩
      rcases hch j hj hq with e | e
      · rw [e]
        omega
      · rw [e]
    · rw [if_neg c2]
      refine ⟨by omega, fun _ => by omega, fun j hj hjn hq => ?_⟩
      rcases hch j hj hq with e | e
      · rw [e]
      · rw [e]
        have : ¬ d (2 * i + 2) > d (2 * i + 1) := fun hgt => c2 ⟨by omega, hgt⟩
        omega
  · simp only [if_neg c1]
    by_cases c2 : 2 * i + 2 < n ∧ d (2 * i + 2) > d i
    · rw [if_pos c2]
      refine ⟨by omega, fun _ => by omega, fun j hj hjn hq => ?_⟩
      rcases hch j hj hq with e | e
      · rw [e]
        have : ¬ d (2 * i + 1) > d i := fun hgt => c1 ⟨by omega, hgt⟩
        omega
      · rw [e]
    · rw [if_neg c2]
      refine ⟨le_refl _, fun hne => absurd rfl hne, fun j hj hjn hq => ?_⟩
      rcases hch j hj hq with e | e
      · rw [e]
        have : ¬ d (2 * i + 1) > d i := fun hgt => c1 ⟨by omega, hgt⟩
        omega
      · rw [e]
        have : ¬ d (2 * i + 2) > d i := fun hgt => c2 ⟨by omega, hgt⟩
        omega

theorem heapify_unfold (fuel : Nat) (h : Heap) (i : Nat) (hc : h.size ≤ HEAP_CAPACITY) :
    heapify (fuel + 1) h i =
      if largestOf h.data h.size i ≠ i then
        heapify fuel { h with data := swapCells h.data i (largestOf h.data h.size i) }
          (largestOf h.data h.size i)
      else some h := by
  by_cases hl : 2 * i + 1 < h.size
  · have r1 : h.read (2 * i + 1) = some (h.data (2 * i + 1)) := read_lt (by omega)
    have r0 : h.read i = some (h.data i) := read_lt (by omega)
    have w0 : ∀ v, h.write i v = some { h with data := setCell h.data i v } :=
      fun v => write_lt (by omega) v
    by_cases hr : 2 * i + 2 < h.size
    · have r2 : h.read (2 * i + 2) = some (h.data (2 * i + 2)) := read_lt (by omega)
      have w1 : ∀ (g : Heap) v, g.write (2 * i + 1) v =
          some { g with data := setCell g.data (2 * i + 1) v } := fun g v => write_lt (by omega) v
      have w2 : ∀ (g : Heap) v, g.write (2 * i + 2) v =
          some { g with data := setCell g.data (2 * i + 2) v } := fun g v => write_lt (by omega) v
      unfold largestOf
      simp only [heapify, hl, hr, if_true, r1, r0, r2, bind, Option.bind, pure, true_and]
      by_cases c1 : h.data (2 * i + 1) > h.data i
      · simp only [c1, if_true, r1]
        by_cases c2 : h.data (2 * i + 2) > h.data (2 * i + 1)
        · simp only [c2, if_true, r2, w0, w2]
          rw [if_pos (by omega), if_pos (by omega)]
          rfl
        · simp only [c2, if_false, r1, w0, w1]
          rw [if_pos (by omega), if_pos (by omega)]
          rfl
      · simp only [c1, if_false, r0]
        by_cases c2 : h.data (2 * i + 2) > h.data i
        · simp only [c2, if_true, r2, w0, w2]
          rw [if_pos (by omega), if_pos (by omega)]
          rfl
        · simp only [c2, if_false, ne_eq, not_true_eq_false]
    · have w1 : ∀ (g : Heap) v, g.write (2 * i + 1) v =
          some { g with data := setCell g.data (2 * i + 1) v } := fun g v => write_lt (by omega) v
      unfold largestOf
      simp only [heapify, hl, hr, if_true, if_false, r1, r0, bind, Option.bind, pure, true_and,
        false_and]
      by_cases c1 : h.data (2 * i + 1) > h.data i
      · simp only [c1, if_true, r1, w0, w1]
        rw [if_pos (by omega), if_pos (by omega)]
        rfl
      · simp only [c1, if_false, ne_eq, not_true_eq_false]
  · have hr : ¬ 2 * i + 2 < h.size := by omega
    unfold largestOf
    simp only [heapify, hl, hr, if_false, bind, Option.bind, pure, false_and, ne_eq,
      not_true_eq_false]

theorem DownInv_done {d : Nat → Int} {n lo i : Nat} (hI : DownInv d n lo i)
    (hl : largestOf d n i = i) : HeapFrom d n lo := by
  intro j hj hjn hlo
  by_cases hq : (j - 1) / 2 = i
  · have := (largestOf_ge d n i).2.2 j hj hjn hq
    rw [hl] at this
    rw [hq]
    exact this
  · exact hI.1 j hj hjn hlo hq

theorem DownInv_swap {d : Nat → Int} {n lo i : Nat} (hI : DownInv d n lo i) (hlo : lo ≤ i)
    (hl : largestOf d n i ≠ i) :
    DownInv (swapCells d i (largestOf d n i)) n lo (largestOf d n i) := by
  obtain ⟨h1, h2⟩ := hI
  obtain ⟨g1, g2, g3⟩ := largestOf_ge d n i
  have hcase := largestOf_cases d n i
  generalize largestOf d n i = l at *
  have hli : i < l := by omega
  have hln : l < n := by omega
  have hpl : (l - 1) / 2 = i := by omega
  constructor
  · intro j hj hjn hjlo hq
    by_cases hjl : j = l
    · subst hjl
      rw [hpl, swap_left, swap_right]
      exact g1
    · by_cases hji : j = i
      · subst hji
        rw [swap_left, swap_other d (by omega) hq]
        exact h2 l (by omega) hln hpl hj hjlo
      · rw [swap_other d hji hjl]
        by_cases hq1 : (j - 1) / 2 = i
        · rw [hq1, swap_left]
          exact g3 j hj hjn hq1
        · rw [swap_other d hq1 hq]
          exact h1 j hj hjn hjlo hq1
  · intro j hj hjn hq _ _
    rw [hpl, swap_left, swap_other d (by omega) (by omega)]
    have := h1 j hj hjn (by omega) (by omega)
    rw [hq] at this
    exact this

theorem heapify_spec (lo : Nat) :
    ∀ (fuel : Nat) (h : Heap) (i : Nat), h.size ≤ HEAP_CAPACITY → h.size - i < fuel → lo ≤ i →
      DownInv h.data h.size lo i →
      ∃ h1, heapify fuel h i = some h1 ∧ h1.size = h.size ∧ HeapFrom h1.data h1.size lo ∧
        vals h1.data h1.size = vals h.data h.size
  | 0, _, _, _, hf, _, _ => by omega
  | fuel + 1, h, i, hc, hf, hlo, hI => by
    rw [heapify_unfold fuel h i hc]
    by_cases hl : largestOf h.data h.size i = i
    · rw [if_neg (by rw [hl]; exact fun hne => hne rfl)]
      exact ⟨h, rfl, rfl, DownInv_done hI hl, rfl⟩
    · rw [if_pos hl]
      have hcase := largestOf_cases h.data h.size i
      have hli : i < largestOf h.data h.size i := by omega
      have hln : largestOf h.data h.size i < h.size := by omega
      obtain ⟨h1, e1, s1, m1, v1⟩ := heapify_spec lo fuel
        { h with data := swapCells h.data i (largestOf h.data h.size i) }
        (largestOf h.data h.size i) hc (show h.size - largestOf h.data h.size i < fuel by omega)
        (by omega) (DownInv_swap hI hlo hl)
      refine ⟨h1, e1, s1, m1, ?_⟩
      rw [v1]
      have hin : i < h.size := by omega
      exact vals_swap h.data hin hln

/-! ## `heap_top`, `heap_pop` and `build_heap` -/

theorem heap_top_spec {h : Heap} (hs : 0 < h.size) : heap_top h = some (h.data 0) := by
  unfold heap_top
  rw [if_pos hs]
  exact read_lt (by decide)

theorem mem_vals {d : Nat → Int} {n : Nat} {x : Int} : x ∈ vals d n ↔ ∃ i, i < n ∧ d i = x := by
  unfold vals
  simp only [Multiset.mem_map, Multiset.mem_range]

theorem heap_pop_spec {h : Heap} (hm : h.maxHeap) (hs : 0 < h.size)
    (hc : h.size ≤ HEAP_CAPACITY) :
    ∃ h1, heap_pop h = some h1 ∧ h1.size = h.size - 1 ∧ h1.maxHeap ∧
      vals h.data h.size = h.data 0 ::ₘ vals h1.data h1.size := by
  have hr : h.read (h.size - 1) = some (h.data (h.size - 1)) := read_lt (by omega)
  have hw := write_lt (h := { h with size := h.size - 1 }) (i := 0) (by decide)
    (h.data (h.size - 1))
  have hI : DownInv (setCell h.data 0 (h.data (h.size - 1))) (h.size - 1) 0 0 := by
    constructor
    · intro j hj hjn _ hq
      rw [setCell_ne _ _ hq, setCell_ne _ _ (by omega)]
      exact hm j hj (by omega)
    · intro j _ _ _ h0
      omega
  obtain ⟨h1, e1, s1, m1, v1⟩ := heapify_spec 0 (h.size - 1 + 1)
    { h with size := h.size - 1, data := setCell h.data 0 (h.data (h.size - 1)) } 0
    (show h.size - 1 ≤ HEAP_CAPACITY by omega) (show h.size - 1 - 0 < h.size - 1 + 1 by omega)
    (le_refl 0) hI
  refine ⟨h1, ?_, s1, (maxHeap_iff h1).2 m1, ?_⟩
  · unfold heap_pop
    rw [if_neg (by omega)]
    simp only [hr, hw, bind, Option.bind]
    exact e1
  · rw [v1]
    show vals h.data h.size = h.data 0 ::ₘ vals (setCell h.data 0 (h.data (h.size - 1))) (h.size - 1)
    have hn : h.size = h.size - 1 + 1 := by omega
    rcases Nat.eq_zero_or_pos (h.size - 1) with h0 | h0
    · rw [hn, h0]
      rfl
    · rw [vals_upd_lt _ _ _ _ h0]
      conv_lhs => rw [hn]
      rw [vals_succ]

theorem heap_pop_empty {h : Heap} (hs : h.size = 0) : heap_pop h = some h := by
  unfold heap_pop
  rw [if_pos hs]

theorem copy_loop_spec :
    ∀ (arr : List Int) (i : Nat) (h : Heap), i + arr.length ≤ HEAP_CAPACITY →
      ∃ h1, copy_loop arr i h = some h1 ∧ h1.size = h.size ∧
        (∀ k, k < arr.length → h1.data (i + k) = arr.getD k 0) ∧
        (∀ j, j < i → h1.data j = h.data j)
  | [], _, h, _ => ⟨h, rfl, rfl, fun k hk => by simp at hk, fun _ _ => rfl⟩
  | a :: arr, i, h, hc => by
    simp only [List.length_cons] at hc
    obtain ⟨h1, e1, s1, d1, u1⟩ := copy_loop_spec arr (i + 1) { h with data := setCell h.data i a }
      (by omega)
    refine ⟨h1, ?_, s1, ?_, ?_⟩
    · simp only [copy_loop, write_lt (show i < HEAP_CAPACITY by omega), Option.bind]
      exact e1
    · intro k hk
      cases k with
      | zero =>
        rw [Nat.add_zero, u1 i (by omega)]
        simp [setCell]
      | succ k =>
        simp only [List.length_cons] at hk
        have := d1 k (by omega)
        rw [show i + (k + 1) = i + 1 + k by omega, this]
        simp
    · intro j hj
      rw [u1 j (by omega)]
      exact setCell_ne _ _ (by omega)

theorem vals_of_list (d : Nat → Int) (l : List Int)
    (h : ∀ k, k < l.length → d k = l.getD k 0) : vals d l.length = (l : Multiset Int) := by
  have e : (List.range l.length).map d = l := by
    apply List.ext_getElem
    · simp
    · intro k h1 h2
      simp only [List.getElem_map, List.getElem_range]
      rw [h k h2]
      simp [List.getD_eq_getElem?_getD, List.getElem?_eq_getElem h2]
  unfold vals
  show ((List.map d (List.range l.length) : List Int) : Multiset Int) = l
  rw [e]

theorem build_loop_spec :
    ∀ (cnt : Nat) (h : Heap), h.size ≤ HEAP_CAPACITY → HeapFrom h.data h.size cnt →
      ∃ h1, build_loop cnt h = some h1 ∧ h1.size = h.size ∧ HeapFrom h1.data h1.size 0 ∧
        vals h1.data h1.size = vals h.data h.size
  | 0, h, _, hF => ⟨h, rfl, rfl, hF, rfl⟩
  | i + 1, h, hc, hF => by
    have hI : DownInv h.data h.size i i := by
      constructor
      · intro j hj hjn hlo hq
        exact hF j hj hjn (by omega)
      · intro j _ _ _ h0 hlo
        omega
    obtain ⟨h1, e1, s1, m1, v1⟩ := heapify_spec i (h.size + 1) h i hc (by omega) (le_refl i) hI
    obtain ⟨h2, e2, s2, m2, v2⟩ := build_loop_spec i h1 (by omega) m1
    refine ⟨h2, ?_, by omega, m2, by rw [v2, v1]⟩
    simp only [build_loop, e1, Option.bind]
    exact e2

/-- What `build_heap` does on an array that fits into the heap. -/
theorem build_heap_spec (h : Heap) (arr : List Int) (hc : arr.length ≤ HEAP_CAPACITY) :
    ∃ h1, build_heap h arr = some h1 ∧ h1.size = arr.length ∧ h1.maxHeap ∧
      vals h1.data h1.size = (arr : Multiset Int) := by
  obtain ⟨h1, e1, _, d1, _⟩ := copy_loop_spec arr 0 h (by omega)
  have hF : HeapFrom h1.data arr.length (arr.length / 2) := by
    intro j hj hjn hlo
    omega
  obtain ⟨h2, e2, s2, m2, v2⟩ := build_loop_spec (arr.length / 2)
    { h1 with size := arr.length } hc hF
  refine ⟨h2, ?_, s2, (maxHeap_iff h2).2 m2, ?_⟩
  · unfold build_heap
    simp only [e1, Option.bind]
    exact e2
  · rw [v2]
    exact vals_of_list h1.data arr (fun k hk => by
      have := d1 k hk
      rw [Nat.zero_add] at this
      exact this)

/-! ## The operations in terms of the list of stored values -/

theorem perm_of_vals {h1 h2 : Heap} (e : vals h1.data h1.size = vals h2.data h2.size) :
    h1.values.Perm h2.values := by
  rw [← values_coe, ← values_coe] at e
  exact Multiset.coe_eq_coe.1 e

theorem perm_cons_of_vals {h1 h2 : Heap} {v : Int}
    (e : vals h1.data h1.size = v ::ₘ vals h2.data h2.size) :
    h1.values.Perm (v :: h2.values) := by
  rw [← values_coe, ← values_coe, Multiset.cons_coe] at e
  exact Multiset.coe_eq_coe.1 e

theorem mem_values {h : Heap} {x : Int} : x ∈ h.values ↔ ∃ i, i < h.size ∧ h.data i = x := by
  unfold Heap.values
  simp only [List.mem_map, List.mem_range]

theorem push_values {h : Heap} (hm : h.maxHeap) (hc : h.size < HEAP_CAPACITY) (v : Int) :
    ∃ h1, heap_push h v = some h1 ∧ h1.size = h.size + 1 ∧ h1.maxHeap ∧
      h1.values.Perm (v :: h.values) := by
  obtain ⟨h1, e1, s1, m1, v1⟩ := heap_push_spec hm hc v
  exact ⟨h1, e1, s1, m1, perm_cons_of_vals v1⟩

theorem top_values {h : Heap} (hm : h.maxHeap) (hs : 0 < h.size) :
    heap_top h = some (h.data 0) ∧ h.data 0 ∈ h.values ∧ ∀ x ∈ h.values, x ≤ h.data 0 := by
  refine ⟨heap_top_spec hs, mem_values.2 ⟨0, hs, rfl⟩, fun x hx => ?_⟩
  obtain ⟨i, hi, rfl⟩ := mem_values.1 hx
  exact root_max ((maxHeap_iff h).1 hm) i hi

theorem pop_values {h : Heap} (hm : h.maxHeap) (hs : 0 < h.size) (hc : h.size ≤ HEAP_CAPACITY) :
    ∃ h1, heap_pop h = some h1 ∧ h1.size = h.size - 1 ∧ h1.maxHeap ∧
      h.values.Perm (h.data 0 :: h1.values) := by
  obtain ⟨h1, e1, s1, m1, v1⟩ := heap_pop_spec hm hs hc
  exact ⟨h1, e1, s1, m1, perm_cons_of_vals v1⟩

theorem build_values (h : Heap) (arr : List Int) (hc : arr.length ≤ HEAP_CAPACITY) :
    ∃ h1, build_heap h arr = some h1 ∧ h1.size = arr.length ∧ h1.maxHeap ∧
      h1.values.Perm arr := by
  obtain ⟨h1, e1, s1, m1, v1⟩ := build_heap_spec h arr hc
  refine ⟨h1, e1, s1, m1, ?_⟩
  rw [← values_coe] at v1
  exact Multiset.coe_eq_coe.1 v1

/-! ## The program over `std::priority_queue` -/

theorem bitSum_eq (n : Nat) : ∀ cnt i, bitSum n cnt i = 2 ^ i * (n / 2 ^ i % 2 ^ cnt)
  | 0, i => by simp [bitSum, Nat.mod_one]
  | cnt + 1, i => by
    rw [bitSum, bitSum_eq n cnt (i + 1), Nat.testBit_to_div_mod, pow_succ 2 cnt,
      Nat.mul_comm (2 ^ cnt) 2, Nat.mod_mul, pow_succ 2 i, ← Nat.div_div_eq_div_mul]
    have h2 : n / 2 ^ i % 2 = 0 ∨ n / 2 ^ i % 2 = 1 := by omega
    rcases h2 with h2 | h2
    · simp only [h2, decide_eq_true_eq, zero_ne_one, if_false]
      ring
    · simp only [h2, decide_eq_true_eq, if_true]
      ring

theorem bitSum_all {n : Nat} (h : n < 2 ^ 63) : bitSum n 63 0 = n := by
  rw [bitSum_eq, pow_zero, Nat.div_one, Nat.one_mul, Nat.mod_eq_of_lt h]

theorem bitCount_snoc (n : Nat) :
    ∀ cnt i, bitCount n (cnt + 1) i = bitCount n cnt i + (if n.testBit (i + cnt) then 1 else 0)
  | 0, i => by simp [bitCount]
  | cnt + 1, i => by
    rw [bitCount, bitCount_snoc n cnt (i + 1), bitCount]
    rw [show i + 1 + cnt = i + (cnt + 1) by omega]
    omega

theorem bitCount_range (n : Nat) :
    ∀ cnt, bitCount n cnt 0 = ((List.range cnt).filter (fun i => n.testBit i)).length
  | 0 => rfl
  | cnt + 1 => by
    rw [bitCount_snoc, bitCount_range n cnt, List.range_succ, List.filter_append,
      List.length_append, Nat.zero_add]
    by_cases h : n.testBit cnt <;> simp [h]

theorem bitCount_popcount {n : Int} (h0 : 0 ≤ n) (h : n < 2 ^ 63) :
    bitCount (bitsOf n) 63 0 = popcount n := by
  have hb : bitsOf n < 2 ^ 63 := by
    unfold bitsOf
    omega
  unfold popcount
  have e := bitCount_snoc (bitsOf n) 63 0
  rw [Nat.zero_add, Nat.testBit_lt_two_pow hb] at e
  rw [← bitCount_range, e]
  simp

theorem bitCount_pos (n : Nat) : ∀ cnt i, 0 < bitSum n cnt i → 0 < bitCount n cnt i
  | 0, i, h => by simp [bitSum] at h
  | cnt + 1, i, h => by
    rw [bitSum] at h
    rw [bitCount]
    by_cases hb : n.testBit i
    · simp [hb]
    · simp only [hb, Bool.false_eq_true, if_false, Nat.zero_add] at h ⊢
      exact bitCount_pos n cnt (i + 1) h

theorem sorted_push {q : List Int} (h : q.Sorted (fun a b => a ≥ b)) (v : Int) :
    (pqPush q v).Sorted (fun a b => a ≥ b) :=
  h.orderedInsert v q

theorem perm_push (q : List Int) (v : Int) : (pqPush q v).Perm (v :: q) :=
  List.perm_orderedInsert _ v q

theorem Parts_push {q : List Int} (h : Parts q) (e : Nat) : Parts (pqPush q (2 ^ e)) := by
  refine ⟨sorted_push h.1 _, fun x hx => ?_⟩
  rcases List.mem_cons.1 ((perm_push q _).mem_iff.1 hx) with h1 | h1
  · exact ⟨e, h1⟩
  · exact h.2 x h1

theorem sum_push (q : List Int) (v : Int) : (pqPush q v).sum = v + q.sum := by
  rw [(perm_push q v).sum_eq, List.sum_cons]

theorem length_push (q : List Int) (v : Int) : (pqPush q v).length = q.length + 1 := by
  rw [(perm_push q v).length_eq, List.length_cons]

/-- The queue after the loop over the bits of `n`. -/
theorem pq_bits_loop_spec (n : Nat) :
    ∀ (cnt i : Nat) (q : List Int), Parts q →
      (∀ j, i ≤ j → j < i + cnt → n.testBit j = true → j < 31) →
      ∃ q1, pq_bits_loop n cnt i q = some q1 ∧ Parts q1 ∧
        q1.sum = q.sum + (bitSum n cnt i : Int) ∧ q1.length = q.length + bitCount n cnt i
  | 0, i, q, hq, _ => ⟨q, rfl, hq, by simp [bitSum], by simp [bitCount]⟩
  | cnt + 1, i, q, hq, hb => by
    by_cases ht : n.testBit i = true
    · have hi : i < 31 := hb i (le_refl _) (by omega) ht
      obtain ⟨q1, e1, p1, s1, l1⟩ := pq_bits_loop_spec n cnt (i + 1) (pqPush q (2 ^ i))
        (Parts_push hq i) (fun j h1 h2 h3 => hb j (by omega) (by omega) h3)
      refine ⟨q1, ?_, p1, ?_, ?_⟩
      · simp only [pq_bits_loop, ht, if_true, shiftOne, hi, bind, Option.bind]
        exact e1
      · rw [s1, sum_push, bitSum]
        simp only [ht, if_true]
        push_cast
        ring
      · rw [l1, length_push, bitCount]
        simp only [ht, if_true]
        omega
    · obtain ⟨q1, e1, p1, s1, l1⟩ := pq_bits_loop_spec n cnt (i + 1) q hq
        (fun j h1 h2 h3 => hb j (by omega) (by omega) h3)
      refine ⟨q1, ?_, p1, ?_, ?_⟩
      · simp only [pq_bits_loop, ht, Bool.false_eq_true, if_false]
        exact e1
      · rw [s1, bitSum]
        simp only [ht, Bool.false_eq_true, if_false, Nat.zero_add]
      · rw [l1, bitCount]
        simp only [ht, Bool.false_eq_true, if_false, Nat.zero_add]

/-! ## The splitting loop on a queue -/

theorem parts_one_le {q : List Int} (h : Parts q) : ∀ x ∈ q, 1 ≤ x := by
  intro x hx
  obtain ⟨e, rfl⟩ := h.2 x hx
  have : (0 : Int) < 2 ^ e := by positivity
  omega

theorem length_le_sum : ∀ (q : List Int), (∀ x ∈ q, 1 ≤ x) → (q.length : Int) ≤ q.sum
  | [], _ => by simp
  | a :: q, h => by
    have h1 := h a (List.mem_cons_self _ _)
    have h2 := length_le_sum q (fun x hx => h x (List.mem_cons_of_mem _ hx))
    simp only [List.length_cons, List.sum_cons]
    push_cast
    omega

theorem sum_eq_length : ∀ (q : List Int), (∀ x ∈ q, x = 1) → q.sum = (q.length : Int)
  | [], _ => by simp
  | a :: q, h => by
    have h1 := h a (List.mem_cons_self _ _)
    have h2 := sum_eq_length q (fun x hx => h x (List.mem_cons_of_mem _ hx))
    simp only [List.length_cons, List.sum_cons]
    push_cast
    omega

theorem half_pow {t : Int} (h : ∃ e : Nat, t = 2 ^ e) (h1 : t ≠ 1) :
    (∃ e : Nat, t.tdiv 2 = 2 ^ e) ∧ t.tdiv 2 + t.tdiv 2 = t := by
  obtain ⟨e, rfl⟩ := h
  cases e with
  | zero => exact absurd (pow_zero 2) h1
  | succ e =>
    have e1 : ((2 : Int) ^ (e + 1)).tdiv 2 = 2 ^ e := by
      rw [pow_succ]
      exact Int.mul_tdiv_cancel _ (by decide)
    rw [e1]
    exact ⟨⟨e, rfl⟩, by rw [pow_succ]; ring⟩

theorem Parts_tail {t : Int} {q : List Int} (h : Parts (t :: q)) : Parts q :=
  ⟨(List.sorted_cons.1 h.1).2, fun x hx => h.2 x (List.mem_cons_of_mem _ hx)⟩

theorem pq_split_step {k : Int} {fuel : Nat} {t : Int} {q : List Int}
    (hlt : ((t :: q).length : Int) < k) :
    pq_split_loop k (fuel + 1) (t :: q) =
      if t = 1 then some none
      else pq_split_loop k fuel (pqPush (pqPush q (t.tdiv 2)) (t.tdiv 2)) := by
  simp only [pq_split_loop, hlt, if_true, pqTop, List.head?_cons, pqPop, bind, Option.bind, pure]

theorem pq_split_done {k : Int} {fuel : Nat} {q : List Int} (hge : ¬ (q.length : Int) < k) :
    pq_split_loop k (fuel + 1) q = some (some q) := by
  simp only [pq_split_loop, hge, if_false]
  rfl

/-- The result of the splitting loop on a queue of powers of two that sum to `n`. -/
theorem pq_split_loop_spec (n k : Int) (hn : 1 ≤ n) :
    ∀ (fuel : Nat) (q : List Int), Parts q → q.sum = n → (q.length : Int) ≤ k →
      k - q.length < fuel →
      (k ≤ n → ∃ q2, pq_split_loop k fuel q = some (some q2) ∧ Parts q2 ∧ q2.sum = n ∧
        (q2.length : Int) = k) ∧
      (n < k → pq_split_loop k fuel q = some none)
  | 0, q, _, _, hle, hf => by
    simp only [Nat.cast_zero] at hf
    omega
  | fuel + 1, q, hp, hs, hle, hf => by
    have hlen := length_le_sum q (parts_one_le hp)
    by_cases hlt : (q.length : Int) < k
    · cases q with
      | nil =>
        simp only [List.sum_nil] at hs
        omega
      | cons t q =>
        rw [pq_split_step hlt]
        by_cases ht : t = 1
        · rw [if_pos ht]
          have hall : ∀ x ∈ t :: q, x = 1 := by
            intro x hx
            have h1 := parts_one_le hp x hx
            rcases List.mem_cons.1 hx with e | e
            · rw [e, ht]
            · have := (List.sorted_cons.1 hp.1).1 x e
              omega
          have := sum_eq_length _ hall
          exact ⟨fun hkn => by omega, fun _ => rfl⟩
        · rw [if_neg ht]
          obtain ⟨⟨e, he⟩, hsum⟩ := half_pow (hp.2 t (List.mem_cons_self _ _)) ht
          have hp1 : Parts (pqPush (pqPush q (t.tdiv 2)) (t.tdiv 2)) := by
            rw [he]
            exact Parts_push (Parts_push (Parts_tail hp) e) e
          have hs1 : (pqPush (pqPush q (t.tdiv 2)) (t.tdiv 2)).sum = n := by
            rw [sum_push, sum_push, ← hs, List.sum_cons]
            omega
          have hl1 : (pqPush (pqPush q (t.tdiv 2)) (t.tdiv 2)).length = (t :: q).length + 1 := by
            rw [length_push, length_push, List.length_cons]
          exact pq_split_loop_spec n k hn fuel _ hp1 hs1 (by rw [hl1]; push_cast; omega)
            (by rw [hl1]; push_cast; push_cast at hf; omega)
    · rw [pq_split_done hlt]
      exact ⟨fun _ => ⟨q, rfl, hp, hs, by omega⟩, fun hnk => by omega⟩

theorem pq_drain_eq : ∀ (q : List Int), pq_drain q = q
  | [] => rfl
  | t :: q => by rw [pq_drain, pq_drain_eq q]

/-! ## The heap program follows the program over `std::priority_queue` -/

theorem Sim_size {h : Heap} {q : List Int} (hs : Sim h q) : h.size = q.length := by
  have := hs.2.2.1.length_eq
  simpa [Heap.values] using this

theorem sim_init (pq : Heap) : Sim (heap_init pq) [] :=
  ⟨fun i _ hi => absurd hi (Nat.not_lt_zero i), Nat.zero_le _, List.Perm.refl _,
    List.sorted_nil⟩

theorem sim_top {h : Heap} {t : Int} {q : List Int} (hs : Sim h (t :: q)) :
    heap_top h = some t ∧ h.data 0 = t := by
  have hsz := Sim_size hs
  simp only [List.length_cons] at hsz
  obtain ⟨h1, h2, h3⟩ := top_values hs.1 (by omega)
  have ht : t ∈ h.values := hs.2.2.1.mem_iff.2 (List.mem_cons_self _ _)
  have hle := h3 t ht
  have hd : h.data 0 ∈ t :: q := hs.2.2.1.mem_iff.1 h2
  have hge : h.data 0 ≤ t := by
    rcases List.mem_cons.1 hd with e | e
    · rw [e]
    · exact (List.sorted_cons.1 hs.2.2.2).1 _ e
  have e : h.data 0 = t := by omega
  exact ⟨by rw [h1, e], e⟩

theorem sim_pop {h : Heap} {t : Int} {q : List Int} (hs : Sim h (t :: q)) :
    ∃ h1, heap_pop h = some h1 ∧ Sim h1 q := by
  have hsz := Sim_size hs
  simp only [List.length_cons] at hsz
  obtain ⟨h1, e1, s1, m1, p1⟩ := pop_values hs.1 (by omega) hs.2.1
  rw [(sim_top hs).2] at p1
  refine ⟨h1, e1, m1, by have := hs.2.1; omega, ?_, (List.sorted_cons.1 hs.2.2.2).2⟩
  exact List.Perm.cons_inv (p1.symm.trans hs.2.2.1)

theorem sim_push {h : Heap} {q : List Int} (hs : Sim h q) (hc : h.size < HEAP_CAPACITY)
    (v : Int) : ∃ h1, heap_push h v = some h1 ∧ Sim h1 (pqPush q v) := by
  obtain ⟨h1, e1, s1, m1, p1⟩ := push_values hs.1 hc v
  refine ⟨h1, e1, m1, by omega, ?_, sorted_push hs.2.2.2 v⟩
  exact p1.trans ((List.Perm.cons v hs.2.2.1).trans (perm_push q v).symm)

theorem sim_bits (n : Nat) :
    ∀ (cnt i : Nat) (h : Heap) (q q1 : List Int), Sim h q → h.size + cnt ≤ HEAP_CAPACITY →
      pq_bits_loop n cnt i q = some q1 → ∃ h1, bits_loop n cnt i h = some h1 ∧ Sim h1 q1
  | 0, i, h, q, q1, hs, _, e => by
    simp only [pq_bits_loop, Option.some.injEq] at e
    subst e
    exact ⟨h, rfl, hs⟩
  | cnt + 1, i, h, q, q1, hs, hc, e => by
    by_cases ht : n.testBit i = true
    · simp only [pq_bits_loop, ht, if_true, bind, Option.bind] at e
      cases hv : shiftOne i with
      | none =>
        rw [hv] at e
        cases e
      | some v =>
        rw [hv] at e
        simp only at e
        obtain ⟨h1, e1, hs1⟩ := sim_push hs (by omega) v
        have hsz : h1.size = h.size + 1 := by
          rw [Sim_size hs1, length_push, Sim_size hs]
        obtain ⟨h2, e2, hs2⟩ := sim_bits n cnt (i + 1) h1 _ q1 hs1 (by omega) e
        refine ⟨h2, ?_, hs2⟩
        simp only [bits_loop, ht, if_true, hv, e1, bind, Option.bind]
        exact e2
    · simp only [pq_bits_loop, ht, Bool.false_eq_true, if_false] at e
      obtain ⟨h2, e2, hs2⟩ := sim_bits n cnt (i + 1) h q q1 hs (by omega) e
      refine ⟨h2, ?_, hs2⟩
      simp only [bits_loop, ht, Bool.false_eq_true, if_false]
      exact e2

theorem push_ne_nil (q : List Int) (v : Int) : pqPush q v ≠ [] := by
  intro h
  have := length_push q v
  rw [h] at this
  simp at this

theorem sim_split (k : Int) (hk : k ≤ 200000) :
    ∀ (fuel : Nat) (h : Heap) (q : List Int), Sim h q → q ≠ [] →
      (pq_split_loop k fuel q = some none → split_loop k fuel h = some none) ∧
      (∀ q2, pq_split_loop k fuel q = some (some q2) →
        ∃ h2, split_loop k fuel h = some (some h2) ∧ Sim h2 q2)
  | 0, h, q, _, _ => by
    exact ⟨fun e => (nomatch e), fun q2 e => (nomatch e)⟩
  | fuel + 1, h, q, hs, hne => by
    have hsz := Sim_size hs
    by_cases hlt : (q.length : Int) < k
    · cases q with
      | nil => exact absurd rfl hne
      | cons t q =>
        rw [pq_split_step hlt]
        obtain ⟨htop, _⟩ := sim_top hs
        obtain ⟨h1, e1, hs1⟩ := sim_pop hs
        have hsz1 := Sim_size hs1
        simp only [List.length_cons] at hsz hlt
        have hstep : split_loop k (fuel + 1) h =
            if t = 1 then some none
            else ((heap_push h1 (t.tdiv 2)).bind (fun h2 => heap_push h2 (t.tdiv 2))).bind
              (fun h3 => split_loop k fuel h3) := by
          have hlt1 : ((heap_size h : Nat) : Int) < k := by
            unfold heap_size
            rw [hsz]
            exact hlt
          by_cases ht : t = 1
          · simp only [split_loop, hlt1, if_true, htop, e1, ht, bind, Option.bind, pure]
          · simp only [split_loop, hlt1, if_true, htop, e1, ht, if_false, bind, Option.bind, pure]
            cases heap_push h1 (t.tdiv 2) with
            | none => rfl
            | some h2 => rfl
        rw [hstep]
        by_cases ht : t = 1
        · rw [if_pos ht, if_pos ht]
          exact ⟨fun _ => rfl, fun q2 e => (nomatch e)⟩
        · rw [if_neg ht, if_neg ht]
          have hcap : HEAP_CAPACITY = 200001 := rfl
          obtain ⟨h2, e2, hs2⟩ := sim_push hs1 (by push_cast at hlt; omega) (t.tdiv 2)
          have hsz2 := Sim_size hs2
          rw [length_push] at hsz2
          obtain ⟨h3, e3, hs3⟩ := sim_push hs2 (by push_cast at hlt; omega) (t.tdiv 2)
          simp only [e2, e3, Option.bind]
          exact sim_split k hk fuel h3 _ hs3 (push_ne_nil _ _)
    · rw [pq_split_done hlt]
      have hge : ¬ ((heap_size h : Nat) : Int) < k := by
        unfold heap_size
        rw [hsz]
        exact hlt
      have hdone : split_loop k (fuel + 1) h = some (some h) := by
        simp only [split_loop, hge, if_false]
        rfl
      rw [hdone]
      refine ⟨fun e => (nomatch e), fun q2 e => ?_⟩
      simp only [Option.some.injEq] at e
      subst e
      exact ⟨h, rfl, hs⟩

theorem drain_step (fuel : Nat) {h : Heap} (hpos : heap_size h > 0) :
    drain (fuel + 1) h =
      (heap_top h).bind (fun t => (heap_pop h).bind (fun h1 =>
        (drain fuel h1).bind (fun rest => some (t :: rest)))) := by
  rw [drain, if_pos hpos]
  rfl

theorem sim_drain :
    ∀ (q : List Int) (h : Heap), Sim h q → drain (heap_size h + 1) h = some q
  | [], h, hs => by
    have hsz := Sim_size hs
    simp only [List.length_nil] at hsz
    simp only [drain, heap_size, hsz, gt_iff_lt, lt_self_iff_false, if_false]
    rfl
  | t :: q, h, hs => by
    have hsz := Sim_size hs
    simp only [List.length_cons] at hsz
    obtain ⟨htop, _⟩ := sim_top hs
    obtain ⟨h1, e1, hs1⟩ := sim_pop hs
    have hsz1 := Sim_size hs1
    have ih := sim_drain q h1 hs1
    have hf : heap_size h = heap_size h1 + 1 := by
      unfold heap_size
      omega
    rw [hf]
    have hpos : heap_size h > 0 := by
      unfold heap_size
      omega
    rw [drain_step _ hpos, htop, Option.bind, e1, Option.bind, ih]
    rfl

/-! ## The two programs on an input of the problem -/

theorem mainPQ_eq {n k : Int} {q1 : List Int} (e1 : pq_bits_loop (bitsOf n) 63 0 [] = some q1) :
    mainPQ n k =
      if (q1.length : Int) > k then some Output.no
      else (pq_split_loop k (k.toNat + 1) q1).bind (fun r =>
        match r with
        | none => some Output.no
        | some q2 => some (Output.yes (pq_drain q2))) := by
  unfold mainPQ
  rw [e1]
  rfl

theorem mainHeap_eq {pq : Heap} {n k : Int} {h1 : Heap}
    (e1 : bits_loop (bitsOf n) 63 0 (heap_init pq) = some h1) :
    mainHeap pq n k =
      if (heap_size h1 : Int) > k then some Output.no
      else (split_loop k (k.toNat + 1) h1).bind (fun r =>
        match r with
        | none => some Output.no
        | some h2 => (drain (heap_size h2 + 1) h2).bind (fun parts =>
            some (Output.yes parts))) := by
  unfold mainHeap
  dsimp only
  rw [e1]
  rfl

theorem testBit_small {N j : Nat} (hN : N < 2 ^ 31) (ht : N.testBit j = true) : j < 31 := by
  by_contra hj
  have hle : 2 ^ 31 ≤ 2 ^ j := Nat.pow_le_pow_right (by decide) (by omega)
  have := Nat.testBit_lt_two_pow (lt_of_lt_of_le hN hle)
  rw [this] at ht
  cases ht

/-- On an input `1 <= n < 2^31`, `1 <= k <= 200000` both programs return the same
output, which is `yes` with `k` powers of two in non-increasing order that sum to
`n` when `popcount n <= k <= n`, and `no` otherwise. -/
theorem programs_spec (pq : Heap) (n k : Int) (hn1 : 1 ≤ n) (hn2 : n < 2 ^ 31) (hk1 : 1 ≤ k)
    (hk2 : k ≤ 200000) :
    ∃ out, mainHeap pq n k = some out ∧ mainPQ n k = some out ∧
      (((popcount n : Int) ≤ k ∧ k ≤ n) →
        ∃ parts, out = Output.yes parts ∧ (parts.length : Int) = k ∧
          (∀ x ∈ parts, ∃ e : Nat, x = 2 ^ e) ∧ parts.sum = n ∧
          parts.Sorted (fun a b => a ≥ b)) ∧
      (¬ ((popcount n : Int) ≤ k ∧ k ≤ n) → out = Output.no) := by
  have hN : ((bitsOf n : Nat) : Int) = n := by
    unfold bitsOf
    omega
  have hN31 : bitsOf n < 2 ^ 31 := by
    have : ((bitsOf n : Nat) : Int) < 2 ^ 31 := by rw [hN]; exact hn2
    exact_mod_cast this
  have hN63 : bitsOf n < 2 ^ 63 := lt_of_lt_of_le hN31 (Nat.pow_le_pow_right (by decide) (by decide))
  obtain ⟨q1, e1, p1, s1, l1⟩ := pq_bits_loop_spec (bitsOf n) 63 0 []
    ⟨List.sorted_nil, fun x hx => absurd hx (List.not_mem_nil x)⟩
    (fun j _ _ ht => testBit_small hN31 ht)
  rw [bitSum_all hN63, List.sum_nil, Int.zero_add, hN] at s1
  rw [bitCount_popcount (by omega) (lt_of_lt_of_le hn2 (by norm_num)), List.length_nil,
    Nat.zero_add] at l1
  obtain ⟨h1, eb, hs1⟩ := sim_bits (bitsOf n) 63 0 (heap_init pq) [] q1 (sim_init pq)
    (show 0 + 63 ≤ HEAP_CAPACITY by decide) e1
  have hsz1 : heap_size h1 = q1.length := Sim_size hs1
  rw [mainHeap_eq eb, mainPQ_eq e1, hsz1, l1]
  by_cases hgt : (popcount n : Int) > k
  · rw [if_pos hgt, if_pos hgt]
    exact ⟨Output.no, rfl, rfl, fun hc => by omega, fun _ => rfl⟩
  · rw [if_neg hgt, if_neg hgt]
    have hne : q1 ≠ [] := by
      intro h0
      rw [h0, List.sum_nil] at s1
      omega
    obtain ⟨g1, g2⟩ := pq_split_loop_spec n k hn1 (k.toNat + 1) q1 p1 s1 (by rw [l1]; omega)
      (by push_cast; omega)
    obtain ⟨f1, f2⟩ := sim_split k hk2 (k.toNat + 1) h1 q1 hs1 hne
    by_cases hkn : k ≤ n
    · obtain ⟨q2, e2, p2, s2, l2⟩ := g1 hkn
      obtain ⟨h2, e3, hs2⟩ := f2 q2 e2
      rw [e2, e3]
      simp only [Option.bind, sim_drain q2 h2 hs2, pq_drain_eq]
      exact ⟨Output.yes q2, rfl, rfl, fun _ => ⟨q2, rfl, l2, p2.2, s2, p2.1⟩, fun hc => by omega⟩
    · have e2 := g2 (by omega)
      rw [e2, f1 e2]
      exact ⟨Output.no, rfl, rfl, fun hc => by omega, fun _ => rfl⟩

/-- Counterexample to C37: the heap whose 200001 cells are all in use and hold 0
has the max-heap property, and `heap_push` on it writes `data[200001]`, outside the
array: the call is not defined and no heap results. -/
theorem heap_push_full_undefined :
    fullHeap.maxHeap ∧ fullHeap.size = HEAP_CAPACITY ∧ heap_push fullHeap 0 = none :=
  ⟨fun _ _ _ => le_refl _, rfl, rfl⟩

/-- C37 as amended: on a heap `h` of at most 200001 values with the max-heap
property, `heap_push` returns a heap with the property that holds the value
pushed and the values of `h`, provided `h` holds fewer than 200001 values;
`heap_pop` returns a heap with the property; when `h` is not empty, `heap_top`
returns a stored value that is greater than or equal to every stored value and
`heap_pop` removes one occurrence of it; when `h` is empty, `heap_top` returns -1
and `heap_pop` returns `h` unchanged. `build_heap` on an array of at most 200001
values returns a heap with the property that holds the values of the array. -/
theorem heap_property_preserved (h : Heap) (hm : h.maxHeap) (hc : h.size ≤ HEAP_CAPACITY) :
    (∀ v, h.size < HEAP_CAPACITY →
      ∃ h1, heap_push h v = some h1 ∧ h1.maxHeap ∧ h1.size = h.size + 1 ∧
        h1.values.Perm (v :: h.values)) ∧
    (∃ h1, heap_pop h = some h1 ∧ h1.maxHeap) ∧
    (0 < h.size →
      ∃ t h1, heap_top h = some t ∧ t ∈ h.values ∧ (∀ x ∈ h.values, x ≤ t) ∧
        heap_pop h = some h1 ∧ h1.size = h.size - 1 ∧ h.values.Perm (t :: h1.values)) ∧
    (h.size = 0 → heap_top h = some (-1) ∧ heap_pop h = some h) ∧
    (∀ (g : Heap) (arr : List Int), arr.length ≤ HEAP_CAPACITY →
      ∃ h1, build_heap g arr = some h1 ∧ h1.maxHeap ∧ h1.size = arr.length ∧
        h1.values.Perm arr) := by
  refine ⟨fun v hlt => ?_, ?_, fun hs => ?_, fun hs => ?_, fun g arr ha => ?_⟩
  · obtain ⟨h1, e1, s1, m1, p1⟩ := push_values hm hlt v
    exact ⟨h1, e1, m1, s1, p1⟩
  · rcases Nat.eq_zero_or_pos h.size with hs | hs
    · exact ⟨h, heap_pop_empty hs, hm⟩
    · obtain ⟨h1, e1, _, m1, _⟩ := pop_values hm hs hc
      exact ⟨h1, e1, m1⟩
  · obtain ⟨t1, t2, t3⟩ := top_values hm hs
    obtain ⟨h1, e1, s1, _, p1⟩ := pop_values hm hs hc
    exact ⟨h.data 0, h1, t1, t2, t3, e1, s1, p1⟩
  · refine ⟨?_, heap_pop_empty hs⟩
    unfold heap_top
    rw [if_neg (by omega)]
  · obtain ⟨h1, e1, s1, m1, p1⟩ := build_values g arr ha
    exact ⟨h1, e1, m1, s1, p1⟩

/-- Witness of the amended C37: the heap that holds 5, 3, 4. -/
theorem heap_property_preserved_witness :
    (Heap.ofList [5, 3, 4]).maxHeap ∧ (Heap.ofList [5, 3, 4]).size ≤ HEAP_CAPACITY ∧
      (0 < (Heap.ofList [5, 3, 4]).size →
        ∃ t h1, heap_top (Heap.ofList [5, 3, 4]) = some t ∧ t ∈ (Heap.ofList [5, 3, 4]).values ∧
          (∀ x ∈ (Heap.ofList [5, 3, 4]).values, x ≤ t) ∧
          heap_pop (Heap.ofList [5, 3, 4]) = some h1 ∧
          h1.size = (Heap.ofList [5, 3, 4]).size - 1 ∧
          (Heap.ofList [5, 3, 4]).values.Perm (t :: h1.values)) ∧
      heap_top (Heap.ofList [5, 3, 4]) = some 5 ∧
      (heap_pop (Heap.ofList [5, 3, 4])).map Heap.values = some [4, 3] ∧
      (heap_push (Heap.ofList [5, 3, 4]) 7).map Heap.values = some [7, 5, 4, 3] ∧
      (build_heap (Heap.ofList []) [3, 1, 4, 1, 5, 9, 2, 6]).map Heap.values =
        some [9, 6, 4, 1, 5, 3, 2, 1] := by
  have hm : (Heap.ofList [5, 3, 4]).maxHeap := by
    intro i h1 h2
    have h3 : i < 3 := h2
    interval_cases i <;> decide
  exact ⟨hm, by decide,
    (heap_property_preserved (Heap.ofList [5, 3, 4]) hm (by decide)).2.2.1,
    by decide, by decide, by decide, by decide⟩

/-- C38: for every `1 <= n < 2^31` and `1 <= k <= 200000`, whatever the cells of
the heap hold at the start, the heap program and the `std::priority_queue` program
return the same output; it is `yes` exactly when `popcount n <= k <= n`, and then
lists exactly `k` numbers, each a power of two, whose sum is `n`, in non-increasing
order; otherwise it is `no`. -/
theorem powers_of_two_programs (pq : Heap) (n k : Int) (hn1 : 1 ≤ n) (hn2 : n < 2 ^ 31)
    (hk1 : 1 ≤ k) (hk2 : k ≤ 200000) :
    ∃ out, mainHeap pq n k = some out ∧ mainPQ n k = some out ∧
      (((popcount n : Int) ≤ k ∧ k ≤ n) →
        ∃ parts, out = Output.yes parts ∧ (parts.length : Int) = k ∧
          (∀ x ∈ parts, ∃ e : Nat, x = 2 ^ e) ∧ parts.sum = n ∧
          parts.Sorted (fun a b => a ≥ b)) ∧
      (¬ ((popcount n : Int) ≤ k ∧ k ≤ n) → out = Output.no) :=
  programs_spec pq n k hn1 hn2 hk1 hk2

/-- Witness of C38: `n = 9`, `k = 4`; both programs print `YES` and `4 2 2 1`. -/
theorem powers_of_two_programs_witness :
    ((1 : Int) ≤ 9 ∧ (9 : Int) < 2 ^ 31 ∧ (1 : Int) ≤ 4 ∧ (4 : Int) ≤ 200000) ∧
      popcount 9 = 2 ∧
      mainHeap (Heap.ofList []) 9 4 = some (Output.yes [4, 2, 2, 1]) ∧
      mainPQ 9 4 = some (Output.yes [4, 2, 2, 1]) ∧
      ∃ out, mainHeap (Heap.ofList []) 9 4 = some out ∧ mainPQ 9 4 = some out ∧
        (((popcount 9 : Int) ≤ 4 ∧ (4 : Int) ≤ 9) →
          ∃ parts, out = Output.yes parts ∧ (parts.length : Int) = 4 ∧
            (∀ x ∈ parts, ∃ e : Nat, x = 2 ^ e) ∧ parts.sum = 9 ∧
            parts.Sorted (fun a b => a ≥ b)) ∧
        (¬ ((popcount 9 : Int) ≤ 4 ∧ (4 : Int) ≤ 9) → out = Output.no) :=
  ⟨⟨by decide, by decide, by decide, by decide⟩, by decide, by decide, by decide,
    powers_of_two_programs (Heap.ofList []) 9 4 (by decide) (by decide) (by decide)
      (by decide)⟩

end HeapModel
